import Mathlib

/-!
# Record manager of rucbase: heap file and heap scan

Shallow embedding of `src/record/rm_file_handle.cpp` and `src/record/rm_scan.cpp`.

* Machine `int`s (page numbers, slot numbers, counters) are `Int`; the sentinels are negative.
  No operation below gets near the 32-bit range on a file that fits on a disk, so no wrap-around
  is modelled.
* A page is seen through its `RmPageHandle`: the page header, one occupancy bit per slot index
  and one byte string per slot index. The byte layout of the frame is not modelled.
* The heap file reaches its pages only through `fetch_page`, `new_page` and `unpin_page` of the
  buffer pool. `PoolView` is the pool (with the disk under it) as those three calls show it to one
  heap file: what a fetch of a page number yields, how often that page is pinned, whether it is
  marked dirty, and the page-number counter of the descriptor. Frames, the page table, the
  replacer, eviction and write-back are below this view; it assumes what the pool is there for,
  that a fetch returns the bytes last written to the page.
* C++ exceptions keep the mutations made before the `throw`, so every operation returns the
  outcome together with the state.
-/

namespace Rucbase

/-- A byte of a record. -/
abbrev Byte := Nat

/-- Modelled from the spec: the constant `RM_NO_PAGE` (declared in a header that is not part of
the sources), the sentinel page number `-1` that ends the free list and marks an exhausted scan. -/
@[reducible] def RM_NO_PAGE : Int := -1

/-- Modelled from the spec: the constant `RM_FILE_HDR_PAGE`, page 0 holds the file header. -/
@[reducible] def RM_FILE_HDR_PAGE : Int := 0

/-- Modelled from the spec: the constant `RM_FIRST_RECORD_PAGE`, data pages start at page 1. -/
@[reducible] def RM_FIRST_RECORD_PAGE : Int := 1

/-- Modelled from the spec: the constant `INVALID_PAGE_ID` of the storage layer, `-1`. -/
@[reducible] def INVALID_PAGE_ID : Int := -1

/-- Modelled from the spec: the exceptions the sources throw (errors.h is not part of the
sources), `std::out_of_range` as thrown by `std::map::at`, and two outcomes that are no
exceptions: `NullDereference` for a read through a null pointer and `OutOfBounds` for a read past
the end of a vector, where the behaviour of the program is undefined. -/
inductive Error where
  | PageNotExistError
  | InternalError
  | ColumnNotFoundError
  | TableNotFoundError
  | TableExistsError
  | IndexExistsError
  | IndexNotFoundError
  | DatabaseNotFoundError
  | DatabaseExistsError
  | FileNotFoundError
  | FileExistsError
  | FileNotClosedError
  | FileNotOpenError
  | UnixError
  | OutOfRange
  | NullDereference
  | OutOfBounds
deriving DecidableEq, Repr

/-- Modelled from the spec: the record identifier `Rid`, `{page_no, slot_no}`. -/
structure Rid where
  page_no : Int
  slot_no : Int
deriving DecidableEq, Repr

/-- Modelled from the spec: the heap file header `RmFileHdr`,
`{record_size, records_per_page, bitmap_size_bytes, num_pages, first_free_page_no}`, with the
field names the sources use. -/
structure RmFileHdr where
  record_size : Nat
  num_pages : Int
  num_records_per_page : Int
  first_free_page_no : Int
  bitmap_size : Nat
deriving DecidableEq, Repr

/-- Modelled from the spec: the heap page header `RmPageHdr`, `{next_free_page_no, num_records}`. -/
structure RmPageHdr where
  next_free_page_no : Int
  num_records : Int
deriving DecidableEq, Repr

/-- Modelled from the spec: a heap page as an `RmPageHandle` exposes it (`page_hdr`, `bitmap`,
`get_slot(i)`): the header, one occupancy bit per slot index and the bytes of each slot. Indices
outside `0 .. records_per_page - 1` stand for the memory an unchecked access would touch; the
claims only speak about slots of the page. -/
structure RmPage where
  page_hdr : RmPageHdr
  bitmap : Int → Bool
  slots : Int → List Byte

/-- Modelled from the spec: the handle returned by `fetch_page_handle` / `create_page_handle`,
with the page number of the pinned frame (`page->get_page_id().page_no`) and the page it holds.
The C++ handle points into the frame; here an operation works on the value and stores it back
before it unpins. -/
structure RmPageHandle where
  page_no : Int
  page : RmPage

/-- The buffer pool (with the disk manager under it) as one heap file sees it through
`fetch_page`, `new_page` and `unpin_page`. `pages p` is what a fetch of page `p` of the file
yields, `none` standing for `nullptr`; `pin_count p` and `is_dirty p` are the pin count and the
dirty flag of the frame holding page `p`, 0 and `false` for a page in no frame; `has_victim` says
whether `find_victim_page` can supply a frame for a new page; `fd2pageno` is
`DiskManager::fd2pageno_[fd]`. -/
structure PoolView where
  pages : Int → Option RmPage
  pin_count : Int → Int
  is_dirty : Int → Bool
  has_victim : Bool
  fd2pageno : Int

/-- The state of an `RmFileHandle`: the in-memory header `file_hdr_`, the header last written to
page 0 of the file by `disk_manager_->write_page`, and the buffer pool it works on. -/
structure RmFileHandle where
  file_hdr : RmFileHdr
  disk_hdr : RmFileHdr
  pool : PoolView

/-! ## Bitmap -/

/-- Modelled from the spec: `Bitmap::init` (bitmap.h is not part of the sources), which clears
every bit ("its bitmap (all zeros)"). -/
def Bitmap.init : Int → Bool := fun _ => false

/-- Modelled from the spec: `Bitmap::set`, which sets the bit at `pos`. -/
def Bitmap.set (bm : Int → Bool) (pos : Int) : Int → Bool :=
  fun i => if i = pos then true else bm i

/-- Modelled from the spec: `Bitmap::reset`, which clears the bit at `pos`. -/
def Bitmap.reset (bm : Int → Bool) (pos : Int) : Int → Bool :=
  fun i => if i = pos then false else bm i

/-- The loop of `Bitmap.next_bit`: examine `i, i+1, ...` for `fuel` positions. -/
def Bitmap.next_bit_loop (bit : Bool) (bm : Int → Bool) (max_n : Int) : Int → Nat → Int
  | _, 0 => max_n
  | i, fuel + 1 => if bm i = bit then i else Bitmap.next_bit_loop bit bm max_n (i + 1) fuel

/-- Modelled from the spec: `Bitmap::next_bit` ("find the next set bit strictly after `slot_no`"),
the least index `i` with `curr < i < max_n` whose bit equals `bit`, and `max_n` when there is none
(the callers test `< num_records_per_page` for "found"). -/
def Bitmap.next_bit (bit : Bool) (bm : Int → Bool) (max_n curr : Int) : Int :=
  Bitmap.next_bit_loop bit bm max_n (curr + 1) (max_n - (curr + 1)).toNat

/-- Modelled from the spec: `Bitmap::first_bit` ("find the first zero bit in the bitmap"), the
next bit after position `-1`. -/
def Bitmap.first_bit (bit : Bool) (bm : Int → Bool) (max_n : Int) : Int :=
  Bitmap.next_bit bit bm max_n (-1)

/-- Number of set bits among the slots `0 .. n-1` of a bitmap. -/
def Bitmap.popcount (bm : Int → Bool) (n : Int) : Nat :=
  ((List.range n.toNat).filter (fun (i : Nat) => bm (i : Int))).length

/-! ## Buffer pool, as used by the heap file -/

/-- Point update of a function on page numbers. -/
def setAt {α : Type} (f : Int → α) (p : Int) (v : α) : Int → α :=
  fun q => if q = p then v else f q

/-- What a caller sees of `BufferPoolManager::fetch_page`: `nullptr` and no change when the pool
cannot produce the page; otherwise the page, pinned once more (`pin_count_++` on a hit,
`pin_count_ = 1` for a page that was in no frame). Which pages the pool can produce is given by
`pages` and does not change with the pins: a fetch that fails because every frame has become
pinned is not described by this view, but by `BufferPoolManager.fetch_page` on the frames
themselves (`RmFileHandleOnPool`, `RmScanOnPool`). -/
def PoolView.fetch_page (pool : PoolView) (page_no : Int) :
    Option RmPage × PoolView :=
  match pool.pages page_no with
  | none => (none, pool)
  | some pg =>
    (some pg, { pool with pin_count := setAt pool.pin_count page_no (pool.pin_count page_no + 1) })

/-- What a caller sees of `BufferPoolManager::unpin_page`: `false` and no change when the page
is in no frame or its pin count is not positive; otherwise the pin count drops by one and the
dirty flag is or-ed in. -/
def PoolView.unpin_page (pool : PoolView) (page_no : Int) (is_dirty : Bool) :
    Bool × PoolView :=
  if pool.pin_count page_no ≤ 0 then (false, pool)
  else
    (true, { pool with
      pin_count := setAt pool.pin_count page_no (pool.pin_count page_no - 1)
      is_dirty := if is_dirty then setAt pool.is_dirty page_no true else pool.is_dirty })

/-- Modelled from the spec: the page a frame holds after `Page::reset_memory` ("reset the frame's
memory"), every byte zero. -/
def RmPage.zeroed (record_size : Nat) : RmPage :=
  { page_hdr := { next_free_page_no := 0, num_records := 0 }
    bitmap := fun _ => false
    slots := fun _ => List.replicate record_size 0 }

/-- What a caller sees of `BufferPoolManager::new_page`: `nullptr` without a victim frame;
otherwise the page number is taken from `DiskManager::allocate_page` (`fd2pageno_[fd]++`),
`nullptr` again when that number is `INVALID_PAGE_ID`; otherwise a zeroed, clean page with that
number, pinned once. -/
def PoolView.new_page (pool : PoolView) (record_size : Nat) :
    Option (Int × RmPage) × PoolView :=
  if pool.has_victim = false then (none, pool)
  else
    let page_no := pool.fd2pageno
    let pool1 := { pool with fd2pageno := pool.fd2pageno + 1 }
    if page_no = INVALID_PAGE_ID then (none, pool1)
    else
      (some (page_no, RmPage.zeroed record_size),
        { pool1 with
          pages := setAt pool1.pages page_no (some (RmPage.zeroed record_size))
          is_dirty := setAt pool1.is_dirty page_no false
          pin_count := setAt pool1.pin_count page_no 1 })

/-! ## Heap file -/

/-- The write of a handle's page into its frame. -/
def RmFileHandle.store (fh : RmFileHandle) (ph : RmPageHandle) : RmFileHandle :=
  { fh with pool := { fh.pool with pages := setAt fh.pool.pages ph.page_no (some ph.page) } }

/-- The call `buffer_pool_manager_->unpin_page(page_id, is_dirty)`, its result ignored. -/
def RmFileHandle.unpin (fh : RmFileHandle) (page_no : Int) (is_dirty : Bool) : RmFileHandle :=
  { fh with pool := (fh.pool.unpin_page page_no is_dirty).2 }

/-- The call `disk_manager_->write_page(fd_, RM_FILE_HDR_PAGE, &file_hdr_, sizeof(file_hdr_))`. -/
def RmFileHandle.write_hdr (fh : RmFileHandle) : RmFileHandle :=
  { fh with disk_hdr := fh.file_hdr }

/-- `memcpy(dst, buf, record_size)` into a slot. -/
def copy_record (buf : List Byte) (record_size : Nat) : List Byte := buf.take record_size

/-- `RmFileHandle::fetch_page_handle`. -/
def RmFileHandle.fetch_page_handle (fh : RmFileHandle) (page_no : Int) :
    Except Error RmPageHandle × RmFileHandle :=
  if page_no < 0 ∨ page_no ≥ fh.file_hdr.num_pages then (.error .PageNotExistError, fh)
  else
    match fh.pool.fetch_page page_no with
    | (none, pool1) => (.error .PageNotExistError, { fh with pool := pool1 })
    | (some pg, pool1) => (.ok { page_no := page_no, page := pg }, { fh with pool := pool1 })

/-- `RmFileHandle::create_new_page_handle`. -/
def RmFileHandle.create_new_page_handle (fh : RmFileHandle) :
    Except Error RmPageHandle × RmFileHandle :=
  match fh.pool.new_page fh.file_hdr.record_size with
  | (none, pool1) => (.error .InternalError, { fh with pool := pool1 })
  | (some (page_no, pg), pool1) =>
    let pg1 : RmPage :=
      { pg with page_hdr := { next_free_page_no := -1, num_records := 0 }, bitmap := Bitmap.init }
    let ph : RmPageHandle := { page_no := page_no, page := pg1 }
    let fh1 : RmFileHandle := RmFileHandle.store { fh with pool := pool1 } ph
    let fh2 : RmFileHandle :=
      { fh1 with file_hdr := { fh1.file_hdr with num_pages := fh1.file_hdr.num_pages + 1 } }
    (.ok ph, fh2.write_hdr)

/-- `RmFileHandle::create_page_handle`. -/
def RmFileHandle.create_page_handle (fh : RmFileHandle) :
    Except Error RmPageHandle × RmFileHandle :=
  if fh.file_hdr.first_free_page_no = RM_NO_PAGE then fh.create_new_page_handle
  else
    match fh.fetch_page_handle fh.file_hdr.first_free_page_no with
    | (.error e, fh1) => (.error e, fh1)
    | (.ok ph, fh1) =>
      let fh2 : RmFileHandle :=
        { fh1 with file_hdr :=
            { fh1.file_hdr with first_free_page_no := ph.page.page_hdr.next_free_page_no } }
      (.ok ph, fh2.write_hdr)

/-- `RmFileHandle::release_page_handle`: the file handle and the page after the call. -/
def RmFileHandle.release_page_handle (fh : RmFileHandle) (ph : RmPageHandle) :
    RmFileHandle × RmPageHandle :=
  if ph.page.page_hdr.next_free_page_no = RM_NO_PAGE then
    let ph1 : RmPageHandle :=
      { ph with page := { ph.page with page_hdr :=
          { ph.page.page_hdr with next_free_page_no := fh.file_hdr.first_free_page_no } } }
    let fh1 : RmFileHandle :=
      { fh with file_hdr := { fh.file_hdr with first_free_page_no := ph.page_no } }
    (fh1.write_hdr, ph1)
  else (fh, ph)

/-- `RmFileHandle::get_record`. -/
def RmFileHandle.get_record (fh : RmFileHandle) (rid : Rid) :
    Except Error (List Byte) × RmFileHandle :=
  match fh.fetch_page_handle rid.page_no with
  | (.error e, fh1) => (.error e, fh1)
  | (.ok ph, fh1) =>
    let record := copy_record (ph.page.slots rid.slot_no) fh1.file_hdr.record_size
    (.ok record, fh1.unpin ph.page_no false)

/-- `RmFileHandle::insert_record`. -/
def RmFileHandle.insert_record (fh : RmFileHandle) (buf : List Byte) :
    Except Error Rid × RmFileHandle :=
  match fh.create_page_handle with
  | (.error e, fh1) => (.error e, fh1)
  | (.ok ph, fh1) =>
    let slot_no := Bitmap.first_bit false ph.page.bitmap fh1.file_hdr.num_records_per_page
    let pg1 : RmPage := { ph.page with bitmap := Bitmap.set ph.page.bitmap slot_no }
    let pg2 : RmPage :=
      { pg1 with slots := setAt pg1.slots slot_no (copy_record buf fh1.file_hdr.record_size) }
    let pg3 : RmPage :=
      { pg2 with page_hdr := { pg2.page_hdr with num_records := pg2.page_hdr.num_records + 1 } }
    let full : Bool := pg3.page_hdr.num_records = fh1.file_hdr.num_records_per_page
    let fh2 : RmFileHandle :=
      if full then
        { fh1 with file_hdr :=
            { fh1.file_hdr with first_free_page_no := pg3.page_hdr.next_free_page_no } }
      else fh1
    let pg4 : RmPage :=
      if full then { pg3 with page_hdr := { pg3.page_hdr with next_free_page_no := RM_NO_PAGE } }
      else pg3
    let rid : Rid := { page_no := ph.page_no, slot_no := slot_no }
    (.ok rid, (fh2.store { ph with page := pg4 }).unpin ph.page_no true)

/-- `RmFileHandle::delete_record`. -/
def RmFileHandle.delete_record (fh : RmFileHandle) (rid : Rid) :
    Except Error Unit × RmFileHandle :=
  match fh.fetch_page_handle rid.page_no with
  | (.error e, fh1) => (.error e, fh1)
  | (.ok ph, fh1) =>
    let was_full : Bool := ph.page.page_hdr.num_records = fh1.file_hdr.num_records_per_page
    let pg1 : RmPage := { ph.page with bitmap := Bitmap.reset ph.page.bitmap rid.slot_no }
    let pg2 : RmPage :=
      { pg1 with page_hdr := { pg1.page_hdr with num_records := pg1.page_hdr.num_records - 1 } }
    let ph2 : RmPageHandle := { ph with page := pg2 }
    let r : RmFileHandle × RmPageHandle :=
      if was_full then fh1.release_page_handle ph2 else (fh1, ph2)
    (.ok (), (r.1.store r.2).unpin ph.page_no true)

/-- `RmFileHandle::update_record`. -/
def RmFileHandle.update_record (fh : RmFileHandle) (rid : Rid) (buf : List Byte) :
    Except Error Unit × RmFileHandle :=
  match fh.fetch_page_handle rid.page_no with
  | (.error e, fh1) => (.error e, fh1)
  | (.ok ph, fh1) =>
    let pg1 : RmPage :=
      { ph.page with
        slots := setAt ph.page.slots rid.slot_no (copy_record buf fh1.file_hdr.record_size) }
    (.ok (), (fh1.store { ph with page := pg1 }).unpin ph.page_no true)

/-! ## Heap scan -/

/-- The state of an `RmScan`: the file it reads (whose buffer pool it pins pages in) and the
cursor `rid_`. -/
structure RmScan where
  file_handle : RmFileHandle
  rid : Rid

/-- The `while (rid_.page_no < num_pages)` loop of `RmScan::next` with the assignment after it.
`fuel` bounds the number of iterations; `RmScan.next` passes the exact distance to `num_pages`,
so the loop condition is false when the fuel is spent. -/
def RmScan.next_loop : Nat → RmScan → Except Error Unit × RmScan
  | 0, s => (.ok (), { s with rid := { page_no := RM_NO_PAGE, slot_no := -1 } })
  | fuel + 1, s =>
    if s.rid.page_no < s.file_handle.file_hdr.num_pages then
      match s.file_handle.fetch_page_handle s.rid.page_no with
      | (.error e, fh1) => (.error e, { s with file_handle := fh1 })
      | (.ok ph, fh1) =>
        let first_slot :=
          Bitmap.first_bit true ph.page.bitmap fh1.file_hdr.num_records_per_page
        if first_slot < fh1.file_hdr.num_records_per_page then
          (.ok (), { file_handle := fh1, rid := { s.rid with slot_no := first_slot } })
        else
          RmScan.next_loop fuel
            { file_handle := fh1, rid := { s.rid with page_no := s.rid.page_no + 1 } }
    else (.ok (), { s with rid := { page_no := RM_NO_PAGE, slot_no := -1 } })

/-- `RmScan::next`. The fetched pages are not unpinned, as in the source. -/
def RmScan.next (s : RmScan) : Except Error Unit × RmScan :=
  match s.file_handle.fetch_page_handle s.rid.page_no with
  | (.error e, fh1) => (.error e, { s with file_handle := fh1 })
  | (.ok ph, fh1) =>
    let next_slot :=
      Bitmap.next_bit true ph.page.bitmap fh1.file_hdr.num_records_per_page s.rid.slot_no
    if next_slot < fh1.file_hdr.num_records_per_page then
      (.ok (), { file_handle := fh1, rid := { s.rid with slot_no := next_slot } })
    else
      let s1 : RmScan :=
        { file_handle := fh1, rid := { s.rid with page_no := s.rid.page_no + 1 } }
      RmScan.next_loop (s1.file_handle.file_hdr.num_pages - s1.rid.page_no).toNat s1

/-- The constructor `RmScan::RmScan`. -/
def RmScan.new (fh : RmFileHandle) : Except Error Unit × RmScan :=
  RmScan.next { file_handle := fh, rid := { page_no := RM_FIRST_RECORD_PAGE, slot_no := -1 } }

/-- `RmScan::is_end`. -/
def RmScan.is_end (s : RmScan) : Bool := s.rid.page_no = RM_NO_PAGE

/-- The driver `for (; !scan.is_end(); scan.next()) visit(scan.rid())` (as in
`SmManager::create_index`), collecting the visited RIDs; `none` when `fuel` calls of `next` do not
reach the end. -/
def RmScan.drive : Nat → RmScan → Option (Except Error (List Rid) × RmScan)
  | 0, s => if s.is_end then some (.ok [], s) else none
  | fuel + 1, s =>
    if s.is_end then some (.ok [], s)
    else
      match s.next with
      | (.error e, s1) => some (.error e, s1)
      | (.ok _, s1) =>
        match RmScan.drive fuel s1 with
        | none => none
        | some (.error e, s2) => some (.error e, s2)
        | some (.ok rids, s2) => some (.ok (s.rid :: rids), s2)

/-- A full scan: construct the scan and drive it to the end. -/
def RmFileHandle.scan_all (fh : RmFileHandle) (fuel : Nat) :
    Option (Except Error (List Rid) × RmScan) :=
  match RmScan.new fh with
  | (.error e, s) => some (.error e, s)
  | (.ok _, s) => RmScan.drive fuel s

/-! ## Concrete files used in the examples -/

/-- A freshly created heap file: header page only, empty free list, next page number 1. -/
def empty_file (record_size : Nat) (records_per_page : Int) : RmFileHandle :=
  let hdr : RmFileHdr :=
    { record_size := record_size, num_pages := 1, num_records_per_page := records_per_page,
      first_free_page_no := RM_NO_PAGE, bitmap_size := (records_per_page.toNat + 7) / 8 }
  { file_hdr := hdr
    disk_hdr := hdr
    pool :=
      { pages := fun _ => none, pin_count := fun _ => 0, is_dirty := fun _ => false,
        has_victim := true, fd2pageno := 1 } }

/-- Run `insert_record` for each buffer in turn, collecting the returned RIDs; stops at the first
exception. -/
def insert_all : RmFileHandle → List (List Byte) → Except Error (List Rid) × RmFileHandle
  | fh, [] => (.ok [], fh)
  | fh, b :: bs =>
    match fh.insert_record b with
    | (.error e, fh1) => (.error e, fh1)
    | (.ok rid, fh1) =>
      match insert_all fh1 bs with
      | (.error e, fh2) => (.error e, fh2)
      | (.ok rids, fh2) => (.ok (rid :: rids), fh2)

/-! ## Invariants and auxiliary notions used in the statements -/

/-- Representation invariant of an open heap file: at least one record fits on a page, the header
page exists, and the page-number counter of the descriptor equals `num_pages` (the handle sets it
so when the file is opened, and both grow together in `create_new_page_handle`). -/
def RmFileHandle.wf (fh : RmFileHandle) : Prop :=
  1 ≤ fh.file_hdr.num_records_per_page ∧ 1 ≤ fh.file_hdr.num_pages ∧
    fh.pool.fd2pageno = fh.file_hdr.num_pages

/-- A page's `num_records` equals the popcount of its bitmap over the slots of the page. -/
def RmPage.coherent (pg : RmPage) (n : Int) : Prop :=
  pg.page_hdr.num_records = (Bitmap.popcount pg.bitmap n : Int)

/-- Every data page of the file is coherent. -/
def RmFileHandle.coherent (fh : RmFileHandle) : Prop :=
  ∀ p pg, 1 ≤ p → p < fh.file_hdr.num_pages → fh.pool.pages p = some pg →
    pg.coherent fh.file_hdr.num_records_per_page

/-- The head of the free list is `RM_NO_PAGE` or names a data page that is not full. -/
def RmFileHandle.head_ok (fh : RmFileHandle) : Prop :=
  fh.file_hdr.first_free_page_no = RM_NO_PAGE ∨
    (1 ≤ fh.file_hdr.first_free_page_no ∧ fh.file_hdr.first_free_page_no < fh.file_hdr.num_pages ∧
      ∃ pg, fh.pool.pages fh.file_hdr.first_free_page_no = some pg ∧
        pg.page_hdr.num_records < fh.file_hdr.num_records_per_page)

/-- The RID names an occupied slot of a data page. -/
def RmFileHandle.occupied (fh : RmFileHandle) (rid : Rid) : Prop :=
  1 ≤ rid.page_no ∧ rid.page_no < fh.file_hdr.num_pages ∧
    0 ≤ rid.slot_no ∧ rid.slot_no < fh.file_hdr.num_records_per_page ∧
      ∃ pg, fh.pool.pages rid.page_no = some pg ∧ pg.bitmap rid.slot_no = true

/-- The free list as a chain: `fh.free_chain h l` says that following `next_free_page_no` from
`h` visits exactly the pages of `l`, in order, and then `RM_NO_PAGE`, and that every page visited
is a stored data page with `num_records < records_per_page`. -/
def RmFileHandle.free_chain (fh : RmFileHandle) : Int → List Int → Prop
  | h, [] => h = RM_NO_PAGE
  | h, p :: l =>
    h = p ∧ 1 ≤ p ∧ p < fh.file_hdr.num_pages ∧
      ∃ pg, fh.pool.pages p = some pg ∧
        pg.page_hdr.num_records < fh.file_hdr.num_records_per_page ∧
        fh.free_chain pg.page_hdr.next_free_page_no l

/-- The free list starting at `first_free_page_no` is finite, ends at `RM_NO_PAGE`, visits no
page twice and holds only non-full data pages. -/
def RmFileHandle.free_list_ok (fh : RmFileHandle) : Prop :=
  ∃ l : List Int, fh.free_chain fh.file_hdr.first_free_page_no l ∧ l.Nodup

/-- Page `p` is reached from page number `h` by following `next_free_page_no` links. -/
inductive RmFileHandle.reaches (fh : RmFileHandle) : Int → Int → Prop where
  | head (p : Int) : p ≠ RM_NO_PAGE → RmFileHandle.reaches fh p p
  | next (h p : Int) (pg : RmPage) : h ≠ RM_NO_PAGE → fh.pool.pages h = some pg →
      RmFileHandle.reaches fh pg.page_hdr.next_free_page_no p → RmFileHandle.reaches fh h p

/-- Page `p` is on the free list: reachable from `first_free_page_no`. -/
def RmFileHandle.on_free_list (fh : RmFileHandle) (p : Int) : Prop :=
  fh.reaches fh.file_hdr.first_free_page_no p

/-- A call of one of the three mutating operations of the heap file. -/
inductive Op where
  | insert (buf : List Byte)
  | delete (rid : Rid)
  | update (rid : Rid) (buf : List Byte)

/-- The state after a call; an exception leaves the state the call had reached. -/
def RmFileHandle.apply (fh : RmFileHandle) : Op → RmFileHandle
  | .insert buf => (fh.insert_record buf).2
  | .delete rid => (fh.delete_record rid).2
  | .update rid buf => (fh.update_record rid buf).2

/-- The states after each call of a sequence of calls, in order. -/
def RmFileHandle.trace : RmFileHandle → List Op → List RmFileHandle
  | _, [] => []
  | fh, op :: ops => fh.apply op :: RmFileHandle.trace (fh.apply op) ops

/-- Every delete and update of the sequence targets an RID that is occupied when it is called. -/
def RmFileHandle.admissible : RmFileHandle → List Op → Prop
  | _, [] => True
  | fh, .insert buf :: ops => RmFileHandle.admissible (fh.apply (.insert buf)) ops
  | fh, .delete rid :: ops =>
    fh.occupied rid ∧ RmFileHandle.admissible (fh.apply (.delete rid)) ops
  | fh, .update rid buf :: ops =>
    fh.occupied rid ∧ RmFileHandle.admissible (fh.apply (.update rid buf)) ops

/-! ## The RIDs a scan has to visit -/

/-- Lexicographic order on RIDs: by page number, then by slot number. -/
def Rid.lt (a b : Rid) : Prop :=
  a.page_no < b.page_no ∨ (a.page_no = b.page_no ∧ a.slot_no < b.slot_no)

/-- The set bits among the `k` positions `i, i+1, ..., i+k-1` of a bitmap, in increasing order. -/
def set_bits (bm : Int → Bool) : Int → Nat → List Int
  | _, 0 => []
  | i, k + 1 => if bm i = true then i :: set_bits bm (i + 1) k else set_bits bm (i + 1) k

/-- The occupied RIDs of page `p` with slot number above `after` and below `n`. -/
def page_rids (p : Int) (bm : Int → Bool) (n after : Int) : List Rid :=
  (set_bits bm (after + 1) (n - (after + 1)).toNat).map (fun s => { page_no := p, slot_no := s })

/-- The occupied RIDs of the `k` pages `p, p+1, ..., p+k-1`, page by page. -/
def RmFileHandle.rids_from (fh : RmFileHandle) : Int → Nat → List Rid
  | _, 0 => []
  | p, k + 1 =>
    (match fh.pool.pages p with
      | some pg => page_rids p pg.bitmap fh.file_hdr.num_records_per_page (-1)
      | none => []) ++ RmFileHandle.rids_from fh (p + 1) k

/-- The occupied RIDs that follow `rid` in the file: the rest of its page, then the later
pages. -/
def RmFileHandle.rids_after (fh : RmFileHandle) (rid : Rid) : List Rid :=
  (match fh.pool.pages rid.page_no with
    | some pg => page_rids rid.page_no pg.bitmap fh.file_hdr.num_records_per_page rid.slot_no
    | none => []) ++
    fh.rids_from (rid.page_no + 1) (fh.file_hdr.num_pages - (rid.page_no + 1)).toNat

/-- What a scan in state `s` still has to deliver: nothing at the end, otherwise the current RID
and the RIDs after it. -/
def RmScan.todo (s : RmScan) : List Rid :=
  if s.is_end then [] else s.rid :: s.file_handle.rids_after s.rid

/-- A heap file with one data page of 5 slots of which slots 0, 2 and 4 are occupied. -/
def sparse_page_file : RmFileHandle :=
  { file_hdr :=
      { record_size := 1, num_pages := 2, num_records_per_page := 5,
        first_free_page_no := 1, bitmap_size := 1 }
    disk_hdr :=
      { record_size := 1, num_pages := 2, num_records_per_page := 5,
        first_free_page_no := 1, bitmap_size := 1 }
    pool :=
      { pages := fun q =>
          if q = 1 then
            some { page_hdr := { next_free_page_no := RM_NO_PAGE, num_records := 3 }
                   bitmap := fun i => decide (i = 0 ∨ i = 2 ∨ i = 4)
                   slots := fun _ => [7] }
          else none
        pin_count := fun _ => 0
        is_dirty := fun _ => false
        has_victim := true
        fd2pageno := 2 } }

/-- A heap file with 3 records per page whose only data page, page 1, is full and off the free
list. -/
def full_page_file : RmFileHandle :=
  { file_hdr :=
      { record_size := 1, num_pages := 2, num_records_per_page := 3,
        first_free_page_no := RM_NO_PAGE, bitmap_size := 1 }
    disk_hdr :=
      { record_size := 1, num_pages := 2, num_records_per_page := 3,
        first_free_page_no := RM_NO_PAGE, bitmap_size := 1 }
    pool :=
      { pages := fun q =>
          if q = 1 then
            some { page_hdr := { next_free_page_no := RM_NO_PAGE, num_records := 3 }
                   bitmap := fun i => decide (0 ≤ i ∧ i < 3)
                   slots := fun _ => [7] }
          else none
        pin_count := fun _ => 0
        is_dirty := fun _ => false
        has_victim := true
        fd2pageno := 2 } }

/-- A heap file with 8 records per page (one bitmap byte) and two data pages: page 1 holds 7
records, heads the free list and links to page 2, which is full. -/
def stale_link_file : RmFileHandle :=
  { file_hdr :=
      { record_size := 1, num_pages := 3, num_records_per_page := 8,
        first_free_page_no := 1, bitmap_size := 1 }
    disk_hdr :=
      { record_size := 1, num_pages := 3, num_records_per_page := 8,
        first_free_page_no := 1, bitmap_size := 1 }
    pool :=
      { pages := fun q =>
          if q = 1 then
            some { page_hdr := { next_free_page_no := 2, num_records := 7 }
                   bitmap := fun i => decide (0 ≤ i ∧ i < 7)
                   slots := fun _ => [7] }
          else if q = 2 then
            some { page_hdr := { next_free_page_no := RM_NO_PAGE, num_records := 8 }
                   bitmap := fun i => decide (0 ≤ i ∧ i < 8)
                   slots := fun _ => [7] }
          else none
        pin_count := fun _ => 0
        is_dirty := fun _ => false
        has_victim := true
        fd2pageno := 3 } }

/-- A heap file with 2 records per page and two data pages holding one record each, whose
`next_free_page_no` links form a cycle: 1 → 2 → 1, with page 1 the head. -/
def cyclic_list_file : RmFileHandle :=
  { file_hdr :=
      { record_size := 1, num_pages := 3, num_records_per_page := 2,
        first_free_page_no := 1, bitmap_size := 1 }
    disk_hdr :=
      { record_size := 1, num_pages := 3, num_records_per_page := 2,
        first_free_page_no := 1, bitmap_size := 1 }
    pool :=
      { pages := fun q =>
          if q = 1 then
            some { page_hdr := { next_free_page_no := 2, num_records := 1 }
                   bitmap := fun i => decide (i = 0)
                   slots := fun _ => [7] }
          else if q = 2 then
            some { page_hdr := { next_free_page_no := 1, num_records := 1 }
                   bitmap := fun i => decide (i = 0)
                   slots := fun _ => [7] }
          else none
        pin_count := fun _ => 0
        is_dirty := fun _ => false
        has_victim := true
        fd2pageno := 3 } }

/-! ## Disk manager, replacer and buffer pool

Embedding of `src/storage/buffer_pool_manager.cpp` and of the page I/O of
`src/storage/disk_manager.cpp`. A frame is named by its `frame_id_t`; a `Page*` result is the
frame id, `none` standing for `nullptr`. The mutex is not modelled: every operation holds it from
entry to exit, so the calls are atomic steps. -/

/-- Modelled from the spec: the page identity `PageId`, `(file_descriptor, page_number)`. -/
structure PageId where
  fd : Int
  page_no : Int
deriving DecidableEq, Repr

/-- Modelled from the spec: a frame `Page` with its metadata `{page_id, pin_count, is_dirty}` and
its bytes (page.h is not part of the sources). -/
structure Page where
  id : PageId
  data : List Byte
  is_dirty : Bool
  pin_count : Int
deriving DecidableEq, Repr

/-- A transfer between memory and disk, as the model records it. -/
inductive DiskOp where
  | read (fd page_no : Int)
  | write (fd page_no : Int) (data : List Byte)
deriving DecidableEq, Repr

/-- The state of the `DiskManager` that page I/O uses. `page_size` is the constant `PAGE_SIZE`
(configured in a header that is not part of the sources, so a parameter here). `files id` is the
block stored at page `id.page_no` of the file open under `id.fd`, `none` where the file ends
before that block, so that a read of `PAGE_SIZE` bytes comes up short. `fd2pageno` is
`fd2pageno_`. `transfers` lists the `read` / `write` system calls made so far. -/
structure DiskManager where
  page_size : Nat
  files : PageId → Option (List Byte)
  fd2pageno : Int → Int
  transfers : List DiskOp

/-- `DiskManager::write_page` for a transfer of `PAGE_SIZE` bytes: `lseek` to
`page_no * PAGE_SIZE` fails (and `InternalError` is thrown) for a negative offset; otherwise the
block is stored, and the blocks of the file before it that did not exist yet read as zeros
afterwards, as the gap of a file written past its end does. The `write` call itself is taken to
transfer all bytes. -/
def DiskManager.write_page (dm : DiskManager) (fd page_no : Int) (data : List Byte) :
    Except Error Unit × DiskManager :=
  if page_no < 0 then (.error .InternalError, dm)
  else
    (.ok (),
      { dm with
        files := fun id =>
          if id = { fd := fd, page_no := page_no } then some data
          else if id.fd = fd ∧ 0 ≤ id.page_no ∧ id.page_no < page_no then
            match dm.files id with
            | some d => some d
            | none => some (List.replicate dm.page_size 0)
          else dm.files id
        transfers := dm.transfers ++ [.write fd page_no data] })

/-- `DiskManager::read_page` for a transfer of `PAGE_SIZE` bytes: `InternalError` when `lseek`
fails (negative offset) or when the file has no such block (short read, the buffer is left as it
was); otherwise the block. -/
def DiskManager.read_page (dm : DiskManager) (fd page_no : Int) :
    Except Error (List Byte) × DiskManager :=
  if page_no < 0 then (.error .InternalError, dm)
  else
    match dm.files { fd := fd, page_no := page_no } with
    | none => (.error .InternalError, { dm with transfers := dm.transfers ++ [.read fd page_no] })
    | some d => (.ok d, { dm with transfers := dm.transfers ++ [.read fd page_no] })

/-- `DiskManager::allocate_page` as the buffer pool calls it: `return fd2pageno_[fd]++` for a
descriptor that passes the `assert` and a counter below the greatest page number, where the
increment is plus one. `DiskCounters.allocate_page` is the function with the assertion and with
the width of `page_id_t`, and agrees with this one there. -/
def DiskManager.allocate_page (dm : DiskManager) (fd : Int) : Int × DiskManager :=
  (dm.fd2pageno fd, { dm with fd2pageno := setAt dm.fd2pageno fd (dm.fd2pageno fd + 1) })

/-- Modelled from the spec: the replacer (lru_replacer.cpp is not part of the sources), by its
LRU contract. `lru_list` holds the evictable frames, the one unpinned longest ago first. -/
structure LRUReplacer where
  lru_list : List Int
deriving DecidableEq, Repr

/-- Modelled from the spec: `victim()` returns the frame that has been unpinned longest and
removes it; it fails when no frame is unpinned. -/
def LRUReplacer.victim (r : LRUReplacer) : Option Int × LRUReplacer :=
  match r.lru_list with
  | [] => (none, r)
  | f :: rest => (some f, { lru_list := rest })

/-- Modelled from the spec: `pin(frame_id)` makes the frame ineligible for eviction. -/
def LRUReplacer.pin (r : LRUReplacer) (frame_id : Int) : LRUReplacer :=
  { lru_list := r.lru_list.filter (fun f => decide (f ≠ frame_id)) }

/-- Modelled from the spec: `unpin(frame_id)` makes the frame eligible for eviction, as the most
recently unpinned one; a frame that is already eligible keeps its place. -/
def LRUReplacer.unpin (r : LRUReplacer) (frame_id : Int) : LRUReplacer :=
  if frame_id ∈ r.lru_list then r else { lru_list := r.lru_list ++ [frame_id] }

/-- The page table `std::unordered_map<PageId, frame_id_t>` as an association list with distinct
keys. -/
abbrev PageTable := List (PageId × Int)

/-- `page_table_.find(page_id)`: the frame the page is mapped to, if any. -/
def PageTable.find : PageTable → PageId → Option Int
  | [], _ => none
  | (k, v) :: rest, id => if k = id then some v else PageTable.find rest id

/-- `page_table_.erase(page_id)`. -/
def PageTable.erase (pt : PageTable) (id : PageId) : PageTable :=
  pt.filter (fun e => decide (e.1 ≠ id))

/-- `page_table_[page_id] = frame_id`: insert or overwrite. -/
def PageTable.insert (pt : PageTable) (id : PageId) (frame_id : Int) : PageTable :=
  (id, frame_id) :: PageTable.erase pt id

/-- The state of a `BufferPoolManager`: the frames `pages_` by frame id, the page table, the free
list, the replacer and the disk manager it writes to. -/
structure BufferPoolManager where
  pool_size : Nat
  pages : Int → Page
  page_table : PageTable
  free_list : List Int
  replacer : LRUReplacer
  disk_manager : DiskManager

/-- Modelled from the spec: `Page::reset_memory`, which zeroes the `PAGE_SIZE` bytes of a
frame. -/
def Page.reset_memory (pg : Page) (page_size : Nat) : Page :=
  { pg with data := List.replicate page_size 0 }

/-- Modelled from the spec: the constructor of the pool, "fixed-size table of `pool_size` frames
plus a free-frame list initialized to all frames"; every frame starts zeroed, clean, unpinned and
without a page (page number `INVALID_PAGE_ID`). -/
def BufferPoolManager.init (pool_size : Nat) (dm : DiskManager) : BufferPoolManager :=
  { pool_size := pool_size
    pages := fun _ =>
      { id := { fd := -1, page_no := INVALID_PAGE_ID }
        data := List.replicate dm.page_size 0
        is_dirty := false
        pin_count := 0 }
    page_table := []
    free_list := (List.range pool_size).map (fun (i : Nat) => (i : Int))
    replacer := { lru_list := [] }
    disk_manager := dm }

/-- `BufferPoolManager::find_victim_page`: the front of the free list if there is one, otherwise
the replacer's victim. -/
def BufferPoolManager.find_victim_page (bpm : BufferPoolManager) :
    Option Int × BufferPoolManager :=
  match bpm.free_list with
  | f :: rest => (some f, { bpm with free_list := rest })
  | [] =>
    match bpm.replacer.victim with
    | (r, rep) => (r, { bpm with replacer := rep })

/-- `BufferPoolManager::fetch_page`. -/
def BufferPoolManager.fetch_page (bpm : BufferPoolManager) (page_id : PageId) :
    Except Error (Option Int) × BufferPoolManager :=
  match bpm.page_table.find page_id with
  | some frame_id =>
    let page := bpm.pages frame_id
    (.ok (some frame_id),
      { bpm with
        pages := setAt bpm.pages frame_id { page with pin_count := page.pin_count + 1 }
        replacer := bpm.replacer.pin frame_id })
  | none =>
    match bpm.find_victim_page with
    | (none, bpm1) => (.ok none, bpm1)
    | (some frame_id, bpm1) =>
      let victim_page := bpm1.pages frame_id
      -- 2. write a dirty victim back
      let w : Except Error Unit × BufferPoolManager :=
        if victim_page.is_dirty then
          match bpm1.disk_manager.write_page victim_page.id.fd victim_page.id.page_no
              victim_page.data with
          | (.error e, dm) => (.error e, { bpm1 with disk_manager := dm })
          | (.ok _, dm) =>
            (.ok (), { bpm1 with
              disk_manager := dm
              pages := setAt bpm1.pages frame_id { victim_page with is_dirty := false } })
        else (.ok (), bpm1)
      match w with
      | (.error e, bpm2) => (.error e, bpm2)
      | (.ok _, bpm2) =>
        -- 3. read the page into the frame
        match bpm2.disk_manager.read_page page_id.fd page_id.page_no with
        | (.error e, dm) => (.error e, { bpm2 with disk_manager := dm })
        | (.ok d, dm) =>
          let victim2 := bpm2.pages frame_id
          -- 4. page table, id, pin count
          (.ok (some frame_id),
            { bpm2 with
              disk_manager := dm
              page_table := (bpm2.page_table.erase victim2.id).insert page_id frame_id
              pages := setAt bpm2.pages frame_id
                { victim2 with data := d, id := page_id, pin_count := 1 }
              replacer := bpm2.replacer.pin frame_id })

/-- `BufferPoolManager::unpin_page`. -/
def BufferPoolManager.unpin_page (bpm : BufferPoolManager) (page_id : PageId)
    (is_dirty : Bool) : Bool × BufferPoolManager :=
  match bpm.page_table.find page_id with
  | none => (false, bpm)
  | some frame_id =>
    let page := bpm.pages frame_id
    if page.pin_count ≤ 0 then (false, bpm)
    else
      let page1 : Page := { page with pin_count := page.pin_count - 1 }
      let rep := if page1.pin_count = 0 then bpm.replacer.unpin frame_id else bpm.replacer
      let page2 : Page := if is_dirty then { page1 with is_dirty := true } else page1
      (true, { bpm with pages := setAt bpm.pages frame_id page2, replacer := rep })

/-- `BufferPoolManager::flush_page`. -/
def BufferPoolManager.flush_page (bpm : BufferPoolManager) (page_id : PageId) :
    Except Error Bool × BufferPoolManager :=
  match bpm.page_table.find page_id with
  | none => (.ok false, bpm)
  | some frame_id =>
    let page := bpm.pages frame_id
    match bpm.disk_manager.write_page page_id.fd page_id.page_no page.data with
    | (.error e, dm) => (.error e, { bpm with disk_manager := dm })
    | (.ok _, dm) =>
      (.ok true, { bpm with
        disk_manager := dm
        pages := setAt bpm.pages frame_id { page with is_dirty := false } })

/-- `BufferPoolManager::new_page`. The argument is the `PageId` the caller passes by pointer; it
is returned as the call leaves it. -/
def BufferPoolManager.new_page (bpm : BufferPoolManager) (page_id : PageId) :
    Except Error (Option Int) × PageId × BufferPoolManager :=
  match bpm.find_victim_page with
  | (none, bpm1) => (.ok none, page_id, bpm1)
  | (some frame_id, bpm1) =>
    -- 2. a page number from the disk manager
    match bpm1.disk_manager.allocate_page page_id.fd with
    | (page_no, dm) =>
      let page_id1 : PageId := { page_id with page_no := page_no }
      let bpm2 : BufferPoolManager := { bpm1 with disk_manager := dm }
      if page_no = INVALID_PAGE_ID then (.ok none, page_id1, bpm2)
      else
        -- 3. write a dirty frame back
        let page := bpm2.pages frame_id
        let w : Except Error Unit × BufferPoolManager :=
          if page.is_dirty then
            match bpm2.disk_manager.write_page page.id.fd page.id.page_no page.data with
            | (.error e, dm1) => (.error e, { bpm2 with disk_manager := dm1 })
            | (.ok _, dm1) => (.ok (), { bpm2 with disk_manager := dm1 })
          else (.ok (), bpm2)
        match w with
        | (.error e, bpm3) => (.error e, page_id1, bpm3)
        | (.ok _, bpm3) =>
          -- 4. the frame takes the new page
          let page1 : Page :=
            { (page.reset_memory bpm3.disk_manager.page_size) with
              id := page_id1, is_dirty := false, pin_count := 1 }
          (.ok (some frame_id), page_id1,
            { bpm3 with
              page_table := (bpm3.page_table.erase page.id).insert page_id1 frame_id
              pages := setAt bpm3.pages frame_id page1
              replacer := bpm3.replacer.pin frame_id })

/-- `BufferPoolManager::delete_page`. -/
def BufferPoolManager.delete_page (bpm : BufferPoolManager) (page_id : PageId) :
    Except Error Bool × BufferPoolManager :=
  match bpm.page_table.find page_id with
  | none => (.ok true, bpm)
  | some frame_id =>
    let page := bpm.pages frame_id
    if page.pin_count > 0 then (.ok false, bpm)
    else
      let w : Except Error Unit × BufferPoolManager :=
        if page.is_dirty then
          match bpm.disk_manager.write_page page_id.fd page_id.page_no page.data with
          | (.error e, dm) => (.error e, { bpm with disk_manager := dm })
          | (.ok _, dm) =>
            (.ok (), { bpm with
              disk_manager := dm
              pages := setAt bpm.pages frame_id { page with is_dirty := false } })
        else (.ok (), bpm)
      match w with
      | (.error e, bpm1) => (.error e, bpm1)
      | (.ok _, bpm1) =>
        let page1 : Page :=
          { ((bpm1.pages frame_id).reset_memory bpm1.disk_manager.page_size) with
            id := { fd := -1, page_no := INVALID_PAGE_ID }, is_dirty := false, pin_count := 0 }
        (.ok true,
          { bpm1 with
            page_table := bpm1.page_table.erase page_id
            pages := setAt bpm1.pages frame_id page1
            free_list := bpm1.free_list ++ [frame_id]
            replacer := bpm1.replacer.unpin frame_id })

/-- The loop of `BufferPoolManager::flush_all_pages` over the entries of the page table. -/
def BufferPoolManager.flush_entries (fd : Int) :
    List (PageId × Int) → BufferPoolManager → Except Error Unit × BufferPoolManager
  | [], bpm => (.ok (), bpm)
  | (page_id, frame_id) :: rest, bpm =>
    if page_id.fd = fd then
      let page := bpm.pages frame_id
      match bpm.disk_manager.write_page page_id.fd page_id.page_no page.data with
      | (.error e, dm) => (.error e, { bpm with disk_manager := dm })
      | (.ok _, dm) =>
        BufferPoolManager.flush_entries fd rest
          { bpm with
            disk_manager := dm
            pages := setAt bpm.pages frame_id { page with is_dirty := false } }
    else BufferPoolManager.flush_entries fd rest bpm

/-- `BufferPoolManager::flush_all_pages`. -/
def BufferPoolManager.flush_all_pages (bpm : BufferPoolManager) (fd : Int) :
    Except Error Unit × BufferPoolManager :=
  BufferPoolManager.flush_entries fd bpm.page_table bpm

/-- The caller of `fetch_page` / `new_page` writes the bytes `data` into the frame it holds
(`page->get_data()`). -/
def BufferPoolManager.set_data (bpm : BufferPoolManager) (frame_id : Int) (data : List Byte) :
    BufferPoolManager :=
  { bpm with pages := setAt bpm.pages frame_id { bpm.pages frame_id with data := data } }

/-- A call of one of the six operations of the buffer pool. -/
inductive PoolCall where
  | fetch (page_id : PageId)
  | unpin (page_id : PageId) (is_dirty : Bool)
  | new_page (page_id : PageId)
  | flush (page_id : PageId)
  | delete (page_id : PageId)
  | flush_all (fd : Int)
deriving DecidableEq, Repr

/-- The state a call leaves, whether it returns or throws. -/
def BufferPoolManager.apply (bpm : BufferPoolManager) : PoolCall → BufferPoolManager
  | .fetch page_id => (bpm.fetch_page page_id).2
  | .unpin page_id d => (bpm.unpin_page page_id d).2
  | .new_page page_id => (bpm.new_page page_id).2.2
  | .flush page_id => (bpm.flush_page page_id).2
  | .delete page_id => (bpm.delete_page page_id).2
  | .flush_all fd => (bpm.flush_all_pages fd).2

/-- The call throws. -/
def BufferPoolManager.raises (bpm : BufferPoolManager) : PoolCall → Bool
  | .fetch page_id => match (bpm.fetch_page page_id).1 with | .error _ => true | .ok _ => false
  | .unpin _ _ => false
  | .new_page page_id =>
    match (bpm.new_page page_id).1 with | .error _ => true | .ok _ => false
  | .flush page_id => match (bpm.flush_page page_id).1 with | .error _ => true | .ok _ => false
  | .delete page_id => match (bpm.delete_page page_id).1 with | .error _ => true | .ok _ => false
  | .flush_all fd => match (bpm.flush_all_pages fd).1 with | .error _ => true | .ok _ => false

/-- The states after each call of a sequence of calls, in order. -/
def BufferPoolManager.trace : BufferPoolManager → List PoolCall → List BufferPoolManager
  | _, [] => []
  | bpm, c :: cs => bpm.apply c :: BufferPoolManager.trace (bpm.apply c) cs

/-- The state after a sequence of calls. -/
def BufferPoolManager.run : BufferPoolManager → List PoolCall → BufferPoolManager
  | bpm, [] => bpm
  | bpm, c :: cs => BufferPoolManager.run (bpm.apply c) cs

/-! ## The part of the pool state that the pin and mapping invariants are about -/

/-- The page ids and pin counts of the frames, the page table, the free list and the replacer's
list: the pool state without the bytes, the dirty flags and the disk. -/
structure PoolCore where
  pool_size : Nat
  ids : Int → PageId
  pins : Int → Int
  page_table : PageTable
  free_list : List Int
  lru : List Int

/-- The core of a pool state. -/
def BufferPoolManager.core (bpm : BufferPoolManager) : PoolCore :=
  { pool_size := bpm.pool_size
    ids := fun f => (bpm.pages f).id
    pins := fun f => (bpm.pages f).pin_count
    page_table := bpm.page_table
    free_list := bpm.free_list
    lru := bpm.replacer.lru_list }

/-- The frame `find_victim_page` would choose. -/
def PoolCore.victim (c : PoolCore) : Option Int :=
  match c.free_list with
  | f :: _ => some f
  | [] => c.lru.head?

/-- The core after `find_victim_page` has taken its frame. -/
def PoolCore.pop (c : PoolCore) : PoolCore :=
  match c.free_list with
  | _ :: rest => { c with free_list := rest }
  | [] => { c with lru := c.lru.tail }

/-- The core after a hit of `fetch_page` on frame `f`. -/
def PoolCore.hit (c : PoolCore) (f : Int) : PoolCore :=
  { c with
    pins := setAt c.pins f (c.pins f + 1)
    lru := c.lru.filter (fun g => decide (g ≠ f)) }

/-- The core after `unpin_page` has lowered the pin count of frame `f`. -/
def PoolCore.unpin (c : PoolCore) (f : Int) : PoolCore :=
  { c with
    pins := setAt c.pins f (c.pins f - 1)
    lru := if c.pins f - 1 = 0 then (LRUReplacer.unpin { lru_list := c.lru } f).lru_list
           else c.lru }

/-- The core after the frame `v` has been given the page `id` (step 4 of `fetch_page`, step 4 of
`new_page`). -/
def PoolCore.assign (c : PoolCore) (v : Int) (id : PageId) : PoolCore :=
  { c with
    page_table := (c.page_table.erase (c.ids v)).insert id v
    ids := setAt c.ids v id
    pins := setAt c.pins v 1
    lru := c.lru.filter (fun g => decide (g ≠ v)) }

/-- The core after `delete_page` has released frame `f`, which held page `id`. -/
def PoolCore.delete (c : PoolCore) (f : Int) (id : PageId) : PoolCore :=
  { c with
    page_table := c.page_table.erase id
    ids := setAt c.ids f { fd := -1, page_no := INVALID_PAGE_ID }
    pins := setAt c.pins f 0
    free_list := c.free_list ++ [f]
    lru := (LRUReplacer.unpin { lru_list := c.lru } f).lru_list }

/-- What a call can do to the core of the pool, whether it returns or throws. With `fresh`, the
page a frame is given was not mapped before. -/
inductive PoolStep (fresh : Bool) (c : PoolCore) : PoolCall → PoolCore → Prop where
  | same (call : PoolCall) : PoolStep fresh c call c
  | hit (id : PageId) (f : Int) : c.page_table.find id = some f →
      PoolStep fresh c (.fetch id) (c.hit f)
  | unpin (id : PageId) (d : Bool) (f : Int) : c.page_table.find id = some f → 0 < c.pins f →
      PoolStep fresh c (.unpin id d) (c.unpin f)
  | pop (call : PoolCall) (v : Int) : c.victim = some v → PoolStep fresh c call c.pop
  | assign (call : PoolCall) (v : Int) (id : PageId) : c.victim = some v →
      id.page_no ≠ INVALID_PAGE_ID → (fresh = true → c.page_table.find id = none) →
      PoolStep fresh c call (c.pop.assign v id)
  | delete (id : PageId) (f : Int) : c.page_table.find id = some f → c.pins f ≤ 0 →
      PoolStep fresh c (.delete id) (c.delete f id)

/-- What a call that returns a frame or a status does to the core of the pool. With `fresh`,
the page a frame is given was not mapped before. -/
inductive PoolStepOk (fresh : Bool) (c : PoolCore) : PoolCall → PoolCore → Prop where
  | same (call : PoolCall) : PoolStepOk fresh c call c
  | hit (id : PageId) (f : Int) : c.page_table.find id = some f →
      PoolStepOk fresh c (.fetch id) (c.hit f)
  | unpin (id : PageId) (d : Bool) (f : Int) : c.page_table.find id = some f → 0 < c.pins f →
      PoolStepOk fresh c (.unpin id d) (c.unpin f)
  | assign (call : PoolCall) (v : Int) (id : PageId) : c.victim = some v →
      id.page_no ≠ INVALID_PAGE_ID → (fresh = true → c.page_table.find id = none) →
      PoolStepOk fresh c call (c.pop.assign v id)
  | delete (id : PageId) (f : Int) : c.page_table.find id = some f → c.pins f ≤ 0 →
      PoolStepOk fresh c (.delete id) (c.delete f id)

/-- The call does not throw and, if it is `new_page`, the page number the disk manager hands out
is not `INVALID_PAGE_ID`. -/
def BufferPoolManager.admissible (bpm : BufferPoolManager) (call : PoolCall) : Prop :=
  bpm.raises call = false ∧
    ∀ pid, call = .new_page pid → bpm.disk_manager.fd2pageno pid.fd ≠ INVALID_PAGE_ID

/-- If the call is `new_page`, the page id the disk manager hands out is not in the page
table. -/
def BufferPoolManager.fresh (bpm : BufferPoolManager) (call : PoolCall) : Prop :=
  ∀ pid, call = .new_page pid →
    bpm.page_table.find { fd := pid.fd, page_no := bpm.disk_manager.fd2pageno pid.fd } = none

/-- The states reached from an initial pool by calls of the six operations that satisfy `ok` in
the state they are made in, and by callers writing bytes into frames. -/
inductive BufferPoolManager.ReachableBy (ok : BufferPoolManager → PoolCall → Prop) :
    BufferPoolManager → Prop where
  | init (pool_size : Nat) (dm : DiskManager) :
      BufferPoolManager.ReachableBy ok (BufferPoolManager.init pool_size dm)
  | step (bpm : BufferPoolManager) (call : PoolCall) :
      BufferPoolManager.ReachableBy ok bpm → ok bpm call →
      BufferPoolManager.ReachableBy ok (bpm.apply call)
  | write (bpm : BufferPoolManager) (frame_id : Int) (data : List Byte) :
      BufferPoolManager.ReachableBy ok bpm →
      BufferPoolManager.ReachableBy ok (bpm.set_data frame_id data)

/-- The states the pool can be in: reached from an initial pool by any calls, whether they
return or throw, and by writes into frames. -/
def BufferPoolManager.Reachable (bpm : BufferPoolManager) : Prop :=
  BufferPoolManager.ReachableBy (fun _ _ => True) bpm

/-- The states reached from an initial pool by calls none of which threw, `new_page` never
having been handed `INVALID_PAGE_ID`. -/
def BufferPoolManager.ReachableOk (bpm : BufferPoolManager) : Prop :=
  BufferPoolManager.ReachableBy (fun s call => s.admissible call) bpm

/-- The states reached from an initial pool by any calls, returning or throwing, `new_page`
never having been handed the id of a page that was in the page table. -/
def BufferPoolManager.ReachableFresh (bpm : BufferPoolManager) : Prop :=
  BufferPoolManager.ReachableBy (fun s call => s.fresh call) bpm

/-- Pin invariant of the pool: pin counts are not negative, the frames on the free list and in
the replacer are unpinned, the free list has no duplicates and holds no mapped frame, and a
mapped frame carries the id of the page mapped to it. -/
structure PoolCore.PinInv (c : PoolCore) : Prop where
  pin_nonneg : ∀ f, 0 ≤ c.pins f
  free_pin : ∀ f ∈ c.free_list, c.pins f = 0
  lru_pin : ∀ f ∈ c.lru, c.pins f = 0
  free_nodup : c.free_list.Nodup
  free_unmapped : ∀ id f, c.page_table.find id = some f → f ∉ c.free_list
  table_id : ∀ id f, c.page_table.find id = some f → c.ids f = id

/-- Invariant of the pool along calls that do not throw: the frames on the free list, in the
replacer and in the page table are frames of the pool, and every unpinned frame of the pool is
on the free list or in the replacer. -/
structure PoolCore.RangeInv (c : PoolCore) : Prop where
  free_range : ∀ f : Int, f ∈ c.free_list → 0 ≤ f ∧ f < (c.pool_size : Int)
  lru_range : ∀ f : Int, f ∈ c.lru → 0 ≤ f ∧ f < (c.pool_size : Int)
  table_range : ∀ (id : PageId) (f : Int), c.page_table.find id = some f →
    0 ≤ f ∧ f < (c.pool_size : Int)
  covered : ∀ f : Int, 0 ≤ f → f < (c.pool_size : Int) → c.pins f = 0 →
    f ∈ c.free_list ∨ f ∈ c.lru

/-- Invariant of the pool along calls that give frames to unmapped pages only: no mapped page
has the invalid page number, and a frame that carries a page id carries the page mapped to
it. -/
structure PoolCore.MapInv (c : PoolCore) : Prop where
  key_valid : ∀ id f, c.page_table.find id = some f → id.page_no ≠ INVALID_PAGE_ID
  frame_mapped : ∀ f, (c.ids f).page_no = INVALID_PAGE_ID ∨ c.page_table.find (c.ids f) = some f

/-! ## Example pools -/

/-- A disk with one file, descriptor 3, of ten two-byte pages; page `n` holds the bytes `n, 0`.
The next page number of every descriptor is 10. -/
def small_disk : DiskManager :=
  { page_size := 2
    files := fun id =>
      if id.fd = 3 ∧ 0 ≤ id.page_no ∧ id.page_no < 10 then some [id.page_no.toNat, 0] else none
    fd2pageno := fun _ => 10
    transfers := [] }

/-- Page 0 of the file of `small_disk`. -/
def page_a : PageId := { fd := 3, page_no := 0 }

/-- Page 1 of the file of `small_disk`. -/
def page_b : PageId := { fd := 3, page_no := 1 }

/-- Page 2 of the file of `small_disk`. -/
def page_c : PageId := { fd := 3, page_no := 2 }

/-- Page 3 of the file of `small_disk`. -/
def page_d : PageId := { fd := 3, page_no := 3 }

/-- A page past the end of the file of `small_disk`: reading it is a short read. -/
def page_past_end : PageId := { fd := 3, page_no := 50 }

/-- A pool of two frames after `fetch A`, `fetch B`, neither unpinned. -/
def pinned_pool : BufferPoolManager :=
  (BufferPoolManager.init 2 small_disk).run [.fetch page_a, .fetch page_b]

/-- A pool of one frame after a `fetch_page` that threw: the page is past the end of the file. -/
def leaked_pool : BufferPoolManager :=
  (BufferPoolManager.init 1 small_disk).apply (.fetch page_past_end)

/-- A pool of two frames after `fetch A`, `unpin A`. -/
def unpinned_pool : BufferPoolManager :=
  (BufferPoolManager.init 2 small_disk).run [.fetch page_a, .unpin page_a false]

/-- The disk of `small_disk` with page-number counters that were never set: the next page number
of every descriptor is 0 although the file has ten pages. -/
def unsynced_disk : DiskManager := { small_disk with fd2pageno := fun _ => 0 }

/-- A pool of three frames over `unsynced_disk` after `fetch A`, `unpin A`, `new_page`: the
disk manager hands out page number 0, so frame 1 is mapped to `A` while frame 0, unpinned and in
the replacer, still carries the id `A`. -/
def stale_pool : BufferPoolManager :=
  (BufferPoolManager.init 3 unsynced_disk).run
    [.fetch page_a, .unpin page_a false, .new_page { fd := 3, page_no := 0 }]

/-- The disk of `small_disk` with every page-number counter at `INVALID_PAGE_ID`. -/
def exhausted_disk : DiskManager := { small_disk with fd2pageno := fun _ => INVALID_PAGE_ID }

/-- A pool of one frame over `exhausted_disk` after a `new_page`, which was handed
`INVALID_PAGE_ID` and returned null. -/
def drained_pool : BufferPoolManager :=
  (BufferPoolManager.init 1 exhausted_disk).apply (.new_page { fd := 3, page_no := 0 })

/-- A pool of one frame after `fetch A`, the bytes of the frame set to `7, 7`, and
`unpin(A, true)`: frame 0 holds `A`, dirty and unpinned. -/
def dirty_pool : BufferPoolManager :=
  ((((BufferPoolManager.init 1 small_disk).fetch_page page_a).2.set_data 0
    [7, 7]).unpin_page page_a true).2

/-! ## Calls that leave a page alone -/

/-- The call is a `fetch_page`, `unpin_page` or `new_page` that does not throw and is on a page
other than `P`; for `new_page` the page is the one the disk manager hands out. -/
def BufferPoolManager.avoids (bpm : BufferPoolManager) (P : PageId) : PoolCall → Prop
  | .fetch id => id ≠ P ∧ bpm.raises (.fetch id) = false
  | .unpin id _ => id ≠ P
  | .new_page id =>
    ({ fd := id.fd, page_no := bpm.disk_manager.fd2pageno id.fd } : PageId) ≠ P ∧
      bpm.raises (.new_page id) = false
  | .flush _ => False
  | .delete _ => False
  | .flush_all _ => False

/-- Every call of the sequence, made in turn from the state, is one that `avoids` the page. -/
def BufferPoolManager.run_avoids (P : PageId) : BufferPoolManager → List PoolCall → Prop
  | _, [] => True
  | bpm, c :: cs => bpm.avoids P c ∧ BufferPoolManager.run_avoids P (bpm.apply c) cs

/-- The bytes `B` of page `P` are safe: no frame other than the one `P` is mapped to carries the
id `P`, and either `P` is mapped to a frame that holds `B` and is dirty or backed by `B` on disk,
or `P` is not mapped and the disk holds `B`. -/
def BufferPoolManager.keeps (bpm : BufferPoolManager) (P : PageId) (B : List Byte) : Prop :=
  (∀ g, (bpm.pages g).id = P → bpm.page_table.find P = some g) ∧
  ((∃ f, bpm.page_table.find P = some f ∧ (bpm.pages f).data = B ∧
      ((bpm.pages f).is_dirty = true ∨ bpm.disk_manager.files P = some B)) ∨
    (bpm.page_table.find P = none ∧ bpm.disk_manager.files P = some B))

/-! ## The pool with a clock -/

/-- A pool state with a clock that counts the calls made, and for every frame the time of the
`unpin_page` call that last brought its pin count to 0 (0 if there was none). -/
structure TimedPool where
  bpm : BufferPoolManager
  now : Nat
  zero_at : Int → Nat

/-- The initial pool at time 1. -/
def TimedPool.init (pool_size : Nat) (dm : DiskManager) : TimedPool :=
  { bpm := BufferPoolManager.init pool_size dm, now := 1, zero_at := fun _ => 0 }

/-- A call on the pool with a clock: the call is made, the clock advances, and an `unpin_page`
that brings the pin count of a frame from 1 to 0 is recorded for that frame. -/
def TimedPool.apply (t : TimedPool) (call : PoolCall) : TimedPool :=
  { bpm := t.bpm.apply call
    now := t.now + 1
    zero_at :=
      match call with
      | .unpin page_id _ =>
        match t.bpm.page_table.find page_id with
        | some f => if (t.bpm.pages f).pin_count = 1 then setAt t.zero_at f t.now else t.zero_at
        | none => t.zero_at
      | _ => t.zero_at }

/-- The state after a sequence of calls on the pool with a clock. -/
def TimedPool.run : TimedPool → List PoolCall → TimedPool
  | t, [] => t
  | t, c :: cs => TimedPool.run (t.apply c) cs

/-- The states of the pool with a clock reached from an initial pool by writes into frames and
by calls none of which threw, `new_page` never having been handed `INVALID_PAGE_ID` or the id of
a page that was in the page table. -/
inductive TimedPool.Reachable : TimedPool → Prop where
  | init (pool_size : Nat) (dm : DiskManager) :
      TimedPool.Reachable (TimedPool.init pool_size dm)
  | step (t : TimedPool) (call : PoolCall) :
      TimedPool.Reachable t → t.bpm.admissible call → t.bpm.fresh call →
      TimedPool.Reachable (t.apply call)
  | write (t : TimedPool) (frame_id : Int) (data : List Byte) :
      TimedPool.Reachable t →
      TimedPool.Reachable { t with bpm := t.bpm.set_data frame_id data }

/-- Invariant of the pool along all calls: no mapped page has the invalid page number, and a
frame on the free list carries no page. -/
structure PoolCore.IdInv (c : PoolCore) : Prop where
  key_valid : ∀ id f, c.page_table.find id = some f → id.page_no ≠ INVALID_PAGE_ID
  free_id : ∀ f ∈ c.free_list, (c.ids f).page_no = INVALID_PAGE_ID

/-- Invariant of the pool along calls that do not throw: a frame in the replacer that is not on
the free list carries a page. -/
def PoolCore.LruInv (c : PoolCore) : Prop :=
  ∀ f ∈ c.lru, f ∈ c.free_list ∨ (c.ids f).page_no ≠ INVALID_PAGE_ID

/-- Invariant of the pool with a clock: the replacer lists its frames in the order in which
their pin counts reached 0, and all of that is in the past. -/
structure TimedPool.Sorted (t : TimedPool) : Prop where
  ordered : t.bpm.replacer.lru_list.Pairwise (fun a b => t.zero_at a < t.zero_at b)
  past : ∀ f ∈ t.bpm.replacer.lru_list, t.zero_at f < t.now

/-- A pool of three frames with a clock after `fetch` and `unpin` of `A`, `B`, `C` in that
order. -/
def lru_pool : TimedPool :=
  (TimedPool.init 3 small_disk).run
    [.fetch page_a, .unpin page_a false, .fetch page_b, .unpin page_b false,
      .fetch page_c, .unpin page_c false]

/-- A pool of two frames with a clock after `fetch` and `unpin` of `A`, then `B`, and a
`fetch_page` that threw on a short read: the call took frame 0, the frame of `A`, out of the
replacer. -/
def skipped_pool : TimedPool :=
  (TimedPool.init 2 small_disk).run
    [.fetch page_a, .unpin page_a false, .fetch page_b, .unpin page_b false,
      .fetch page_past_end]

/-- A pool of two frames over `unsynced_disk` after `fetch A`, `unpin A`, `new_page`: frame 1 is
mapped to `A` and pinned, frame 0 is in the replacer and still carries the id `A`. -/
def collided_pool : BufferPoolManager :=
  (BufferPoolManager.init 2 unsynced_disk).run
    [.fetch page_a, .unpin page_a false, .new_page { fd := 3, page_no := 0 }]

/-! ## Columns, records and conditions

Embedding of what the executors of `src/execution` work on. A record (`RmRecord::data`) is its
list of bytes; a `char*` into a record is the list of bytes from that position on. -/

/-- Modelled from the spec: the column types `ColType` (defs.h is not part of the sources). -/
inductive ColType where
  | TYPE_INT
  | TYPE_FLOAT
  | TYPE_STRING
deriving DecidableEq, Repr

/-- Modelled from the spec: column metadata `ColMeta{name, type, length, offset, indexed?}` with
the name of its table. -/
structure ColMeta where
  tab_name : String
  name : String
  type : ColType
  len : Nat
  offset : Nat
  index : Bool
deriving DecidableEq, Repr

/-- Modelled from the spec: a column reference `TabCol`, table name and column name. -/
structure TabCol where
  tab_name : String
  col_name : String
deriving DecidableEq, Repr

/-- Modelled from the spec: the comparison operators `CompOp`, `=, ≠, <, >, ≤, ≥`; `OP_OTHER` stands
for any other value of the enumeration type. -/
inductive CompOp where
  | OP_EQ
  | OP_NE
  | OP_LT
  | OP_GT
  | OP_LE
  | OP_GE
  | OP_OTHER
deriving DecidableEq, Repr

/-- Modelled from the spec: a literal `Value`, its type and its raw bytes (`raw->data`). -/
structure Value where
  type : ColType
  raw : List Byte
deriving DecidableEq, Repr

/-- Modelled from the spec: a predicate `Condition`, which compares a column to a literal or to
another column. -/
structure Condition where
  lhs_col : TabCol
  op : CompOp
  is_rhs_val : Bool
  rhs_col : TabCol
  rhs_val : Value
deriving DecidableEq, Repr

/-- Modelled from the spec: an assignment `SetClause`, `(column, new_value)`. -/
structure SetClause where
  lhs : TabCol
  rhs : Value
deriving DecidableEq, Repr

/-- Modelled from the spec: index metadata `IndexMeta{columns[], total_key_length}` with the
name of its table and the number of its columns. -/
structure IndexMeta where
  tab_name : String
  col_tot_len : Nat
  col_num : Nat
  cols : List ColMeta
deriving DecidableEq, Repr

/-- Modelled from the spec: table metadata `TabMeta` (column layout, index list). -/
structure TabMeta where
  name : String
  cols : List ColMeta
  indexes : List IndexMeta
deriving DecidableEq, Repr

/-- The loop of `get_col`: the position and the metadata of the first column with the given table
and column name, `i` being the position of the head of the list. -/
def get_col_from (target : TabCol) : List ColMeta → Nat → Option (Nat × ColMeta)
  | [], _ => none
  | col :: rest, i =>
    if col.tab_name = target.tab_name ∧ col.name = target.col_name then some (i, col)
    else get_col_from target rest (i + 1)

/-- Modelled from the spec: `AbstractExecutor::get_col` (executor_abstract.h is not part of the
sources), which finds the column a `TabCol` names and throws `ColumnNotFoundError` when there is
none. The iterator it returns is the position with the metadata found there. -/
def get_col (rec_cols : List ColMeta) (target : TabCol) : Except Error (Nat × ColMeta) :=
  match get_col_from target rec_cols 0 with
  | some r => .ok r
  | none => .error .ColumnNotFoundError

/-- Modelled from the spec: `TabMeta::get_col` (sm_meta.h is not part of the sources), which
finds the column of the table with the given name and throws `ColumnNotFoundError` when there is
none. -/
def TabMeta.get_col (tab : TabMeta) (col_name : String) : Except Error ColMeta :=
  match tab.cols.find? (fun col => decide (col.name = col_name)) with
  | some col => .ok col
  | none => .error .ColumnNotFoundError

/-- `memcpy(dst + doff, src, n)` into a buffer of `dst.length` bytes: the `n` bytes at `src` go
to the positions `doff .. doff + n - 1`. Bytes read past the end of `src` read as 0 and bytes
written past the end of `dst` are dropped; the statements below keep both inside. -/
def memcpy (dst : List Byte) (doff : Nat) (src : List Byte) (n : Nat) : List Byte :=
  (List.range dst.length).map
    (fun i => if doff ≤ i ∧ i < doff + n then src.getD (i - doff) 0 else dst.getD i 0)

/-- Modelled from the spec: `RmRecord(size)`, a record of `size` bytes; the bytes are not
initialized by the constructor and read as 0 here. -/
def RmRecord.alloc (size : Nat) : List Byte := List.replicate size 0

/-- The bytes of a column in a record: `len` bytes from `offset` on. -/
def col_bytes (rec : List Byte) (offset len : Nat) : List Byte := (rec.drop offset).take len

/-- The `switch (cond.op)` that ends `eval_cond` in both executors: the sign of the three-way
comparison against the operator; an unknown operator never matches. -/
def CompOp.holds (op : CompOp) (cmp_result : Int) : Bool :=
  match op with
  | .OP_EQ => decide (cmp_result = 0)
  | .OP_NE => decide (cmp_result ≠ 0)
  | .OP_LT => decide (cmp_result < 0)
  | .OP_GT => decide (cmp_result > 0)
  | .OP_LE => decide (cmp_result ≤ 0)
  | .OP_GE => decide (cmp_result ≥ 0)
  | .OP_OTHER => false

/-- The type of `ix_compare(a, b, type, col_len)` (index/ix_defs.h is not part of the sources):
the three-way comparison of the values at two pointers. The executors take it as a parameter. -/
abbrev IxCompare := List Byte → List Byte → ColType → Nat → Int

/-- A three-way comparison used in the examples: the first `col_len` bytes as little-endian
numbers. -/
def le_compare : IxCompare := fun a b _ col_len =>
  let va := (a.take col_len).foldr (fun x acc => x + 256 * acc) 0
  let vb := (b.take col_len).foldr (fun x acc => x + 256 * acc) 0
  if va < vb then -1 else if va = vb then 0 else 1

/-- Modelled from the spec: a child executor (`AbstractExecutor`, executor_abstract.h is not part
of the sources) as the row sequence it produces: `begin()` goes to the first row, `next()` to the
next one, `current()` is the row at the cursor and null at the end, `is_end()` says whether the
rows are exhausted; `cols` and `len` are its schema and its tuple length. -/
structure ChildExecutor where
  cols : List ColMeta
  len : Nat
  rows : List (List Byte)
  pos : Nat
deriving DecidableEq, Repr

/-- Modelled from the spec: `begin()` of a child. -/
def ChildExecutor.beginTuple (c : ChildExecutor) : ChildExecutor := { c with pos := 0 }

/-- Modelled from the spec: `next()` of a child. -/
def ChildExecutor.nextTuple (c : ChildExecutor) : ChildExecutor := { c with pos := c.pos + 1 }

/-- Modelled from the spec: `is_end()` of a child. -/
def ChildExecutor.is_end (c : ChildExecutor) : Bool := decide (c.rows.length ≤ c.pos)

/-- Modelled from the spec: `current()` of a child, null at the end. -/
def ChildExecutor.Next (c : ChildExecutor) : Option (List Byte) := c.rows.get? c.pos

/-! ## The heap file handle on the frames of the pool

`RmFileHandle::fetch_page_handle` over the buffer pool of `src/storage/buffer_pool_manager.cpp`
itself, where a fetch has three outcomes: a frame, null, or an exception of the disk manager. -/

/-- The members of an `RmFileHandle` that `fetch_page_handle` reads: the descriptor `fd_`, the
header `file_hdr_` and the buffer pool `buffer_pool_manager_`. -/
structure RmFileHandleOnPool where
  fd_ : Int
  file_hdr_ : RmFileHdr
  buffer_pool_manager_ : BufferPoolManager

/-- `RmFileHandle::fetch_page_handle` on the frames of the pool. The handle
`RmPageHandle(&file_hdr_, page)` is given by the frame `page` points to. An exception of
`fetch_page` is not caught. -/
def RmFileHandleOnPool.fetch_page_handle (fh : RmFileHandleOnPool) (page_no : Int) :
    Except Error Int × RmFileHandleOnPool :=
  if page_no < 0 ∨ page_no ≥ fh.file_hdr_.num_pages then (.error .PageNotExistError, fh)
  else
    match fh.buffer_pool_manager_.fetch_page { fd := fh.fd_, page_no := page_no } with
    | (.error e, bpm) => (.error e, { fh with buffer_pool_manager_ := bpm })
    | (.ok none, bpm) => (.error .PageNotExistError, { fh with buffer_pool_manager_ := bpm })
    | (.ok (some frame_id), bpm) => (.ok frame_id, { fh with buffer_pool_manager_ := bpm })

/-- The pin count of a page: that of the frame the page table maps it to, 0 for a page in no
frame. -/
def BufferPoolManager.pin_count_of (bpm : BufferPoolManager) (id : PageId) : Int :=
  match bpm.page_table.find id with
  | some frame_id => (bpm.pages frame_id).pin_count
  | none => 0

/-- A heap file whose header counts eleven pages while the file of `small_disk` holds ten, on a
pool of two free frames. -/
def truncated_file : RmFileHandleOnPool :=
  { fd_ := 3
    file_hdr_ :=
      { record_size := 1, num_pages := 11, num_records_per_page := 1, first_free_page_no := -1,
        bitmap_size := 1 }
    buffer_pool_manager_ := BufferPoolManager.init 2 small_disk }

/-! ## Nested-loop join

Embedding of `src/execution/executor_nestedloop_join.h`. A record pointer that may be null is an
`Option`; reading through a null pointer is the error `NullDereference`. -/

/-- The state of a `NestedLoopJoinExecutor`: the two children, the tuple length and the columns
of the result, the join conditions and the flag `isend`. -/
structure NestedLoopJoinExecutor where
  left_ : ChildExecutor
  right_ : ChildExecutor
  len_ : Nat
  cols_ : List ColMeta
  fed_conds_ : List Condition
  isend : Bool
deriving DecidableEq, Repr

/-- The constructor `NestedLoopJoinExecutor::NestedLoopJoinExecutor`. -/
def NestedLoopJoinExecutor.new (left right : ChildExecutor) (conds : List Condition) :
    NestedLoopJoinExecutor :=
  let right_cols := right.cols.map (fun col => { col with offset := col.offset + left.len })
  { left_ := left
    right_ := right
    len_ := left.len + right.len
    cols_ := left.cols ++ right_cols
    isend := false
    fed_conds_ := conds }

/-- `NestedLoopJoinExecutor::beginTuple`. -/
def NestedLoopJoinExecutor.beginTuple (j : NestedLoopJoinExecutor) : NestedLoopJoinExecutor :=
  { j with left_ := j.left_.beginTuple, right_ := j.right_.beginTuple }

/-- `NestedLoopJoinExecutor::is_end`. -/
def NestedLoopJoinExecutor.is_end (j : NestedLoopJoinExecutor) : Bool := j.left_.is_end

/-- `NestedLoopJoinExecutor::eval_cond`: both sides are looked up as columns, the left one in the
left child and the right one in the right child, and compared with the type and the length of the
right column. -/
def NestedLoopJoinExecutor.eval_cond (cmp : IxCompare) (j : NestedLoopJoinExecutor)
    (lhs_rec rhs_rec : Option (List Byte)) (cond : Condition) : Except Error Bool :=
  match get_col j.left_.cols cond.lhs_col with
  | .error e => .error e
  | .ok (_, left_col) =>
    match lhs_rec with
    | none => .error .NullDereference
    | some lhs =>
      let left_val := lhs.drop left_col.offset
      match get_col j.right_.cols cond.rhs_col with
      | .error e => .error e
      | .ok (_, right_col) =>
        match rhs_rec with
        | none => .error .NullDereference
        | some rhs =>
          let right_val := rhs.drop right_col.offset
          let cmp_result := cmp left_val right_val right_col.type right_col.len
          .ok (cond.op.holds cmp_result)

/-- `NestedLoopJoinExecutor::eval_conds`: `std::all_of`, which stops at the first condition that
does not hold. -/
def NestedLoopJoinExecutor.eval_conds (cmp : IxCompare) (j : NestedLoopJoinExecutor)
    (lhs_rec rhs_rec : Option (List Byte)) : List Condition → Except Error Bool
  | [] => .ok true
  | cond :: rest =>
    match j.eval_cond cmp lhs_rec rhs_rec cond with
    | .error e => .error e
    | .ok false => .ok false
    | .ok true => j.eval_conds cmp lhs_rec rhs_rec rest

/-- The inner `while (!right_->is_end())` loop of `nextTuple` for the left record `left_rec`:
`true` when it has found a pair that satisfies the conditions (`nextTuple` returns there), `false`
when the right child is exhausted. `fuel` bounds the iterations; `outer_loop` passes the number of
rows the right child has left, so the loop condition is false when the fuel is spent. -/
def NestedLoopJoinExecutor.inner_loop (cmp : IxCompare) (left_rec : Option (List Byte)) :
    Nat → NestedLoopJoinExecutor → Except Error Bool × NestedLoopJoinExecutor
  | 0, j => (.ok false, j)
  | fuel + 1, j =>
    if j.right_.is_end = false then
      let right_rec := j.right_.Next
      match j.eval_conds cmp left_rec right_rec j.fed_conds_ with
      | .error e => (.error e, j)
      | .ok true => (.ok true, j)
      | .ok false =>
        NestedLoopJoinExecutor.inner_loop cmp left_rec fuel
          { j with right_ := j.right_.nextTuple }
    else (.ok false, j)

/-- The outer `while (!left_->is_end())` loop of `nextTuple` with the assignment `isend = true`
after it. `fuel` bounds the iterations; `nextTuple` passes the number of rows the left child has
left, so the loop condition is false when the fuel is spent. -/
def NestedLoopJoinExecutor.outer_loop (cmp : IxCompare) :
    Nat → NestedLoopJoinExecutor → Except Error Unit × NestedLoopJoinExecutor
  | 0, j => (.ok (), { j with isend := true })
  | fuel + 1, j =>
    if j.left_.is_end = false then
      let left_rec := j.left_.Next
      match NestedLoopJoinExecutor.inner_loop cmp left_rec
          (j.right_.rows.length - j.right_.pos) j with
      | (.error e, j1) => (.error e, j1)
      | (.ok true, j1) => (.ok (), j1)
      | (.ok false, j1) =>
        let j2 : NestedLoopJoinExecutor := { j1 with left_ := j1.left_.nextTuple }
        if j2.left_.is_end then (.ok (), { j2 with isend := true })
        else
          NestedLoopJoinExecutor.outer_loop cmp fuel { j2 with right_ := j2.right_.beginTuple }
    else (.ok (), { j with isend := true })

/-- `NestedLoopJoinExecutor::nextTuple`. -/
def NestedLoopJoinExecutor.nextTuple (cmp : IxCompare) (j : NestedLoopJoinExecutor) :
    Except Error Unit × NestedLoopJoinExecutor :=
  let j1 : NestedLoopJoinExecutor :=
    if j.right_.is_end = false then { j with right_ := j.right_.nextTuple } else j
  NestedLoopJoinExecutor.outer_loop cmp (j1.left_.rows.length - j1.left_.pos) j1

/-- `NestedLoopJoinExecutor::Next`: the `while (!isend)` loop, `none` when `fuel` iterations do not
leave it. The result `.ok none` is the null record. -/
def NestedLoopJoinExecutor.Next (cmp : IxCompare) :
    Nat → NestedLoopJoinExecutor →
      Option (Except Error (Option (List Byte)) × NestedLoopJoinExecutor)
  | 0, j => if j.isend then some (.ok none, j) else none
  | fuel + 1, j =>
    if j.isend then some (.ok none, j)
    else
      let left_rec := j.left_.Next
      let right_rec := j.right_.Next
      match j.eval_conds cmp left_rec right_rec j.fed_conds_ with
      | .error e => some (.error e, j)
      | .ok true =>
        match left_rec, right_rec with
        | some lhs, some rhs =>
          let join_rec := RmRecord.alloc j.len_
          let join_rec := memcpy join_rec 0 lhs j.left_.len
          let join_rec := memcpy join_rec j.left_.len rhs j.right_.len
          some (.ok (some join_rec), j)
        | _, _ => some (.error .NullDereference, j)
      | .ok false =>
        match j.nextTuple cmp with
        | (.error e, j1) => some (.error e, j1)
        | (.ok _, j1) => NestedLoopJoinExecutor.Next cmp fuel j1

/-- The loop `while not is_end(): emit Next(); nextTuple()` of the driver, collecting what
`Next()` returns; every call of `Next` gets the fuel `next_fuel`; `none` when `fuel` rounds do not
reach the end or a call of `Next` runs out of its fuel. -/
def NestedLoopJoinExecutor.drive_loop (cmp : IxCompare) (next_fuel : Nat) :
    Nat → NestedLoopJoinExecutor →
      Option (Except Error (List (Option (List Byte))) × NestedLoopJoinExecutor)
  | 0, j => if j.is_end then some (.ok [], j) else none
  | fuel + 1, j =>
    if j.is_end then some (.ok [], j)
    else
      match NestedLoopJoinExecutor.Next cmp next_fuel j with
      | none => none
      | some (.error e, j1) => some (.error e, j1)
      | some (.ok rec, j1) =>
        match j1.nextTuple cmp with
        | (.error e, j2) => some (.error e, j2)
        | (.ok _, j2) =>
          match NestedLoopJoinExecutor.drive_loop cmp next_fuel fuel j2 with
          | none => none
          | some (.error e, j3) => some (.error e, j3)
          | some (.ok recs, j3) => some (.ok (rec :: recs), j3)

/-- The driver `beginTuple(); while not is_end(): emit Next(); nextTuple()`. -/
def NestedLoopJoinExecutor.drive (cmp : IxCompare) (next_fuel fuel : Nat)
    (j : NestedLoopJoinExecutor) :
    Option (Except Error (List (Option (List Byte))) × NestedLoopJoinExecutor) :=
  NestedLoopJoinExecutor.drive_loop cmp next_fuel fuel j.beginTuple

/-- The outcome of `eval_conds` as a yes or no: yes when it returns `true`. -/
def holds_true : Except Error Bool → Bool
  | .ok true => true
  | _ => false

/-- The concatenations of the left row `lhs` with those of the right rows `rights`, in their
order, that satisfy every condition of the join together with it. -/
def NestedLoopJoinExecutor.row_matches (cmp : IxCompare) (j : NestedLoopJoinExecutor)
    (lhs : List Byte) (rights : List (List Byte)) : List (List Byte) :=
  (rights.filter (fun rhs =>
    holds_true (j.eval_conds cmp (some lhs) (some rhs) j.fed_conds_))).map (fun rhs => lhs ++ rhs)

/-- The concatenations of the pairs of rows that satisfy every condition of the join, in
left-major order: the left rows in their order and, for each, the right rows in theirs. A pair
occurs once for each of its positions in the two row sequences. -/
def NestedLoopJoinExecutor.matches (cmp : IxCompare) (j : NestedLoopJoinExecutor) :
    List (List Byte) :=
  j.left_.rows.flatMap (fun lhs => j.row_matches cmp lhs j.right_.rows)

/-- What is left to emit when the cursors are at the left row `i` and the right row `k`: the
matches of the left row `i` with the right rows from `k` on, then the matches of the later left
rows. -/
def NestedLoopJoinExecutor.todo_at (cmp : IxCompare) (j : NestedLoopJoinExecutor) (i k : Nat) :
    List (List Byte) :=
  (match j.left_.rows.get? i with
    | none => []
    | some lhs => j.row_matches cmp lhs (j.right_.rows.drop k)) ++
  (j.left_.rows.drop (i + 1)).flatMap (fun lhs => j.row_matches cmp lhs j.right_.rows)

/-- What is left to emit from the cursors of the join on. -/
def NestedLoopJoinExecutor.todo (cmp : IxCompare) (j : NestedLoopJoinExecutor) :
    List (List Byte) :=
  j.todo_at cmp j.left_.pos j.right_.pos

/-- The cursors of the join are on a pair of rows that satisfies every condition, and `isend` is
not set. -/
def NestedLoopJoinExecutor.at_match (cmp : IxCompare) (j : NestedLoopJoinExecutor) : Prop :=
  j.isend = false ∧ ∃ lhs rhs, j.left_.Next = some lhs ∧ j.right_.Next = some rhs ∧
    j.eval_conds cmp (some lhs) (some rhs) j.fed_conds_ = .ok true

/-- Two states of a join that differ in the cursors and in `isend` at most: the rows, the schemas,
the lengths and the conditions are the same. -/
structure NestedLoopJoinExecutor.same (j j1 : NestedLoopJoinExecutor) : Prop where
  lrows : j1.left_.rows = j.left_.rows
  rrows : j1.right_.rows = j.right_.rows
  lcols : j1.left_.cols = j.left_.cols
  rcols : j1.right_.cols = j.right_.cols
  llen : j1.left_.len = j.left_.len
  rlen : j1.right_.len = j.right_.len
  len : j1.len_ = j.len_
  cols : j1.cols_ = j.cols_
  conds : j1.fed_conds_ = j.fed_conds_

/-- The join conditions name columns of the children: the left side one of the left child, the
right side one of the right child, so that `get_col` finds both. -/
def NestedLoopJoinExecutor.resolves (j : NestedLoopJoinExecutor) : Prop :=
  ∀ cond ∈ j.fed_conds_,
    (∃ r, get_col j.left_.cols cond.lhs_col = .ok r) ∧
    (∃ r, get_col j.right_.cols cond.rhs_col = .ok r)

/-- The join is over children whose rows have their tuple lengths, its conditions name columns
of the children, and its tuple length is the sum of theirs, as the constructor sets it. -/
def NestedLoopJoinExecutor.well_formed (j : NestedLoopJoinExecutor) : Prop :=
  j.resolves ∧ (∀ row ∈ j.left_.rows, row.length = j.left_.len) ∧
    (∀ row ∈ j.right_.rows, row.length = j.right_.len) ∧ j.len_ = j.left_.len + j.right_.len

/-- One four-byte little-endian integer column `name` of table `tab` at offset 0. -/
def int_col (tab name : String) : ColMeta :=
  { tab_name := tab, name := name, type := .TYPE_INT, len := 4, offset := 0, index := false }

/-- The four bytes of a small integer, little-endian. -/
def int_bytes (n : Nat) : List Byte := [n % 256, 0, 0, 0]

/-- The left child of the join example: `R(x)` with the rows 1, 2. -/
def join_left : ChildExecutor :=
  { cols := [int_col "R" "x"], len := 4, rows := [int_bytes 1, int_bytes 2], pos := 0 }

/-- The right child of the join example: `S(y)` with the rows 1, 3. -/
def join_right : ChildExecutor :=
  { cols := [int_col "S" "y"], len := 4, rows := [int_bytes 1, int_bytes 3], pos := 0 }

/-- The predicate `R.x = S.y`. -/
def join_cond : Condition :=
  { lhs_col := { tab_name := "R", col_name := "x" }
    op := .OP_EQ
    is_rhs_val := false
    rhs_col := { tab_name := "S", col_name := "y" }
    rhs_val := { type := .TYPE_INT, raw := [] } }


/-- Modelled from the spec: a pair of rows satisfies the predicate `lhs op rhs` of a join when the
operator holds of the three-way comparison of the bytes of the left column in the left row with
the bytes of the right column in the right row, the comparator being given the type and the
length of the right column; a predicate that names no column of the left child on its left or no
column of the right child on its right is not satisfied. -/
def pair_satisfies_cond (cmp : IxCompare) (left_cols right_cols : List ColMeta)
    (lhs rhs : List Byte) (cond : Condition) : Bool :=
  match get_col left_cols cond.lhs_col, get_col right_cols cond.rhs_col with
  | .ok (_, left_col), .ok (_, right_col) =>
    cond.op.holds
      (cmp (lhs.drop left_col.offset) (rhs.drop right_col.offset) right_col.type right_col.len)
  | _, _ => false

/-- Modelled from the spec: a pair of rows satisfies every predicate of a join. -/
def pair_satisfies (cmp : IxCompare) (left_cols right_cols : List ColMeta)
    (conds : List Condition) (lhs rhs : List Byte) : Bool :=
  conds.all (fun cond => pair_satisfies_cond cmp left_cols right_cols lhs rhs cond)

/-- Modelled from the spec: the output of a join, the concatenations `l ++ r` of the pairs of
rows that satisfy every predicate, in left-major order: `l` in the order of the left rows and,
for each `l`, `r` in the order of the right rows. -/
def join_pairs (cmp : IxCompare) (left right : ChildExecutor) (conds : List Condition) :
    List (List Byte) :=
  left.rows.flatMap (fun lhs =>
    (right.rows.filter (fun rhs => pair_satisfies cmp left.cols right.cols conds lhs rhs)).map
      (fun rhs => lhs ++ rhs))
/-! ## Projection

Embedding of `src/execution/executor_projection.h`. -/

/-- The state of a `ProjectionExecutor`: the child, the columns and the tuple length of the
result, and for each selected column its position among the columns of the child. -/
structure ProjectionExecutor where
  prev_ : ChildExecutor
  cols_ : List ColMeta
  len_ : Nat
  sel_idxs_ : List Nat
deriving DecidableEq, Repr

/-- The loop of the constructor over the selected columns, from the offset `curr_offset` and the
vectors `sel_idxs_` and `cols_` filled so far; it returns the final offset with the two
vectors. -/
def ProjectionExecutor.new_loop (prev_cols : List ColMeta) :
    List TabCol → Nat → List Nat → List ColMeta → Except Error (Nat × List Nat × List ColMeta)
  | [], curr_offset, sel_idxs, cols => .ok (curr_offset, sel_idxs, cols)
  | sel_col :: rest, curr_offset, sel_idxs, cols =>
    match get_col prev_cols sel_col with
    | .error e => .error e
    | .ok (pos, col) =>
      ProjectionExecutor.new_loop prev_cols rest (curr_offset + col.len) (sel_idxs ++ [pos])
        (cols ++ [{ col with offset := curr_offset }])

/-- The constructor `ProjectionExecutor::ProjectionExecutor`; it throws what `get_col` throws. -/
def ProjectionExecutor.new (prev : ChildExecutor) (sel_cols : List TabCol) :
    Except Error ProjectionExecutor :=
  match ProjectionExecutor.new_loop prev.cols sel_cols 0 [] [] with
  | .error e => .error e
  | .ok (curr_offset, sel_idxs, cols) =>
    .ok { prev_ := prev, cols_ := cols, len_ := curr_offset, sel_idxs_ := sel_idxs }

/-- `ProjectionExecutor::beginTuple`. -/
def ProjectionExecutor.beginTuple (p : ProjectionExecutor) : ProjectionExecutor :=
  { p with prev_ := p.prev_.beginTuple }

/-- `ProjectionExecutor::nextTuple`. -/
def ProjectionExecutor.nextTuple (p : ProjectionExecutor) : ProjectionExecutor :=
  { p with prev_ := p.prev_.nextTuple }

/-- `ProjectionExecutor::is_end`. -/
def ProjectionExecutor.is_end (p : ProjectionExecutor) : Bool := p.prev_.is_end

/-- The loop `for (i = 0; i < sel_idxs_.size(); i++)` of `Next`, over the remaining entries of
`sel_idxs_` and of `cols_`: the bytes of the column `prev_->cols()[sel_idxs_[i]]` of the record of
the child go to the offset of `cols_[i]`. An index past the end of a vector is `OutOfBounds`. -/
def ProjectionExecutor.copy_loop (prev_cols : List ColMeta) (prev_rec : List Byte) :
    List Nat → List ColMeta → List Byte → Except Error (List Byte)
  | [], _, proj_rec => .ok proj_rec
  | idx :: idxs, cols, proj_rec =>
    match prev_cols.get? idx, cols with
    | some prev_col, proj_col :: rest =>
      ProjectionExecutor.copy_loop prev_cols prev_rec idxs rest
        (memcpy proj_rec proj_col.offset (prev_rec.drop prev_col.offset) prev_col.len)
    | _, _ => .error .OutOfBounds

/-- `ProjectionExecutor::Next`; the result `.ok none` is the null record. -/
def ProjectionExecutor.Next (p : ProjectionExecutor) : Except Error (Option (List Byte)) :=
  match p.prev_.Next with
  | none => .ok none
  | some prev_rec =>
    match ProjectionExecutor.copy_loop p.prev_.cols prev_rec p.sel_idxs_ p.cols_
        (RmRecord.alloc p.len_) with
    | .error e => .error e
    | .ok proj_rec => .ok (some proj_rec)

/-- The child of the projection example: the schema `(a, b, c)` of four-byte integers with the
rows `(1, 2, 3)` and `(4, 5, 6)`. -/
def abc_rows : ChildExecutor :=
  { cols := [int_col "t" "a", { int_col "t" "b" with offset := 4 },
      { int_col "t" "c" with offset := 8 }]
    len := 12
    rows := [int_bytes 1 ++ int_bytes 2 ++ int_bytes 3, int_bytes 4 ++ int_bytes 5 ++ int_bytes 6]
    pos := 0 }

/-- The columns `cols` laid out one after the other from the offset `offset` on: each keeps its
fields but the offset, which is the sum of the lengths of the columns before it. -/
def relocate : List ColMeta → Nat → List ColMeta
  | [], _ => []
  | col :: rest, offset => { col with offset := offset } :: relocate rest (offset + col.len)

/-- The projection `(c, a)` of `abc_rows`, as the constructor builds it. -/
def ca_projection : ProjectionExecutor :=
  { prev_ := abc_rows
    cols_ := [int_col "t" "c", { int_col "t" "a" with offset := 4 }]
    len_ := 8
    sel_idxs_ := [2, 0] }

/-! ## Sequential scan

Embedding of `src/execution/executor_seq_scan.h`. The `RmScan` that `scan_` points to reads the
file handle `fh_` itself, so its state is its cursor alone. -/

/-- The state of a `SeqScanExecutor`: the conditions, the file handle `*fh_`, the columns and the
tuple length, the current RID `rid_`, and the cursor of the `RmScan` behind `scan_`, `none` for
the null `scan_` of an executor on which `beginTuple` has not run. -/
structure SeqScanExecutor where
  conds_ : List Condition
  fh_ : RmFileHandle
  cols_ : List ColMeta
  len_ : Nat
  rid_ : Rid
  scan_ : Option Rid

/-- The constructor `SeqScanExecutor::SeqScanExecutor` for the table metadata and the file handle
that it looks up in the catalog. `len_` is read off the last column (`cols_.back()`, 0 here for a
table without columns, where the source reads past an empty vector); `rid_` is left
uninitialized by the source and is `(-1, -1)` here. -/
def SeqScanExecutor.new (tab : TabMeta) (fh : RmFileHandle) (conds : List Condition) :
    SeqScanExecutor :=
  { conds_ := conds
    fh_ := fh
    cols_ := tab.cols
    len_ := match tab.cols.getLast? with
      | some col => col.offset + col.len
      | none => 0
    rid_ := { page_no := -1, slot_no := -1 }
    scan_ := none }

/-- `SeqScanExecutor::eval_cond`: the left side is a column of the record, the right side the
literal of the condition or another column of the record; they are compared with the type of the
right side and the length of the left column. -/
def SeqScanExecutor.eval_cond (cmp : IxCompare) (e : SeqScanExecutor) (rec : List Byte)
    (cond : Condition) : Except Error Bool :=
  match get_col e.cols_ cond.lhs_col with
  | .error err => .error err
  | .ok (_, left_col) =>
    let left_val := rec.drop left_col.offset
    let len := left_col.len
    let rhs : Except Error (List Byte × ColType) :=
      if cond.is_rhs_val then .ok (cond.rhs_val.raw, cond.rhs_val.type)
      else
        match get_col e.cols_ cond.rhs_col with
        | .error err => .error err
        | .ok (_, right_col) => .ok (rec.drop right_col.offset, right_col.type)
    match rhs with
    | .error err => .error err
    | .ok (right_val, col_type) =>
      let cmp_result := cmp left_val right_val col_type len
      .ok (cond.op.holds cmp_result)

/-- `SeqScanExecutor::eval_conds`: `std::all_of`, which stops at the first condition that does not
hold. -/
def SeqScanExecutor.eval_conds (cmp : IxCompare) (e : SeqScanExecutor) (rec : List Byte) :
    List Condition → Except Error Bool
  | [] => .ok true
  | cond :: rest =>
    match e.eval_cond cmp rec cond with
    | .error err => .error err
    | .ok false => .ok false
    | .ok true => e.eval_conds cmp rec rest

/-- `SeqScanExecutor::is_end`: `scan_->is_end()`. -/
def SeqScanExecutor.is_end (e : SeqScanExecutor) : Except Error Bool :=
  match e.scan_ with
  | none => .error .NullDereference
  | some cur => .ok (RmScan.is_end { file_handle := e.fh_, rid := cur })

/-- The loop `while (!scan_->is_end())` of `beginTuple` and `nextTuple`: it stops on the first
record from the cursor on that satisfies the conditions, with its RID in `rid_`, or at the end of
the file. `get_record` returns no null record, so the branch `if (!record)` is never taken. `none`
when `fuel` rounds do not leave the loop. -/
def SeqScanExecutor.seek (cmp : IxCompare) :
    Nat → SeqScanExecutor → Option (Except Error Unit × SeqScanExecutor)
  | 0, e =>
    match e.scan_ with
    | none => some (.error .NullDereference, e)
    | some cur =>
      if RmScan.is_end { file_handle := e.fh_, rid := cur } then some (.ok (), e) else none
  | fuel + 1, e =>
    match e.scan_ with
    | none => some (.error .NullDereference, e)
    | some cur =>
      if RmScan.is_end { file_handle := e.fh_, rid := cur } then some (.ok (), e)
      else
        let e1 : SeqScanExecutor := { e with rid_ := cur }
        match e1.fh_.get_record e1.rid_ with
        | (.error err, fh1) => some (.error err, { e1 with fh_ := fh1 })
        | (.ok record, fh1) =>
          let e2 : SeqScanExecutor := { e1 with fh_ := fh1 }
          let found : Except Error Bool :=
            if e2.conds_.isEmpty then .ok true else e2.eval_conds cmp record e2.conds_
          match found with
          | .error err => some (.error err, e2)
          | .ok true => some (.ok (), e2)
          | .ok false =>
            match RmScan.next { file_handle := e2.fh_, rid := cur } with
            | (.error err, s) =>
              some (.error err, { e2 with fh_ := s.file_handle, scan_ := some s.rid })
            | (.ok _, s) =>
              SeqScanExecutor.seek cmp fuel
                { e2 with fh_ := s.file_handle, scan_ := some s.rid }

/-- `SeqScanExecutor::beginTuple`. When the constructor of `RmScan` throws, `scan_` is not
assigned. -/
def SeqScanExecutor.beginTuple (cmp : IxCompare) (fuel : Nat) (e : SeqScanExecutor) :
    Option (Except Error Unit × SeqScanExecutor) :=
  match RmScan.new e.fh_ with
  | (.error err, s) => some (.error err, { e with fh_ := s.file_handle })
  | (.ok _, s) =>
    match SeqScanExecutor.seek cmp fuel { e with fh_ := s.file_handle, scan_ := some s.rid } with
    | none => none
    | some (.error err, e1) => some (.error err, e1)
    | some (.ok _, e1) =>
      match e1.is_end with
      | .error err => some (.error err, e1)
      | .ok true => some (.ok (), { e1 with rid_ := { page_no := -1, slot_no := -1 } })
      | .ok false => some (.ok (), e1)

/-- `SeqScanExecutor::nextTuple`. -/
def SeqScanExecutor.nextTuple (cmp : IxCompare) (fuel : Nat) (e : SeqScanExecutor) :
    Option (Except Error Unit × SeqScanExecutor) :=
  match e.scan_ with
  | none => some (.error .NullDereference, e)
  | some cur =>
    if RmScan.is_end { file_handle := e.fh_, rid := cur } then
      some (.ok (), { e with rid_ := { page_no := -1, slot_no := -1 } })
    else
      match RmScan.next { file_handle := e.fh_, rid := cur } with
      | (.error err, s) => some (.error err, { e with fh_ := s.file_handle, scan_ := some s.rid })
      | (.ok _, s) =>
        SeqScanExecutor.seek cmp fuel { e with fh_ := s.file_handle, scan_ := some s.rid }

/-- `SeqScanExecutor::Next`: `fh_->get_record(rid_)`. -/
def SeqScanExecutor.Next (e : SeqScanExecutor) : Except Error (List Byte) × SeqScanExecutor :=
  match e.fh_.get_record e.rid_ with
  | (r, fh1) => (r, { e with fh_ := fh1 })

/-- The loop `while not is_end(): emit rid(); nextTuple()` of the driver, collecting the RIDs;
every call of `nextTuple` gets the fuel `seek_fuel`; `none` when `fuel` rounds do not reach the
end or a call runs out of its fuel. -/
def SeqScanExecutor.drive_loop (cmp : IxCompare) (seek_fuel : Nat) :
    Nat → SeqScanExecutor → Option (Except Error (List Rid) × SeqScanExecutor)
  | 0, e =>
    match e.is_end with
    | .error err => some (.error err, e)
    | .ok true => some (.ok [], e)
    | .ok false => none
  | fuel + 1, e =>
    match e.is_end with
    | .error err => some (.error err, e)
    | .ok true => some (.ok [], e)
    | .ok false =>
      match e.nextTuple cmp seek_fuel with
      | none => none
      | some (.error err, e1) => some (.error err, e1)
      | some (.ok _, e1) =>
        match SeqScanExecutor.drive_loop cmp seek_fuel fuel e1 with
        | none => none
        | some (.error err, e2) => some (.error err, e2)
        | some (.ok rids, e2) => some (.ok (e.rid_ :: rids), e2)

/-- The driver `beginTuple(); while not is_end(): emit rid(); nextTuple()`. -/
def SeqScanExecutor.drive (cmp : IxCompare) (seek_fuel fuel : Nat) (e : SeqScanExecutor) :
    Option (Except Error (List Rid) × SeqScanExecutor) :=
  match e.beginTuple cmp seek_fuel with
  | none => none
  | some (.error err, e1) => some (.error err, e1)
  | some (.ok _, e1) => SeqScanExecutor.drive_loop cmp seek_fuel fuel e1

/-- The record stored at a RID: the bytes `get_record` copies out of the slot. -/
def RmFileHandle.record_at (fh : RmFileHandle) (rid : Rid) : List Byte :=
  match fh.pool.pages rid.page_no with
  | some pg => copy_record (pg.slots rid.slot_no) fh.file_hdr.record_size
  | none => []

/-- The record at the RID satisfies every condition of the scan. -/
def SeqScanExecutor.satisfied (cmp : IxCompare) (e : SeqScanExecutor) (rid : Rid) : Bool :=
  holds_true (e.eval_conds cmp (e.fh_.record_at rid) e.conds_)

/-- The conditions of the scan name columns of the table: the left side always, the right side
when it is a column. -/
def SeqScanExecutor.resolves (e : SeqScanExecutor) : Prop :=
  ∀ cond ∈ e.conds_,
    (∃ r, get_col e.cols_ cond.lhs_col = .ok r) ∧
    (cond.is_rhs_val = false → ∃ r, get_col e.cols_ cond.rhs_col = .ok r)

/-- Two states of a scan over the same stored data: the conditions, the columns, the header of
the file and its pages are the same. -/
structure SeqScanExecutor.same (e e1 : SeqScanExecutor) : Prop where
  conds : e1.conds_ = e.conds_
  cols : e1.cols_ = e.cols_
  hdr : e1.fh_.file_hdr = e.fh_.file_hdr
  pages : e1.fh_.pool.pages = e.fh_.pool.pages

/-- What the scan has still to emit from the cursor `cur` on: the RIDs the heap scan has to
visit whose records satisfy the conditions. -/
def SeqScanExecutor.todo (cmp : IxCompare) (e : SeqScanExecutor) (cur : Rid) : List Rid :=
  (RmScan.todo { file_handle := e.fh_, rid := cur }).filter (fun rid => e.satisfied cmp rid)

/-- The table `t(a, b, c)` of four-byte integers, without indexes. -/
def abc_table : TabMeta := { name := "t", cols := abc_rows.cols, indexes := [] }

/-- The heap file of `abc_table`: records of 12 bytes, 3 per page, one data page with the rows
`(1, 2, 3)` in slot 0 and `(4, 5, 6)` in slot 1; slot 2 is free. -/
def abc_file : RmFileHandle :=
  { file_hdr :=
      { record_size := 12, num_pages := 2, num_records_per_page := 3,
        first_free_page_no := 1, bitmap_size := 1 }
    disk_hdr :=
      { record_size := 12, num_pages := 2, num_records_per_page := 3,
        first_free_page_no := 1, bitmap_size := 1 }
    pool :=
      { pages := fun q =>
          if q = 1 then
            some { page_hdr := { next_free_page_no := RM_NO_PAGE, num_records := 2 }
                   bitmap := fun i => decide (i = 0 ∨ i = 1)
                   slots := fun i =>
                     if i = 0 then int_bytes 1 ++ int_bytes 2 ++ int_bytes 3
                     else if i = 1 then int_bytes 4 ++ int_bytes 5 ++ int_bytes 6
                     else List.replicate 12 0 }
          else none
        pin_count := fun _ => 0
        is_dirty := fun _ => false
        has_victim := true
        fd2pageno := 2 } }

/-- The condition `t.a > 1`, the literal given by its four bytes. -/
def a_above_one : Condition :=
  { lhs_col := { tab_name := "t", col_name := "a" }
    op := .OP_GT
    is_rhs_val := true
    rhs_col := { tab_name := "", col_name := "" }
    rhs_val := { type := .TYPE_INT, raw := int_bytes 1 } }

/-! ## Indexes, update and delete

Embedding of `src/execution/executor_update.h` and `src/execution/executor_delete.h`. The
executors reach the heap file through `fh_` and the open indexes through `sm_manager_->ihs_`;
the model carries both, and a log of the calls they make on them. -/

/-- A `std::map` / `std::unordered_map` with string keys as an association list; a key occurs at
most once. -/
abbrev StrMap (α : Type) := List (String × α)

/-- The lookup `m.find(key)`. -/
def StrMap.find {α : Type} : StrMap α → String → Option α
  | [], _ => none
  | (k, v) :: rest, key => if k = key then some v else StrMap.find rest key

/-- The removal `m.erase(key)`. -/
def StrMap.erase {α : Type} (m : StrMap α) (key : String) : StrMap α :=
  m.filter (fun e => decide (e.1 ≠ key))

/-- The assignment `m[key] = v`: the value of a key that is present is overwritten in place. -/
def StrMap.set {α : Type} : StrMap α → String → α → StrMap α
  | [], key, v => [(key, v)]
  | (k, w) :: rest, key, v =>
    if k = key then (k, v) :: rest else (k, w) :: StrMap.set rest key v

/-- A call through the pointer `m.at(key)`: the object stored under the key is changed in
place. -/
def StrMap.modify {α : Type} (m : StrMap α) (key : String) (f : α → α) : StrMap α :=
  m.map (fun e => if e.1 = key then (e.1, f e.2) else e)

/-- Modelled from the spec: an open index `IxIndexHandle` as the black-box map of its contract,
the entries `(key, rid)` it holds, a key at most once; `fd` is the descriptor of its file. -/
structure IxIndexHandle where
  fd : Int
  entries : List (List Byte × Rid)
deriving DecidableEq, Repr

/-- Modelled from the spec: `insert_entry(key, rid, txn)` adds the entry; a key that is present
keeps its entry. -/
def IxIndexHandle.insert_entry (ih : IxIndexHandle) (key : List Byte) (rid : Rid) :
    IxIndexHandle :=
  if ih.entries.any (fun en => decide (en.1 = key)) then ih
  else { ih with entries := ih.entries ++ [(key, rid)] }

/-- Modelled from the spec: `delete_entry(key, txn)` removes the entry of the key, if any. -/
def IxIndexHandle.delete_entry (ih : IxIndexHandle) (key : List Byte) : IxIndexHandle :=
  { ih with entries := ih.entries.filter (fun en => decide (en.1 ≠ key)) }

/-- Modelled from the spec: `get_index_name(table, cols)`, the name `<tab_name>_<col1>_<col2>_…`
of the index file, which is also the key of the index in `ihs_`. -/
def get_index_name (tab_name : String) (index_cols : List ColMeta) : String :=
  index_cols.foldl (fun name col => name ++ "_" ++ col.name) tab_name

/-- A call that the executors and the catalog make on an index handle or on the heap file. -/
inductive Call where
  | delete_entry (index_name : String) (key : List Byte)
  | insert_entry (index_name : String) (key : List Byte) (rid : Rid)
  | delete_record (rid : Rid)
  | update_record (rid : Rid) (buf : List Byte)
deriving DecidableEq, Repr

/-- The loop that builds an index key: `memcpy(key + offset, rec->data + col.offset, col.len);
offset += col.len` for the columns in turn. -/
def fill_key (rec : List Byte) : List ColMeta → Nat → List Byte → List Byte
  | [], _, key => key
  | col :: rest, offset, key =>
    fill_key rec rest (offset + col.len) (memcpy key offset (rec.drop col.offset) col.len)

/-- The loop `for (j = 0; j < index.col_num; ++j)` over `index.cols[j]` into the buffer `key`;
`col_num` is the number of columns of the index. -/
def IndexMeta.fill (index : IndexMeta) (rec key : List Byte) : List Byte :=
  fill_key rec (index.cols.take index.col_num) 0 key

/-- The key of a record in an index: the bytes of the index columns, one column after the other
in the order of the index. -/
def IndexMeta.key_of (index : IndexMeta) (rec : List Byte) : List Byte :=
  (index.cols.map (fun col => col_bytes rec col.offset col.len)).flatten

/-- The state an `UpdateExecutor` works on: its members, the heap file `*fh_`, the open indexes
`sm_manager_->ihs_`, and the log of the calls made so far. -/
structure UpdateExecutor where
  tab_ : TabMeta
  fh_ : RmFileHandle
  rids_ : List Rid
  tab_name_ : String
  set_clauses_ : List SetClause
  ihs_ : StrMap IxIndexHandle
  calls : List Call

/-- The first loop of `UpdateExecutor::Next`: the indexes of the table whose name is a key of
`ihs_`, each with its name (which stands for the pointer to the handle) and its key buffer of
`col_tot_len` bytes. -/
def UpdateExecutor.index_handles (ex : UpdateExecutor) :
    List (IndexMeta × String × List Byte) :=
  ex.tab_.indexes.filterMap (fun index =>
    let index_name := get_index_name ex.tab_name_ index.cols
    match ex.ihs_.find index_name with
    | some _ => some (index, index_name, List.replicate index.col_tot_len 0)
    | none => none)

/-- The loop over `set_clauses_`: each assignment copies the bytes of its value over the column
it names; `tab_.get_col` throws for a name that is no column of the table. -/
def UpdateExecutor.apply_set_clauses (tab : TabMeta) :
    List SetClause → List Byte → Except Error (List Byte)
  | [], rec => .ok rec
  | set_clause :: rest, rec =>
    match tab.get_col set_clause.lhs.col_name with
    | .error e => .error e
    | .ok lhs_col =>
      UpdateExecutor.apply_set_clauses tab rest
        (memcpy rec lhs_col.offset set_clause.rhs.raw lhs_col.len)

/-- The loop commented "delete the old index": for each index with a handle the key is built
from `rec` into the key buffer and `delete_entry` is called with it. -/
def UpdateExecutor.delete_entries (rec : List Byte) :
    List (IndexMeta × String × List Byte) → StrMap IxIndexHandle → List Call →
      List (IndexMeta × String × List Byte) × StrMap IxIndexHandle × List Call
  | [], ihs, calls => ([], ihs, calls)
  | (index_meta, ih, key_buf) :: rest, ihs, calls =>
    let key_buf1 := index_meta.fill rec key_buf
    let ihs1 := ihs.modify ih (fun h => h.delete_entry key_buf1)
    match UpdateExecutor.delete_entries rec rest ihs1 (calls ++ [.delete_entry ih key_buf1]) with
    | (rest1, ihs2, calls2) => ((index_meta, ih, key_buf1) :: rest1, ihs2, calls2)

/-- The loop commented "insert the new index": `insert_entry` with the key buffer of each
index. -/
def UpdateExecutor.insert_entries (rid : Rid) :
    List (IndexMeta × String × List Byte) → StrMap IxIndexHandle → List Call →
      StrMap IxIndexHandle × List Call
  | [], ihs, calls => (ihs, calls)
  | (_, ih, key_buf) :: rest, ihs, calls =>
    UpdateExecutor.insert_entries rid rest (ihs.modify ih (fun h => h.insert_entry key_buf rid))
      (calls ++ [.insert_entry ih key_buf rid])

/-- The loop `for (auto& rid : rids_)` of `UpdateExecutor::Next`. -/
def UpdateExecutor.update_rows :
    List Rid → List (IndexMeta × String × List Byte) → UpdateExecutor →
      Except Error Unit × UpdateExecutor
  | [], _, ex => (.ok (), ex)
  | rid :: rest, handles, ex =>
    match ex.fh_.get_record rid with
    | (.error e, fh1) => (.error e, { ex with fh_ := fh1 })
    | (.ok rec, fh1) =>
      match UpdateExecutor.apply_set_clauses ex.tab_ ex.set_clauses_ rec with
      | .error e => (.error e, { ex with fh_ := fh1 })
      | .ok rec1 =>
        match UpdateExecutor.delete_entries rec1 handles ex.ihs_ ex.calls with
        | (handles1, ihs1, calls1) =>
          match fh1.update_record rid rec1 with
          | (.error e, fh2) => (.error e, { ex with fh_ := fh2, ihs_ := ihs1, calls := calls1 })
          | (.ok _, fh2) =>
            match UpdateExecutor.insert_entries rid handles1 ihs1
                (calls1 ++ [.update_record rid rec1]) with
            | (ihs2, calls2) =>
              UpdateExecutor.update_rows rest handles1
                { ex with fh_ := fh2, ihs_ := ihs2, calls := calls2 }

/-- `UpdateExecutor::Next`; it returns the null record. -/
def UpdateExecutor.Next (ex : UpdateExecutor) : Except Error Unit × UpdateExecutor :=
  UpdateExecutor.update_rows ex.rids_ ex.index_handles ex

/-- The state a `DeleteExecutor` works on: its members, the heap file `*fh_`, the open indexes
`sm_manager_->ihs_`, and the log of the calls made so far. -/
structure DeleteExecutor where
  tab_ : TabMeta
  fh_ : RmFileHandle
  rids_ : List Rid
  tab_name_ : String
  ihs_ : StrMap IxIndexHandle
  calls : List Call

/-- The loop over `tab_.indexes` of `DeleteExecutor::Next` for the record `rec`: the handle is
looked up with `ihs_.at(...)`, which throws `std::out_of_range` for a missing key; the key is
built in a fresh buffer of `col_tot_len` bytes and `delete_entry` is called with it. -/
def DeleteExecutor.delete_entries (tab_name : String) (rec : List Byte) :
    List IndexMeta → StrMap IxIndexHandle → List Call →
      Except Error Unit × StrMap IxIndexHandle × List Call
  | [], ihs, calls => (.ok (), ihs, calls)
  | index :: rest, ihs, calls =>
    let index_name := get_index_name tab_name index.cols
    match ihs.find index_name with
    | none => (.error .OutOfRange, ihs, calls)
    | some _ =>
      let key := index.fill rec (RmRecord.alloc index.col_tot_len)
      DeleteExecutor.delete_entries tab_name rec rest
        (ihs.modify index_name (fun h => h.delete_entry key))
        (calls ++ [.delete_entry index_name key])

/-- The loop `for (const auto &rid : rids_)` of `DeleteExecutor::Next`. -/
def DeleteExecutor.delete_rows : List Rid → DeleteExecutor → Except Error Unit × DeleteExecutor
  | [], ex => (.ok (), ex)
  | rid :: rest, ex =>
    match ex.fh_.get_record rid with
    | (.error e, fh1) => (.error e, { ex with fh_ := fh1 })
    | (.ok rec, fh1) =>
      match DeleteExecutor.delete_entries ex.tab_name_ rec ex.tab_.indexes ex.ihs_ ex.calls with
      | (.error e, ihs1, calls1) => (.error e, { ex with fh_ := fh1, ihs_ := ihs1, calls := calls1 })
      | (.ok _, ihs1, calls1) =>
        match fh1.delete_record rid with
        | (.error e, fh2) => (.error e, { ex with fh_ := fh2, ihs_ := ihs1, calls := calls1 })
        | (.ok _, fh2) =>
          DeleteExecutor.delete_rows rest
            { ex with fh_ := fh2, ihs_ := ihs1, calls := calls1 ++ [.delete_record rid] }

/-- `DeleteExecutor::Next`; it returns the null record. -/
def DeleteExecutor.Next (ex : DeleteExecutor) : Except Error Unit × DeleteExecutor :=
  DeleteExecutor.delete_rows ex.rids_ ex

/-- The record contains the columns of the index, and the index metadata is as `create_index`
builds it: `col_num` is the number of columns and `col_tot_len` the sum of their lengths. -/
def IndexMeta.fits (index : IndexMeta) (rec : List Byte) : Prop :=
  index.col_num = index.cols.length ∧
    index.col_tot_len = (index.cols.map (fun col => col.len)).sum ∧
    ∀ col ∈ index.cols, col.offset + col.len ≤ rec.length

/-- The heap file `fh1` is the heap file `fh` with the slots of the RIDs in `gone` vacated: the
same geometry and pages, every slot with its bytes, and the bits of `gone` cleared. -/
def RmFileHandle.vacated (fh fh1 : RmFileHandle) (gone : List Rid) : Prop :=
  fh1.file_hdr.record_size = fh.file_hdr.record_size ∧
  fh1.file_hdr.num_pages = fh.file_hdr.num_pages ∧
  fh1.file_hdr.num_records_per_page = fh.file_hdr.num_records_per_page ∧
  ∀ p : Int,
    (fh.pool.pages p = none → fh1.pool.pages p = none) ∧
    (∀ pg, fh.pool.pages p = some pg →
      ∃ pg1, fh1.pool.pages p = some pg1 ∧ pg1.slots = pg.slots ∧
        ∀ s : Int, pg1.bitmap s =
          (pg.bitmap s && decide (({ page_no := p, slot_no := s } : Rid) ∉ gone)))

/-- The calls `DeleteExecutor::Next` is to make for one RID: `delete_entry` on every index of the
table, in their order, with the key of the record stored at the RID, then `delete_record`. -/
def DeleteExecutor.calls_for (ex : DeleteExecutor) (rid : Rid) : List Call :=
  ex.tab_.indexes.map (fun index =>
    Call.delete_entry (get_index_name ex.tab_name_ index.cols)
      (index.key_of (ex.fh_.record_at rid))) ++ [Call.delete_record rid]

/-- The index on column `a` of the table `t(a, b, c)`, as `create_index` declares it. -/
def a_index : IndexMeta :=
  { tab_name := "t", col_tot_len := 4, col_num := 1, cols := [int_col "t" "a"] }

/-- The table `t(a, b, c)` with the index on `a`. -/
def abc_indexed : TabMeta := { abc_table with indexes := [a_index] }

/-- The open indexes for `abc_indexed` over `abc_file`: the index on `a` with the entries of
the two rows. -/
def abc_ihs : StrMap IxIndexHandle :=
  [(get_index_name "t" a_index.cols,
    { fd := 5
      entries := [(int_bytes 1, { page_no := 1, slot_no := 0 }),
        (int_bytes 4, { page_no := 1, slot_no := 1 })] })]

/-- A `DeleteExecutor` for the row at `(1, 0)` of `abc_file`. -/
def delete_first_row : DeleteExecutor :=
  { tab_ := abc_indexed, fh_ := abc_file, rids_ := [{ page_no := 1, slot_no := 0 }],
    tab_name_ := "t", ihs_ := abc_ihs, calls := [] }

/-- The row `rec` with, for each assignment `(col, v)` taken in order, the bytes
`[col.offset, col.offset + col.len)` replaced by the first `col.len` bytes of `v`. This follows
the statement of the update, not the source; `UpdateExecutor.apply_set_clauses` is compared with
it. An assignment to a name that is no column of the table changes nothing here. -/
def assigned_row (tab : TabMeta) : List SetClause → List Byte → List Byte
  | [], rec => rec
  | set_clause :: rest, rec =>
    match tab.get_col set_clause.lhs.col_name with
    | .ok col =>
      assigned_row tab rest
        (rec.take col.offset ++ set_clause.rhs.raw.take col.len ++
          rec.drop (col.offset + col.len))
    | .error _ => assigned_row tab rest rec

/-- The executor can run: every listed RID names a slot of a data page that can be fetched and
holds a record of `record_size` bytes, every assignment names a column of the table that lies
inside the record and has a value of at least the column's length, and every index with a handle
has metadata as `create_index` builds it, columns inside the record and a key buffer of
`col_tot_len` bytes. -/
def UpdateExecutor.ready (ex : UpdateExecutor) (rids : List Rid)
    (handles : List (IndexMeta × String × List Byte)) : Prop :=
  (∀ rid ∈ rids, 1 ≤ rid.page_no ∧ rid.page_no < ex.fh_.file_hdr.num_pages ∧
    (∃ pg, ex.fh_.pool.pages rid.page_no = some pg) ∧
    (ex.fh_.record_at rid).length = ex.fh_.file_hdr.record_size) ∧
  (∀ sc ∈ ex.set_clauses_, ∃ col, ex.tab_.get_col sc.lhs.col_name = .ok col ∧
    col.offset + col.len ≤ ex.fh_.file_hdr.record_size ∧ col.len ≤ sc.rhs.raw.length) ∧
  (∀ h ∈ handles, h.1.col_num = h.1.cols.length ∧
    h.1.col_tot_len = (h.1.cols.map (fun col => col.len)).sum ∧
    (∀ col ∈ h.1.cols, col.offset + col.len ≤ ex.fh_.file_hdr.record_size) ∧
    h.2.2.length = h.1.col_tot_len)

/-- The calls `UpdateExecutor::Next` makes for one RID, given the indexes with a handle:
`delete_entry` on each, then `update_record`, then `insert_entry` on each, where the buffer is
the stored row with the assignments applied and every key is the key of that buffer. -/
def UpdateExecutor.calls_for (ex : UpdateExecutor)
    (handles : List (IndexMeta × String × List Byte)) (rid : Rid) : List Call :=
  handles.map (fun h => Call.delete_entry h.2.1
    (h.1.key_of (assigned_row ex.tab_ ex.set_clauses_ (ex.fh_.record_at rid)))) ++
  [Call.update_record rid (assigned_row ex.tab_ ex.set_clauses_ (ex.fh_.record_at rid))] ++
  handles.map (fun h => Call.insert_entry h.2.1
    (h.1.key_of (assigned_row ex.tab_ ex.set_clauses_ (ex.fh_.record_at rid))) rid)

/-- The heap file `fh1` is the heap file `fh` with the rows of the RIDs in `done` rewritten by
`g`: the same header, bitmaps and page headers, and every other slot with its bytes. -/
def RmFileHandle.rewritten (fh fh1 : RmFileHandle) (done : List Rid)
    (g : List Byte → List Byte) : Prop :=
  fh1.file_hdr = fh.file_hdr ∧
  ∀ p : Int,
    (fh.pool.pages p = none → fh1.pool.pages p = none) ∧
    (∀ pg, fh.pool.pages p = some pg →
      ∃ pg1, fh1.pool.pages p = some pg1 ∧ pg1.bitmap = pg.bitmap ∧
        pg1.page_hdr = pg.page_hdr ∧
        ∀ s : Int, pg1.slots s =
          if ({ page_no := p, slot_no := s } : Rid) ∈ done then
            g (copy_record (pg.slots s) fh.file_hdr.record_size)
          else pg.slots s)

/-- The value 7 as a literal of an assignment or a condition. -/
def seven : Value := { type := .TYPE_INT, raw := int_bytes 7 }

/-- An `UpdateExecutor` that sets column `a` to 7 in the row at `(1, 0)` of `abc_file`, the
table having an index on `a`. -/
def update_first_row : UpdateExecutor :=
  { tab_ := abc_indexed, fh_ := abc_file, rids_ := [{ page_no := 1, slot_no := 0 }],
    tab_name_ := "t",
    set_clauses_ := [{ lhs := { tab_name := "t", col_name := "a" }, rhs := seven }],
    ihs_ := abc_ihs, calls := [] }

/-- The indexes of a table agree with its heap file: every declared index has a handle that
holds, for every stored row, the entry of the row's key with the row's RID, no key twice, and no
other entry. -/
def index_consistent (tab_name : String) (tab : TabMeta) (fh : RmFileHandle)
    (ihs : StrMap IxIndexHandle) : Prop :=
  ∀ index ∈ tab.indexes,
    ∃ ih, StrMap.find ihs (get_index_name tab_name index.cols) = some ih ∧
      ih.entries.Nodup ∧
      ∀ key rid, (key, rid) ∈ ih.entries ↔
        (fh.occupied rid ∧ key = index.key_of (fh.record_at rid))

/-! ## Page numbers

`DiskManager::allocate_page` and `DiskManager::deallocate_page` of
`src/storage/disk_manager.cpp` on the member `std::atomic<page_id_t> fd2pageno_[MAX_FD]`, with
the width of `page_id_t` and the `assert` on the descriptor. -/

/-- Modelled from the spec: `MAX_FD`, the number of elements of the array `fd2pageno_` (8192 in
the project's `defs.h`, which is not part of the sources). -/
def MAX_FD : Int := 8192

/-- Modelled from the spec: the least value of `page_id_t`, a 32-bit signed integer (`int32_t` in
the project's `config.h`, which is not part of the sources). -/
def PAGE_ID_MIN : Int := -2147483648

/-- Modelled from the spec: the greatest value of `page_id_t`. -/
def PAGE_ID_MAX : Int := 2147483647

/-- The value of a `page_id_t` after an arithmetic result `x`: `x` modulo `2^32` in the range
`PAGE_ID_MIN .. PAGE_ID_MAX` (arithmetic on `std::atomic` of a signed integer wraps round in
two's complement). -/
def page_id_wrap (x : Int) : Int := (x + 2147483648) % 4294967296 - 2147483648

/-- The member `fd2pageno_` of a `DiskManager`: the counter of each descriptor. Only the
descriptors `0 .. MAX_FD - 1` are elements of the array. -/
structure DiskCounters where
  fd2pageno_ : Int → Int

/-- `DiskManager::allocate_page`: `assert(fd >= 0 && fd < MAX_FD); return fd2pageno_[fd]++;`.
`none` when the assertion fails, which ends the process; otherwise the counter before the
increment, and the counter increased by one in `page_id_t`. -/
def DiskCounters.allocate_page (a : DiskCounters) (fd : Int) : Option (Int × DiskCounters) :=
  if 0 ≤ fd ∧ fd < MAX_FD then
    some (a.fd2pageno_ fd,
      { fd2pageno_ := setAt a.fd2pageno_ fd (page_id_wrap (a.fd2pageno_ fd + 1)) })
  else none

/-- `DiskManager::deallocate_page`: the body is empty. -/
def DiskCounters.deallocate_page (a : DiskCounters) (_page_id : Int) : DiskCounters := a

/-- The page numbers returned by `k` successive calls of `allocate_page(fd)`, with the state
after them; `none` when a call fails its assertion. -/
def DiskCounters.allocate_pages (fd : Int) : Nat → DiskCounters → Option (List Int × DiskCounters)
  | 0, a => some ([], a)
  | k + 1, a =>
    match a.allocate_page fd with
    | none => none
    | some (page_no, a1) =>
      match DiskCounters.allocate_pages fd k a1 with
      | none => none
      | some (rest, a2) => some (page_no :: rest, a2)

/-- The counters of a disk manager of the buffer-pool development. -/
def DiskManager.counters (dm : DiskManager) : DiskCounters := { fd2pageno_ := dm.fd2pageno }

/-- Counters with the counter of descriptor 3 at the greatest page number and the others at
0. -/
def last_page_counters : DiskCounters :=
  { fd2pageno_ := fun fd => if fd = 3 then PAGE_ID_MAX else 0 }

/-- Counters with every counter at 10. -/
def ten_counters : DiskCounters := { fd2pageno_ := fun _ => 10 }
/-! ## Join examples without a match and with a second pass -/

/-- A right child `S(y)` with the single row 3, which equals no row of `join_left`. -/
def join_right_unmatched : ChildExecutor :=
  { cols := [int_col "S" "y"], len := 4, rows := [int_bytes 3], pos := 0 }

/-- What the driver `beginTuple(); while not is_end(): emit Next(); nextTuple()` emits, when it
comes to its end within the fuel. -/
def NestedLoopJoinExecutor.emitted (cmp : IxCompare) (next_fuel fuel : Nat)
    (j : NestedLoopJoinExecutor) : Option (Except Error (List (Option (List Byte)))) :=
  (j.drive cmp next_fuel fuel).map (fun r => r.1)

/-- What the driver emits on a second pass: the join is driven to its end, and the state this
leaves is driven again, from `beginTuple()` on. -/
def NestedLoopJoinExecutor.emitted_again (cmp : IxCompare) (next_fuel fuel : Nat)
    (j : NestedLoopJoinExecutor) : Option (Except Error (List (Option (List Byte)))) :=
  match j.drive cmp next_fuel fuel with
  | some (.ok _, j1) => j1.emitted cmp next_fuel fuel
  | some (.error e, _) => some (.error e)
  | none => none

/-! ## The frames of the pool between the free list and the page table -/

/-- The states reached from an initial pool by calls none of which threw, `new_page` having been
handed neither `INVALID_PAGE_ID` nor the id of a page that was in the page table. -/
def BufferPoolManager.ReachableOkFresh (bpm : BufferPoolManager) : Prop :=
  BufferPoolManager.ReachableBy (fun s call => s.admissible call ∧ s.fresh call) bpm

/-- Every frame of the pool is on the free list or in the range of the page table. -/
def PoolCore.PartInv (c : PoolCore) : Prop :=
  ∀ f : Int, 0 ≤ f → f < (c.pool_size : Int) →
    f ∈ c.free_list ∨ ∃ id, c.page_table.find id = some f

/-- The frames on the free list are clean. -/
def BufferPoolManager.FreeClean (bpm : BufferPoolManager) : Prop :=
  ∀ f ∈ bpm.free_list, (bpm.pages f).is_dirty = false

/-! ## Files and descriptors

The file lifecycle of `src/storage/disk_manager.cpp` (`is_file`, `is_dir`, `create_file`,
`destroy_file`, `open_file`, `close_file`) over a model of the operating system: the working
directory, the directories and regular files that exist, and the descriptors of the process. -/

/-- The lookup in an association list: the value of the first entry with the key. -/
def Assoc.find {κ α : Type} [DecidableEq κ] : List (κ × α) → κ → Option α
  | [], _ => none
  | (k, v) :: rest, key => if k = key then some v else Assoc.find rest key

/-- The removal of a key from an association list. -/
def Assoc.erase {κ α : Type} [DecidableEq κ] (m : List (κ × α)) (key : κ) : List (κ × α) :=
  m.filter (fun e => decide (e.1 ≠ key))

/-- The assignment `m[key] = v`: the value of a key that is present is overwritten in place. -/
def Assoc.set {κ α : Type} [DecidableEq κ] : List (κ × α) → κ → α → List (κ × α)
  | [], key, v => [(key, v)]
  | (k, w) :: rest, key, v =>
    if k = key then (k, v) :: rest else (k, w) :: Assoc.set rest key v

/-- A file or directory of the model: the names of the directories on the way from the directory
the process starts in, then its own name. -/
abbrev Path := List String

/-- The catalog of a database, `DbMeta`: its name and its tables by name. -/
structure DbMeta where
  name_ : String
  tabs_ : StrMap TabMeta

/-- What a regular file holds, as far as the system manager is concerned: the catalog that was
written to `DB_META`, the pages of a table file, the entries of an index file, or nothing that
it reads. -/
inductive FileData where
  | catalog (db : DbMeta)
  | heap (fh : RmFileHandle)
  | index (entries : List (List Byte × Rid))
  | plain

/-- The operating system as the disk manager and the system manager see it: the working
directory, the directories and the regular files that exist, the open descriptors of the process
with the file each refers to, and the number of descriptors the process may have (`open` fails
at this limit). -/
structure Os where
  cwd : Path
  dirs : List Path
  files : List (Path × FileData)
  fds : List (Int × Path)
  max_fds : Nat

/-- The test `stat(path) == 0 && S_ISREG(st_mode)` for a name in the working directory. -/
def Os.is_file (os : Os) (path : String) : Bool :=
  (Assoc.find os.files (os.cwd ++ [path])).isSome

/-- The test `stat(path) == 0 && S_ISDIR(st_mode)` for a name in the working directory. -/
def Os.is_dir (os : Os) (path : String) : Bool :=
  decide (os.cwd ++ [path] ∈ os.dirs)

/-- The lowest descriptor that is not open, searched among `0 .. fuel - 1` from `n` on. -/
def Os.lowest_free (fds : List (Int × Path)) : Nat → Nat → Nat
  | n, 0 => n
  | n, fuel + 1 =>
    if (Assoc.find fds (n : Int)).isSome then Os.lowest_free fds (n + 1) fuel else n

/-- The system call `open(path, O_RDWR)`: the lowest descriptor that is not open, now referring
to the file; `none` (a negative result) when the file does not exist or the process has all its
descriptors in use. -/
def Os.open (os : Os) (path : String) : Option Int × Os :=
  if os.is_file path = false then (none, os)
  else
    let fd := Os.lowest_free os.fds 0 os.fds.length
    if os.max_fds ≤ fd then (none, os)
    else (some (fd : Int), { os with fds := os.fds ++ [((fd : Int), os.cwd ++ [path])] })

/-- The system call `close(fd)`: `false` (a negative result) for a descriptor that is not
open. -/
def Os.close (os : Os) (fd : Int) : Bool × Os :=
  if (Assoc.find os.fds fd).isSome then (true, { os with fds := Assoc.erase os.fds fd })
  else (false, os)

/-- The system call `unlink(path)`: `false` (a negative result) when there is no such file. -/
def Os.unlink (os : Os) (path : String) : Bool × Os :=
  if os.is_file path then
    (true, { os with files := Assoc.erase os.files (os.cwd ++ [path]) })
  else (false, os)

/-- The system call `open(path, O_CREAT | O_RDWR)` followed by `close`, and the constructor of
`std::ofstream` followed by a write: the file exists afterwards and holds `data`. -/
def Os.write_file (os : Os) (path : String) (data : FileData) : Os :=
  { os with files := Assoc.set os.files (os.cwd ++ [path]) data }

/-- The system call `chdir(path)`: `none` (a negative result) when there is no such directory;
the parent of the directory the process starts in is taken to be that directory itself. -/
def Os.chdir (os : Os) (path : String) : Option Os :=
  if path = ".." then some { os with cwd := os.cwd.dropLast }
  else if os.is_dir path then some { os with cwd := os.cwd ++ [path] }
  else none

/-- The state of the `DiskManager` that the file lifecycle uses: the maps `path2fd_` and
`fd2path_`, and the operating system under them. -/
structure DiskFiles where
  path2fd_ : StrMap Int
  fd2path_ : List (Int × String)
  os : Os

/-- `DiskManager::is_file`. -/
def DiskFiles.is_file (dm : DiskFiles) (path : String) : Bool := dm.os.is_file path

/-- `DiskManager::is_dir`. -/
def DiskFiles.is_dir (dm : DiskFiles) (path : String) : Bool := dm.os.is_dir path

/-- `DiskManager::create_file`. The `open` with `O_CREAT` is taken to succeed; the new file
holds nothing. -/
def DiskFiles.create_file (dm : DiskFiles) (path : String) : Except Error Unit × DiskFiles :=
  if dm.is_file path then (.error .FileExistsError, dm)
  else (.ok (), { dm with os := dm.os.write_file path .plain })

/-- `DiskManager::destroy_file`. -/
def DiskFiles.destroy_file (dm : DiskFiles) (path : String) : Except Error Unit × DiskFiles :=
  if dm.is_file path = false then (.error .FileNotFoundError, dm)
  else if (StrMap.find dm.path2fd_ path).isSome then (.error .FileNotClosedError, dm)
  else
    match dm.os.unlink path with
    | (false, os1) => (.error .UnixError, { dm with os := os1 })
    | (true, os1) => (.ok (), { dm with os := os1 })

/-- `DiskManager::open_file`. -/
def DiskFiles.open_file (dm : DiskFiles) (path : String) : Except Error Int × DiskFiles :=
  if dm.is_file path = false then (.error .FileNotFoundError, dm)
  else if (StrMap.find dm.path2fd_ path).isSome then (.error .FileNotClosedError, dm)
  else
    match dm.os.open path with
    | (none, os1) => (.error .UnixError, { dm with os := os1 })
    | (some fd, os1) =>
      (.ok fd,
        { path2fd_ := StrMap.set dm.path2fd_ path fd
          fd2path_ := Assoc.set dm.fd2path_ fd path
          os := os1 })

/-- `DiskManager::close_file`. -/
def DiskFiles.close_file (dm : DiskFiles) (fd : Int) : Except Error Unit × DiskFiles :=
  match Assoc.find dm.fd2path_ fd with
  | none => (.error .FileNotOpenError, dm)
  | some path =>
    match dm.os.close fd with
    | (false, os1) => (.error .UnixError, { dm with os := os1 })
    | (true, os1) =>
      (.ok (),
        { path2fd_ := StrMap.erase dm.path2fd_ path
          fd2path_ := Assoc.erase dm.fd2path_ fd
          os := os1 })

/-- A call of `open_file`, `close_file` or `destroy_file`. -/
inductive FileCall where
  | open_file (path : String)
  | close_file (fd : Int)
  | destroy_file (path : String)
deriving DecidableEq, Repr

/-- The outcome of a call, without the descriptor a successful `open_file` returns. -/
def DiskFiles.outcome (dm : DiskFiles) : FileCall → Except Error Unit
  | .open_file path =>
    match (dm.open_file path).1 with
    | .ok _ => .ok ()
    | .error e => .error e
  | .close_file fd => (dm.close_file fd).1
  | .destroy_file path => (dm.destroy_file path).1

/-- The state a call leaves, whether it returns or throws. -/
def DiskFiles.apply (dm : DiskFiles) : FileCall → DiskFiles
  | .open_file path => (dm.open_file path).2
  | .close_file fd => (dm.close_file fd).2
  | .destroy_file path => (dm.destroy_file path).2

/-- The state after a sequence of calls. -/
def DiskFiles.run : DiskFiles → List FileCall → DiskFiles
  | dm, [] => dm
  | dm, c :: cs => DiskFiles.run (dm.apply c) cs

/-- The maps `path2fd_` and `fd2path_` are inverse to each other. -/
def DiskFiles.inverse (dm : DiskFiles) : Prop :=
  ∀ path fd, StrMap.find dm.path2fd_ path = some fd ↔ Assoc.find dm.fd2path_ fd = some path

/-- The files the disk manager has registered as open exist, and their descriptors are open
descriptors of the process. -/
def DiskFiles.backed (dm : DiskFiles) : Prop :=
  ∀ path fd, StrMap.find dm.path2fd_ path = some fd →
    dm.os.is_file path = true ∧ (Assoc.find dm.os.fds fd).isSome = true

/-- A disk manager as its constructor leaves it, with no file registered as open, over an
operating system state. -/
def DiskFiles.init (os : Os) : DiskFiles := { path2fd_ := [], fd2path_ := [], os := os }

/-- An operating system state with the files `a` and `b` in the working directory, the
descriptors 0, 1, 2 in use, and room for 16 descriptors. -/
def two_files : Os :=
  { cwd := [], dirs := [], files := [(["a"], .plain), (["b"], .plain)],
    fds := [(0, ["tty"]), (1, ["tty"]), (2, ["tty"])], max_fds := 16 }

/-! ## The system manager

Embedding of `src/system/sm_manager.cpp`. The record manager, the index manager and the catalog
classes (`rm_manager.h`, `ix_manager.h`, `sm_meta.h`) are not part of the sources; what the
system manager calls on them is modelled from the spec, over the files of the disk manager. -/

/-- Modelled from the spec: the name of the catalog file `DB_META` in the directory of a
database (the constant is declared in a header that is not part of the sources). -/
def DB_META_NAME : String := "db.meta"

/-- Modelled from the spec: the name of the log file `LOG_FILE` in the directory of a database
(the constant is declared in a header that is not part of the sources). -/
def LOG_FILE_NAME : String := "db.log"

/-- The assignment `m[key] = v` in a `std::map`, whose entries are kept in the order of their
keys. -/
def StrMap.insert_sorted {α : Type} : StrMap α → String → α → StrMap α
  | [], key, v => [(key, v)]
  | (k, w) :: rest, key, v =>
    if k = key then (k, v) :: rest
    else if key < k then (key, v) :: (k, w) :: rest
    else (k, w) :: StrMap.insert_sorted rest key v

/-- The call `m.emplace(key, v)`: nothing happens when the key is present. -/
def StrMap.emplace {α : Type} (m : StrMap α) (key : String) (v : α) : StrMap α :=
  if (StrMap.find m key).isSome then m else m ++ [(key, v)]

/-- Modelled from the spec: `DbMeta::is_table`. -/
def DbMeta.is_table (db : DbMeta) (tab_name : String) : Bool :=
  (StrMap.find db.tabs_ tab_name).isSome

/-- Modelled from the spec: `DbMeta::get_table`, which throws `TableNotFoundError` for a name
that is no table. The source works on the reference it returns; the model writes the table back
with `DbMeta.update_table`. -/
def DbMeta.get_table (db : DbMeta) (tab_name : String) : Except Error TabMeta :=
  match StrMap.find db.tabs_ tab_name with
  | some tab => .ok tab
  | none => .error .TableNotFoundError

/-- A change made through the reference `TabMeta& tab = db_.get_table(tab_name)`. -/
def DbMeta.update_table (db : DbMeta) (tab_name : String) (f : TabMeta → TabMeta) : DbMeta :=
  { db with tabs_ := StrMap.modify db.tabs_ tab_name f }

/-- The test of the loop in `SmManager::drop_index` for "the index is on these columns":
`col_num` is the number of names and the columns have these names, in this order. -/
def IndexMeta.on_cols (index : IndexMeta) (col_names : List String) : Bool :=
  decide (index.col_num = col_names.length) &&
    decide ((index.cols.take col_names.length).map (fun col => col.name) = col_names)

/-- Modelled from the spec: `TabMeta::is_index`, whether an index on exactly these columns is
declared. -/
def TabMeta.is_index (tab : TabMeta) (col_names : List String) : Bool :=
  tab.indexes.any (fun index => index.on_cols col_names)

/-- Modelled from the spec: `TabMeta::get_index_meta`, an iterator to the first declared index
on exactly these columns, given by its position in `indexes`; `none` when there is none. -/
def TabMeta.get_index_meta (tab : TabMeta) (col_names : List String) : Option Nat :=
  tab.indexes.findIdx? (fun index => index.on_cols col_names)

/-- The statement `it->index = v` for `it = std::find_if(cols, name == col_name)`: the flag of
the first column with the name; nothing for a name that is no column. -/
def set_index_flag (v : Bool) : List ColMeta → String → List ColMeta
  | [], _ => []
  | col :: rest, col_name =>
    if col.name = col_name then { col with index := v } :: rest
    else col :: set_index_flag v rest col_name

/-- The loops "update the index flag of the columns" of `create_index` and `drop_index`. -/
def set_index_flags (v : Bool) (cols : List ColMeta) (col_names : List String) : List ColMeta :=
  col_names.foldl (set_index_flag v) cols

/-- A column definition `ColDef` of `create_table`. -/
structure ColDef where
  name : String
  type : ColType
  len : Nat
deriving DecidableEq, Repr

/-- An entry of `fhs_`: the handle of an open table file, with the descriptor of the file. -/
structure OpenHeap where
  fd : Int
  fh : RmFileHandle

/-- Modelled from the spec: `RmManager::create_file(name, record_size)`: the file is created
through the disk manager and holds an empty heap file of this record size; `records_per_page`
is the number of records of a size that the record manager puts on a page. -/
def RmManager.create_file (dm : DiskFiles) (records_per_page : Nat → Int) (filename : String)
    (record_size : Nat) : Except Error Unit × DiskFiles :=
  match dm.create_file filename with
  | (.error e, dm1) => (.error e, dm1)
  | (.ok _, dm1) =>
    let heap := FileData.heap (empty_file record_size (records_per_page record_size))
    (.ok (), { dm1 with os := dm1.os.write_file filename heap })

/-- Modelled from the spec: `RmManager::open_file(name)`: the file is opened through the disk
manager and the handle is set up from what the file holds; a file that holds no heap file has no
header page to read. -/
def RmManager.open_file (dm : DiskFiles) (filename : String) :
    Except Error OpenHeap × DiskFiles :=
  match dm.open_file filename with
  | (.error e, dm1) => (.error e, dm1)
  | (.ok fd, dm1) =>
    match Assoc.find dm1.os.files (dm1.os.cwd ++ [filename]) with
    | some (.heap fh) => (.ok { fd := fd, fh := fh }, dm1)
    | _ => (.error .InternalError, dm1)

/-- Modelled from the spec: `RmManager::close_file(handle)`: the header and the pages are
written to the file, and the file is closed through the disk manager. -/
def RmManager.close_file (dm : DiskFiles) (handle : OpenHeap) : Except Error Unit × DiskFiles :=
  let os1 : Os :=
    match Assoc.find dm.os.fds handle.fd with
    | some path => { dm.os with files := Assoc.set dm.os.files path (.heap handle.fh) }
    | none => dm.os
  DiskFiles.close_file { dm with os := os1 } handle.fd

/-- Modelled from the spec: `RmManager::destroy_file(name)`. -/
def RmManager.destroy_file (dm : DiskFiles) (filename : String) : Except Error Unit × DiskFiles :=
  dm.destroy_file filename

/-- Modelled from the spec: `IxManager::create_index(table, cols)`: the index file is created
through the disk manager and holds an index without entries. -/
def IxManager.create_index (dm : DiskFiles) (tab_name : String) (cols : List ColMeta) :
    Except Error Unit × DiskFiles :=
  match dm.create_file (get_index_name tab_name cols) with
  | (.error e, dm1) => (.error e, dm1)
  | (.ok _, dm1) =>
    (.ok (), { dm1 with os := dm1.os.write_file (get_index_name tab_name cols) (.index []) })

/-- Modelled from the spec: `IxManager::open_index(table, cols)`: the index file is opened
through the disk manager and the handle holds the entries of the file. -/
def IxManager.open_index (dm : DiskFiles) (tab_name : String) (cols : List ColMeta) :
    Except Error IxIndexHandle × DiskFiles :=
  match dm.open_file (get_index_name tab_name cols) with
  | (.error e, dm1) => (.error e, dm1)
  | (.ok fd, dm1) =>
    match Assoc.find dm1.os.files (dm1.os.cwd ++ [get_index_name tab_name cols]) with
    | some (.index entries) => (.ok { fd := fd, entries := entries }, dm1)
    | _ => (.error .InternalError, dm1)

/-- Modelled from the spec: `IxManager::close_index(handle)`: the entries are written to the
file, and the file is closed through the disk manager. -/
def IxManager.close_index (dm : DiskFiles) (ih : IxIndexHandle) :
    Except Error Unit × DiskFiles :=
  let os1 : Os :=
    match Assoc.find dm.os.fds ih.fd with
    | some path => { dm.os with files := Assoc.set dm.os.files path (.index ih.entries) }
    | none => dm.os
  DiskFiles.close_file { dm with os := os1 } ih.fd

/-- Modelled from the spec: `IxManager::destroy_index(table, cols)`. -/
def IxManager.destroy_index (dm : DiskFiles) (tab_name : String) (cols : List ColMeta) :
    Except Error Unit × DiskFiles :=
  dm.destroy_file (get_index_name tab_name cols)

/-- The state of the `SmManager`: the catalog `db_`, the open table files `fhs_`, the open
indexes `ihs_`, the disk manager, the number of records per page that the record manager chooses
for a record size, and the log of the calls made on index handles. -/
structure SmManager where
  db_ : DbMeta
  fhs_ : StrMap OpenHeap
  ihs_ : StrMap IxIndexHandle
  disk_manager_ : DiskFiles
  records_per_page : Nat → Int
  calls : List Call

/-- `SmManager::is_dir`. -/
def SmManager.is_dir (sm : SmManager) (db_name : String) : Bool :=
  sm.disk_manager_.os.is_dir db_name

/-- The system call `chdir` from the system manager. -/
def SmManager.chdir (sm : SmManager) (path : String) : Option SmManager :=
  match sm.disk_manager_.os.chdir path with
  | none => none
  | some os1 => some { sm with disk_manager_ := { sm.disk_manager_ with os := os1 } }

/-- `SmManager::flush_meta`: the catalog is written to `DB_META` in the working directory. -/
def SmManager.flush_meta (sm : SmManager) : SmManager :=
  let os1 := sm.disk_manager_.os.write_file DB_META_NAME (.catalog sm.db_)
  { sm with disk_manager_ := { sm.disk_manager_ with os := os1 } }

/-- `SmManager::create_db`. The command `mkdir` run by `system` is taken to create the
directory. -/
def SmManager.create_db (sm : SmManager) (db_name : String) : Except Error Unit × SmManager :=
  if sm.is_dir db_name then (.error .DatabaseExistsError, sm)
  else
    let os := sm.disk_manager_.os
    let os1 : Os := { os with dirs := os.dirs ++ [os.cwd ++ [db_name]] }
    let sm1 : SmManager := { sm with disk_manager_ := { sm.disk_manager_ with os := os1 } }
    match sm1.chdir db_name with
    | none => (.error .UnixError, sm1)
    | some sm2 =>
      let new_db : DbMeta := { name_ := db_name, tabs_ := [] }
      let os3 := sm2.disk_manager_.os.write_file DB_META_NAME (.catalog new_db)
      let sm3 : SmManager := { sm2 with disk_manager_ := { sm2.disk_manager_ with os := os3 } }
      match sm3.disk_manager_.create_file LOG_FILE_NAME with
      | (.error e, dm) => (.error e, { sm3 with disk_manager_ := dm })
      | (.ok _, dm) =>
        match SmManager.chdir { sm3 with disk_manager_ := dm } ".." with
        | none => (.error .UnixError, { sm3 with disk_manager_ := dm })
        | some sm4 => (.ok (), sm4)

/-- The inner loop of `open_db`: the declared indexes of a table are opened and entered in
`ihs_`. -/
def SmManager.open_indexes (tab_name : String) :
    List IndexMeta → SmManager → Except Error Unit × SmManager
  | [], sm => (.ok (), sm)
  | index :: rest, sm =>
    match IxManager.open_index sm.disk_manager_ tab_name index.cols with
    | (.error e, dm) => (.error e, { sm with disk_manager_ := dm })
    | (.ok ih, dm) =>
      SmManager.open_indexes tab_name rest
        { sm with
          disk_manager_ := dm
          ihs_ := StrMap.set sm.ihs_ (get_index_name tab_name index.cols) ih }

/-- The loop of `open_db` over the tables of the catalog: the table file is opened and entered
in `fhs_`, then its indexes. -/
def SmManager.open_tables : List (String × TabMeta) → SmManager → Except Error Unit × SmManager
  | [], sm => (.ok (), sm)
  | (_, tab) :: rest, sm =>
    match RmManager.open_file sm.disk_manager_ tab.name with
    | (.error e, dm) => (.error e, { sm with disk_manager_ := dm })
    | (.ok handle, dm) =>
      match SmManager.open_indexes tab.name tab.indexes
          { sm with disk_manager_ := dm, fhs_ := StrMap.set sm.fhs_ tab.name handle } with
      | (.error e, sm1) => (.error e, sm1)
      | (.ok _, sm1) => SmManager.open_tables rest sm1

/-- `SmManager::open_db`. The catalog is what was last written to `DB_META`; a file that holds
no catalog leaves `db_` as it is. -/
def SmManager.open_db (sm : SmManager) (db_name : String) : Except Error Unit × SmManager :=
  if sm.is_dir db_name = false then (.error .DatabaseNotFoundError, sm)
  else if sm.db_.name_ ≠ "" then (.error .DatabaseExistsError, sm)
  else
    match sm.chdir db_name with
    | none => (.error .UnixError, sm)
    | some sm1 =>
      match Assoc.find sm1.disk_manager_.os.files (sm1.disk_manager_.os.cwd ++ [DB_META_NAME]) with
      | none => (.error .UnixError, sm1)
      | some data =>
        let sm2 : SmManager :=
          match data with
          | .catalog db => { sm1 with db_ := db }
          | _ => sm1
        match SmManager.open_tables sm2.db_.tabs_ sm2 with
        | (.error e, sm3) => (.error e, sm3)
        | (.ok _, sm3) =>
          match sm3.disk_manager_.open_file LOG_FILE_NAME with
          | (.error e, dm) => (.error e, { sm3 with disk_manager_ := dm })
          | (.ok _, dm) => (.ok (), { sm3 with disk_manager_ := dm })

/-- The loop of `close_db` over `fhs_`. -/
def SmManager.close_files : List (String × OpenHeap) → DiskFiles → Except Error Unit × DiskFiles
  | [], dm => (.ok (), dm)
  | (_, file_handle) :: rest, dm =>
    match RmManager.close_file dm file_handle with
    | (.error e, dm1) => (.error e, dm1)
    | (.ok _, dm1) => SmManager.close_files rest dm1

/-- The loop of `close_db` over `ihs_`. -/
def SmManager.close_indexes :
    List (String × IxIndexHandle) → DiskFiles → Except Error Unit × DiskFiles
  | [], dm => (.ok (), dm)
  | (_, index_handle) :: rest, dm =>
    match IxManager.close_index dm index_handle with
    | (.error e, dm1) => (.error e, dm1)
    | (.ok _, dm1) => SmManager.close_indexes rest dm1

/-- `SmManager::close_db`. -/
def SmManager.close_db (sm : SmManager) : Except Error Unit × SmManager :=
  if sm.db_.name_ = "" then (.error .DatabaseNotFoundError, sm)
  else
    let sm1 := sm.flush_meta
    let sm2 : SmManager := { sm1 with db_ := { name_ := "", tabs_ := [] } }
    match SmManager.close_files sm2.fhs_ sm2.disk_manager_ with
    | (.error e, dm) => (.error e, { sm2 with disk_manager_ := dm })
    | (.ok _, dm) =>
      match SmManager.close_indexes sm2.ihs_ dm with
      | (.error e, dm1) => (.error e, { sm2 with disk_manager_ := dm1 })
      | (.ok _, dm1) =>
        let sm3 : SmManager := { sm2 with disk_manager_ := dm1, fhs_ := [], ihs_ := [] }
        match sm3.chdir ".." with
        | none => (.error .UnixError, sm3)
        | some sm4 => (.ok (), sm4)

/-- The loop of `create_table` that builds the columns: each column starts where the one before
it ends. -/
def SmManager.layout (tab_name : String) : List ColDef → Nat → List ColMeta
  | [], _ => []
  | col_def :: rest, curr_offset =>
    { tab_name := tab_name, name := col_def.name, type := col_def.type, len := col_def.len,
      offset := curr_offset, index := false } ::
      SmManager.layout tab_name rest (curr_offset + col_def.len)

/-- The value of `curr_offset` after the loop of `create_table`: the record size. -/
def SmManager.record_size : List ColDef → Nat → Nat
  | [], curr_offset => curr_offset
  | col_def :: rest, curr_offset => SmManager.record_size rest (curr_offset + col_def.len)

/-- `SmManager::create_table`. -/
def SmManager.create_table (sm : SmManager) (tab_name : String) (col_defs : List ColDef) :
    Except Error Unit × SmManager :=
  if sm.db_.is_table tab_name then (.error .TableExistsError, sm)
  else
    let tab : TabMeta :=
      { name := tab_name, cols := SmManager.layout tab_name col_defs 0, indexes := [] }
    let record_size := SmManager.record_size col_defs 0
    match RmManager.create_file sm.disk_manager_ sm.records_per_page tab_name record_size with
    | (.error e, dm) => (.error e, { sm with disk_manager_ := dm })
    | (.ok _, dm) =>
      let sm1 : SmManager :=
        { sm with
          disk_manager_ := dm
          db_ := { sm.db_ with tabs_ := StrMap.insert_sorted sm.db_.tabs_ tab_name tab } }
      match RmManager.open_file sm1.disk_manager_ tab_name with
      | (.error e, dm1) => (.error e, { sm1 with disk_manager_ := dm1 })
      | (.ok handle, dm1) =>
        (.ok (),
          SmManager.flush_meta
            { sm1 with disk_manager_ := dm1, fhs_ := StrMap.emplace sm1.fhs_ tab_name handle })

/-- The loop of `create_index` that collects the columns of the index: the first column of the
table with each name; `ColumnNotFoundError` for a name that is no column. -/
def SmManager.collect_cols (cols : List ColMeta) : List String → Except Error (List ColMeta)
  | [] => .ok []
  | col_name :: rest =>
    match cols.find? (fun col => decide (col.name = col_name)) with
    | none => .error .ColumnNotFoundError
    | some col =>
      match SmManager.collect_cols cols rest with
      | .error e => .error e
      | .ok idx_cols => .ok (col :: idx_cols)

/-- The loop `for (RmScan scan(file_handle); !scan.is_end(); scan.next())` of `create_index`:
for the record at the cursor the key is built in a new buffer of `col_tot_len` bytes and
`insert_entry(key, rid)` is called on the index. `none` when `fuel` rounds do not reach the end
of the scan. -/
def SmManager.index_rows (index_name : String) (idx_cols : List ColMeta) (col_tot_len : Nat) :
    Nat → RmScan → StrMap IxIndexHandle → List Call →
      Option (Except Error Unit × RmScan × StrMap IxIndexHandle × List Call)
  | 0, scan, ihs, calls => if scan.is_end then some (.ok (), scan, ihs, calls) else none
  | fuel + 1, scan, ihs, calls =>
    if scan.is_end then some (.ok (), scan, ihs, calls)
    else
      match scan.file_handle.get_record scan.rid with
      | (.error e, fh1) => some (.error e, { scan with file_handle := fh1 }, ihs, calls)
      | (.ok record, fh1) =>
        let key := fill_key record idx_cols 0 (RmRecord.alloc col_tot_len)
        let ihs1 := StrMap.modify ihs index_name (fun h => h.insert_entry key scan.rid)
        let calls1 := calls ++ [Call.insert_entry index_name key scan.rid]
        match RmScan.next { scan with file_handle := fh1 } with
        | (.error e, scan1) => some (.error e, scan1, ihs1, calls1)
        | (.ok _, scan1) =>
          SmManager.index_rows index_name idx_cols col_tot_len fuel scan1 ihs1 calls1

/-- The index metadata that `create_index` builds from the collected columns. -/
def SmManager.index_meta (tab_name : String) (idx_cols : List ColMeta) : IndexMeta :=
  { tab_name := tab_name
    col_tot_len := idx_cols.foldl (fun col_tot_len col => col_tot_len + col.len) 0
    col_num := idx_cols.length
    cols := idx_cols }

/-- `SmManager::create_index`. `fuel` bounds the rounds of the scan loop; the result is `none`
when it does not suffice. A table without an entry in `fhs_` gives a null file handle. -/
def SmManager.create_index (sm : SmManager) (tab_name : String) (col_names : List String)
    (fuel : Nat) : Option (Except Error Unit × SmManager) :=
  if sm.db_.is_table tab_name = false then some (.error .TableNotFoundError, sm)
  else
    match sm.db_.get_table tab_name with
    | .error e => some (.error e, sm)
    | .ok tab =>
      if tab.is_index col_names then some (.error .IndexExistsError, sm)
      else
        match SmManager.collect_cols tab.cols col_names with
        | .error e => some (.error e, sm)
        | .ok idx_cols =>
          let idx_meta := SmManager.index_meta tab_name idx_cols
          let db1 := sm.db_.update_table tab_name
            (fun t => { t with indexes := t.indexes ++ [idx_meta] })
          let sm1 : SmManager := { sm with db_ := db1 }
          match IxManager.create_index sm1.disk_manager_ tab_name idx_cols with
          | (.error e, dm) => some (.error e, { sm1 with disk_manager_ := dm })
          | (.ok _, dm) =>
            let index_name := get_index_name tab_name idx_cols
            match IxManager.open_index dm tab_name idx_cols with
            | (.error e, dm1) => some (.error e, { sm1 with disk_manager_ := dm1 })
            | (.ok ih, dm1) =>
              let sm2 : SmManager :=
                { sm1 with disk_manager_ := dm1, ihs_ := StrMap.set sm1.ihs_ index_name ih }
              match StrMap.find sm2.fhs_ tab_name with
              | none => some (.error .NullDereference, sm2)
              | some file_handle =>
                match RmScan.new file_handle.fh with
                | (.error e, scan) =>
                  let fhs1 := StrMap.modify sm2.fhs_ tab_name
                    (fun h => { h with fh := scan.file_handle })
                  some (.error e, { sm2 with fhs_ := fhs1 })
                | (.ok _, scan) =>
                  match SmManager.index_rows index_name idx_cols idx_meta.col_tot_len fuel scan
                      sm2.ihs_ sm2.calls with
                  | none => none
                  | some (.error e, scan1, ihs1, calls1) =>
                    let fhs1 := StrMap.modify sm2.fhs_ tab_name
                      (fun h => { h with fh := scan1.file_handle })
                    some (.error e, { sm2 with fhs_ := fhs1, ihs_ := ihs1, calls := calls1 })
                  | some (.ok _, scan1, ihs1, calls1) =>
                    let fhs1 := StrMap.modify sm2.fhs_ tab_name
                      (fun h => { h with fh := scan1.file_handle })
                    let db2 := sm2.db_.update_table tab_name
                      (fun t => { t with cols := set_index_flags true t.cols col_names })
                    some (.ok (),
                      SmManager.flush_meta
                        { sm2 with fhs_ := fhs1, ihs_ := ihs1, calls := calls1, db_ := db2 })

/-- The argument `const std::vector<ColMeta>& cols` of the overload of `drop_index` that takes
the columns: a reference to a vector of the caller (`own`), or, as the overload that takes the
names passes it (`idx_meta_iter->cols`), a reference to the member `cols` of the element at a
position of the vector `indexes` of the table (`of_index`). -/
inductive ColsRef where
  | own (cols : List ColMeta)
  | of_index (pos : Nat)

/-- What is read through the reference when the vector `indexes` of the table holds `indexes`:
the member `cols` of the element that is at the position now. `std::vector::erase` moves the
elements after the erased one down by one position and destroys the last, so after an erase at
or before the position the reference names the columns of the index that followed, and a
destroyed vector (`none`) when the position is past the end. -/
def ColsRef.read : ColsRef → List IndexMeta → Option (List ColMeta)
  | .own cols, _ => some cols
  | .of_index pos, indexes => (indexes.get? pos).map (fun index => index.cols)

/-- `SmManager::drop_index(tab_name, cols, context)`, the overload that takes the columns by
reference. The index name, the loop that erases the index, and the loop that clears the flags
each read `cols` when they run; the flag loop runs after `tab.indexes.erase(it)`. The result is
`none` where a loop reads through a reference to a destroyed vector, where the behaviour of the
source is undefined. -/
def SmManager.drop_index_cols (sm : SmManager) (tab_name : String) (cols : ColsRef) :
    Option (Except Error Unit × SmManager) :=
  if sm.db_.is_table tab_name = false then some (.error .TableNotFoundError, sm)
  else
    match sm.db_.get_table tab_name with
    | .error e => some (.error e, sm)
    | .ok tab =>
      match cols.read tab.indexes with
      | none => none
      | some cols_before =>
        let index_name := get_index_name tab_name cols_before
        let closed : Except Error Unit × SmManager :=
          match StrMap.find sm.ihs_ index_name with
          | none => (.ok (), sm)
          | some ih =>
            match IxManager.close_index sm.disk_manager_ ih with
            | (.error e, dm) => (.error e, { sm with disk_manager_ := dm })
            | (.ok _, dm) =>
              (.ok (), { sm with disk_manager_ := dm, ihs_ := StrMap.erase sm.ihs_ index_name })
        match closed with
        | (.error e, sm1) => some (.error e, sm1)
        | (.ok _, sm1) =>
          match IxManager.destroy_index sm1.disk_manager_ tab_name cols_before with
          | (.error e, dm) => some (.error e, { sm1 with disk_manager_ := dm })
          | (.ok _, dm) =>
            let col_names := cols_before.map (fun col => col.name)
            let indexes1 := tab.indexes.eraseP (fun index => index.on_cols col_names)
            match cols.read indexes1 with
            | none => none
            | some cols_after =>
              let db1 := sm1.db_.update_table tab_name
                (fun t =>
                  { t with
                    indexes := indexes1
                    cols := set_index_flags false t.cols (cols_after.map (fun col => col.name)) })
              some (.ok (), SmManager.flush_meta { sm1 with disk_manager_ := dm, db_ := db1 })

/-- `SmManager::drop_index(tab_name, col_names, context)`: it passes `idx_meta_iter->cols`, the
columns of the index inside `tab.indexes`, by reference. `get_index_meta` finds the index,
because `is_index` holds. -/
def SmManager.drop_index (sm : SmManager) (tab_name : String) (col_names : List String) :
    Option (Except Error Unit × SmManager) :=
  if sm.db_.is_table tab_name = false then some (.error .TableNotFoundError, sm)
  else
    match sm.db_.get_table tab_name with
    | .error e => some (.error e, sm)
    | .ok tab =>
      if tab.is_index col_names = false then some (.error .IndexNotFoundError, sm)
      else
        match tab.get_index_meta col_names with
        | none => some (.error .IndexNotFoundError, sm)
        | some pos => sm.drop_index_cols tab_name (.of_index pos)
/-! ## Example states of the system manager -/

/-- A system manager as its constructor leaves it, in an empty directory: no database open, no
file registered, the descriptors 0, 1, 2 in use, 3 records on a page. -/
def fresh_system : SmManager :=
  { db_ := { name_ := "", tabs_ := [] }
    fhs_ := []
    ihs_ := []
    disk_manager_ :=
      DiskFiles.init
        { cwd := [], dirs := [], files := [],
          fds := [(0, ["tty"]), (1, ["tty"]), (2, ["tty"])], max_fds := 16 }
    records_per_page := fun _ => 3
    calls := [] }

/-- The system after `create_db("db")` and `open_db("db")`. -/
def open_system : SmManager := ((fresh_system.create_db "db").2.open_db "db").2

/-- The system after `create_db("db")`, `open_db("db")` and `close_db()`. -/
def closed_system : SmManager := open_system.close_db.2

/-- The column definitions of a table `t(a, b, c)` of three 4-byte integer columns. -/
def abc_defs : List ColDef :=
  [{ name := "a", type := .TYPE_INT, len := 4 }, { name := "b", type := .TYPE_INT, len := 4 },
    { name := "c", type := .TYPE_INT, len := 4 }]

/-- The system with the open database `db` and the table `t(a, b, c)`, as
`create_table("t", [a, b, c])` leaves it. -/
def table_system : SmManager := (open_system.create_table "t" abc_defs).2

/-- The system of `table_system` with two rows in the table: the heap file of `t` is
`abc_file`, with `(1, 2, 3)` at `(1, 0)` and `(4, 5, 6)` at `(1, 1)`. -/
def abc_system : SmManager :=
  { table_system with fhs_ := [("t", { fd := 4, fh := abc_file })] }

/-! ## Example: two indexes on one table -/

/-- The system of `abc_system` after `create_index("t", ["a"])`. -/
def index_a_system : SmManager :=
  match abc_system.create_index "t" ["a"] 2 with
  | some r => r.2
  | none => abc_system

/-- The system of `index_a_system` after `create_index("t", ["b"])`. -/
def index_a_b_system : SmManager :=
  match index_a_system.create_index "t" ["b"] 2 with
  | some r => r.2
  | none => index_a_system

/-- The names and flags of the columns of a table, and the column names of its declared
indexes. -/
def SmManager.flags_and_indexes (sm : SmManager) (tab_name : String) :
    Option (List (String × Bool) × List (List String)) :=
  (StrMap.find sm.db_.tabs_ tab_name).map (fun tab =>
    (tab.cols.map (fun col => (col.name, col.index)),
      tab.indexes.map (fun index => index.cols.map (fun col => col.name))))
/-! ## The heap scan and its users on the frames of the pool

`RmScan`, `RmFileHandle::get_record`, `SeqScanExecutor` and the scan loop of
`SmManager::create_index` over the buffer pool of `src/storage/buffer_pool_manager.cpp` itself,
where a fetch of a page that is in no frame takes a frame and returns null when every frame is
pinned. -/

/-- Modelled from the spec: the size of the page header `RmPageHdr`,
`{next_free_page_no, num_records}`, two 4-byte integers. -/
def RM_PAGE_HDR_SIZE : Nat := 8

/-- Modelled from the spec: `Bitmap::is_set` on the bytes of a bitmap (bitmap.h is not part of
the sources), "one bit per slot": bit `pos` is bit `7 - pos % 8` of byte `pos / 8`, the highest
bit of a byte first. -/
def Bitmap.is_set (bm : List Byte) (pos : Int) : Bool :=
  if pos < 0 then false
  else decide ((bm.getD (pos.toNat / 8) 0 / 2 ^ (7 - pos.toNat % 8)) % 2 = 1)

/-- The bitmap that the handle `RmPageHandle(&file_hdr_, page)` of a frame exposes: the
`bitmap_size` bytes after the page header (`bitmap = page->get_data() + sizeof(RmPageHdr)`, as
`create_new_page_handle` writes it). -/
def RmFileHandleOnPool.bitmap (fh : RmFileHandleOnPool) (frame_id : Int) : Int → Bool :=
  fun pos =>
    Bitmap.is_set
      (((fh.buffer_pool_manager_.pages frame_id).data.drop RM_PAGE_HDR_SIZE).take
        fh.file_hdr_.bitmap_size) pos

/-- Modelled from the spec: `RmPageHandle::get_slot(slot_no)`, the bytes from
`slots + slot_no * record_size` on, the slot array following the bitmap. -/
def RmFileHandleOnPool.get_slot (fh : RmFileHandleOnPool) (frame_id : Int) (slot_no : Int) :
    List Byte :=
  (fh.buffer_pool_manager_.pages frame_id).data.drop
    (RM_PAGE_HDR_SIZE + fh.file_hdr_.bitmap_size + slot_no.toNat * fh.file_hdr_.record_size)

/-- `RmFileHandle::get_record` on the frames of the pool. -/
def RmFileHandleOnPool.get_record (fh : RmFileHandleOnPool) (rid : Rid) :
    Except Error (List Byte) × RmFileHandleOnPool :=
  match fh.fetch_page_handle rid.page_no with
  | (.error e, fh1) => (.error e, fh1)
  | (.ok frame_id, fh1) =>
    let record := copy_record (fh1.get_slot frame_id rid.slot_no) fh1.file_hdr_.record_size
    let page_id := (fh1.buffer_pool_manager_.pages frame_id).id
    (.ok record,
      { fh1 with buffer_pool_manager_ := (fh1.buffer_pool_manager_.unpin_page page_id false).2 })

/-- The state of an `RmScan` on the frames of the pool: the file handle it reads and the cursor
`rid_`. -/
structure RmScanOnPool where
  file_handle_ : RmFileHandleOnPool
  rid_ : Rid

/-- The `while (rid_.page_no < num_pages)` loop of `RmScan::next` with the assignment after it.
`fuel` bounds the number of iterations; `RmScanOnPool.next` passes the exact distance to
`num_pages`, so the loop condition is false when the fuel is spent. -/
def RmScanOnPool.next_loop : Nat → RmScanOnPool → Except Error Unit × RmScanOnPool
  | 0, s => (.ok (), { s with rid_ := { page_no := RM_NO_PAGE, slot_no := -1 } })
  | fuel + 1, s =>
    if s.rid_.page_no < s.file_handle_.file_hdr_.num_pages then
      match s.file_handle_.fetch_page_handle s.rid_.page_no with
      | (.error e, fh1) => (.error e, { s with file_handle_ := fh1 })
      | (.ok frame_id, fh1) =>
        let first_slot :=
          Bitmap.first_bit true (fh1.bitmap frame_id) fh1.file_hdr_.num_records_per_page
        if first_slot < fh1.file_hdr_.num_records_per_page then
          (.ok (), { file_handle_ := fh1, rid_ := { s.rid_ with slot_no := first_slot } })
        else
          RmScanOnPool.next_loop fuel
            { file_handle_ := fh1, rid_ := { s.rid_ with page_no := s.rid_.page_no + 1 } }
    else (.ok (), { s with rid_ := { page_no := RM_NO_PAGE, slot_no := -1 } })

/-- `RmScan::next` on the frames of the pool. The fetched pages are not unpinned, as in the
source. -/
def RmScanOnPool.next (s : RmScanOnPool) : Except Error Unit × RmScanOnPool :=
  match s.file_handle_.fetch_page_handle s.rid_.page_no with
  | (.error e, fh1) => (.error e, { s with file_handle_ := fh1 })
  | (.ok frame_id, fh1) =>
    let next_slot :=
      Bitmap.next_bit true (fh1.bitmap frame_id) fh1.file_hdr_.num_records_per_page
        s.rid_.slot_no
    if next_slot < fh1.file_hdr_.num_records_per_page then
      (.ok (), { file_handle_ := fh1, rid_ := { s.rid_ with slot_no := next_slot } })
    else
      let s1 : RmScanOnPool :=
        { file_handle_ := fh1, rid_ := { s.rid_ with page_no := s.rid_.page_no + 1 } }
      RmScanOnPool.next_loop (s1.file_handle_.file_hdr_.num_pages - s1.rid_.page_no).toNat s1

/-- The constructor `RmScan::RmScan` on the frames of the pool. -/
def RmScanOnPool.new (fh : RmFileHandleOnPool) : Except Error Unit × RmScanOnPool :=
  RmScanOnPool.next
    { file_handle_ := fh, rid_ := { page_no := RM_FIRST_RECORD_PAGE, slot_no := -1 } }

/-- `RmScan::is_end`. -/
def RmScanOnPool.is_end (s : RmScanOnPool) : Bool := s.rid_.page_no = RM_NO_PAGE

/-- The state of a `SeqScanExecutor` on the frames of the pool: the conditions, the file handle
`*fh_`, the columns, the current RID `rid_`, and the cursor of the `RmScan` behind `scan_`,
`none` for the null `scan_` of an executor on which `beginTuple` has not run. -/
structure SeqScanExecutorOnPool where
  conds_ : List Condition
  fh_ : RmFileHandleOnPool
  cols_ : List ColMeta
  rid_ : Rid
  scan_ : Option Rid

/-- `SeqScanExecutor::eval_cond`, as `SeqScanExecutor.eval_cond`. -/
def SeqScanExecutorOnPool.eval_cond (cmp : IxCompare) (e : SeqScanExecutorOnPool)
    (rec : List Byte) (cond : Condition) : Except Error Bool :=
  match get_col e.cols_ cond.lhs_col with
  | .error err => .error err
  | .ok (_, left_col) =>
    let left_val := rec.drop left_col.offset
    let len := left_col.len
    let rhs : Except Error (List Byte × ColType) :=
      if cond.is_rhs_val then .ok (cond.rhs_val.raw, cond.rhs_val.type)
      else
        match get_col e.cols_ cond.rhs_col with
        | .error err => .error err
        | .ok (_, right_col) => .ok (rec.drop right_col.offset, right_col.type)
    match rhs with
    | .error err => .error err
    | .ok (right_val, col_type) =>
      let cmp_result := cmp left_val right_val col_type len
      .ok (cond.op.holds cmp_result)

/-- `SeqScanExecutor::eval_conds`: `std::all_of`, which stops at the first condition that does
not hold. -/
def SeqScanExecutorOnPool.eval_conds (cmp : IxCompare) (e : SeqScanExecutorOnPool)
    (rec : List Byte) : List Condition → Except Error Bool
  | [] => .ok true
  | cond :: rest =>
    match e.eval_cond cmp rec cond with
    | .error err => .error err
    | .ok false => .ok false
    | .ok true => e.eval_conds cmp rec rest

/-- `SeqScanExecutor::is_end`: `scan_->is_end()`. -/
def SeqScanExecutorOnPool.is_end (e : SeqScanExecutorOnPool) : Except Error Bool :=
  match e.scan_ with
  | none => .error .NullDereference
  | some cur => .ok (RmScanOnPool.is_end { file_handle_ := e.fh_, rid_ := cur })

/-- The loop `while (!scan_->is_end())` of `beginTuple` and `nextTuple` on the frames of the
pool. `get_record` returns no null record, so the branch `if (!record)` is never taken. `none`
when `fuel` rounds do not leave the loop. -/
def SeqScanExecutorOnPool.seek (cmp : IxCompare) :
    Nat → SeqScanExecutorOnPool → Option (Except Error Unit × SeqScanExecutorOnPool)
  | 0, e =>
    match e.scan_ with
    | none => some (.error .NullDereference, e)
    | some cur =>
      if RmScanOnPool.is_end { file_handle_ := e.fh_, rid_ := cur } then some (.ok (), e)
      else none
  | fuel + 1, e =>
    match e.scan_ with
    | none => some (.error .NullDereference, e)
    | some cur =>
      if RmScanOnPool.is_end { file_handle_ := e.fh_, rid_ := cur } then some (.ok (), e)
      else
        let e1 : SeqScanExecutorOnPool := { e with rid_ := cur }
        match e1.fh_.get_record e1.rid_ with
        | (.error err, fh1) => some (.error err, { e1 with fh_ := fh1 })
        | (.ok record, fh1) =>
          let e2 : SeqScanExecutorOnPool := { e1 with fh_ := fh1 }
          let found : Except Error Bool :=
            if e2.conds_.isEmpty then .ok true else e2.eval_conds cmp record e2.conds_
          match found with
          | .error err => some (.error err, e2)
          | .ok true => some (.ok (), e2)
          | .ok false =>
            match RmScanOnPool.next { file_handle_ := e2.fh_, rid_ := cur } with
            | (.error err, s) =>
              some (.error err, { e2 with fh_ := s.file_handle_, scan_ := some s.rid_ })
            | (.ok _, s) =>
              SeqScanExecutorOnPool.seek cmp fuel
                { e2 with fh_ := s.file_handle_, scan_ := some s.rid_ }

/-- `SeqScanExecutor::beginTuple` on the frames of the pool. When the constructor of `RmScan`
throws, `scan_` is not assigned. -/
def SeqScanExecutorOnPool.beginTuple (cmp : IxCompare) (fuel : Nat)
    (e : SeqScanExecutorOnPool) : Option (Except Error Unit × SeqScanExecutorOnPool) :=
  match RmScanOnPool.new e.fh_ with
  | (.error err, s) => some (.error err, { e with fh_ := s.file_handle_ })
  | (.ok _, s) =>
    match SeqScanExecutorOnPool.seek cmp fuel
        { e with fh_ := s.file_handle_, scan_ := some s.rid_ } with
    | none => none
    | some (.error err, e1) => some (.error err, e1)
    | some (.ok _, e1) =>
      match e1.is_end with
      | .error err => some (.error err, e1)
      | .ok true => some (.ok (), { e1 with rid_ := { page_no := -1, slot_no := -1 } })
      | .ok false => some (.ok (), e1)

/-- `SeqScanExecutor::nextTuple` on the frames of the pool. -/
def SeqScanExecutorOnPool.nextTuple (cmp : IxCompare) (fuel : Nat)
    (e : SeqScanExecutorOnPool) : Option (Except Error Unit × SeqScanExecutorOnPool) :=
  match e.scan_ with
  | none => some (.error .NullDereference, e)
  | some cur =>
    if RmScanOnPool.is_end { file_handle_ := e.fh_, rid_ := cur } then
      some (.ok (), { e with rid_ := { page_no := -1, slot_no := -1 } })
    else
      match RmScanOnPool.next { file_handle_ := e.fh_, rid_ := cur } with
      | (.error err, s) =>
        some (.error err, { e with fh_ := s.file_handle_, scan_ := some s.rid_ })
      | (.ok _, s) =>
        SeqScanExecutorOnPool.seek cmp fuel
          { e with fh_ := s.file_handle_, scan_ := some s.rid_ }

/-- The loop `while not is_end(): emit rid(); nextTuple()` of the driver on the frames of the
pool. The RIDs emitted so far are collected in `emitted`, and are returned with the outcome, also
when a call throws; `none` when `fuel` rounds do not reach the end or a call runs out of its
fuel. -/
def SeqScanExecutorOnPool.drive_loop (cmp : IxCompare) (seek_fuel : Nat) :
    Nat → SeqScanExecutorOnPool → List Rid →
      Option (Except Error Unit × List Rid × SeqScanExecutorOnPool)
  | 0, e, emitted =>
    match e.is_end with
    | .error err => some (.error err, emitted, e)
    | .ok true => some (.ok (), emitted, e)
    | .ok false => none
  | fuel + 1, e, emitted =>
    match e.is_end with
    | .error err => some (.error err, emitted, e)
    | .ok true => some (.ok (), emitted, e)
    | .ok false =>
      match e.nextTuple cmp seek_fuel with
      | none => none
      | some (.error err, e1) => some (.error err, emitted ++ [e.rid_], e1)
      | some (.ok _, e1) =>
        SeqScanExecutorOnPool.drive_loop cmp seek_fuel fuel e1 (emitted ++ [e.rid_])

/-- The driver `beginTuple(); while not is_end(): emit rid(); nextTuple()` on the frames of the
pool, with the RIDs emitted up to the end or up to the exception. -/
def SeqScanExecutorOnPool.drive (cmp : IxCompare) (seek_fuel fuel : Nat)
    (e : SeqScanExecutorOnPool) :
    Option (Except Error Unit × List Rid × SeqScanExecutorOnPool) :=
  match e.beginTuple cmp seek_fuel with
  | none => none
  | some (.error err, e1) => some (.error err, [], e1)
  | some (.ok _, e1) => SeqScanExecutorOnPool.drive_loop cmp seek_fuel fuel e1 []

/-- The loop `for (RmScan scan(file_handle); !scan.is_end(); scan.next())` of
`SmManager::create_index` on the frames of the pool, from the second round on: for the record at
the cursor the key is built in a new buffer of `col_tot_len` bytes and `insert_entry(key, rid)`
is called on the index. The calls made are returned with the outcome, also when a call throws;
`none` when `fuel` rounds do not reach the end of the scan. -/
def SmManager.index_rows_on_pool (index_name : String) (idx_cols : List ColMeta)
    (col_tot_len : Nat) :
    Nat → RmScanOnPool → List Call → Option (Except Error Unit × RmScanOnPool × List Call)
  | 0, scan, calls => if scan.is_end then some (.ok (), scan, calls) else none
  | fuel + 1, scan, calls =>
    if scan.is_end then some (.ok (), scan, calls)
    else
      match scan.file_handle_.get_record scan.rid_ with
      | (.error e, fh1) => some (.error e, { scan with file_handle_ := fh1 }, calls)
      | (.ok record, fh1) =>
        let key := fill_key record idx_cols 0 (RmRecord.alloc col_tot_len)
        let calls1 := calls ++ [Call.insert_entry index_name key scan.rid_]
        match RmScanOnPool.next { scan with file_handle_ := fh1 } with
        | (.error e, scan1) => some (.error e, scan1, calls1)
        | (.ok _, scan1) =>
          SmManager.index_rows_on_pool index_name idx_cols col_tot_len fuel scan1 calls1

/-- The scan of `SmManager::create_index` on the frames of the pool: the construction of the
`RmScan` and the loop over it. -/
def SmManager.build_index_on_pool (index_name : String) (idx_cols : List ColMeta)
    (col_tot_len fuel : Nat) (fh : RmFileHandleOnPool) (calls : List Call) :
    Option (Except Error Unit × RmScanOnPool × List Call) :=
  match RmScanOnPool.new fh with
  | (.error e, scan) => some (.error e, scan, calls)
  | (.ok _, scan) => SmManager.index_rows_on_pool index_name idx_cols col_tot_len fuel scan calls

/-- `SmManager::create_index` with the file handle `fhs_[tab_name]` of the table on the frames
of the pool: `file_handle` is that handle, and is returned as the call leaves it. `fuel` bounds
the rounds of the scan loop; the result is `none` when it does not suffice. -/
def SmManager.create_index_on_pool (sm : SmManager) (tab_name : String)
    (col_names : List String) (fuel : Nat) (file_handle : RmFileHandleOnPool) :
    Option (Except Error Unit × SmManager × RmFileHandleOnPool) :=
  if sm.db_.is_table tab_name = false then some (.error .TableNotFoundError, sm, file_handle)
  else
    match sm.db_.get_table tab_name with
    | .error e => some (.error e, sm, file_handle)
    | .ok tab =>
      if tab.is_index col_names then some (.error .IndexExistsError, sm, file_handle)
      else
        match SmManager.collect_cols tab.cols col_names with
        | .error e => some (.error e, sm, file_handle)
        | .ok idx_cols =>
          let idx_meta := SmManager.index_meta tab_name idx_cols
          let db1 := sm.db_.update_table tab_name
            (fun t => { t with indexes := t.indexes ++ [idx_meta] })
          let sm1 : SmManager := { sm with db_ := db1 }
          match IxManager.create_index sm1.disk_manager_ tab_name idx_cols with
          | (.error e, dm) => some (.error e, { sm1 with disk_manager_ := dm }, file_handle)
          | (.ok _, dm) =>
            let index_name := get_index_name tab_name idx_cols
            match IxManager.open_index dm tab_name idx_cols with
            | (.error e, dm1) => some (.error e, { sm1 with disk_manager_ := dm1 }, file_handle)
            | (.ok ih, dm1) =>
              let sm2 : SmManager :=
                { sm1 with disk_manager_ := dm1, ihs_ := StrMap.set sm1.ihs_ index_name ih }
              match SmManager.build_index_on_pool index_name idx_cols idx_meta.col_tot_len fuel
                  file_handle sm2.calls with
              | none => none
              | some (.error e, scan1, calls1) =>
                some (.error e, { sm2 with calls := calls1 }, scan1.file_handle_)
              | some (.ok _, scan1, calls1) =>
                let db2 := sm2.db_.update_table tab_name
                  (fun t => { t with cols := set_index_flags true t.cols col_names })
                some (.ok (),
                  SmManager.flush_meta { sm2 with calls := calls1, db_ := db2 },
                  scan1.file_handle_)

/-! ## Example: a heap file with more data pages than the pool has frames -/

/-- A data page of one slot of four bytes that holds the 4-byte integer `n`: the page header
(`next_free_page_no = -1`, `num_records = 1`), the bitmap byte with the bit of slot 0 set, and
the slot. -/
def one_row_page (n : Nat) : List Byte := [255, 255, 255, 255, 1, 0, 0, 0, 128] ++ int_bytes n

/-- A disk with one heap file, descriptor 3, of 13-byte pages: the header page and two data
pages, the first with the row 1 and the second with the row 4. -/
def two_row_disk : DiskManager :=
  { page_size := 13
    files := fun id =>
      if id.fd = 3 ∧ id.page_no = 0 then some (List.replicate 13 0)
      else if id.fd = 3 ∧ id.page_no = 1 then some (one_row_page 1)
      else if id.fd = 3 ∧ id.page_no = 2 then some (one_row_page 4)
      else none
    fd2pageno := fun _ => 3
    transfers := [] }

/-- The open heap file of `two_row_disk`, one record of four bytes per page, on a buffer pool of
one frame that is free. -/
def two_row_heap : RmFileHandleOnPool :=
  { fd_ := 3
    file_hdr_ :=
      { record_size := 4, num_pages := 3, num_records_per_page := 1, first_free_page_no := -1,
        bitmap_size := 1 }
    buffer_pool_manager_ := BufferPoolManager.init 1 two_row_disk }

/-- The scan executor of the table `t(a)` over `two_row_heap`, without conditions. -/
def two_row_scan : SeqScanExecutorOnPool :=
  { conds_ := []
    fh_ := two_row_heap
    cols_ := [int_col "t" "a"]
    rid_ := { page_no := -1, slot_no := -1 }
    scan_ := none }

/-- The RIDs of a heap file on disk whose bit is set in the bitmap of their page, among the
slots `0 .. num_records_per_page - 1` of the pages `1 .. num_pages - 1`. -/
def RmFileHandleOnPool.occupied_on_disk (fh : RmFileHandleOnPool) : List Rid :=
  (List.range (fh.file_hdr_.num_pages.toNat - 1)).flatMap (fun (p : Nat) =>
    ((List.range fh.file_hdr_.num_records_per_page.toNat).filter (fun (s : Nat) =>
      match fh.buffer_pool_manager_.disk_manager.files
          { fd := fh.fd_, page_no := ((p + 1 : Nat) : Int) } with
      | none => false
      | some d =>
        Bitmap.is_set ((d.drop RM_PAGE_HDR_SIZE).take fh.file_hdr_.bitmap_size) (s : Int))).map
      (fun (s : Nat) => ({ page_no := ((p + 1 : Nat) : Int), slot_no := (s : Int) } : Rid)))

/-- The system with the open database `db` and the table `t(a)` of one 4-byte integer column, as
`create_table("t", [a])` leaves it. -/
def one_column_system : SmManager :=
  (open_system.create_table "t" [{ name := "a", type := .TYPE_INT, len := 4 }]).2
/-! # Theorems -/

/-! ## Basic facts about the operations -/

theorem setAt_same {α : Type} (f : Int → α) (p : Int) (v : α) : setAt f p v p = v := by
  simp [setAt]

theorem setAt_other {α : Type} (f : Int → α) (p q : Int) (v : α) (h : q ≠ p) :
    setAt f p v q = f q := by
  simp [setAt, h]

theorem copy_record_of_length (buf : List Byte) (n : Nat) (h : buf.length = n) :
    copy_record buf n = buf := by
  unfold copy_record
  exact List.take_of_length_le (le_of_eq h)

theorem copy_record_idem (buf : List Byte) (n : Nat) :
    copy_record (copy_record buf n) n = copy_record buf n := by
  unfold copy_record
  simp [List.take_take]

theorem fetch_page_handle_ok (fh : RmFileHandle) (p : Int) (pg : RmPage)
    (h0 : 0 ≤ p) (h1 : p < fh.file_hdr.num_pages) (hp : fh.pool.pages p = some pg) :
    fh.fetch_page_handle p =
      (.ok { page_no := p, page := pg },
        { fh with pool :=
          { fh.pool with pin_count := setAt fh.pool.pin_count p (fh.pool.pin_count p + 1) } }) := by
  unfold RmFileHandle.fetch_page_handle PoolView.fetch_page
  have : ¬ (p < 0 ∨ p ≥ fh.file_hdr.num_pages) := by omega
  simp [this, hp]

theorem fetch_page_handle_inv (fh fh1 : RmFileHandle) (p : Int) (ph : RmPageHandle)
    (h : fh.fetch_page_handle p = (.ok ph, fh1)) :
    0 ≤ p ∧ p < fh.file_hdr.num_pages ∧ ph.page_no = p ∧ fh.pool.pages p = some ph.page ∧
      fh1 = { fh with pool :=
          { fh.pool with pin_count := setAt fh.pool.pin_count p (fh.pool.pin_count p + 1) } } := by
  unfold RmFileHandle.fetch_page_handle PoolView.fetch_page at h
  by_cases hr : p < 0 ∨ p ≥ fh.file_hdr.num_pages
  · simp [hr] at h
  · simp only [hr, if_false] at h
    cases hp : fh.pool.pages p with
    | none => simp [hp] at h
    | some pg =>
      simp only [hp, Prod.mk.injEq, Except.ok.injEq] at h
      obtain ⟨h1, h2⟩ := h
      subst h1 h2
      refine ⟨by omega, by omega, rfl, rfl, rfl⟩

theorem fetch_page_handle_error (fh fh1 : RmFileHandle) (p : Int) (e : Error)
    (h : fh.fetch_page_handle p = (.error e, fh1)) : fh1 = fh := by
  unfold RmFileHandle.fetch_page_handle PoolView.fetch_page at h
  by_cases hr : p < 0 ∨ p ≥ fh.file_hdr.num_pages
  · simp [hr] at h
    exact h.2.symm
  · simp only [hr, if_false] at h
    cases hp : fh.pool.pages p with
    | none =>
      simp [hp] at h
      exact h.2.symm
    | some pg => simp [hp] at h

/-- The page a fresh data page holds right after `create_new_page_handle`. -/
theorem create_new_page_handle_inv (fh fh1 : RmFileHandle) (ph : RmPageHandle)
    (h : fh.create_new_page_handle = (.ok ph, fh1)) :
    ph.page_no = fh.pool.fd2pageno ∧
      ph.page.page_hdr = { next_free_page_no := -1, num_records := 0 } ∧
      ph.page.bitmap = Bitmap.init ∧
      fh1.file_hdr = { fh.file_hdr with num_pages := fh.file_hdr.num_pages + 1 } ∧
      fh1.pool.pages = setAt fh.pool.pages ph.page_no (some ph.page) ∧
      fh1.pool.fd2pageno = fh.pool.fd2pageno + 1 ∧
      fh1.pool.has_victim = fh.pool.has_victim := by
  unfold RmFileHandle.create_new_page_handle PoolView.new_page at h
  by_cases hv : fh.pool.has_victim = false
  · simp [hv] at h
  · by_cases hi : fh.pool.fd2pageno = INVALID_PAGE_ID
    · simp [hv, hi] at h
    · simp only [hv, hi, if_false, Bool.true_eq_false, Prod.mk.injEq, Except.ok.injEq] at h
      obtain ⟨h1, h2⟩ := h
      subst h1 h2
      refine ⟨rfl, rfl, rfl, rfl, ?_, rfl, ?_⟩
      · funext q
        simp only [RmFileHandle.write_hdr, RmFileHandle.store, setAt]
        by_cases hq : q = fh.pool.fd2pageno <;> simp [hq]
      · simp [RmFileHandle.write_hdr, RmFileHandle.store, hv]

theorem create_page_handle_inv (fh fh1 : RmFileHandle) (ph : RmPageHandle)
    (h : fh.create_page_handle = (.ok ph, fh1)) :
    (fh.file_hdr.first_free_page_no = RM_NO_PAGE ∧ fh.create_new_page_handle = (.ok ph, fh1)) ∨
    (fh.file_hdr.first_free_page_no ≠ RM_NO_PAGE ∧
      ph.page_no = fh.file_hdr.first_free_page_no ∧
      0 ≤ ph.page_no ∧ ph.page_no < fh.file_hdr.num_pages ∧
      fh.pool.pages ph.page_no = some ph.page ∧
      fh1.file_hdr =
        { fh.file_hdr with first_free_page_no := ph.page.page_hdr.next_free_page_no } ∧
      fh1.pool.pages = fh.pool.pages ∧
      fh1.pool.fd2pageno = fh.pool.fd2pageno ∧
      fh1.pool.has_victim = fh.pool.has_victim) := by
  unfold RmFileHandle.create_page_handle at h
  by_cases hh : fh.file_hdr.first_free_page_no = RM_NO_PAGE
  · left
    simp only [hh, if_true] at h
    exact ⟨hh, h⟩
  · right
    simp only [hh, if_false] at h
    rcases hf : fh.fetch_page_handle fh.file_hdr.first_free_page_no with ⟨r, fh2⟩
    cases r with
    | error e => simp [hf] at h
    | ok ph2 =>
      simp only [hf, Prod.mk.injEq, Except.ok.injEq] at h
      obtain ⟨h1, h2⟩ := h
      obtain ⟨a, b, c, d, e⟩ := fetch_page_handle_inv _ _ _ _ hf
      subst h1 h2 e
      refine ⟨hh, c, by omega, by omega, ?_, rfl, rfl, rfl, rfl⟩
      rw [c]; exact d

/-- What `insert_record` does once `create_page_handle` has produced a page. -/
theorem insert_record_of_handle (fh fh1 : RmFileHandle) (ph : RmPageHandle) (buf : List Byte)
    (h : fh.create_page_handle = (.ok ph, fh1)) :
    ∃ fh2 pg, fh.insert_record buf =
        (.ok ⟨ph.page_no,
            Bitmap.first_bit false ph.page.bitmap fh1.file_hdr.num_records_per_page⟩, fh2) ∧
      fh2.pool.pages = setAt fh1.pool.pages ph.page_no (some pg) ∧
      fh2.pool.fd2pageno = fh1.pool.fd2pageno ∧
      fh2.pool.has_victim = fh1.pool.has_victim ∧
      fh2.file_hdr.record_size = fh1.file_hdr.record_size ∧
      fh2.file_hdr.num_pages = fh1.file_hdr.num_pages ∧
      fh2.file_hdr.num_records_per_page = fh1.file_hdr.num_records_per_page ∧
      pg.bitmap = Bitmap.set ph.page.bitmap
        (Bitmap.first_bit false ph.page.bitmap fh1.file_hdr.num_records_per_page) ∧
      pg.slots = setAt ph.page.slots
        (Bitmap.first_bit false ph.page.bitmap fh1.file_hdr.num_records_per_page)
        (copy_record buf fh1.file_hdr.record_size) ∧
      pg.page_hdr.num_records = ph.page.page_hdr.num_records + 1 ∧
      (ph.page.page_hdr.num_records + 1 = fh1.file_hdr.num_records_per_page →
        fh2.file_hdr.first_free_page_no = ph.page.page_hdr.next_free_page_no ∧
        pg.page_hdr.next_free_page_no = RM_NO_PAGE) ∧
      (ph.page.page_hdr.num_records + 1 ≠ fh1.file_hdr.num_records_per_page →
        fh2.file_hdr.first_free_page_no = fh1.file_hdr.first_free_page_no ∧
        pg.page_hdr.next_free_page_no = ph.page.page_hdr.next_free_page_no) := by
  unfold RmFileHandle.insert_record
  simp only [h]
  by_cases hfull : ph.page.page_hdr.num_records + 1 = fh1.file_hdr.num_records_per_page
  · refine ⟨_, { page_hdr := ⟨RM_NO_PAGE, ph.page.page_hdr.num_records + 1⟩,
                 bitmap := Bitmap.set ph.page.bitmap
                   (Bitmap.first_bit false ph.page.bitmap fh1.file_hdr.num_records_per_page),
                 slots := setAt ph.page.slots
                   (Bitmap.first_bit false ph.page.bitmap fh1.file_hdr.num_records_per_page)
                   (copy_record buf fh1.file_hdr.record_size) }, rfl, ?_⟩
    simp [hfull, RmFileHandle.unpin, RmFileHandle.store, PoolView.unpin_page]
    split <;> simp
  · refine ⟨_, { page_hdr := ⟨ph.page.page_hdr.next_free_page_no,
                   ph.page.page_hdr.num_records + 1⟩,
                 bitmap := Bitmap.set ph.page.bitmap
                   (Bitmap.first_bit false ph.page.bitmap fh1.file_hdr.num_records_per_page),
                 slots := setAt ph.page.slots
                   (Bitmap.first_bit false ph.page.bitmap fh1.file_hdr.num_records_per_page)
                   (copy_record buf fh1.file_hdr.record_size) }, rfl, ?_⟩
    simp [hfull, RmFileHandle.unpin, RmFileHandle.store, PoolView.unpin_page]
    split <;> simp

theorem insert_record_ok_inv (fh fh2 : RmFileHandle) (buf : List Byte) (rid : Rid)
    (h : fh.insert_record buf = (.ok rid, fh2)) :
    ∃ ph fh1, fh.create_page_handle = (.ok ph, fh1) := by
  unfold RmFileHandle.insert_record at h
  rcases hc : fh.create_page_handle with ⟨r, fh1⟩
  cases r with
  | error e => simp [hc] at h
  | ok ph => exact ⟨ph, fh1, rfl⟩

/-! ## Bitmap facts -/

theorem next_bit_loop_spec (bit : Bool) (bm : Int → Bool) (max_n : Int) :
    ∀ (k : Nat) (i : Int), i + k = max_n →
      i ≤ Bitmap.next_bit_loop bit bm max_n i k ∧
      Bitmap.next_bit_loop bit bm max_n i k ≤ max_n ∧
      (∀ j, i ≤ j → j < Bitmap.next_bit_loop bit bm max_n i k → bm j ≠ bit) ∧
      (Bitmap.next_bit_loop bit bm max_n i k < max_n →
        bm (Bitmap.next_bit_loop bit bm max_n i k) = bit) := by
  intro k
  induction k with
  | zero =>
    intro i hi
    simp only [Bitmap.next_bit_loop]
    refine ⟨by omega, le_refl _, ?_, ?_⟩
    · intro j h1 h2; omega
    · intro h; omega
  | succ k ih =>
    intro i hi
    simp only [Bitmap.next_bit_loop]
    by_cases hb : bm i = bit
    · simp only [hb, if_true]
      refine ⟨le_refl _, by omega, ?_, ?_⟩
      · intro j h1 h2; omega
      · intro _; trivial
    · simp only [hb, if_false]
      obtain ⟨a, b, c, d⟩ := ih (i + 1) (by push_cast at hi; omega)
      refine ⟨by omega, b, ?_, d⟩
      intro j h1 h2
      by_cases hj : j = i
      · subst hj; exact hb
      · exact c j (by omega) h2

theorem next_bit_le (bit : Bool) (bm : Int → Bool) (max_n curr : Int) :
    curr < max_n → Bitmap.next_bit bit bm max_n curr ≤ max_n := by
  intro h
  unfold Bitmap.next_bit
  exact (next_bit_loop_spec bit bm max_n _ (curr + 1) (by omega)).2.1

theorem next_bit_found (bit : Bool) (bm : Int → Bool) (max_n curr : Int)
    (h : Bitmap.next_bit bit bm max_n curr < max_n) :
    curr < Bitmap.next_bit bit bm max_n curr ∧ bm (Bitmap.next_bit bit bm max_n curr) = bit := by
  unfold Bitmap.next_bit at h ⊢
  by_cases hc : curr + 1 ≤ max_n
  · obtain ⟨a, _, _, d⟩ := next_bit_loop_spec bit bm max_n (max_n - (curr + 1)).toNat (curr + 1)
      (by omega)
    exact ⟨by omega, d h⟩
  · have hz : (max_n - (curr + 1)).toNat = 0 := by omega
    rw [hz] at h
    simp [Bitmap.next_bit_loop] at h

theorem next_bit_least (bit : Bool) (bm : Int → Bool) (max_n curr : Int) (j : Int)
    (h1 : curr < j) (h2 : j < Bitmap.next_bit bit bm max_n curr) (h3 : j < max_n) :
    bm j ≠ bit := by
  unfold Bitmap.next_bit at h2
  have hc : curr + 1 ≤ max_n := by omega
  obtain ⟨_, _, c, _⟩ := next_bit_loop_spec bit bm max_n (max_n - (curr + 1)).toNat (curr + 1)
    (by omega)
  exact c j (by omega) h2

/-- A bit equal to `bit` after `curr` is found by `next_bit`. -/
theorem next_bit_lt_of_exists (bit : Bool) (bm : Int → Bool) (max_n curr i : Int)
    (h1 : curr < i) (h2 : i < max_n) (h3 : bm i = bit) :
    Bitmap.next_bit bit bm max_n curr ≤ i := by
  by_contra hlt
  exact next_bit_least bit bm max_n curr i h1 (by omega) h2 h3

theorem popcount_succ (bm : Int → Bool) (m : Nat) :
    ((List.range (m + 1)).filter (fun (i : Nat) => bm (i : Int))).length =
      ((List.range m).filter (fun (i : Nat) => bm (i : Int))).length + (if bm (m : Int) then 1 else 0) := by
  rw [List.range_succ, List.filter_append, List.length_append]
  by_cases h : bm (m : Int) = true <;> simp [h]

theorem popcount_nat_set (bm : Int → Bool) (s : Nat) :
    ∀ m : Nat, ((List.range m).filter (fun (i : Nat) => Bitmap.set bm (s : Int) (i : Int))).length =
      ((List.range m).filter (fun (i : Nat) => bm (i : Int))).length +
        (if s < m ∧ bm (s : Int) = false then 1 else 0) := by
  intro m
  induction m with
  | zero => simp
  | succ m ih =>
    rw [popcount_succ, popcount_succ, ih]
    by_cases hs : s = m
    · subst hs
      cases hb : bm (s : Int) <;> simp [Bitmap.set, hb]
    · have hne : ((m : Int) = (s : Int)) = False := by
        simp only [eq_iff_iff, iff_false]; omega
      simp only [Bitmap.set, hne, if_false]
      by_cases hlt : s < m
      · have : s < m + 1 := by omega
        simp [hlt, this]; omega
      · have : ¬ s < m + 1 := by omega
        simp [hlt, this]

theorem popcount_nat_reset (bm : Int → Bool) (s : Nat) :
    ∀ m : Nat, ((List.range m).filter (fun (i : Nat) => Bitmap.reset bm (s : Int) (i : Int))).length +
        (if s < m ∧ bm (s : Int) = true then 1 else 0) =
      ((List.range m).filter (fun (i : Nat) => bm (i : Int))).length := by
  intro m
  induction m with
  | zero => simp
  | succ m ih =>
    rw [popcount_succ, popcount_succ, ← ih]
    by_cases hs : s = m
    · subst hs
      cases hb : bm (s : Int) <;> simp [Bitmap.reset, hb]
    · have hne : ((m : Int) = (s : Int)) = False := by
        simp only [eq_iff_iff, iff_false]; omega
      simp only [Bitmap.reset, hne, if_false]
      by_cases hlt : s < m
      · have : s < m + 1 := by omega
        simp [hlt, this]; omega
      · have : ¬ s < m + 1 := by omega
        simp [hlt, this]

theorem popcount_set (bm : Int → Bool) (n s : Int) (h0 : 0 ≤ s) (h1 : s < n)
    (hb : bm s = false) :
    Bitmap.popcount (Bitmap.set bm s) n = Bitmap.popcount bm n + 1 := by
  unfold Bitmap.popcount
  obtain ⟨k, rfl⟩ : ∃ k : Nat, s = (k : Int) := ⟨s.toNat, by omega⟩
  rw [popcount_nat_set]
  have : k < n.toNat := by omega
  simp [this, hb]

theorem popcount_reset (bm : Int → Bool) (n s : Int) (h0 : 0 ≤ s) (h1 : s < n)
    (hb : bm s = true) :
    Bitmap.popcount (Bitmap.reset bm s) n + 1 = Bitmap.popcount bm n := by
  unfold Bitmap.popcount
  obtain ⟨k, rfl⟩ : ∃ k : Nat, s = (k : Int) := ⟨s.toNat, by omega⟩
  rw [← popcount_nat_reset bm k n.toNat]
  have : k < n.toNat := by omega
  simp [this, hb]

theorem popcount_nat_full (bm : Int → Bool) :
    ∀ m : Nat, (∀ i : Nat, i < m → bm (i : Int) = true) →
      ((List.range m).filter (fun (i : Nat) => bm (i : Int))).length = m := by
  intro m
  induction m with
  | zero => simp
  | succ m ih =>
    intro h
    rw [popcount_succ, ih (fun i hi => h i (by omega)), h m (by omega)]
    simp

theorem popcount_init (n : Int) : Bitmap.popcount Bitmap.init n = 0 := by
  unfold Bitmap.popcount Bitmap.init
  simp

/-- A page with fewer set bits than slots has a clear bit among its slots. -/
theorem exists_clear_of_popcount_lt (bm : Int → Bool) (n : Int)
    (h : (Bitmap.popcount bm n : Int) < n) : ∃ i, 0 ≤ i ∧ i < n ∧ bm i = false := by
  by_contra hne
  push_neg at hne
  have hall : ∀ i : Nat, i < n.toNat → bm (i : Int) = true := by
    intro i hi
    have := hne (i : Int) (by omega) (by omega)
    simpa using this
  have := popcount_nat_full bm n.toNat hall
  unfold Bitmap.popcount at h
  omega

/-- `first_bit false` returns a clear slot below `n` when one exists. -/
theorem first_bit_false_spec (bm : Int → Bool) (n : Int)
    (h : ∃ i, 0 ≤ i ∧ i < n ∧ bm i = false) :
    0 ≤ Bitmap.first_bit false bm n ∧ Bitmap.first_bit false bm n < n ∧
      bm (Bitmap.first_bit false bm n) = false ∧
      ∀ j, 0 ≤ j → j < Bitmap.first_bit false bm n → bm j = true := by
  obtain ⟨i, h0, h1, h2⟩ := h
  have hle := next_bit_lt_of_exists false bm n (-1) i (by omega) h1 h2
  have hlt : Bitmap.next_bit false bm n (-1) < n := by omega
  obtain ⟨a, b⟩ := next_bit_found false bm n (-1) hlt
  unfold Bitmap.first_bit
  refine ⟨by omega, hlt, b, ?_⟩
  intro j hj0 hj1
  have := next_bit_least false bm n (-1) j (by omega) hj1 (by omega)
  simpa using this

/-- What `delete_record` does on a page that can be fetched. -/
theorem delete_record_spec (fh : RmFileHandle) (rid : Rid) (pg : RmPage)
    (h0 : 0 ≤ rid.page_no) (h1 : rid.page_no < fh.file_hdr.num_pages)
    (hp : fh.pool.pages rid.page_no = some pg) :
    ∃ fh1 pg1, fh.delete_record rid = (.ok (), fh1) ∧
      fh1.pool.pages = setAt fh.pool.pages rid.page_no (some pg1) ∧
      fh1.pool.fd2pageno = fh.pool.fd2pageno ∧
      fh1.pool.has_victim = fh.pool.has_victim ∧
      fh1.file_hdr.record_size = fh.file_hdr.record_size ∧
      fh1.file_hdr.num_pages = fh.file_hdr.num_pages ∧
      fh1.file_hdr.num_records_per_page = fh.file_hdr.num_records_per_page ∧
      pg1.bitmap = Bitmap.reset pg.bitmap rid.slot_no ∧
      pg1.slots = pg.slots ∧
      pg1.page_hdr.num_records = pg.page_hdr.num_records - 1 ∧
      ((pg.page_hdr.num_records = fh.file_hdr.num_records_per_page ∧
          pg.page_hdr.next_free_page_no = RM_NO_PAGE) →
        fh1.file_hdr.first_free_page_no = rid.page_no ∧
        pg1.page_hdr.next_free_page_no = fh.file_hdr.first_free_page_no) ∧
      (¬ (pg.page_hdr.num_records = fh.file_hdr.num_records_per_page ∧
          pg.page_hdr.next_free_page_no = RM_NO_PAGE) →
        fh1.file_hdr.first_free_page_no = fh.file_hdr.first_free_page_no ∧
        pg1.page_hdr.next_free_page_no = pg.page_hdr.next_free_page_no) := by
  unfold RmFileHandle.delete_record
  rw [fetch_page_handle_ok fh rid.page_no pg h0 h1 hp]
  by_cases hfull : pg.page_hdr.num_records = fh.file_hdr.num_records_per_page
  · by_cases hnext : pg.page_hdr.next_free_page_no = RM_NO_PAGE
    · refine ⟨_, { page_hdr := ⟨fh.file_hdr.first_free_page_no, pg.page_hdr.num_records - 1⟩,
                   bitmap := Bitmap.reset pg.bitmap rid.slot_no, slots := pg.slots }, rfl, ?_⟩
      simp [hfull, hnext, RmFileHandle.release_page_handle, RmFileHandle.unpin,
        RmFileHandle.store, RmFileHandle.write_hdr, PoolView.unpin_page]
      split <;> simp
    · refine ⟨_, { page_hdr := ⟨pg.page_hdr.next_free_page_no, pg.page_hdr.num_records - 1⟩,
                   bitmap := Bitmap.reset pg.bitmap rid.slot_no, slots := pg.slots }, rfl, ?_⟩
      simp [hfull, hnext, RmFileHandle.release_page_handle, RmFileHandle.unpin,
        RmFileHandle.store, RmFileHandle.write_hdr, PoolView.unpin_page]
      split <;> simp
  · refine ⟨_, { page_hdr := ⟨pg.page_hdr.next_free_page_no, pg.page_hdr.num_records - 1⟩,
                 bitmap := Bitmap.reset pg.bitmap rid.slot_no, slots := pg.slots }, rfl, ?_⟩
    simp [hfull, RmFileHandle.unpin, RmFileHandle.store, PoolView.unpin_page]
    split <;> simp

/-- What `update_record` does on a page that can be fetched. -/
theorem update_record_spec (fh : RmFileHandle) (rid : Rid) (buf : List Byte) (pg : RmPage)
    (h0 : 0 ≤ rid.page_no) (h1 : rid.page_no < fh.file_hdr.num_pages)
    (hp : fh.pool.pages rid.page_no = some pg) :
    ∃ fh1 pg1, fh.update_record rid buf = (.ok (), fh1) ∧
      fh1.pool.pages = setAt fh.pool.pages rid.page_no (some pg1) ∧
      fh1.pool.fd2pageno = fh.pool.fd2pageno ∧
      fh1.pool.has_victim = fh.pool.has_victim ∧
      fh1.file_hdr = fh.file_hdr ∧
      pg1.bitmap = pg.bitmap ∧
      pg1.page_hdr = pg.page_hdr ∧
      pg1.slots = setAt pg.slots rid.slot_no (copy_record buf fh.file_hdr.record_size) := by
  unfold RmFileHandle.update_record
  rw [fetch_page_handle_ok fh rid.page_no pg h0 h1 hp]
  refine ⟨_, { page_hdr := pg.page_hdr, bitmap := pg.bitmap,
               slots := setAt pg.slots rid.slot_no (copy_record buf fh.file_hdr.record_size) },
    rfl, ?_⟩
  simp [RmFileHandle.unpin, RmFileHandle.store, PoolView.unpin_page]
  split <;> simp

/-- An operation that starts with a failing `fetch_page_handle` changes nothing. -/
theorem delete_record_error (fh fh1 : RmFileHandle) (rid : Rid) (e : Error)
    (h : fh.delete_record rid = (.error e, fh1)) : fh1 = fh := by
  unfold RmFileHandle.delete_record at h
  rcases hf : fh.fetch_page_handle rid.page_no with ⟨r, fh2⟩
  cases r with
  | error e2 =>
    simp only [hf, Prod.mk.injEq] at h
    rw [← h.2]
    exact fetch_page_handle_error _ _ _ _ hf
  | ok ph => simp [hf] at h

theorem update_record_error (fh fh1 : RmFileHandle) (rid : Rid) (buf : List Byte) (e : Error)
    (h : fh.update_record rid buf = (.error e, fh1)) : fh1 = fh := by
  unfold RmFileHandle.update_record at h
  rcases hf : fh.fetch_page_handle rid.page_no with ⟨r, fh2⟩
  cases r with
  | error e2 =>
    simp only [hf, Prod.mk.injEq] at h
    rw [← h.2]
    exact fetch_page_handle_error _ _ _ _ hf
  | ok ph => simp [hf] at h

theorem update_record_ok_inv (fh fh1 : RmFileHandle) (rid : Rid) (buf : List Byte)
    (h : fh.update_record rid buf = (.ok (), fh1)) :
    0 ≤ rid.page_no ∧ rid.page_no < fh.file_hdr.num_pages ∧
      ∃ pg, fh.pool.pages rid.page_no = some pg := by
  unfold RmFileHandle.update_record at h
  rcases hf : fh.fetch_page_handle rid.page_no with ⟨r, fh2⟩
  cases r with
  | error e2 => simp [hf] at h
  | ok ph =>
    obtain ⟨a, b, _, d, _⟩ := fetch_page_handle_inv _ _ _ _ hf
    exact ⟨a, b, _, d⟩

/-- A failing `insert_record` leaves the header and the pages as they were. -/
theorem insert_record_error (fh fh1 : RmFileHandle) (buf : List Byte) (e : Error)
    (h : fh.insert_record buf = (.error e, fh1)) :
    fh1.file_hdr = fh.file_hdr ∧ fh1.pool.pages = fh.pool.pages ∧
      (fh.pool.fd2pageno ≠ INVALID_PAGE_ID → fh1.pool.fd2pageno = fh.pool.fd2pageno) := by
  unfold RmFileHandle.insert_record at h
  rcases hc : fh.create_page_handle with ⟨r, fh2⟩
  cases r with
  | ok ph => simp [hc] at h
  | error e2 =>
    simp only [hc, Prod.mk.injEq] at h
    obtain ⟨_, h2⟩ := h
    subst h2
    unfold RmFileHandle.create_page_handle at hc
    by_cases hh : fh.file_hdr.first_free_page_no = RM_NO_PAGE
    · simp only [hh, if_true] at hc
      unfold RmFileHandle.create_new_page_handle PoolView.new_page at hc
      by_cases hv : fh.pool.has_victim = false
      · simp only [hv, if_true, Prod.mk.injEq] at hc
        rw [← hc.2]
        exact ⟨rfl, rfl, fun _ => rfl⟩
      · by_cases hi : fh.pool.fd2pageno = INVALID_PAGE_ID
        · simp only [hv, hi, if_true, if_false, Bool.true_eq_false, Prod.mk.injEq] at hc
          rw [← hc.2]
          exact ⟨rfl, rfl, fun hne => absurd hi hne⟩
        · simp [hv, hi] at hc
    · simp only [hh, if_false] at hc
      rcases hf : fh.fetch_page_handle fh.file_hdr.first_free_page_no with ⟨r, fh3⟩
      cases r with
      | error e3 =>
        simp only [hf, Prod.mk.injEq] at hc
        rw [← hc.2, fetch_page_handle_error _ _ _ _ hf]
        exact ⟨rfl, rfl, fun _ => rfl⟩
      | ok ph => simp [hf] at hc

theorem get_record_ok (fh : RmFileHandle) (rid : Rid) (pg : RmPage)
    (h0 : 0 ≤ rid.page_no) (h1 : rid.page_no < fh.file_hdr.num_pages)
    (hp : fh.pool.pages rid.page_no = some pg) :
    (fh.get_record rid).1 = .ok (copy_record (pg.slots rid.slot_no) fh.file_hdr.record_size) := by
  unfold RmFileHandle.get_record
  rw [fetch_page_handle_ok fh rid.page_no pg h0 h1 hp]

/-- C1 (insert/read round trip): in a well-formed heap file whose data pages are coherent and
whose free-list head is `RM_NO_PAGE` or names a non-full data page, if `insert_record(b)` returns
`rid` for a buffer of `record_size` bytes, then `get_record(rid)` called right afterwards returns
exactly `b`, and `rid` names an occupied slot of a data page. -/
theorem insert_get_round_trip (fh fh1 : RmFileHandle) (buf : List Byte) (rid : Rid)
    (hwf : fh.wf) (hcoh : fh.coherent) (hhead : fh.head_ok)
    (hlen : buf.length = fh.file_hdr.record_size)
    (hins : fh.insert_record buf = (.ok rid, fh1)) :
    (fh1.get_record rid).1 = .ok buf ∧ fh1.occupied rid := by
  obtain ⟨hn, hnp, hctr⟩ := hwf
  obtain ⟨ph, fh', hc⟩ := insert_record_ok_inv fh fh1 buf rid hins
  obtain ⟨fh2, pg, heq, hpages, _, _, hrs, hnpg, hnr, hbm, hsl, _, _, _⟩ :=
    insert_record_of_handle fh fh' ph buf hc
  rw [hins] at heq
  simp only [Prod.mk.injEq, Except.ok.injEq] at heq
  obtain ⟨hrid, hfh⟩ := heq
  subst hfh hrid
  have hpg : fh1.pool.pages ph.page_no = some pg := by rw [hpages]; exact setAt_same _ _ _
  -- facts about the selected page
  have hsel : fh'.file_hdr.record_size = fh.file_hdr.record_size ∧
      fh'.file_hdr.num_records_per_page = fh.file_hdr.num_records_per_page ∧
      1 ≤ ph.page_no ∧ ph.page_no < fh'.file_hdr.num_pages ∧
      ∃ i, 0 ≤ i ∧ i < fh.file_hdr.num_records_per_page ∧ ph.page.bitmap i = false := by
    rcases create_page_handle_inv fh fh' ph hc with ⟨hh, hnew⟩ | ⟨hh, hpn, _, _, hold, hhdr, _⟩
    · obtain ⟨a, _, c, d, _⟩ := create_new_page_handle_inv fh fh' ph hnew
      rw [d, a, c]
      refine ⟨rfl, rfl, by omega, by simp only; omega, 0, le_refl _, by omega, rfl⟩
    · rw [hhdr]
      rcases hhead with hno | ⟨g1, g2, pg0, g3, g4⟩
      · exact absurd hno hh
      · rw [← hpn] at g1 g2 g3
        rw [hold] at g3
        cases g3
        refine ⟨rfl, rfl, g1, g2, ?_⟩
        have hco := hcoh ph.page_no ph.page g1 g2 hold
        unfold RmPage.coherent at hco
        exact exists_clear_of_popcount_lt _ _ (by omega)
  obtain ⟨e1, e2, hp1, hp2, hclear⟩ := hsel
  rw [← e2] at hclear
  obtain ⟨s0, s1, s2, _⟩ := first_bit_false_spec ph.page.bitmap _ hclear
  refine ⟨?_, ?_⟩
  · rw [get_record_ok fh1 _ pg (by simp only; omega) (by simp only; omega) hpg]
    simp only [hsl, setAt_same, hrs, copy_record_idem]
    rw [e1]
    exact congrArg _ (copy_record_of_length buf _ hlen)
  · refine ⟨hp1, by simp only; omega, s0, by simp only; omega, pg, hpg, ?_⟩
    simp [hbm, Bitmap.set]

/-- Witness for C1: the first insert into a freshly created file with 3 records per page. -/
theorem insert_get_round_trip_witness :
    ((empty_file 4 3).insert_record [1, 2, 3, 4]).1 = .ok ⟨1, 0⟩ ∧
      ((((empty_file 4 3).insert_record [1, 2, 3, 4]).2).get_record ⟨1, 0⟩).1 = .ok [1, 2, 3, 4] ∧
      (((empty_file 4 3).insert_record [1, 2, 3, 4]).2).occupied ⟨1, 0⟩ :=
  ⟨rfl,
    insert_get_round_trip (empty_file 4 3) _ [1, 2, 3, 4] ⟨1, 0⟩
      ⟨by decide, by decide, rfl⟩
      (fun p pg _ _ h => by simp [empty_file] at h)
      (Or.inl rfl) rfl rfl⟩

/-- C2 (a page is filled slot by slot before a new page is allocated), evaluated on the code:
starting from an empty heap file with 3 records per page, four consecutive `insert_record` calls
return `(1,0),(2,0),(3,0),(4,0)`, a new page for every record, and not the RIDs
`(1,0),(1,1),(1,2),(2,0)` of the claim: `create_new_page_handle` never puts the page it creates
on the free list. -/
theorem insert_four_records_rids (b1 b2 b3 b4 : List Byte) :
    (insert_all (empty_file 4 3) [b1, b2, b3, b4]).1 = .ok [⟨1, 0⟩, ⟨2, 0⟩, ⟨3, 0⟩, ⟨4, 0⟩] ∧
      (insert_all (empty_file 4 3) [b1, b2, b3, b4]).1 ≠
        .ok [⟨1, 0⟩, ⟨1, 1⟩, ⟨1, 2⟩, ⟨2, 0⟩] := by
  have h : (insert_all (empty_file 4 3) [b1, b2, b3, b4]).1 =
      .ok [⟨1, 0⟩, ⟨2, 0⟩, ⟨3, 0⟩, ⟨4, 0⟩] := rfl
  refine ⟨h, ?_⟩
  rw [h]
  intro hne
  have := Except.ok.inj hne
  revert this
  decide

/-- C10 (scan over a heap with no records ends cleanly), evaluated on the code: constructing an
`RmScan` over a freshly created file (header page only, `num_pages = 1`) raises
`PageNotExistError`, because `next()` fetches page 1 before it compares the page number with
`num_pages`; the scan is not left exhausted. -/
theorem scan_of_header_only_file_throws (record_size : Nat) (records_per_page : Int) :
    (RmScan.new (empty_file record_size records_per_page)).1 = .error .PageNotExistError ∧
      (RmScan.new (empty_file record_size records_per_page)).2.is_end = false := by
  constructor <;> rfl

/-- C7 (a slot freed on a full page is reused next): when data page `p` is full (all
`records_per_page` bits set, `num_records = records_per_page`) with
`next_free_page_no = RM_NO_PAGE`, `delete_record((p,s))` for a slot `s` of the page succeeds,
makes `p` the head of the free list with the previous head as `p`'s `next_free_page_no`, and the
following `insert_record` returns exactly `(p,s)`. -/
theorem delete_then_insert_reuses_slot (fh : RmFileHandle) (p s : Int) (pg : RmPage)
    (buf : List Byte)
    (hp0 : 1 ≤ p) (hp1 : p < fh.file_hdr.num_pages) (hpg : fh.pool.pages p = some pg)
    (hfull : pg.page_hdr.num_records = fh.file_hdr.num_records_per_page)
    (hbits : ∀ i, 0 ≤ i → i < fh.file_hdr.num_records_per_page → pg.bitmap i = true)
    (hnext : pg.page_hdr.next_free_page_no = RM_NO_PAGE)
    (hs0 : 0 ≤ s) (hs1 : s < fh.file_hdr.num_records_per_page) :
    (fh.delete_record ⟨p, s⟩).1 = .ok () ∧
      (fh.delete_record ⟨p, s⟩).2.file_hdr.first_free_page_no = p ∧
      (∃ pg1, (fh.delete_record ⟨p, s⟩).2.pool.pages p = some pg1 ∧
        pg1.page_hdr.next_free_page_no = fh.file_hdr.first_free_page_no) ∧
      ((fh.delete_record ⟨p, s⟩).2.insert_record buf).1 = .ok ⟨p, s⟩ := by
  obtain ⟨fh1, pg1, hdel, hpages, _, _, _, hnp, hn, hbm, _, _, hrel, _⟩ :=
    delete_record_spec fh ⟨p, s⟩ pg (by simp only; omega) hp1 hpg
  obtain ⟨hhead, hnx⟩ := hrel ⟨hfull, hnext⟩
  simp only at hpages hbm hhead
  have hpg1 : fh1.pool.pages p = some pg1 := by rw [hpages]; exact setAt_same _ _ _
  rw [hdel]
  refine ⟨rfl, hhead, ⟨pg1, hpg1, hnx⟩, ?_⟩
  -- the insert fetches the head page `p`
  have hne : ¬ p = RM_NO_PAGE := by
    simp only [RM_NO_PAGE]; omega
  have hcp : ∃ fh2, fh1.create_page_handle = (.ok ⟨p, pg1⟩, fh2) ∧
      fh2.file_hdr.num_records_per_page = fh.file_hdr.num_records_per_page := by
    unfold RmFileHandle.create_page_handle
    rw [hhead]
    simp only [hne, if_false]
    rw [fetch_page_handle_ok fh1 p pg1 (by omega) (by omega) hpg1]
    exact ⟨_, rfl, by simp [RmFileHandle.write_hdr, hn]⟩
  obtain ⟨fh2, hc, hn2⟩ := hcp
  obtain ⟨fh3, pg3, heq, _⟩ := insert_record_of_handle fh1 fh2 ⟨p, pg1⟩ buf hc
  rw [heq]
  simp only [hn2, hbm]
  -- the only clear bit of the page is `s`
  have hclear : ∃ i, 0 ≤ i ∧ i < fh.file_hdr.num_records_per_page ∧
      Bitmap.reset pg.bitmap s i = false := ⟨s, hs0, hs1, by simp [Bitmap.reset]⟩
  obtain ⟨f0, f1, f2, f3⟩ := first_bit_false_spec _ _ hclear
  have hfs : Bitmap.first_bit false (Bitmap.reset pg.bitmap s)
      fh.file_hdr.num_records_per_page = s := by
    by_contra hne2
    rcases lt_or_gt_of_ne hne2 with hlt | hgt
    · have h1 := hbits _ f0 (by omega)
      simp only [Bitmap.reset, (ne_of_lt hlt), if_false] at f2
      rw [h1] at f2
      exact Bool.noConfusion f2
    · have := f3 s hs0 hgt
      simp [Bitmap.reset] at this
  rw [hfs]

/-- Witness for C7: `records_per_page = 3`, page 1 full and off the free list; delete `(1,1)`,
then the next insert returns `(1,1)`. -/
theorem delete_then_insert_reuses_slot_witness :
    (full_page_file.delete_record ⟨1, 1⟩).1 = .ok () ∧
      (full_page_file.delete_record ⟨1, 1⟩).2.file_hdr.first_free_page_no = 1 ∧
      (∃ pg1, (full_page_file.delete_record ⟨1, 1⟩).2.pool.pages 1 = some pg1 ∧
        pg1.page_hdr.next_free_page_no = full_page_file.file_hdr.first_free_page_no) ∧
      ((full_page_file.delete_record ⟨1, 1⟩).2.insert_record [9]).1 = .ok ⟨1, 1⟩ :=
  delete_then_insert_reuses_slot full_page_file 1 1
    { page_hdr := { next_free_page_no := RM_NO_PAGE, num_records := 3 }
      bitmap := fun i => decide (0 ≤ i ∧ i < 3)
      slots := fun _ => [7] } [9]
    (by decide) (by decide) rfl rfl
    (fun i h0 h1 => by
      have h2 : i < 3 := h1
      simp [h0, h2])
    rfl (by decide) (by decide)

/-- C9 (update/read round trip with frame): for a rid whose page is in range and can be fetched
and a buffer of `record_size` bytes, `update_record(rid, b')` succeeds and afterwards
`get_record(rid)` returns exactly `b'`; the file header (so `num_pages` and
`first_free_page_no`), the page's bitmap and page header (`num_records`,
`next_free_page_no`), the bytes of every other slot of the page and every other page are
unchanged. -/
theorem update_get_round_trip (fh : RmFileHandle) (rid : Rid) (buf : List Byte) (pg : RmPage)
    (hp0 : 0 ≤ rid.page_no) (hp1 : rid.page_no < fh.file_hdr.num_pages)
    (hpg : fh.pool.pages rid.page_no = some pg)
    (hlen : buf.length = fh.file_hdr.record_size) :
    (fh.update_record rid buf).1 = .ok () ∧
      ((fh.update_record rid buf).2.get_record rid).1 = .ok buf ∧
      (fh.update_record rid buf).2.file_hdr = fh.file_hdr ∧
      (∃ pg1, (fh.update_record rid buf).2.pool.pages rid.page_no = some pg1 ∧
        pg1.bitmap = pg.bitmap ∧ pg1.page_hdr = pg.page_hdr ∧
        ∀ j, j ≠ rid.slot_no → pg1.slots j = pg.slots j) ∧
      ∀ q, q ≠ rid.page_no → (fh.update_record rid buf).2.pool.pages q = fh.pool.pages q := by
  obtain ⟨fh1, pg1, hup, hpages, _, _, hhdr, hbm, hph, hsl⟩ :=
    update_record_spec fh rid buf pg hp0 hp1 hpg
  rw [hup]
  have hpg1 : fh1.pool.pages rid.page_no = some pg1 := by rw [hpages]; exact setAt_same _ _ _
  refine ⟨rfl, ?_, hhdr, ⟨pg1, hpg1, hbm, hph, ?_⟩, ?_⟩
  · rw [get_record_ok fh1 rid pg1 hp0 (by rw [hhdr]; exact hp1) hpg1]
    simp only [hsl, setAt_same, hhdr, copy_record_idem]
    exact congrArg _ (copy_record_of_length buf _ hlen)
  · intro j hj
    rw [hsl]
    exact setAt_other _ _ _ _ hj
  · intro q hq
    simp only [hpages]
    exact setAt_other _ _ _ _ hq

/-- Witness for C9: overwrite the record in slot 1 of the full page of `full_page_file`. -/
theorem update_get_round_trip_witness :
    (full_page_file.update_record ⟨1, 1⟩ [5]).1 = .ok () ∧
      ((full_page_file.update_record ⟨1, 1⟩ [5]).2.get_record ⟨1, 1⟩).1 = .ok [5] ∧
      (full_page_file.update_record ⟨1, 1⟩ [5]).2.file_hdr = full_page_file.file_hdr ∧
      (∃ pg1, (full_page_file.update_record ⟨1, 1⟩ [5]).2.pool.pages 1 = some pg1 ∧
        pg1.bitmap = (fun i => decide (0 ≤ i ∧ i < 3)) ∧
        pg1.page_hdr = { next_free_page_no := RM_NO_PAGE, num_records := 3 } ∧
        ∀ j, j ≠ 1 → pg1.slots j = [7]) ∧
      ∀ q, q ≠ 1 → (full_page_file.update_record ⟨1, 1⟩ [5]).2.pool.pages q =
        full_page_file.pool.pages q :=
  update_get_round_trip full_page_file ⟨1, 1⟩ [5]
    { page_hdr := { next_free_page_no := RM_NO_PAGE, num_records := 3 }
      bitmap := fun i => decide (0 ≤ i ∧ i < 3)
      slots := fun _ => [7] }
    (by decide) (by decide) rfl rfl

/-- C8 (`insert_record` never overwrites a live record): when the page handle that
`create_page_handle` selects has a clear bit among its slots, `insert_record` returns
`rid = (p, s)` with `p` the selected page and `s` its lowest clear slot, `0 ≤ s < records_per_page`;
afterwards page `p` has bit `s` set, slot `s` holds the buffer, `num_records` one more than
before, every other bit and every other slot of the page as before, and every other page
unchanged. A page taken from the free list is the stored page `p`; a new page is blank and, the
file being well-formed, has the number `num_pages`, one past the pages of the file. -/
theorem insert_record_uses_lowest_clear_slot (fh fh' : RmFileHandle) (ph : RmPageHandle)
    (buf : List Byte) (hwf : fh.wf)
    (hc : fh.create_page_handle = (.ok ph, fh'))
    (hclear : ∃ i, 0 ≤ i ∧ i < fh.file_hdr.num_records_per_page ∧ ph.page.bitmap i = false) :
    ∃ s pg1,
      (fh.insert_record buf).1 = .ok ⟨ph.page_no, s⟩ ∧
      0 ≤ s ∧ s < fh.file_hdr.num_records_per_page ∧
      ph.page.bitmap s = false ∧ (∀ j, 0 ≤ j → j < s → ph.page.bitmap j = true) ∧
      (fh.insert_record buf).2.pool.pages ph.page_no = some pg1 ∧
      pg1.bitmap s = true ∧
      pg1.slots s = copy_record buf fh.file_hdr.record_size ∧
      pg1.page_hdr.num_records = ph.page.page_hdr.num_records + 1 ∧
      (∀ j, j ≠ s → pg1.bitmap j = ph.page.bitmap j ∧ pg1.slots j = ph.page.slots j) ∧
      (∀ q, q ≠ ph.page_no → (fh.insert_record buf).2.pool.pages q = fh.pool.pages q) ∧
      (fh.file_hdr.first_free_page_no ≠ RM_NO_PAGE → fh.pool.pages ph.page_no = some ph.page) ∧
      (fh.file_hdr.first_free_page_no = RM_NO_PAGE →
        ph.page_no = fh.file_hdr.num_pages ∧ ph.page.page_hdr.num_records = 0 ∧
          ∀ j, ph.page.bitmap j = false) := by
  obtain ⟨fh2, pg, heq, hpages, _, _, _, _, _, hbm, hsl, hcnt, _, _⟩ :=
    insert_record_of_handle fh fh' ph buf hc
  have hsel : fh'.file_hdr.record_size = fh.file_hdr.record_size ∧
      fh'.file_hdr.num_records_per_page = fh.file_hdr.num_records_per_page ∧
      (∀ q, q ≠ ph.page_no → fh'.pool.pages q = fh.pool.pages q) ∧
      (fh.file_hdr.first_free_page_no ≠ RM_NO_PAGE → fh.pool.pages ph.page_no = some ph.page) ∧
      (fh.file_hdr.first_free_page_no = RM_NO_PAGE →
        ph.page_no = fh.file_hdr.num_pages ∧ ph.page.page_hdr.num_records = 0 ∧
          ∀ j, ph.page.bitmap j = false) := by
    rcases create_page_handle_inv fh fh' ph hc with ⟨hh, hnew⟩ | ⟨hh, _, _, _, hold, hhdr, hpg, _⟩
    · obtain ⟨a, b, c, d, e, _⟩ := create_new_page_handle_inv fh fh' ph hnew
      rw [d]
      refine ⟨rfl, rfl, ?_, fun hne => absurd hh hne,
        fun _ => ⟨by rw [a]; exact hwf.2.2, by rw [b], ?_⟩⟩
      · intro q hq
        rw [e]
        exact setAt_other _ _ _ _ hq
      · intro j
        rw [c]
        rfl
    · rw [hhdr, hpg]
      exact ⟨rfl, rfl, fun _ _ => rfl, fun _ => hold, fun h => absurd h hh⟩
  obtain ⟨e1, e2, hother, hcase1, hcase2⟩ := hsel
  rw [← e2] at hclear
  obtain ⟨s0, s1, s2, s3⟩ := first_bit_false_spec ph.page.bitmap _ hclear
  rw [heq]
  refine ⟨_, pg, rfl, s0, by omega, s2, s3, ?_, ?_, ?_, hcnt, ?_, ?_, hcase1, hcase2⟩
  · simp only [hpages]
    exact setAt_same _ _ _
  · simp [hbm, Bitmap.set]
  · rw [hsl, setAt_same, e1]
  · intro j hj
    rw [hbm, hsl]
    exact ⟨by simp [Bitmap.set, hj], setAt_other _ _ _ _ hj⟩
  · intro q hq
    simp only [hpages]
    rw [setAt_other _ _ _ _ hq]
    exact hother q hq

/-! ## The free list under the operations -/

theorem free_chain_congr (fh fh' : RmFileHandle)
    (hnp : fh.file_hdr.num_pages ≤ fh'.file_hdr.num_pages)
    (hn : fh'.file_hdr.num_records_per_page = fh.file_hdr.num_records_per_page) :
    ∀ (l : List Int) (h : Int),
      (∀ q ∈ l, ∀ pg, fh.pool.pages q = some pg →
        ∃ pg', fh'.pool.pages q = some pg' ∧
          pg'.page_hdr.next_free_page_no = pg.page_hdr.next_free_page_no ∧
          pg'.page_hdr.num_records ≤ pg.page_hdr.num_records) →
      fh.free_chain h l → fh'.free_chain h l := by
  intro l
  induction l with
  | nil => intro h _ hc; exact hc
  | cons p t ih =>
    intro h hpages hc
    obtain ⟨e, a, b, pg, hpg, hlt, hrest⟩ := hc
    obtain ⟨pg', hpg', hnx, hle⟩ := hpages p (List.mem_cons_self _ _) pg hpg
    refine ⟨e, a, by omega, pg', hpg', by omega, ?_⟩
    rw [hnx]
    exact ih _ (fun q hq => hpages q (List.mem_cons_of_mem _ hq)) hrest

theorem free_chain_mem (fh : RmFileHandle) :
    ∀ (l : List Int) (h q : Int), fh.free_chain h l → q ∈ l →
      1 ≤ q ∧ q < fh.file_hdr.num_pages ∧ ∃ pg, fh.pool.pages q = some pg ∧
        pg.page_hdr.num_records < fh.file_hdr.num_records_per_page := by
  intro l
  induction l with
  | nil => intro h q _ hq; cases hq
  | cons p t ih =>
    intro h q hc hq
    obtain ⟨_, a, b, pg, hpg, hlt, hrest⟩ := hc
    rcases List.mem_cons.mp hq with rfl | hq'
    · exact ⟨a, b, pg, hpg, hlt⟩
    · exact ih _ q hrest hq'

theorem head_ok_of_free_list_ok (fh : RmFileHandle) (h : fh.free_list_ok) : fh.head_ok := by
  obtain ⟨l, hc, _⟩ := h
  cases l with
  | nil => exact Or.inl hc
  | cons p t =>
    obtain ⟨e, a, b, pg, hpg, hlt, _⟩ := hc
    right
    rw [e]
    exact ⟨a, b, pg, hpg, hlt⟩

theorem free_list_ok_insert (fh : RmFileHandle) (buf : List Byte) (h : fh.free_list_ok) :
    (fh.insert_record buf).2.free_list_ok := by
  rcases hres : fh.insert_record buf with ⟨r, fh2⟩
  cases r with
  | error e =>
    obtain ⟨hhdr, hpages, _⟩ := insert_record_error fh fh2 buf e hres
    obtain ⟨l, hc, hnd⟩ := h
    refine ⟨l, ?_, hnd⟩
    simp only [hhdr]
    refine free_chain_congr fh fh2 (by rw [hhdr]) (by rw [hhdr]) l _ ?_ hc
    intro q _ pg hpg
    exact ⟨pg, by rw [hpages]; exact hpg, rfl, le_refl _⟩
  | ok rid =>
    obtain ⟨ph, fh', hcp⟩ := insert_record_ok_inv fh fh2 buf rid hres
    obtain ⟨fh3, pg, heq, hpages, _, _, _, hnp, hn, _, _, hcnt, hfull, hnfull⟩ :=
      insert_record_of_handle fh fh' ph buf hcp
    rw [hres] at heq
    simp only [Prod.mk.injEq] at heq
    obtain ⟨_, hfh⟩ := heq
    subst hfh
    simp only
    rcases create_page_handle_inv fh fh' ph hcp with
      ⟨hh, hnew⟩ | ⟨hh, hpn, _, _, hold, hhdr, hpg', _⟩
    · -- a new page: the list was empty and stays empty
      obtain ⟨_, b, _, d, _⟩ := create_new_page_handle_inv fh fh' ph hnew
      refine ⟨[], ?_, List.nodup_nil⟩
      show fh2.file_hdr.first_free_page_no = RM_NO_PAGE
      by_cases hf : ph.page.page_hdr.num_records + 1 = fh'.file_hdr.num_records_per_page
      · rw [(hfull hf).1, b]
      · rw [(hnfull hf).1, d]
        exact hh
    · -- the head page: the list loses its head
      obtain ⟨l, hc, hnd⟩ := h
      cases l with
      | nil => exact absurd hc hh
      | cons p t =>
        obtain ⟨e, a, b, pg0, hpg0, hlt, hrest⟩ := hc
        have hp : ph.page_no = p := by rw [hpn, e]
        rw [hp] at hold hpages
        rw [hpg0] at hold
        cases hold
        have hhead : fh2.file_hdr.first_free_page_no = ph.page.page_hdr.next_free_page_no := by
          by_cases hf : ph.page.page_hdr.num_records + 1 = fh'.file_hdr.num_records_per_page
          · exact (hfull hf).1
          · rw [(hnfull hf).1, hhdr]
        refine ⟨t, ?_, (List.nodup_cons.mp hnd).2⟩
        rw [hhead]
        refine free_chain_congr fh fh2 (by rw [hnp, hhdr]) (by rw [hn, hhdr]) t _ ?_ hrest
        intro q hq pgq hpgq
        have hqp : q ≠ p := fun hqp => (List.nodup_cons.mp hnd).1 (hqp ▸ hq)
        refine ⟨pgq, ?_, rfl, le_refl _⟩
        rw [hpages, setAt_other _ _ _ _ hqp, hpg']
        exact hpgq

theorem free_list_ok_delete (fh : RmFileHandle) (rid : Rid) (h : fh.free_list_ok)
    (hocc : fh.occupied rid) : (fh.delete_record rid).2.free_list_ok := by
  obtain ⟨o1, o2, _, _, pg, hpg, _⟩ := hocc
  obtain ⟨fh1, pg1, hdel, hpages, _, _, _, hnp, hn, _, _, hcnt, hrel, hnrel⟩ :=
    delete_record_spec fh rid pg (by omega) o2 hpg
  rw [hdel]
  simp only
  obtain ⟨l, hc, hnd⟩ := h
  by_cases hcase : pg.page_hdr.num_records = fh.file_hdr.num_records_per_page ∧
      pg.page_hdr.next_free_page_no = RM_NO_PAGE
  · obtain ⟨hhead, hnx⟩ := hrel hcase
    have hnotin : rid.page_no ∉ l := by
      intro hin
      obtain ⟨_, _, pg', hpg', hlt⟩ := free_chain_mem fh l _ _ hc hin
      rw [hpg] at hpg'
      cases hpg'
      omega
    refine ⟨rid.page_no :: l, ?_, List.nodup_cons.mpr ⟨hnotin, hnd⟩⟩
    refine ⟨hhead, o1, by omega, pg1, ?_, by omega, ?_⟩
    · rw [hpages]; exact setAt_same _ _ _
    · rw [hnx]
      refine free_chain_congr fh fh1 (by omega) hn l _ ?_ hc
      intro q hq pgq hpgq
      have hqp : q ≠ rid.page_no := fun hqp => hnotin (hqp ▸ hq)
      exact ⟨pgq, by rw [hpages, setAt_other _ _ _ _ hqp]; exact hpgq, rfl, le_refl _⟩
  · obtain ⟨hhead, hnx⟩ := hnrel hcase
    refine ⟨l, ?_, hnd⟩
    rw [hhead]
    refine free_chain_congr fh fh1 (by omega) hn l _ ?_ hc
    intro q _ pgq hpgq
    by_cases hqp : q = rid.page_no
    · subst hqp
      rw [hpg] at hpgq
      cases hpgq
      exact ⟨pg1, by rw [hpages]; exact setAt_same _ _ _, hnx, by omega⟩
    · exact ⟨pgq, by rw [hpages, setAt_other _ _ _ _ hqp]; exact hpgq, rfl, le_refl _⟩

theorem free_list_ok_update (fh : RmFileHandle) (rid : Rid) (buf : List Byte)
    (h : fh.free_list_ok) : (fh.update_record rid buf).2.free_list_ok := by
  rcases hres : fh.update_record rid buf with ⟨r, fh1⟩
  cases r with
  | error e =>
    rw [update_record_error fh fh1 rid buf e hres]
    exact h
  | ok u =>
    obtain ⟨p0, p1, pg, hpg⟩ := update_record_ok_inv fh fh1 rid buf hres
    obtain ⟨fh2, pg1, hup, hpages, _, _, hhdr, _, hph, _⟩ :=
      update_record_spec fh rid buf pg p0 p1 hpg
    rw [hres] at hup
    simp only [Prod.mk.injEq] at hup
    obtain ⟨_, hfh⟩ := hup
    subst hfh
    obtain ⟨l, hc, hnd⟩ := h
    refine ⟨l, ?_, hnd⟩
    simp only [hhdr]
    refine free_chain_congr fh fh1 (by rw [hhdr]) (by rw [hhdr]) l _ ?_ hc
    intro q _ pgq hpgq
    by_cases hqp : q = rid.page_no
    · subst hqp
      rw [hpg] at hpgq
      cases hpgq
      exact ⟨pg1, by rw [hpages]; exact setAt_same _ _ _, by rw [hph], by rw [hph]⟩
    · exact ⟨pgq, by rw [hpages, setAt_other _ _ _ _ hqp]; exact hpgq, rfl, le_refl _⟩

/-! ## Well-formedness and coherence under the operations -/

theorem wf_insert (fh : RmFileHandle) (buf : List Byte) (h : fh.wf) :
    (fh.insert_record buf).2.wf := by
  obtain ⟨hn, hnp, hctr⟩ := h
  rcases hres : fh.insert_record buf with ⟨r, fh2⟩
  cases r with
  | error e =>
    obtain ⟨hhdr, _, hfd⟩ := insert_record_error fh fh2 buf e hres
    have := hfd (by simp only [INVALID_PAGE_ID]; omega)
    exact ⟨by rw [hhdr]; exact hn, by rw [hhdr]; exact hnp, by rw [this, hhdr]; exact hctr⟩
  | ok rid =>
    obtain ⟨ph, fh', hcp⟩ := insert_record_ok_inv fh fh2 buf rid hres
    obtain ⟨fh3, pg, heq, _, hfd, _, _, hnp2, hn2, _⟩ :=
      insert_record_of_handle fh fh' ph buf hcp
    rw [hres] at heq
    simp only [Prod.mk.injEq] at heq
    obtain ⟨_, hfh⟩ := heq
    subst hfh
    simp only
    rcases create_page_handle_inv fh fh' ph hcp with
      ⟨_, hnew⟩ | ⟨_, _, _, _, _, hhdr, _, hfd', _⟩
    · obtain ⟨_, _, _, d, _, f, _⟩ := create_new_page_handle_inv fh fh' ph hnew
      refine ⟨by rw [hn2, d]; exact hn, by rw [hnp2, d]; simp only; omega, ?_⟩
      rw [hfd, f, hnp2, d, hctr]
    · refine ⟨by rw [hn2, hhdr]; exact hn, by rw [hnp2, hhdr]; exact hnp, ?_⟩
      rw [hfd, hfd', hnp2, hhdr]
      exact hctr

theorem coherent_insert (fh : RmFileHandle) (buf : List Byte) (hwf : fh.wf)
    (hcoh : fh.coherent) (hhead : fh.head_ok) : (fh.insert_record buf).2.coherent := by
  obtain ⟨hn, hnp, hctr⟩ := hwf
  rcases hres : fh.insert_record buf with ⟨r, fh2⟩
  cases r with
  | error e =>
    obtain ⟨hhdr, hpages, _⟩ := insert_record_error fh fh2 buf e hres
    intro p pg p1 p2 hpg
    simp only [hhdr] at p2 ⊢
    simp only [hpages] at hpg
    exact hcoh p pg p1 p2 hpg
  | ok rid =>
    obtain ⟨ph, fh', hcp⟩ := insert_record_ok_inv fh fh2 buf rid hres
    obtain ⟨fh3, pg, heq, hpages, _, _, _, hnp2, hn2, hbm, _, hcnt, _, _⟩ :=
      insert_record_of_handle fh fh' ph buf hcp
    rw [hres] at heq
    simp only [Prod.mk.injEq] at heq
    obtain ⟨_, hfh⟩ := heq
    subst hfh
    -- the selected page is coherent and has a clear bit; the other data pages are as before
    have hsel : fh'.file_hdr.num_records_per_page = fh.file_hdr.num_records_per_page ∧
        ph.page.coherent fh.file_hdr.num_records_per_page ∧
        (∃ i, 0 ≤ i ∧ i < fh.file_hdr.num_records_per_page ∧ ph.page.bitmap i = false) ∧
        (∀ q pgq, q ≠ ph.page_no → 1 ≤ q → q < fh'.file_hdr.num_pages →
          fh'.pool.pages q = some pgq → pgq.coherent fh.file_hdr.num_records_per_page) := by
      rcases create_page_handle_inv fh fh' ph hcp with
        ⟨_, hnew⟩ | ⟨hh, hpn, _, _, hold, hhdr, hpg', _⟩
      · obtain ⟨a, b, c, d, e, _⟩ := create_new_page_handle_inv fh fh' ph hnew
        refine ⟨by rw [d], ?_, ⟨0, le_refl _, by omega, by rw [c]; rfl⟩, ?_⟩
        · unfold RmPage.coherent
          rw [b, c, popcount_init]
          rfl
        · intro q pgq hq q1 q2 hpgq
          rw [e, setAt_other _ _ _ _ hq] at hpgq
          rw [d] at q2
          simp only at q2
          exact hcoh q pgq q1 (by omega) hpgq
      · rcases hhead with hno | ⟨g1, g2, pg0, g3, g4⟩
        · exact absurd hno hh
        · rw [← hpn] at g1 g2 g3
          rw [hold] at g3
          cases g3
          have hco := hcoh ph.page_no ph.page g1 g2 hold
          refine ⟨by rw [hhdr], hco, ?_, ?_⟩
          · unfold RmPage.coherent at hco
            exact exists_clear_of_popcount_lt _ _ (by omega)
          · intro q pgq _ q1 q2 hpgq
            rw [hhdr] at q2
            rw [hpg'] at hpgq
            exact hcoh q pgq q1 q2 hpgq
    obtain ⟨e2, hco, hclear, hother⟩ := hsel
    rw [← e2] at hclear
    obtain ⟨s0, s1, s2, _⟩ := first_bit_false_spec ph.page.bitmap _ hclear
    intro p pgp p1 p2 hpgp
    simp only at p1 p2 hpgp ⊢
    rw [hn2, e2]
    rw [hnp2] at p2
    by_cases hp : p = ph.page_no
    · subst hp
      rw [hpages, setAt_same] at hpgp
      cases hpgp
      unfold RmPage.coherent at hco ⊢
      rw [hcnt, hbm, popcount_set _ _ _ s0 (by omega) s2, hco]
      push_cast
      rfl
    · rw [hpages, setAt_other _ _ _ _ hp] at hpgp
      exact hother p pgp hp p1 p2 hpgp

theorem wf_delete (fh : RmFileHandle) (rid : Rid) (h : fh.wf) (hocc : fh.occupied rid) :
    (fh.delete_record rid).2.wf := by
  obtain ⟨o1, o2, _, _, pg, hpg, _⟩ := hocc
  obtain ⟨fh1, pg1, hdel, _, hfd, _, _, hnp, hn, _⟩ :=
    delete_record_spec fh rid pg (by omega) o2 hpg
  rw [hdel]
  obtain ⟨a, b, c⟩ := h
  exact ⟨by simp only [hn]; exact a, by simp only [hnp]; exact b, by simp only [hfd, hnp]; exact c⟩

theorem coherent_delete (fh : RmFileHandle) (rid : Rid) (hcoh : fh.coherent)
    (hocc : fh.occupied rid) : (fh.delete_record rid).2.coherent := by
  obtain ⟨o1, o2, o3, o4, pg, hpg, hbit⟩ := hocc
  obtain ⟨fh1, pg1, hdel, hpages, _, _, _, hnp, hn, hbm, _, hcnt, _, _⟩ :=
    delete_record_spec fh rid pg (by omega) o2 hpg
  rw [hdel]
  intro p pgp p1 p2 hpgp
  simp only at p1 p2 hpgp ⊢
  rw [hn]
  rw [hnp] at p2
  by_cases hp : p = rid.page_no
  · subst hp
    rw [hpages, setAt_same] at hpgp
    cases hpgp
    have hco := hcoh _ pg o1 o2 hpg
    unfold RmPage.coherent at hco ⊢
    have := popcount_reset pg.bitmap _ _ o3 o4 hbit
    rw [hcnt, hbm, hco, ← this]
    push_cast
    omega
  · rw [hpages, setAt_other _ _ _ _ hp] at hpgp
    exact hcoh p pgp p1 p2 hpgp

theorem wf_update (fh : RmFileHandle) (rid : Rid) (buf : List Byte) (h : fh.wf) :
    (fh.update_record rid buf).2.wf := by
  rcases hres : fh.update_record rid buf with ⟨r, fh1⟩
  cases r with
  | error e =>
    rw [update_record_error fh fh1 rid buf e hres]
    exact h
  | ok u =>
    obtain ⟨p0, p1, pg, hpg⟩ := update_record_ok_inv fh fh1 rid buf hres
    obtain ⟨fh2, pg1, hup, _, hfd, _, hhdr, _⟩ := update_record_spec fh rid buf pg p0 p1 hpg
    rw [hres] at hup
    simp only [Prod.mk.injEq] at hup
    obtain ⟨_, hfh⟩ := hup
    subst hfh
    obtain ⟨a, b, c⟩ := h
    exact ⟨by simp only [hhdr]; exact a, by simp only [hhdr]; exact b,
      by simp only [hfd, hhdr]; exact c⟩

theorem coherent_update (fh : RmFileHandle) (rid : Rid) (buf : List Byte)
    (hcoh : fh.coherent) : (fh.update_record rid buf).2.coherent := by
  rcases hres : fh.update_record rid buf with ⟨r, fh1⟩
  cases r with
  | error e =>
    rw [update_record_error fh fh1 rid buf e hres]
    exact hcoh
  | ok u =>
    obtain ⟨p0, p1, pg, hpg⟩ := update_record_ok_inv fh fh1 rid buf hres
    obtain ⟨fh2, pg1, hup, hpages, _, _, hhdr, hbm, hph, _⟩ :=
      update_record_spec fh rid buf pg p0 p1 hpg
    rw [hres] at hup
    simp only [Prod.mk.injEq] at hup
    obtain ⟨_, hfh⟩ := hup
    subst hfh
    intro p pgp q1 q2 hpgp
    simp only [hhdr] at q2 ⊢
    by_cases hp : p = rid.page_no
    · subst hp
      rw [hpages, setAt_same] at hpgp
      cases hpgp
      have hco := hcoh _ pg q1 q2 hpg
      unfold RmPage.coherent at hco ⊢
      rw [hph, hbm]
      exact hco
    · rw [hpages, setAt_other _ _ _ _ hp] at hpgp
      exact hcoh p pgp q1 q2 hpgp

/-- The three properties that the operations keep together. -/
theorem inv_trace (fh : RmFileHandle) (ops : List Op) :
    fh.wf → fh.coherent → fh.free_list_ok → fh.admissible ops →
      ∀ st ∈ fh.trace ops, st.wf ∧ st.coherent ∧ st.free_list_ok := by
  induction ops generalizing fh with
  | nil => intro _ _ _ _ st hst; cases hst
  | cons op ops ih =>
    intro hwf hcoh hfl hadm st hst
    have hstep : (fh.apply op).wf ∧ (fh.apply op).coherent ∧ (fh.apply op).free_list_ok ∧
        (fh.apply op).admissible ops := by
      cases op with
      | insert buf =>
        exact ⟨wf_insert fh buf hwf,
          coherent_insert fh buf hwf hcoh (head_ok_of_free_list_ok fh hfl),
          free_list_ok_insert fh buf hfl, hadm⟩
      | delete rid =>
        exact ⟨wf_delete fh rid hwf hadm.1, coherent_delete fh rid hcoh hadm.1,
          free_list_ok_delete fh rid hfl hadm.1, hadm.2⟩
      | update rid buf =>
        exact ⟨wf_update fh rid buf hwf, coherent_update fh rid buf hcoh,
          free_list_ok_update fh rid buf hfl, hadm.2⟩
    obtain ⟨a, b, c, d⟩ := hstep
    rcases List.mem_cons.mp hst with rfl | hst'
    · exact ⟨a, b, c⟩
    · exact ih (fh.apply op) a b c d st hst'

theorem free_list_ok_trace (fh : RmFileHandle) (ops : List Op) :
    fh.free_list_ok → fh.admissible ops → ∀ st ∈ fh.trace ops, st.free_list_ok := by
  induction ops generalizing fh with
  | nil => intro _ _ st hst; cases hst
  | cons op ops ih =>
    intro hfl hadm st hst
    have hstep : (fh.apply op).free_list_ok ∧ (fh.apply op).admissible ops := by
      cases op with
      | insert buf => exact ⟨free_list_ok_insert fh buf hfl, hadm⟩
      | delete rid => exact ⟨free_list_ok_delete fh rid hfl hadm.1, hadm.2⟩
      | update rid buf => exact ⟨free_list_ok_update fh rid buf hfl, hadm.2⟩
    rcases List.mem_cons.mp hst with rfl | hst'
    · exact hstep.1
    · exact ih (fh.apply op) hstep.1 hstep.2 st hst'

/-- C5 as stated fails: `stale_link_file` is well-formed, every data page is coherent and the
free-list head names the non-full page 1, but page 1 links to the full page 2; the first insert
fills page 1 and makes page 2 the head, the second insert then raises `num_records` of page 2 to
9 while only the 8 bits of its 8 slots are set. -/
theorem coherence_lost_from_stale_link :
    stale_link_file.wf ∧ stale_link_file.coherent ∧ stale_link_file.head_ok ∧
      stale_link_file.admissible [.insert [1], .insert [2]] ∧
      ¬ ∀ st ∈ stale_link_file.trace [.insert [1], .insert [2]], st.coherent := by
  refine ⟨⟨by decide, by decide, rfl⟩, ?_, ?_, trivial, ?_⟩
  · intro p pg p1 p2 hpg
    have p2' : p < 3 := p2
    have hp : p = 1 ∨ p = 2 := by omega
    rcases hp with rfl | rfl
    · have : pg = _ := (Option.some.inj hpg).symm
      subst this
      rfl
    · have : pg = _ := (Option.some.inj hpg).symm
      subst this
      rfl
  · right
    exact ⟨by decide, by decide, _, rfl, by decide⟩
  · intro h
    have h2 := h ((stale_link_file.apply (.insert [1])).apply (.insert [2]))
      (by simp [RmFileHandle.trace]) 2 _ (by decide) (by decide) rfl
    revert h2
    unfold RmPage.coherent
    decide

theorem cyclic_list_file_reaches (h p : Int) (hr : cyclic_list_file.reaches h p) :
    (h = 1 ∨ h = 2) → (p = 1 ∨ p = 2) := by
  induction hr with
  | head p _ => exact id
  | next h p pg _ hpg _ ih =>
    intro hh
    apply ih
    rcases hh with rfl | rfl
    · have : pg = _ := (Option.some.inj hpg).symm
      subst this
      exact Or.inr rfl
    · have : pg = _ := (Option.some.inj hpg).symm
      subst this
      exact Or.inl rfl

/-- C6 as stated fails: in `cyclic_list_file` every page reachable from `first_free_page_no` is
a data page with `num_records < records_per_page` and no page is full, but the links form the
cycle 1 → 2 → 1; after two inserts both pages are full and `first_free_page_no` is 1, the number
of a full page. -/
theorem head_invariant_lost_on_cycle :
    (∀ p, cyclic_list_file.on_free_list p →
      1 ≤ p ∧ p < cyclic_list_file.file_hdr.num_pages ∧
        ∃ pg, cyclic_list_file.pool.pages p = some pg ∧
          pg.page_hdr.num_records < cyclic_list_file.file_hdr.num_records_per_page) ∧
    (∀ p pg, cyclic_list_file.pool.pages p = some pg →
      pg.page_hdr.num_records = cyclic_list_file.file_hdr.num_records_per_page →
        pg.page_hdr.next_free_page_no = RM_NO_PAGE) ∧
    cyclic_list_file.admissible [.insert [1], .insert [2]] ∧
    ¬ ∀ st ∈ cyclic_list_file.trace [.insert [1], .insert [2]], st.head_ok := by
  refine ⟨?_, ?_, trivial, ?_⟩
  · intro p hp
    rcases cyclic_list_file_reaches _ p hp (Or.inl rfl) with rfl | rfl
    · exact ⟨by decide, by decide, _, rfl, by decide⟩
    · exact ⟨by decide, by decide, _, rfl, by decide⟩
  · intro p pg hpg hfull
    by_cases h1 : p = 1
    · subst h1
      have : pg = _ := (Option.some.inj hpg).symm
      subst this
      exact absurd hfull (by decide)
    · by_cases h2 : p = 2
      · subst h2
        have : pg = _ := (Option.some.inj hpg).symm
        subst this
        exact absurd hfull (by decide)
      · simp [cyclic_list_file, h1, h2] at hpg
  · intro h
    have h2 := h ((cyclic_list_file.apply (.insert [1])).apply (.insert [2]))
      (by simp [RmFileHandle.trace])
    rcases h2 with h2 | ⟨_, _, pg, hpg, hlt⟩
    · exact absurd h2 (by decide)
    · have : pg = _ := (Option.some.inj hpg).symm
      subst this
      exact absurd hlt (by decide)

/-- C5, amended (bitmap/count coherence): from a well-formed heap file whose data pages are
coherent and whose free list is a finite, `RM_NO_PAGE`-terminated, duplicate-free chain of
non-full data pages, after each call of any sequence of `insert_record`, `delete_record` and
`update_record` calls in which every delete and update targets an occupied RID, every data
page's `num_records` equals the popcount of its bitmap. -/
theorem coherence_preserved (fh : RmFileHandle) (ops : List Op)
    (hwf : fh.wf) (hcoh : fh.coherent) (hfl : fh.free_list_ok) (hadm : fh.admissible ops) :
    ∀ st ∈ fh.trace ops, st.coherent :=
  fun st hst => (inv_trace fh ops hwf hcoh hfl hadm st hst).2.1

/-- Witness for C5: insert into an empty file, then delete the record just inserted. -/
theorem coherence_preserved_witness :
    (((empty_file 4 3).apply (.insert [1, 2, 3, 4])).apply (.delete ⟨1, 0⟩)).coherent :=
  coherence_preserved (empty_file 4 3) [.insert [1, 2, 3, 4], .delete ⟨1, 0⟩]
    ⟨by decide, by decide, rfl⟩
    (fun p pg _ _ h => by simp [empty_file] at h)
    ⟨[], rfl, List.nodup_nil⟩
    ⟨⟨by decide, by decide, by decide, by decide, _, rfl, rfl⟩, trivial⟩
    _ (by simp [RmFileHandle.trace])

/-- C6, amended (free-list head invariant): from a heap file whose free list is a finite,
`RM_NO_PAGE`-terminated, duplicate-free chain of data pages with
`num_records < records_per_page` (in particular from an empty file), after each call of any
sequence of `insert_record`, `delete_record` and `update_record` calls in which every delete and
update targets an occupied RID, `first_free_page_no` is `RM_NO_PAGE` or the number of a data page
in `[1, num_pages)` with `num_records < records_per_page`. -/
theorem head_invariant_preserved (fh : RmFileHandle) (ops : List Op)
    (hfl : fh.free_list_ok) (hadm : fh.admissible ops) :
    ∀ st ∈ fh.trace ops, st.head_ok :=
  fun st hst => head_ok_of_free_list_ok st (free_list_ok_trace fh ops hfl hadm st hst)

/-- Witness for C6: delete a record of the full page of `full_page_file`, then insert. -/
theorem head_invariant_preserved_witness :
    (full_page_file.apply (.delete ⟨1, 1⟩)).head_ok ∧
      ((full_page_file.apply (.delete ⟨1, 1⟩)).apply (.insert [9])).head_ok :=
  ⟨head_invariant_preserved full_page_file [.delete ⟨1, 1⟩, .insert [9]]
      ⟨[], rfl, List.nodup_nil⟩
      ⟨⟨by decide, by decide, by decide, by decide, _, rfl, rfl⟩, trivial⟩
      _ (by simp [RmFileHandle.trace]),
    head_invariant_preserved full_page_file [.delete ⟨1, 1⟩, .insert [9]]
      ⟨[], rfl, List.nodup_nil⟩
      ⟨⟨by decide, by decide, by decide, by decide, _, rfl, rfl⟩, trivial⟩
      _ (by simp [RmFileHandle.trace])⟩

/-- C4 (free-list membership), evaluated on the code: after the first `insert_record` into an
empty heap file with 3 records per page, data page 1 holds one record, fewer than
`records_per_page`, and is not reachable from `first_free_page_no`, which is still `RM_NO_PAGE`:
`create_new_page_handle` never links the page it creates into the free list. -/
theorem new_page_not_on_free_list (buf : List Byte) :
    ((empty_file 4 3).insert_record buf).1 = .ok ⟨1, 0⟩ ∧
      1 < ((empty_file 4 3).insert_record buf).2.file_hdr.num_pages ∧
      (∃ pg, ((empty_file 4 3).insert_record buf).2.pool.pages 1 = some pg ∧
        pg.page_hdr.num_records = 1 ∧
        pg.page_hdr.num_records <
          ((empty_file 4 3).insert_record buf).2.file_hdr.num_records_per_page) ∧
      ((empty_file 4 3).insert_record buf).2.file_hdr.first_free_page_no = RM_NO_PAGE ∧
      ¬ ((empty_file 4 3).insert_record buf).2.on_free_list 1 := by
  refine ⟨rfl, ?_, ⟨_, rfl, rfl, ?_⟩, rfl, ?_⟩
  · show (1 : Int) < 2
    decide
  · show (1 : Int) < 3
    decide
  intro h
  unfold RmFileHandle.on_free_list at h
  have hhead : ((empty_file 4 3).insert_record buf).2.file_hdr.first_free_page_no =
      RM_NO_PAGE := rfl
  rw [hhead] at h
  cases h
  contradiction

/-- Witness for C8: the first insert into an empty file with 3 records per page. -/
theorem insert_record_uses_lowest_clear_slot_witness :
    ∃ s pg1,
      ((empty_file 4 3).insert_record [1, 2, 3, 4]).1 = .ok ⟨1, s⟩ ∧
      0 ≤ s ∧ s < 3 ∧
      Bitmap.init s = false ∧ (∀ j, 0 ≤ j → j < s → Bitmap.init j = true) ∧
      ((empty_file 4 3).insert_record [1, 2, 3, 4]).2.pool.pages 1 = some pg1 ∧
      pg1.bitmap s = true ∧
      pg1.slots s = copy_record [1, 2, 3, 4] 4 ∧
      pg1.page_hdr.num_records = 0 + 1 ∧
      (∀ j, j ≠ s → pg1.bitmap j = Bitmap.init j ∧
        pg1.slots j = (RmPage.zeroed 4).slots j) ∧
      (∀ q, q ≠ 1 → ((empty_file 4 3).insert_record [1, 2, 3, 4]).2.pool.pages q =
        (empty_file 4 3).pool.pages q) ∧
      ((empty_file 4 3).file_hdr.first_free_page_no ≠ RM_NO_PAGE →
        (empty_file 4 3).pool.pages 1 =
          some { page_hdr := { next_free_page_no := -1, num_records := 0 }
                 bitmap := Bitmap.init, slots := (RmPage.zeroed 4).slots }) ∧
      ((empty_file 4 3).file_hdr.first_free_page_no = RM_NO_PAGE →
        (1 : Int) = (empty_file 4 3).file_hdr.num_pages ∧ (0 : Int) = 0 ∧
          ∀ j, Bitmap.init j = false) :=
  insert_record_uses_lowest_clear_slot (empty_file 4 3) _
    { page_no := 1
      page := { page_hdr := { next_free_page_no := -1, num_records := 0 }
                bitmap := Bitmap.init, slots := (RmPage.zeroed 4).slots } }
    [1, 2, 3, 4] ⟨by decide, by decide, rfl⟩ rfl ⟨0, by decide, by decide, rfl⟩

/-! ## The heap scan -/

theorem set_bits_next_bit_loop (bm : Int → Bool) (n : Int) :
    ∀ (k : Nat) (i : Int), i + k = n →
      match set_bits bm i k with
      | [] => Bitmap.next_bit_loop true bm n i k = n
      | s :: t => Bitmap.next_bit_loop true bm n i k = s ∧ i ≤ s ∧ s < n ∧
          t = set_bits bm (s + 1) (n - (s + 1)).toNat := by
  intro k
  induction k with
  | zero => intro i _; simp [set_bits, Bitmap.next_bit_loop]
  | succ k ih =>
    intro i hi
    by_cases hb : bm i = true
    · simp only [set_bits, Bitmap.next_bit_loop, hb, if_true]
      refine ⟨trivial, le_refl _, by omega, ?_⟩
      have : (n - (i + 1)).toNat = k := by omega
      rw [this]
    · simp only [set_bits, Bitmap.next_bit_loop, hb, if_false, Bool.false_eq_true]
      have := ih (i + 1) (by push_cast at hi; omega)
      revert this
      cases set_bits bm (i + 1) k with
      | nil => exact id
      | cons s t =>
        rintro ⟨a, b, c, d⟩
        exact ⟨a, by omega, c, d⟩

theorem set_bits_mem (bm : Int → Bool) :
    ∀ (k : Nat) (i s : Int), s ∈ set_bits bm i k ↔ (i ≤ s ∧ s < i + k ∧ bm s = true) := by
  intro k
  induction k with
  | zero => intro i s; simp only [set_bits, List.not_mem_nil, false_iff]; push_cast; omega
  | succ k ih =>
    intro i s
    by_cases hb : bm i = true
    · simp only [set_bits, hb, if_true, List.mem_cons, ih]
      push_cast
      constructor
      · rintro (rfl | ⟨a, b, c⟩)
        · exact ⟨le_refl _, by omega, hb⟩
        · exact ⟨by omega, by omega, c⟩
      · rintro ⟨a, b, c⟩
        by_cases hs : s = i
        · exact Or.inl hs
        · exact Or.inr ⟨by omega, by omega, c⟩
    · simp only [set_bits, hb, if_false, Bool.false_eq_true, ih]
      push_cast
      constructor
      · rintro ⟨a, b, c⟩
        exact ⟨by omega, by omega, c⟩
      · rintro ⟨a, b, c⟩
        have hs : s ≠ i := fun h => hb (h ▸ c)
        exact ⟨by omega, by omega, c⟩

theorem set_bits_sorted (bm : Int → Bool) :
    ∀ (k : Nat) (i : Int), (set_bits bm i k).Pairwise (· < ·) := by
  intro k
  induction k with
  | zero => intro i; simp [set_bits]
  | succ k ih =>
    intro i
    by_cases hb : bm i = true
    · simp only [set_bits, hb, if_true, List.pairwise_cons]
      refine ⟨?_, ih (i + 1)⟩
      intro s hs
      have := (set_bits_mem bm k (i + 1) s).mp hs
      omega
    · simp only [set_bits, hb, if_false, Bool.false_eq_true]
      exact ih (i + 1)

theorem page_rids_mem (p : Int) (bm : Int → Bool) (n after : Int) (r : Rid) :
    r ∈ page_rids p bm n after ↔
      (r.page_no = p ∧ after < r.slot_no ∧ r.slot_no < n ∧ bm r.slot_no = true) := by
  unfold page_rids
  simp only [List.mem_map, set_bits_mem]
  constructor
  · rintro ⟨s, ⟨a, b, c⟩, rfl⟩
    exact ⟨rfl, by simp only; omega, by simp only; omega, c⟩
  · rintro ⟨a, b, c, d⟩
    refine ⟨r.slot_no, ⟨by omega, by omega, d⟩, ?_⟩
    cases r
    simp only at a
    subst a
    rfl

theorem page_rids_sorted (p : Int) (bm : Int → Bool) (n after : Int) :
    (page_rids p bm n after).Pairwise Rid.lt := by
  unfold page_rids
  rw [List.pairwise_map]
  exact (set_bits_sorted bm _ _).imp (fun h => Or.inr ⟨rfl, h⟩)

theorem rids_from_mem (fh : RmFileHandle) :
    ∀ (k : Nat) (p : Int) (r : Rid), r ∈ fh.rids_from p k ↔
      (p ≤ r.page_no ∧ r.page_no < p + k ∧ 0 ≤ r.slot_no ∧
        r.slot_no < fh.file_hdr.num_records_per_page ∧
        ∃ pg, fh.pool.pages r.page_no = some pg ∧ pg.bitmap r.slot_no = true) := by
  intro k
  induction k with
  | zero =>
    intro p r
    simp only [RmFileHandle.rids_from, List.not_mem_nil, false_iff]
    push_cast
    omega
  | succ k ih =>
    intro p r
    simp only [RmFileHandle.rids_from, List.mem_append, ih]
    push_cast
    constructor
    · rintro (h | ⟨a, b, c, d, e⟩)
      · cases hpg : fh.pool.pages p with
        | none => simp [hpg] at h
        | some pg =>
          simp only [hpg, page_rids_mem] at h
          obtain ⟨a, b, c, d⟩ := h
          refine ⟨by omega, by omega, by omega, c, pg, by rw [a]; exact hpg, d⟩
      · exact ⟨by omega, by omega, c, d, e⟩
    · rintro ⟨a, b, c, d, pg, hpg, hbit⟩
      by_cases hp : r.page_no = p
      · left
        rw [hp] at hpg
        simp only [hpg, page_rids_mem]
        exact ⟨hp, by omega, d, hbit⟩
      · right
        exact ⟨by omega, by omega, c, d, pg, hpg, hbit⟩

theorem rids_from_sorted (fh : RmFileHandle) :
    ∀ (k : Nat) (p : Int), (fh.rids_from p k).Pairwise Rid.lt := by
  intro k
  induction k with
  | zero => intro p; simp [RmFileHandle.rids_from]
  | succ k ih =>
    intro p
    simp only [RmFileHandle.rids_from]
    rw [List.pairwise_append]
    refine ⟨?_, ih (p + 1), ?_⟩
    · cases fh.pool.pages p with
      | none => exact List.Pairwise.nil
      | some pg => exact page_rids_sorted _ _ _ _
    · intro a ha b hb
      have hb' := (rids_from_mem fh k (p + 1) b).mp hb
      cases hpg : fh.pool.pages p with
      | none => simp [hpg] at ha
      | some pg =>
        simp only [hpg, page_rids_mem] at ha
        left
        omega

theorem next_bit_page_rids (p : Int) (bm : Int → Bool) (n after : Int) :
    (page_rids p bm n after = [] ∧ Bitmap.next_bit true bm n after = n) ∨
      (after < Bitmap.next_bit true bm n after ∧ Bitmap.next_bit true bm n after < n ∧
        page_rids p bm n after =
          { page_no := p, slot_no := Bitmap.next_bit true bm n after } ::
            page_rids p bm n (Bitmap.next_bit true bm n after)) := by
  unfold page_rids Bitmap.next_bit
  by_cases hc : after + 1 ≤ n
  · have := set_bits_next_bit_loop bm n (n - (after + 1)).toNat (after + 1) (by omega)
    revert this
    cases set_bits bm (after + 1) (n - (after + 1)).toNat with
    | nil => intro h; exact Or.inl ⟨rfl, h⟩
    | cons s t =>
      rintro ⟨a, b, c, d⟩
      right
      rw [a]
      exact ⟨by omega, c, by rw [d]; rfl⟩
  · have hz : (n - (after + 1)).toNat = 0 := by omega
    rw [hz]
    exact Or.inl ⟨rfl, rfl⟩

theorem rids_from_congr (fh fh' : RmFileHandle) (hhdr : fh'.file_hdr = fh.file_hdr)
    (hpages : fh'.pool.pages = fh.pool.pages) :
    ∀ (k : Nat) (p : Int), fh'.rids_from p k = fh.rids_from p k := by
  intro k
  induction k with
  | zero => intro p; rfl
  | succ k ih =>
    intro p
    simp only [RmFileHandle.rids_from, hhdr, hpages, ih]

theorem rids_after_congr (fh fh' : RmFileHandle) (hhdr : fh'.file_hdr = fh.file_hdr)
    (hpages : fh'.pool.pages = fh.pool.pages) (rid : Rid) :
    fh'.rids_after rid = fh.rids_after rid := by
  unfold RmFileHandle.rids_after
  rw [rids_from_congr fh fh' hhdr hpages, hhdr, hpages]

theorem fetch_page_handle_ok_frame (fh : RmFileHandle) (p : Int) (pg : RmPage)
    (h0 : 0 ≤ p) (h1 : p < fh.file_hdr.num_pages) (hp : fh.pool.pages p = some pg) :
    ∃ fh1, fh.fetch_page_handle p = (.ok { page_no := p, page := pg }, fh1) ∧
      fh1.file_hdr = fh.file_hdr ∧ fh1.pool.pages = fh.pool.pages :=
  ⟨_, fetch_page_handle_ok fh p pg h0 h1 hp, rfl, rfl⟩

/-- The fuel of `RmScan.next_loop` only bounds the recursion: once it covers the distance to
`num_pages`, more fuel does not change the result, so the value passed by `RmScan.next` never
cuts the `while` loop short. -/
theorem next_loop_fuel_irrelevant :
    ∀ (k extra : Nat) (s : RmScan),
      s.file_handle.file_hdr.num_pages ≤ s.rid.page_no + k →
      RmScan.next_loop (k + extra) s = RmScan.next_loop k s := by
  intro k
  induction k with
  | zero =>
    intro extra s h
    cases extra with
    | zero => rfl
    | succ e =>
      have hnlt : ¬ s.rid.page_no < s.file_handle.file_hdr.num_pages := by
        push_cast at h; omega
      simp only [Nat.zero_add, RmScan.next_loop, hnlt, if_false]
  | succ k ih =>
    intro extra s h
    have hk : k + 1 + extra = (k + extra) + 1 := by omega
    rw [hk]
    simp only [RmScan.next_loop]
    by_cases hlt : s.rid.page_no < s.file_handle.file_hdr.num_pages
    · simp only [hlt, if_true]
      rcases hf : s.file_handle.fetch_page_handle s.rid.page_no with ⟨r, fh1⟩
      cases r with
      | error e => rfl
      | ok ph =>
        obtain ⟨_, _, _, _, e⟩ := fetch_page_handle_inv _ _ _ _ hf
        simp only
        by_cases hfound : Bitmap.first_bit true ph.page.bitmap
            fh1.file_hdr.num_records_per_page < fh1.file_hdr.num_records_per_page
        · simp only [hfound, if_true]
        · simp only [hfound, if_false]
          apply ih
          rw [e]
          push_cast at h
          simp only
          omega
    · simp only [hlt, if_false]

theorem next_loop_spec :
    ∀ (k : Nat) (s : RmScan),
      (∀ p, 1 ≤ p → p < s.file_handle.file_hdr.num_pages →
        ∃ pg, s.file_handle.pool.pages p = some pg) →
      1 ≤ s.rid.page_no → s.rid.page_no + k = s.file_handle.file_hdr.num_pages →
      ∃ s', RmScan.next_loop k s = (.ok (), s') ∧
        s'.file_handle.file_hdr = s.file_handle.file_hdr ∧
        s'.file_handle.pool.pages = s.file_handle.pool.pages ∧
        (s'.is_end = true ∨
          (1 ≤ s'.rid.page_no ∧ s'.rid.page_no < s.file_handle.file_hdr.num_pages)) ∧
        s'.todo = s.file_handle.rids_from s.rid.page_no k := by
  intro k
  induction k with
  | zero =>
    intro s _ _ _
    exact ⟨_, rfl, rfl, rfl, Or.inl rfl, rfl⟩
  | succ k ih =>
    intro s hfetch hp hk
    have hlt : s.rid.page_no < s.file_handle.file_hdr.num_pages := by push_cast at hk; omega
    obtain ⟨pg, hpg⟩ := hfetch _ hp hlt
    obtain ⟨fh1, hf, f1, f2⟩ :=
      fetch_page_handle_ok_frame s.file_handle s.rid.page_no pg (by omega) hlt hpg
    simp only [RmScan.next_loop, hlt, if_true, hf]
    simp only [Bitmap.first_bit, RmFileHandle.rids_from, hpg, f1]
    rcases next_bit_page_rids s.rid.page_no pg.bitmap
        s.file_handle.file_hdr.num_records_per_page (-1) with ⟨he, hn⟩ | ⟨h1, h2, he⟩
    · -- no record on this page: go on with the next page
      rw [he, hn]
      simp only [lt_self_iff_false, if_false, List.nil_append]
      obtain ⟨s', e1, e2, e3, e4, e5⟩ := ih
        { file_handle := fh1, rid := { s.rid with page_no := s.rid.page_no + 1 } }
        (by simp only [f1, f2]; exact hfetch) (by simp only; omega)
        (by push_cast at hk; simp only [f1]; omega)
      simp only [f1, f2] at e2 e3 e4
      refine ⟨s', e1, e2, e3, e4, ?_⟩
      rw [e5]
      exact rids_from_congr _ _ f1 f2 _ _
    · -- the first record of this page
      simp only [h2, if_true]
      refine ⟨_, rfl, f1, f2, Or.inr ⟨hp, hlt⟩, ?_⟩
      have hne : ¬ s.rid.page_no = RM_NO_PAGE := by simp only [RM_NO_PAGE]; omega
      rw [he]
      simp only [RmScan.todo, RmScan.is_end, decide_eq_true_eq, hne, if_false,
        RmFileHandle.rids_after, f1, f2, hpg, List.cons_append]
      have hk' : (s.file_handle.file_hdr.num_pages - (s.rid.page_no + 1)).toNat = k := by
        push_cast at hk; omega
      rw [hk']
      congr 2
      exact rids_from_congr _ _ f1 f2 _ _

theorem next_spec (s : RmScan)
    (hfetch : ∀ p, 1 ≤ p → p < s.file_handle.file_hdr.num_pages →
      ∃ pg, s.file_handle.pool.pages p = some pg)
    (hp : 1 ≤ s.rid.page_no) (hlt : s.rid.page_no < s.file_handle.file_hdr.num_pages) :
    ∃ s', s.next = (.ok (), s') ∧
      s'.file_handle.file_hdr = s.file_handle.file_hdr ∧
      s'.file_handle.pool.pages = s.file_handle.pool.pages ∧
      (s'.is_end = true ∨
        (1 ≤ s'.rid.page_no ∧ s'.rid.page_no < s.file_handle.file_hdr.num_pages)) ∧
      s'.todo = s.file_handle.rids_after s.rid := by
  obtain ⟨pg, hpg⟩ := hfetch _ hp hlt
  obtain ⟨fh1, hf, f1, f2⟩ :=
    fetch_page_handle_ok_frame s.file_handle s.rid.page_no pg (by omega) hlt hpg
  unfold RmScan.next
  simp only [hf]
  simp only [RmFileHandle.rids_after, hpg, f1]
  rcases next_bit_page_rids s.rid.page_no pg.bitmap
      s.file_handle.file_hdr.num_records_per_page s.rid.slot_no with ⟨he, hn⟩ | ⟨h1, h2, he⟩
  · rw [he, hn]
    simp only [lt_self_iff_false, if_false, List.nil_append]
    obtain ⟨s', e1, e2, e3, e4, e5⟩ := next_loop_spec
      (s.file_handle.file_hdr.num_pages - (s.rid.page_no + 1)).toNat
      { file_handle := fh1, rid := { s.rid with page_no := s.rid.page_no + 1 } }
      (by simp only [f1, f2]; exact hfetch) (by simp only; omega) (by simp only [f1]; omega)
    simp only [f1, f2] at e2 e3 e4
    refine ⟨s', e1, e2, e3, e4, ?_⟩
    rw [e5]
    exact rids_from_congr _ _ f1 f2 _ _
  · simp only [h2, if_true]
    refine ⟨_, rfl, f1, f2, Or.inr ⟨hp, hlt⟩, ?_⟩
    have hne : ¬ s.rid.page_no = RM_NO_PAGE := by simp only [RM_NO_PAGE]; omega
    rw [he]
    simp only [RmScan.todo, RmScan.is_end, decide_eq_true_eq, hne, if_false,
      RmFileHandle.rids_after, f1, f2, hpg, List.cons_append]
    congr 2
    exact rids_from_congr _ _ f1 f2 _ _

theorem drive_spec :
    ∀ (fuel : Nat) (s : RmScan),
      (∀ p, 1 ≤ p → p < s.file_handle.file_hdr.num_pages →
        ∃ pg, s.file_handle.pool.pages p = some pg) →
      (s.is_end = true ∨
        (1 ≤ s.rid.page_no ∧ s.rid.page_no < s.file_handle.file_hdr.num_pages)) →
      s.todo.length ≤ fuel →
      ∃ s', RmScan.drive fuel s = some (.ok s.todo, s') ∧ s'.is_end = true := by
  intro fuel
  induction fuel with
  | zero =>
    intro s _ _ hlen
    by_cases hend : s.is_end = true
    · refine ⟨s, ?_, hend⟩
      simp [RmScan.drive, RmScan.todo, hend]
    · simp [RmScan.todo, hend] at hlen
  | succ fuel ih =>
    intro s hfetch hpos hlen
    by_cases hend : s.is_end = true
    · refine ⟨s, ?_, hend⟩
      simp [RmScan.drive, RmScan.todo, hend]
    · rcases hpos with h | ⟨hp, hlt⟩
      · exact absurd h hend
      · obtain ⟨s1, e1, e2, e3, e4, e5⟩ := next_spec s hfetch hp hlt
        have htodo : s.todo = s.rid :: s1.todo := by
          rw [e5]
          simp [RmScan.todo, hend]
        have hlen1 : s1.todo.length ≤ fuel := by
          rw [htodo] at hlen
          simp only [List.length_cons] at hlen
          omega
        obtain ⟨s', d1, d2⟩ := ih s1 (by rw [e2, e3]; exact hfetch) (by rw [e2]; exact e4) hlen1
        refine ⟨s', ?_, d2⟩
        simp only [RmScan.drive, hend, e1, d1, htodo]
        simp

theorem scan_all_spec (fh : RmFileHandle) (hnp : 2 ≤ fh.file_hdr.num_pages)
    (hfetch : ∀ p, 1 ≤ p → p < fh.file_hdr.num_pages → ∃ pg, fh.pool.pages p = some pg)
    (fuel : Nat) (hfuel : (fh.rids_from 1 (fh.file_hdr.num_pages - 1).toNat).length ≤ fuel) :
    ∃ s, fh.scan_all fuel =
        some (.ok (fh.rids_from 1 (fh.file_hdr.num_pages - 1).toNat), s) ∧
      s.is_end = true := by
  obtain ⟨s1, e1, e2, e3, e4, e5⟩ := next_spec
    { file_handle := fh, rid := { page_no := RM_FIRST_RECORD_PAGE, slot_no := -1 } }
    hfetch (le_refl _) (by simp only [RM_FIRST_RECORD_PAGE]; omega)
  have htodo : s1.todo = fh.rids_from 1 (fh.file_hdr.num_pages - 1).toNat := by
    rw [e5]
    have hk : (fh.file_hdr.num_pages - 1).toNat = (fh.file_hdr.num_pages - (1 + 1)).toNat + 1 := by
      omega
    rw [hk]
    rfl
  obtain ⟨s', d1, d2⟩ := drive_spec fuel s1 (by rw [e2, e3]; exact hfetch)
    (by rw [e2]; exact e4) (by rw [htodo]; exact hfuel)
  refine ⟨s', ?_, d2⟩
  unfold RmFileHandle.scan_all RmScan.new
  rw [e1]
  simp only [d1, htodo]

/-- C3 (full scan correctness and order): for a heap file with `num_pages ≥ 2` all of whose
data pages can be fetched, constructing an `RmScan` and calling `next()` until `is_end()` raises
no error, ends with `is_end()` true, and visits a list of RIDs that contains exactly the occupied
RIDs (`1 ≤ page_no < num_pages`, `0 ≤ slot_no < records_per_page`, bit set) and is strictly
increasing in the lexicographic order on `(page_no, slot_no)`, so that each is visited once. -/
theorem full_scan_correct (fh : RmFileHandle) (hnp : 2 ≤ fh.file_hdr.num_pages)
    (hfetch : ∀ p, 1 ≤ p → p < fh.file_hdr.num_pages → ∃ pg, fh.pool.pages p = some pg) :
    ∃ rids : List Rid,
      (∀ fuel, rids.length ≤ fuel →
        ∃ s, fh.scan_all fuel = some (.ok rids, s) ∧ s.is_end = true) ∧
      (∀ r, r ∈ rids ↔ fh.occupied r) ∧
      rids.Pairwise Rid.lt ∧ rids.Nodup := by
  refine ⟨fh.rids_from 1 (fh.file_hdr.num_pages - 1).toNat,
    fun fuel hfuel => scan_all_spec fh hnp hfetch fuel hfuel, ?_, rids_from_sorted fh _ _, ?_⟩
  · intro r
    rw [rids_from_mem]
    unfold RmFileHandle.occupied
    constructor
    · rintro ⟨a, b, c, d, e⟩
      exact ⟨a, by omega, c, d, e⟩
    · rintro ⟨a, b, c, d, e⟩
      exact ⟨a, by omega, c, d, e⟩
  · refine (rids_from_sorted fh _ _).imp ?_
    intro a b hab heq
    subst heq
    rcases hab with h | ⟨_, h⟩ <;> omega

/-- Witness for C3: one data page with bits 0, 2 and 4 set; the scan visits slots 0, 2, 4 in
that order. -/
theorem full_scan_correct_witness :
    (sparse_page_file.scan_all 3).map (·.1) = some (.ok [⟨1, 0⟩, ⟨1, 2⟩, ⟨1, 4⟩]) ∧
    ∃ rids : List Rid,
      (∀ fuel, rids.length ≤ fuel →
        ∃ s, sparse_page_file.scan_all fuel = some (.ok rids, s) ∧ s.is_end = true) ∧
      (∀ r, r ∈ rids ↔ sparse_page_file.occupied r) ∧
      rids.Pairwise Rid.lt ∧ rids.Nodup :=
  ⟨rfl, full_scan_correct sparse_page_file (by decide)
    (fun p h1 h2 => by
      have h3 : p < 2 := h2
      have hp : p = 1 := by omega
      subst hp
      exact ⟨_, rfl⟩)⟩


/-! ## Buffer pool: page table and replacer facts -/

theorem PageTable.find_erase_same (pt : PageTable) (id : PageId) :
    PageTable.find (PageTable.erase pt id) id = none := by
  induction pt with
  | nil => rfl
  | cons e rest ih =>
    obtain ⟨k, v⟩ := e
    by_cases h : k = id
    · simp only [PageTable.erase, List.filter, h, ne_eq, not_true_eq_false, decide_False]
      exact ih
    · simp only [PageTable.erase, List.filter, ne_eq, h, not_false_eq_true, decide_True,
        PageTable.find, if_false]
      exact ih

theorem PageTable.find_erase_other (pt : PageTable) (id id' : PageId) (h : id' ≠ id) :
    PageTable.find (PageTable.erase pt id) id' = PageTable.find pt id' := by
  induction pt with
  | nil => rfl
  | cons e rest ih =>
    obtain ⟨k, v⟩ := e
    by_cases hk : k = id
    · have hk' : ¬ k = id' := fun h2 => h (h2.symm.trans hk)
      simp only [PageTable.erase, List.filter, hk, ne_eq, not_true_eq_false, decide_False,
        PageTable.find]
      rw [hk] at hk'
      simp only [hk', if_false]
      exact ih
    · simp only [PageTable.erase, List.filter, ne_eq, hk, not_false_eq_true, decide_True,
        PageTable.find]
      by_cases hk2 : k = id'
      · simp only [hk2, if_true]
      · simp only [hk2, if_false]
        exact ih

theorem PageTable.find_insert_same (pt : PageTable) (id : PageId) (f : Int) :
    PageTable.find (PageTable.insert pt id f) id = some f := by
  simp [PageTable.insert, PageTable.find]

theorem PageTable.find_insert_other (pt : PageTable) (id id' : PageId) (f : Int)
    (h : id' ≠ id) :
    PageTable.find (PageTable.insert pt id f) id' = PageTable.find pt id' := by
  have h' : ¬ id = id' := fun h2 => h h2.symm
  simp only [PageTable.insert, PageTable.find, h', if_false]
  exact PageTable.find_erase_other pt id id' h

theorem LRUReplacer.mem_pin (r : LRUReplacer) (f g : Int) :
    g ∈ (r.pin f).lru_list ↔ g ∈ r.lru_list ∧ g ≠ f := by
  simp [LRUReplacer.pin, List.mem_filter]

theorem LRUReplacer.mem_unpin (r : LRUReplacer) (f g : Int) :
    g ∈ (r.unpin f).lru_list ↔ g ∈ r.lru_list ∨ g = f := by
  unfold LRUReplacer.unpin
  by_cases h : f ∈ r.lru_list
  · simp only [h, if_true]
    constructor
    · exact Or.inl
    · rintro (h1 | rfl)
      · exact h1
      · exact h
  · simp [h]

theorem LRUReplacer.unpin_of_mem (r : LRUReplacer) (f : Int) (h : f ∈ r.lru_list) :
    r.unpin f = r := by
  simp [LRUReplacer.unpin, h]

theorem LRUReplacer.unpin_of_not_mem (r : LRUReplacer) (f : Int) (h : f ∉ r.lru_list) :
    (r.unpin f).lru_list = r.lru_list ++ [f] := by
  simp [LRUReplacer.unpin, h]

/-- The three outcomes of `find_victim_page`. -/
theorem find_victim_page_cases (bpm : BufferPoolManager) :
    (bpm.free_list = [] ∧ bpm.replacer.lru_list = [] ∧ bpm.find_victim_page = (none, bpm)) ∨
    (∃ v rest, bpm.free_list = v :: rest ∧
      bpm.find_victim_page = (some v, { bpm with free_list := rest })) ∨
    (∃ v rest, bpm.free_list = [] ∧ bpm.replacer.lru_list = v :: rest ∧
      bpm.find_victim_page = (some v, { bpm with replacer := { lru_list := rest } })) := by
  obtain ⟨ps, pages, pt, fl, ⟨lru⟩, dm⟩ := bpm
  unfold BufferPoolManager.find_victim_page LRUReplacer.victim
  cases fl with
  | cons v rest => exact Or.inr (Or.inl ⟨v, rest, rfl, rfl⟩)
  | nil =>
    cases lru with
    | nil => exact Or.inl ⟨rfl, rfl, rfl⟩
    | cons v rest => exact Or.inr (Or.inr ⟨v, rest, rfl, rfl, rfl⟩)

/-! ## Buffer pool: single calls -/

theorem write_page_ok (dm : DiskManager) (fd page_no : Int) (data : List Byte)
    (h : 0 ≤ page_no) :
    ∃ dm', dm.write_page fd page_no data = (.ok (), dm') ∧
      dm'.files { fd := fd, page_no := page_no } = some data ∧
      dm'.transfers = dm.transfers ++ [.write fd page_no data] ∧
      dm'.fd2pageno = dm.fd2pageno ∧ dm'.page_size = dm.page_size ∧
      (∀ id d, dm.files id = some d → id ≠ { fd := fd, page_no := page_no } →
        dm'.files id = some d) := by
  unfold DiskManager.write_page
  have hn : ¬ page_no < 0 := by omega
  simp only [hn, if_false]
  refine ⟨_, rfl, by simp, rfl, rfl, rfl, ?_⟩
  intro id d hd hne
  simp only [hne, if_false, hd]
  split <;> rfl

theorem write_page_error (dm dm' : DiskManager) (fd page_no : Int) (data : List Byte)
    (e : Error) (h : dm.write_page fd page_no data = (.error e, dm')) :
    dm' = dm ∧ page_no < 0 := by
  unfold DiskManager.write_page at h
  by_cases hn : page_no < 0
  · simp only [hn, if_true, Prod.mk.injEq] at h
    exact ⟨h.2.symm, hn⟩
  · simp [hn] at h

theorem read_page_ok_inv (dm dm' : DiskManager) (fd page_no : Int) (d : List Byte)
    (h : dm.read_page fd page_no = (.ok d, dm')) :
    0 ≤ page_no ∧ dm.files { fd := fd, page_no := page_no } = some d ∧
      dm' = { dm with transfers := dm.transfers ++ [.read fd page_no] } := by
  unfold DiskManager.read_page at h
  by_cases hn : page_no < 0
  · simp [hn] at h
  · simp only [hn, if_false] at h
    cases hf : dm.files { fd := fd, page_no := page_no } with
    | none => simp [hf] at h
    | some d' =>
      simp only [hf, Prod.mk.injEq, Except.ok.injEq] at h
      exact ⟨by omega, by rw [h.1], h.2.symm⟩

theorem read_page_ok (dm : DiskManager) (fd page_no : Int) (d : List Byte)
    (h0 : 0 ≤ page_no) (h : dm.files { fd := fd, page_no := page_no } = some d) :
    dm.read_page fd page_no =
      (.ok d, { dm with transfers := dm.transfers ++ [.read fd page_no] }) := by
  unfold DiskManager.read_page
  have hn : ¬ page_no < 0 := by omega
  simp only [hn, if_false, h]

/-- A hit of `fetch_page`. -/
theorem fetch_page_hit (bpm : BufferPoolManager) (id : PageId) (f : Int)
    (h : bpm.page_table.find id = some f) :
    bpm.fetch_page id =
      (.ok (some f),
        { bpm with
          pages := setAt bpm.pages f
            { bpm.pages f with pin_count := (bpm.pages f).pin_count + 1 }
          replacer := bpm.replacer.pin f }) := by
  unfold BufferPoolManager.fetch_page
  simp only [h]

/-- What a successful `new_page` has done. -/
theorem new_page_ok_inv (bpm s : BufferPoolManager) (id P : PageId) (F : Int)
    (h : bpm.new_page id = (.ok (some F), P, s)) :
    ∃ bpm1 dm2, bpm.find_victim_page = (some F, bpm1) ∧
      P = { fd := id.fd, page_no := bpm1.disk_manager.fd2pageno id.fd } ∧
      P.page_no ≠ INVALID_PAGE_ID ∧
      s = { bpm1 with
            disk_manager := dm2
            page_table := (bpm1.page_table.erase (bpm1.pages F).id).insert P F
            pages := setAt bpm1.pages F
              { id := P, data := List.replicate dm2.page_size 0, is_dirty := false,
                pin_count := 1 }
            replacer := bpm1.replacer.pin F } ∧
      (((bpm1.pages F).is_dirty = false ∧ dm2 = (bpm1.disk_manager.allocate_page id.fd).2) ∨
        ((bpm1.pages F).is_dirty = true ∧
          (bpm1.disk_manager.allocate_page id.fd).2.write_page (bpm1.pages F).id.fd
            (bpm1.pages F).id.page_no (bpm1.pages F).data = (.ok (), dm2))) := by
  unfold BufferPoolManager.new_page at h
  rcases hv : bpm.find_victim_page with ⟨r, bpm1⟩
  cases r with
  | none => simp [hv] at h
  | some v =>
    simp only [hv] at h
    by_cases hi : bpm1.disk_manager.fd2pageno id.fd = INVALID_PAGE_ID
    · simp [DiskManager.allocate_page, hi] at h
    · by_cases hd : (bpm1.pages v).is_dirty = true
      · rcases hw : (bpm1.disk_manager.allocate_page id.fd).2.write_page (bpm1.pages v).id.fd
            (bpm1.pages v).id.page_no (bpm1.pages v).data with ⟨r2, dm2⟩
        cases r2 with
        | error e =>
          simp only [DiskManager.allocate_page] at hw
          simp [DiskManager.allocate_page, hi, hd, hw] at h
        | ok u =>
          have hw' := hw
          simp only [DiskManager.allocate_page] at hw
          simp only [DiskManager.allocate_page, hi, if_false, hd, if_true, hw, Prod.mk.injEq,
            Except.ok.injEq, Option.some.injEq] at h
          obtain ⟨h1, h2, h3⟩ := h
          subst h1
          refine ⟨bpm1, dm2, rfl, h2.symm, by rw [← h2]; exact hi, ?_, Or.inr ⟨hd, hw'⟩⟩
          rw [← h3, ← h2]
          rfl
      · have hd' : (bpm1.pages v).is_dirty = false := by simpa using hd
        simp only [DiskManager.allocate_page, hi, if_false, hd', Bool.false_eq_true,
          Prod.mk.injEq, Except.ok.injEq, Option.some.injEq] at h
        obtain ⟨h1, h2, h3⟩ := h
        subst h1
        refine ⟨bpm1, _, rfl, h2.symm, by rw [← h2]; exact hi, ?_, Or.inl ⟨hd', rfl⟩⟩
        rw [← h3, ← h2]
        rfl

theorem find_victim_page_frame (bpm bpm1 : BufferPoolManager) (r : Option Int)
    (h : bpm.find_victim_page = (r, bpm1)) :
    bpm1.pages = bpm.pages ∧ bpm1.disk_manager = bpm.disk_manager ∧
      bpm1.page_table = bpm.page_table ∧ bpm1.pool_size = bpm.pool_size := by
  rcases find_victim_page_cases bpm with ⟨_, _, h1⟩ | ⟨v, rest, _, h1⟩ | ⟨v, rest, _, _, h1⟩ <;>
  · rw [h1] at h
    simp only [Prod.mk.injEq] at h
    rw [← h.2]
    exact ⟨rfl, rfl, rfl, rfl⟩

/-! ## Buffer pool: what a call does to the core of the state -/

theorem setAt_self {α : Type} (h : Int → α) (f : Int) : setAt h f (h f) = h := by
  funext g
  unfold setAt
  split
  · next e => rw [e]
  · rfl

theorem setAt_setAt {α : Type} (h : Int → α) (f : Int) (a b : α) :
    setAt (setAt h f a) f b = setAt h f b := by
  funext g
  unfold setAt
  split <;> rfl

theorem core_ids_setAt (pages : Int → Page) (f : Int) (pg : Page) :
    (fun g => (setAt pages f pg g).id) = setAt (fun g => (pages g).id) f pg.id := by
  funext g
  unfold setAt
  split <;> rfl

theorem core_pins_setAt (pages : Int → Page) (f : Int) (pg : Page) :
    (fun g => (setAt pages f pg g).pin_count) =
      setAt (fun g => (pages g).pin_count) f pg.pin_count := by
  funext g
  unfold setAt
  split <;> rfl

/-- Rewriting a frame without touching its id and pin count leaves the core as it was. -/
theorem core_of_frame_update (bpm : BufferPoolManager) (f : Int) (pg : Page) (dm : DiskManager)
    (h1 : pg.id = (bpm.pages f).id) (h2 : pg.pin_count = (bpm.pages f).pin_count) :
    ({ bpm with pages := setAt bpm.pages f pg, disk_manager := dm } : BufferPoolManager).core =
      bpm.core := by
  simp only [BufferPoolManager.core, core_ids_setAt, core_pins_setAt, h1, h2]
  rw [setAt_self (fun g => (bpm.pages g).id) f, setAt_self (fun g => (bpm.pages g).pin_count) f]

/-- A write into a frame leaves the core as it was. -/
theorem core_set_data (bpm : BufferPoolManager) (f : Int) (data : List Byte) :
    (bpm.set_data f data).core = bpm.core :=
  core_of_frame_update bpm f { bpm.pages f with data := data } bpm.disk_manager rfl rfl

theorem core_of_disk_update (bpm : BufferPoolManager) (dm : DiskManager) :
    ({ bpm with disk_manager := dm } : BufferPoolManager).core = bpm.core := rfl

theorem find_victim_page_core (bpm : BufferPoolManager) :
    (bpm.find_victim_page.1 = none ∧ bpm.core.victim = none ∧ bpm.find_victim_page.2 = bpm) ∨
    (∃ v, bpm.find_victim_page.1 = some v ∧ bpm.core.victim = some v ∧
      bpm.find_victim_page.2.core = bpm.core.pop ∧
      bpm.find_victim_page.2.pages = bpm.pages ∧
      bpm.find_victim_page.2.disk_manager = bpm.disk_manager ∧
      bpm.find_victim_page.2.page_table = bpm.page_table) := by
  rcases find_victim_page_cases bpm with ⟨h0, h2, h1⟩ | ⟨v, rest, h2, h1⟩ | ⟨v, rest, h2, h3, h1⟩
  · left
    rw [h1]
    refine ⟨rfl, ?_, rfl⟩
    simp [PoolCore.victim, BufferPoolManager.core, h0, h2]
  · right
    rw [h1]
    refine ⟨v, rfl, ?_, ?_, rfl, rfl, rfl⟩
    · simp [PoolCore.victim, BufferPoolManager.core, h2]
    · simp [PoolCore.pop, BufferPoolManager.core, h2]
  · right
    rw [h1]
    refine ⟨v, rfl, ?_, ?_, rfl, rfl, rfl⟩
    · simp [PoolCore.victim, BufferPoolManager.core, h2, h3]
    · simp [PoolCore.pop, BufferPoolManager.core, h2, h3]
/-- The outcomes of a miss of `fetch_page`: without a victim frame it returns null and changes
nothing; with the victim frame `v` it either throws, having taken `v` off the free list or out of
the replacer, or it has written a dirty `v` back under its old id, read the page into `v` and
mapped it there. -/
theorem fetch_page_miss_cases (bpm : BufferPoolManager) (id : PageId)
    (h : bpm.page_table.find id = none) :
    (bpm.core.victim = none ∧ bpm.fetch_page id = (.ok none, bpm)) ∨
    (∃ v bpm1, bpm.find_victim_page = (some v, bpm1) ∧ bpm.core.victim = some v ∧
      bpm1.core = bpm.core.pop ∧
      ((∃ e s, bpm.fetch_page id = (.error e, s) ∧ s.core = bpm1.core) ∨
       (∃ d dmw,
         (((bpm.pages v).is_dirty = false ∧ dmw = bpm.disk_manager) ∨
          ((bpm.pages v).is_dirty = true ∧
            bpm.disk_manager.write_page (bpm.pages v).id.fd (bpm.pages v).id.page_no
              (bpm.pages v).data = (.ok (), dmw))) ∧
         0 ≤ id.page_no ∧ dmw.files id = some d ∧
         bpm.fetch_page id =
          (.ok (some v),
            { bpm1 with
              disk_manager := { dmw with transfers := dmw.transfers ++ [.read id.fd id.page_no] }
              page_table := (bpm.page_table.erase (bpm.pages v).id).insert id v
              pages := setAt bpm.pages v { id := id, data := d, is_dirty := false, pin_count := 1 }
              replacer := bpm1.replacer.pin v })))) := by
  rcases find_victim_page_core bpm with ⟨h1, h2, h3⟩ | ⟨v, h1, h2, h3, h4, h5, h6⟩
  · left
    refine ⟨h2, ?_⟩
    unfold BufferPoolManager.fetch_page
    rcases hv : bpm.find_victim_page with ⟨r, bpm1⟩
    rw [hv] at h1 h3
    simp only at h1 h3
    subst h1 h3
    simp only [h]
  · right
    rcases hv : bpm.find_victim_page with ⟨r, bpm1⟩
    rw [hv] at h1 h3 h4 h5 h6
    simp only at h1 h3 h4 h5 h6
    subst h1
    refine ⟨v, bpm1, rfl, h2, h3, ?_⟩
    unfold BufferPoolManager.fetch_page
    simp only [h, hv]
    rw [← h4, ← h5, ← h6]
    by_cases hd : (bpm1.pages v).is_dirty = true
    · simp only [hd, if_true]
      rcases hw : bpm1.disk_manager.write_page (bpm1.pages v).id.fd (bpm1.pages v).id.page_no
          (bpm1.pages v).data with ⟨rw, dmw⟩
      cases rw with
      | error e => exact Or.inl ⟨e, _, rfl, rfl⟩
      | ok u =>
        simp only [setAt_same, setAt_setAt]
        rcases hr : dmw.read_page id.fd id.page_no with ⟨rr, dmr⟩
        cases rr with
        | error e =>
          exact Or.inl ⟨e, _, rfl, core_of_frame_update bpm1 v
            { bpm1.pages v with is_dirty := false } dmr rfl rfl⟩
        | ok d =>
          obtain ⟨r1, r2, r3⟩ := read_page_ok_inv _ _ _ _ _ hr
          refine Or.inr ⟨d, dmw, Or.inr ⟨trivial, rfl⟩, r1, r2, ?_⟩
          rw [r3]
    · have hd' : (bpm1.pages v).is_dirty = false := by simpa using hd
      simp only [hd', Bool.false_eq_true, if_false]
      rcases hr : bpm1.disk_manager.read_page id.fd id.page_no with ⟨rr, dmr⟩
      cases rr with
      | error e => exact Or.inl ⟨e, _, rfl, rfl⟩
      | ok d =>
        obtain ⟨r1, r2, r3⟩ := read_page_ok_inv _ _ _ _ _ hr
        refine Or.inr ⟨d, bpm1.disk_manager, Or.inl ⟨trivial, rfl⟩, r1, r2, ?_⟩
        rw [r3, ← hd']
theorem core_assign (bpm1 : BufferPoolManager) (v : Int) (pg : Page) (dm : DiskManager)
    (h : pg.pin_count = 1) :
    ({ bpm1 with
        disk_manager := dm
        page_table := (bpm1.page_table.erase (bpm1.pages v).id).insert pg.id v
        pages := setAt bpm1.pages v pg
        replacer := bpm1.replacer.pin v } : BufferPoolManager).core =
      bpm1.core.assign v pg.id := by
  simp only [BufferPoolManager.core, PoolCore.assign, core_ids_setAt, core_pins_setAt,
    LRUReplacer.pin, h]

/-- The outcomes of `new_page`. -/
theorem new_page_cases (bpm : BufferPoolManager) (id : PageId) :
    (bpm.core.victim = none ∧ bpm.new_page id = (.ok none, id, bpm)) ∨
    (∃ v bpm1, bpm.find_victim_page = (some v, bpm1) ∧ bpm.core.victim = some v ∧
      bpm1.core = bpm.core.pop ∧
      ((bpm.disk_manager.fd2pageno id.fd = INVALID_PAGE_ID ∧
          ∃ s, bpm.new_page id = (.ok none, { fd := id.fd, page_no := INVALID_PAGE_ID }, s) ∧
            s.core = bpm1.core) ∨
       (∃ e P s, bpm.new_page id = (.error e, P, s) ∧ s.core = bpm1.core) ∨
       (bpm.disk_manager.fd2pageno id.fd ≠ INVALID_PAGE_ID ∧
          ∃ s, bpm.new_page id =
            (.ok (some v), { fd := id.fd, page_no := bpm.disk_manager.fd2pageno id.fd }, s) ∧
            s.core = bpm1.core.assign v
              { fd := id.fd, page_no := bpm.disk_manager.fd2pageno id.fd }))) := by
  rcases find_victim_page_core bpm with ⟨h1, h2, h3⟩ | ⟨v, h1, h2, h3, h4, h5, h6⟩
  · left
    refine ⟨h2, ?_⟩
    unfold BufferPoolManager.new_page
    rcases hv : bpm.find_victim_page with ⟨r, bpm1⟩
    rw [hv] at h1 h3
    simp only at h1 h3
    subst h1 h3
    rfl
  · right
    rcases hv : bpm.find_victim_page with ⟨r, bpm1⟩
    rw [hv] at h1 h3 h4 h5 h6
    simp only at h1 h3 h4 h5 h6
    subst h1
    refine ⟨v, bpm1, rfl, h2, h3, ?_⟩
    unfold BufferPoolManager.new_page
    simp only [hv, DiskManager.allocate_page]
    rw [← h5]
    by_cases hi : bpm1.disk_manager.fd2pageno id.fd = INVALID_PAGE_ID
    · left
      refine ⟨hi, ?_⟩
      simp only [hi, if_true]
      exact ⟨_, rfl, rfl⟩
    · right
      simp only [hi, if_false]
      by_cases hd : (bpm1.pages v).is_dirty = true
      · simp only [hd, if_true]
        rcases hw : DiskManager.write_page
            { bpm1.disk_manager with
              fd2pageno := setAt bpm1.disk_manager.fd2pageno id.fd
                (bpm1.disk_manager.fd2pageno id.fd + 1) }
            (bpm1.pages v).id.fd (bpm1.pages v).id.page_no (bpm1.pages v).data with ⟨rw, dmw⟩
        cases rw with
        | error e => exact Or.inl ⟨e, _, _, rfl, rfl⟩
        | ok u =>
          refine Or.inr ⟨hi, _, rfl, ?_⟩
          exact core_assign bpm1 v
            { id := { fd := id.fd, page_no := bpm1.disk_manager.fd2pageno id.fd }
              data := List.replicate dmw.page_size 0, is_dirty := false, pin_count := 1 }
            dmw rfl
      · have hd' : (bpm1.pages v).is_dirty = false := by simpa using hd
        simp only [hd', Bool.false_eq_true, if_false]
        refine Or.inr ⟨hi, _, rfl, ?_⟩
        exact core_assign bpm1 v
          { id := { fd := id.fd, page_no := bpm1.disk_manager.fd2pageno id.fd }
            data := List.replicate bpm1.disk_manager.page_size 0, is_dirty := false
            pin_count := 1 }
          _ rfl

/-- What `unpin_page` does to the core. -/
theorem unpin_page_core (bpm : BufferPoolManager) (id : PageId) (d : Bool) :
    (bpm.unpin_page id d = (false, bpm) ∧
      (bpm.page_table.find id = none ∨
        ∃ f, bpm.page_table.find id = some f ∧ (bpm.pages f).pin_count ≤ 0)) ∨
    (∃ f, bpm.page_table.find id = some f ∧ 0 < (bpm.pages f).pin_count ∧
      (bpm.unpin_page id d).1 = true ∧ (bpm.unpin_page id d).2.core = bpm.core.unpin f) := by
  unfold BufferPoolManager.unpin_page
  cases hf : bpm.page_table.find id with
  | none => exact Or.inl ⟨rfl, Or.inl rfl⟩
  | some f =>
    by_cases hp : (bpm.pages f).pin_count ≤ 0
    · simp only [hp, if_true]
      exact Or.inl ⟨trivial, Or.inr ⟨f, rfl, hp⟩⟩
    · simp only [hp, if_false]
      refine Or.inr ⟨f, rfl, by omega, trivial, ?_⟩
      simp only [BufferPoolManager.core, PoolCore.unpin, core_ids_setAt, core_pins_setAt]
      cases d <;> by_cases h0 : (bpm.pages f).pin_count - 1 = 0 <;>
        simp [h0, setAt_self (fun g => (bpm.pages g).id) f]

/-- The outcomes of `delete_page` on a mapped, unpinned page. -/
theorem delete_page_core (bpm : BufferPoolManager) (id : PageId) (f : Int)
    (h : bpm.page_table.find id = some f) (hp : (bpm.pages f).pin_count ≤ 0) :
    (∃ e s, bpm.delete_page id = (.error e, s) ∧ s.core = bpm.core) ∨
    (∃ s, bpm.delete_page id = (.ok true, s) ∧ s.core = bpm.core.delete f id) := by
  have hn : ¬ (bpm.pages f).pin_count > 0 := by omega
  unfold BufferPoolManager.delete_page
  simp only [h, hn, if_false]
  by_cases hd : (bpm.pages f).is_dirty = true
  · simp only [hd, if_true]
    rcases hw : bpm.disk_manager.write_page id.fd id.page_no (bpm.pages f).data with ⟨rw, dmw⟩
    cases rw with
    | error e => exact Or.inl ⟨e, _, rfl, rfl⟩
    | ok u =>
      refine Or.inr ⟨_, rfl, ?_⟩
      simp only [BufferPoolManager.core, PoolCore.delete, core_ids_setAt, core_pins_setAt,
        setAt_setAt]
  · have hd' : (bpm.pages f).is_dirty = false := by simpa using hd
    simp only [hd', Bool.false_eq_true, if_false]
    refine Or.inr ⟨_, rfl, ?_⟩
    simp only [BufferPoolManager.core, PoolCore.delete, core_ids_setAt, core_pins_setAt]

theorem flush_page_core (bpm : BufferPoolManager) (id : PageId) :
    (bpm.flush_page id).2.core = bpm.core := by
  unfold BufferPoolManager.flush_page
  cases hf : bpm.page_table.find id with
  | none => rfl
  | some f =>
    simp only
    rcases hw : bpm.disk_manager.write_page id.fd id.page_no (bpm.pages f).data with ⟨rw, dmw⟩
    cases rw with
    | error e => rfl
    | ok u => exact core_of_frame_update bpm f { bpm.pages f with is_dirty := false } dmw rfl rfl

theorem flush_entries_core (fd : Int) (es : List (PageId × Int)) (bpm : BufferPoolManager) :
    (BufferPoolManager.flush_entries fd es bpm).2.core = bpm.core := by
  induction es generalizing bpm with
  | nil => rfl
  | cons e rest ih =>
    obtain ⟨pid, f⟩ := e
    unfold BufferPoolManager.flush_entries
    by_cases hfd : pid.fd = fd
    · simp only [hfd, if_true]
      rcases hw : bpm.disk_manager.write_page fd pid.page_no (bpm.pages f).data with ⟨rw, dmw⟩
      cases rw with
      | error e => rfl
      | ok u =>
        simp only
        rw [ih]
        exact core_of_frame_update bpm f { bpm.pages f with is_dirty := false } dmw rfl rfl
    · simp only [hfd, if_false]
      exact ih bpm
/-- What `fetch_page` does to the core. -/
theorem fetch_page_core (bpm : BufferPoolManager) (id : PageId) :
    (∃ f, bpm.page_table.find id = some f ∧ (bpm.fetch_page id).1 = .ok (some f) ∧
      (bpm.fetch_page id).2.core = bpm.core.hit f) ∨
    (bpm.page_table.find id = none ∧ bpm.core.victim = none ∧
      bpm.fetch_page id = (.ok none, bpm)) ∨
    (bpm.page_table.find id = none ∧ ∃ v, bpm.core.victim = some v ∧
      ((∃ e, (bpm.fetch_page id).1 = .error e ∧ (bpm.fetch_page id).2.core = bpm.core.pop) ∨
       ((bpm.fetch_page id).1 = .ok (some v) ∧ 0 ≤ id.page_no ∧
         (bpm.fetch_page id).2.core = bpm.core.pop.assign v id))) := by
  cases hf : bpm.page_table.find id with
  | some f =>
    left
    refine ⟨f, rfl, ?_⟩
    rw [fetch_page_hit bpm id f hf]
    refine ⟨rfl, ?_⟩
    simp only [BufferPoolManager.core, PoolCore.hit, core_ids_setAt, core_pins_setAt,
      LRUReplacer.pin]
    rw [setAt_self (fun g => (bpm.pages g).id) f]
  | none =>
    right
    rcases fetch_page_miss_cases bpm id hf with
      ⟨h1, h⟩ | ⟨v, bpm1, hv, hvc, hpop, (⟨e, s, h, hs⟩ | ⟨d, dmw, _, h0, _, h⟩)⟩
    · exact Or.inl ⟨rfl, h1, h⟩
    · refine Or.inr ⟨rfl, v, hvc, Or.inl ⟨e, ?_, ?_⟩⟩
      · rw [h]
      · rw [h]
        exact hs.trans hpop
    · refine Or.inr ⟨rfl, v, hvc, Or.inr ⟨?_, h0, ?_⟩⟩
      · rw [h]
      · rw [h, ← hpop]
        obtain ⟨e1, _, e3, _⟩ := find_victim_page_frame bpm bpm1 _ hv
        rw [← e1, ← e3]
        exact core_assign bpm1 v { id := id, data := d, is_dirty := false, pin_count := 1 } _ rfl

theorem delete_page_of_unmapped (bpm : BufferPoolManager) (P : PageId)
    (h : bpm.page_table.find P = none) : bpm.delete_page P = (.ok true, bpm) := by
  unfold BufferPoolManager.delete_page
  simp only [h]

theorem delete_page_of_pinned (bpm : BufferPoolManager) (P : PageId) (f : Int)
    (h : bpm.page_table.find P = some f) (hpin : 0 < (bpm.pages f).pin_count) :
    bpm.delete_page P = (.ok false, bpm) := by
  unfold BufferPoolManager.delete_page
  simp only [h, gt_iff_lt, hpin, if_true]

/-- Every call, returning or throwing, makes a step of the core. -/
theorem apply_step (bpm : BufferPoolManager) (call : PoolCall) (fr : Bool)
    (hfr : fr = true → bpm.fresh call) :
    PoolStep fr bpm.core call (bpm.apply call).core := by
  cases call with
  | fetch id =>
    show PoolStep fr bpm.core (.fetch id) (bpm.fetch_page id).2.core
    rcases fetch_page_core bpm id with
      ⟨f, h1, _, h2⟩ | ⟨_, _, h⟩ | ⟨hn, v, hv, (⟨e, _, h⟩ | ⟨_, h0, h⟩)⟩
    · rw [h2]
      exact .hit id f h1
    · rw [h]
      exact .same _
    · rw [h]
      exact .pop _ v hv
    · rw [h]
      refine .assign _ v id hv ?_ (fun _ => hn)
      show id.page_no ≠ -1
      omega
  | unpin id d =>
    show PoolStep fr bpm.core (.unpin id d) (bpm.unpin_page id d).2.core
    rcases unpin_page_core bpm id d with ⟨h, _⟩ | ⟨f, h1, h2, _, h3⟩
    · rw [h]
      exact .same _
    · rw [h3]
      exact .unpin id d f h1 h2
  | new_page id =>
    show PoolStep fr bpm.core (.new_page id) (bpm.new_page id).2.2.core
    rcases new_page_cases bpm id with
      ⟨_, h⟩ | ⟨v, bpm1, _, hv, hpop, (⟨_, s, h, hs⟩ | ⟨e, P, s, h, hs⟩ | ⟨hi, s, h, hs⟩)⟩
    · rw [h]
      exact .same _
    · rw [h]
      show PoolStep fr _ _ s.core
      rw [hs, hpop]
      exact .pop _ v hv
    · rw [h]
      show PoolStep fr _ _ s.core
      rw [hs, hpop]
      exact .pop _ v hv
    · rw [h]
      show PoolStep fr _ _ s.core
      rw [hs, hpop]
      exact .assign _ v _ hv hi (fun hf => hfr hf id rfl)
  | flush id =>
    show PoolStep fr bpm.core (.flush id) (bpm.flush_page id).2.core
    rw [flush_page_core]
    exact .same _
  | delete id =>
    show PoolStep fr bpm.core (.delete id) (bpm.delete_page id).2.core
    cases hf : bpm.page_table.find id with
    | none =>
      rw [delete_page_of_unmapped bpm id hf]
      exact .same _
    | some f =>
      by_cases hp : 0 < (bpm.pages f).pin_count
      · rw [delete_page_of_pinned bpm id f hf hp]
        exact .same _
      · rcases delete_page_core bpm id f hf (by omega) with ⟨e, s, h, hs⟩ | ⟨s, h, hs⟩
        · rw [h]
          show PoolStep fr _ _ s.core
          rw [hs]
          exact .same _
        · rw [h]
          show PoolStep fr _ _ s.core
          rw [hs]
          exact .delete id f hf (by show (bpm.pages f).pin_count ≤ 0; omega)
  | flush_all fd =>
    show PoolStep fr bpm.core (.flush_all fd) (bpm.flush_all_pages fd).2.core
    unfold BufferPoolManager.flush_all_pages
    rw [flush_entries_core]
    exact .same _

/-- A call that does not throw, `new_page` not being handed `INVALID_PAGE_ID`, makes a step of
the core that gives up no frame. -/
theorem apply_step_ok (bpm : BufferPoolManager) (call : PoolCall) (fr : Bool)
    (ha : bpm.admissible call) (hfr : fr = true → bpm.fresh call) :
    PoolStepOk fr bpm.core call (bpm.apply call).core := by
  obtain ⟨hr, hvalid⟩ := ha
  cases call with
  | fetch id =>
    show PoolStepOk fr bpm.core (.fetch id) (bpm.fetch_page id).2.core
    rcases fetch_page_core bpm id with
      ⟨f, h1, _, h2⟩ | ⟨_, _, h⟩ | ⟨hn, v, hv, (⟨e, he, _⟩ | ⟨_, h0, h⟩)⟩
    · rw [h2]
      exact .hit id f h1
    · rw [h]
      exact .same _
    · simp [BufferPoolManager.raises, he] at hr
    · rw [h]
      refine .assign _ v id hv ?_ (fun _ => hn)
      show id.page_no ≠ -1
      omega
  | unpin id d =>
    show PoolStepOk fr bpm.core (.unpin id d) (bpm.unpin_page id d).2.core
    rcases unpin_page_core bpm id d with ⟨h, _⟩ | ⟨f, h1, h2, _, h3⟩
    · rw [h]
      exact .same _
    · rw [h3]
      exact .unpin id d f h1 h2
  | new_page id =>
    show PoolStepOk fr bpm.core (.new_page id) (bpm.new_page id).2.2.core
    rcases new_page_cases bpm id with
      ⟨_, h⟩ | ⟨v, bpm1, _, hv, hpop, (⟨hi, _⟩ | ⟨e, P, s, h, hs⟩ | ⟨hi, s, h, hs⟩)⟩
    · rw [h]
      exact .same _
    · exact absurd hi (hvalid id rfl)
    · simp [BufferPoolManager.raises, h] at hr
    · rw [h]
      show PoolStepOk fr _ _ s.core
      rw [hs, hpop]
      exact .assign _ v _ hv hi (fun hf => hfr hf id rfl)
  | flush id =>
    show PoolStepOk fr bpm.core (.flush id) (bpm.flush_page id).2.core
    rw [flush_page_core]
    exact .same _
  | delete id =>
    show PoolStepOk fr bpm.core (.delete id) (bpm.delete_page id).2.core
    cases hf : bpm.page_table.find id with
    | none =>
      rw [delete_page_of_unmapped bpm id hf]
      exact .same _
    | some f =>
      by_cases hp : 0 < (bpm.pages f).pin_count
      · rw [delete_page_of_pinned bpm id f hf hp]
        exact .same _
      · rcases delete_page_core bpm id f hf (by omega) with ⟨e, s, h, hs⟩ | ⟨s, h, hs⟩
        · simp [BufferPoolManager.raises, h] at hr
        · rw [h]
          show PoolStepOk fr _ _ s.core
          rw [hs]
          exact .delete id f hf (by show (bpm.pages f).pin_count ≤ 0; omega)
  | flush_all fd =>
    show PoolStepOk fr bpm.core (.flush_all fd) (bpm.flush_all_pages fd).2.core
    unfold BufferPoolManager.flush_all_pages
    rw [flush_entries_core]
    exact .same _
/-! ## Buffer pool: the pin invariant -/

theorem PageTable.find_erase_some (pt : PageTable) (k x : PageId) (g : Int)
    (h : PageTable.find (PageTable.erase pt k) x = some g) :
    x ≠ k ∧ PageTable.find pt x = some g := by
  by_cases hx : x = k
  · rw [hx, PageTable.find_erase_same] at h
    cases h
  · rw [PageTable.find_erase_other pt k x hx] at h
    exact ⟨hx, h⟩

theorem PageTable.find_insert_some (pt : PageTable) (k x : PageId) (f g : Int)
    (h : PageTable.find (PageTable.insert pt k f) x = some g) :
    (x = k ∧ g = f) ∨ (x ≠ k ∧ PageTable.find pt x = some g) := by
  by_cases hx : x = k
  · rw [hx, PageTable.find_insert_same] at h
    exact Or.inl ⟨hx, (Option.some.inj h).symm⟩
  · rw [PageTable.find_insert_other pt k x f hx] at h
    exact Or.inr ⟨hx, h⟩

theorem PoolCore.victim_cases (c : PoolCore) (v : Int) (h : c.victim = some v) :
    (∃ rest, c.free_list = v :: rest ∧ c.pop = { c with free_list := rest }) ∨
    (c.free_list = [] ∧ ∃ rest, c.lru = v :: rest ∧ c.pop = { c with lru := rest }) := by
  unfold PoolCore.victim at h
  unfold PoolCore.pop
  cases hf : c.free_list with
  | cons w rest =>
    rw [hf] at h
    simp only [Option.some.injEq] at h
    subst h
    exact Or.inl ⟨rest, rfl, rfl⟩
  | nil =>
    rw [hf] at h
    simp only at h
    cases hl : c.lru with
    | nil => rw [hl] at h; cases h
    | cons w rest =>
      rw [hl] at h
      simp only [List.head?_cons, Option.some.injEq] at h
      subst h
      exact Or.inr ⟨rfl, rest, rfl, rfl⟩

theorem PinInv_init (pool_size : Nat) (dm : DiskManager) :
    (BufferPoolManager.init pool_size dm).core.PinInv := by
  refine ⟨?_, ?_, ?_, ?_, ?_, ?_⟩
  · intro f
    exact le_refl _
  · intro f _
    rfl
  · intro f hf
    cases hf
  · show ((List.range pool_size).map (fun (i : Nat) => (i : Int))).Nodup
    exact (List.nodup_range pool_size).map (fun a b h => Int.ofNat.inj h)
  · intro id f h
    cases h
  · intro id f h
    cases h

theorem PinInv_hit (c : PoolCore) (id : PageId) (f : Int) (hf : c.page_table.find id = some f)
    (h : c.PinInv) : (c.hit f).PinInv := by
  have hfree : f ∉ c.free_list := h.free_unmapped id f hf
  refine ⟨?_, ?_, ?_, h.free_nodup, h.free_unmapped, h.table_id⟩
  · intro g
    show 0 ≤ setAt c.pins f (c.pins f + 1) g
    unfold setAt
    have := h.pin_nonneg f
    have := h.pin_nonneg g
    split <;> omega
  · intro g hg
    show setAt c.pins f (c.pins f + 1) g = 0
    have hne : g ≠ f := fun e => hfree (e ▸ hg)
    rw [setAt_other _ _ _ _ hne]
    exact h.free_pin g hg
  · intro g hg
    have hg' : g ∈ c.lru ∧ g ≠ f := by
      simpa [PoolCore.hit, List.mem_filter] using hg
    show setAt c.pins f (c.pins f + 1) g = 0
    rw [setAt_other _ _ _ _ hg'.2]
    exact h.lru_pin g hg'.1

theorem PinInv_unpin (c : PoolCore) (id : PageId) (f : Int)
    (hf : c.page_table.find id = some f) (hp : 0 < c.pins f) (h : c.PinInv) :
    (c.unpin f).PinInv := by
  have hfree : f ∉ c.free_list := h.free_unmapped id f hf
  refine ⟨?_, ?_, ?_, h.free_nodup, h.free_unmapped, h.table_id⟩
  · intro g
    show 0 ≤ setAt c.pins f (c.pins f - 1) g
    unfold setAt
    have := h.pin_nonneg g
    split <;> omega
  · intro g hg
    show setAt c.pins f (c.pins f - 1) g = 0
    have hne : g ≠ f := fun e => hfree (e ▸ hg)
    rw [setAt_other _ _ _ _ hne]
    exact h.free_pin g hg
  · intro g hg
    show setAt c.pins f (c.pins f - 1) g = 0
    by_cases h0 : c.pins f - 1 = 0
    · have hg' : g ∈ c.lru ∨ g = f := by
        have : g ∈ (LRUReplacer.unpin { lru_list := c.lru } f).lru_list := by
          simpa [PoolCore.unpin, h0] using hg
        exact (LRUReplacer.mem_unpin _ f g).1 this
      by_cases hgf : g = f
      · rw [hgf, setAt_same]
        exact h0
      · rw [setAt_other _ _ _ _ hgf]
        rcases hg' with h1 | h1
        · exact h.lru_pin g h1
        · exact absurd h1 hgf
    · have hg' : g ∈ c.lru := by
        simpa [PoolCore.unpin, h0] using hg
      have hgf : g ≠ f := by
        intro e
        have := h.lru_pin g hg'
        rw [e] at this
        omega
      rw [setAt_other _ _ _ _ hgf]
      exact h.lru_pin g hg'

theorem PinInv_pop (c : PoolCore) (v : Int) (hv : c.victim = some v) (h : c.PinInv) :
    c.pop.PinInv ∧ v ∉ c.pop.free_list ∧ c.pins v = 0 := by
  rcases PoolCore.victim_cases c v hv with ⟨rest, h1, h2⟩ | ⟨h1, rest, h2, h3⟩
  · have hnd := h.free_nodup
    rw [h1] at hnd
    have hsub : ∀ g, g ∈ rest → g ∈ c.free_list := by
      intro g hg
      rw [h1]
      exact List.mem_cons_of_mem _ hg
    rw [h2]
    refine ⟨⟨h.pin_nonneg, fun g hg => h.free_pin g (hsub g hg), h.lru_pin,
      (List.nodup_cons.1 hnd).2, fun id f hf hg => h.free_unmapped id f hf (hsub f hg),
      h.table_id⟩, (List.nodup_cons.1 hnd).1, ?_⟩
    exact h.free_pin v (by rw [h1]; exact List.mem_cons_self _ _)
  · have hsub : ∀ g, g ∈ rest → g ∈ c.lru := by
      intro g hg
      rw [h2]
      exact List.mem_cons_of_mem _ hg
    rw [h3]
    refine ⟨⟨h.pin_nonneg, h.free_pin, fun g hg => h.lru_pin g (hsub g hg), h.free_nodup,
      h.free_unmapped, h.table_id⟩, ?_, ?_⟩
    · show v ∉ c.free_list
      rw [h1]
      exact List.not_mem_nil v
    · exact h.lru_pin v (by rw [h2]; exact List.mem_cons_self _ _)

theorem PinInv_assign (c : PoolCore) (v : Int) (id : PageId) (hv : v ∉ c.free_list)
    (h : c.PinInv) : (c.assign v id).PinInv := by
  refine ⟨?_, ?_, ?_, h.free_nodup, ?_, ?_⟩
  · intro g
    show 0 ≤ setAt c.pins v 1 g
    unfold setAt
    have := h.pin_nonneg g
    split <;> omega
  · intro g hg
    show setAt c.pins v 1 g = 0
    have hne : g ≠ v := fun e => hv (e ▸ hg)
    rw [setAt_other _ _ _ _ hne]
    exact h.free_pin g hg
  · intro g hg
    have hg' : g ∈ c.lru ∧ g ≠ v := by
      simpa [PoolCore.assign, List.mem_filter] using hg
    show setAt c.pins v 1 g = 0
    rw [setAt_other _ _ _ _ hg'.2]
    exact h.lru_pin g hg'.1
  · intro x g hx
    show g ∉ c.free_list
    rcases PageTable.find_insert_some _ _ _ _ _ hx with ⟨_, e⟩ | ⟨_, h2⟩
    · rw [e]
      exact hv
    · exact h.free_unmapped x g (PageTable.find_erase_some _ _ _ _ h2).2
  · intro x g hx
    show setAt c.ids v id g = x
    rcases PageTable.find_insert_some _ _ _ _ _ hx with ⟨e1, e2⟩ | ⟨_, h2⟩
    · rw [e2, setAt_same, e1]
    · obtain ⟨h3, h4⟩ := PageTable.find_erase_some _ _ _ _ h2
      have hgv : g ≠ v := by
        intro e
        rw [e] at h4
        exact h3 (h.table_id x v h4).symm
      rw [setAt_other _ _ _ _ hgv]
      exact h.table_id x g h4

theorem PinInv_delete (c : PoolCore) (id : PageId) (f : Int)
    (hf : c.page_table.find id = some f) (h : c.PinInv) : (c.delete f id).PinInv := by
  have hfree : f ∉ c.free_list := h.free_unmapped id f hf
  have hother : ∀ x g, PageTable.find (PageTable.erase c.page_table id) x = some g →
      g ≠ f ∧ c.page_table.find x = some g := by
    intro x g hx
    obtain ⟨h3, h4⟩ := PageTable.find_erase_some _ _ _ _ hx
    refine ⟨?_, h4⟩
    intro e
    rw [e] at h4
    exact h3 ((h.table_id x f h4).symm.trans (h.table_id id f hf))
  refine ⟨?_, ?_, ?_, ?_, ?_, ?_⟩
  · intro g
    show 0 ≤ setAt c.pins f 0 g
    unfold setAt
    have := h.pin_nonneg g
    split <;> omega
  · intro g hg
    show setAt c.pins f 0 g = 0
    have hg' : g ∈ c.free_list ∨ g = f := by
      simpa [PoolCore.delete] using hg
    by_cases hgf : g = f
    · rw [hgf, setAt_same]
    · rw [setAt_other _ _ _ _ hgf]
      rcases hg' with h1 | h1
      · exact h.free_pin g h1
      · exact absurd h1 hgf
  · intro g hg
    show setAt c.pins f 0 g = 0
    have hg' : g ∈ c.lru ∨ g = f := (LRUReplacer.mem_unpin { lru_list := c.lru } f g).1 hg
    by_cases hgf : g = f
    · rw [hgf, setAt_same]
    · rw [setAt_other _ _ _ _ hgf]
      rcases hg' with h1 | h1
      · exact h.lru_pin g h1
      · exact absurd h1 hgf
  · show (c.free_list ++ [f]).Nodup
    rw [List.nodup_append]
    refine ⟨h.free_nodup, List.nodup_singleton f, ?_⟩
    intro a ha hb
    rw [List.mem_singleton] at hb
    exact hfree (hb ▸ ha)
  · intro x g hx
    obtain ⟨h1, h2⟩ := hother x g hx
    show g ∉ c.free_list ++ [f]
    intro hg
    rcases List.mem_append.1 hg with h3 | h3
    · exact h.free_unmapped x g h2 h3
    · exact h1 (List.mem_singleton.1 h3)
  · intro x g hx
    obtain ⟨h1, h2⟩ := hother x g hx
    show setAt c.ids f _ g = x
    rw [setAt_other _ _ _ _ h1]
    exact h.table_id x g h2

/-- The pin invariant is kept by every step of the core. -/
theorem PinInv_step (fr : Bool) (c c' : PoolCore) (call : PoolCall)
    (hs : PoolStep fr c call c')
    (h : c.PinInv) : c'.PinInv := by
  cases hs with
  | same => exact h
  | hit id f hf => exact PinInv_hit c id f hf h
  | unpin id d f hf hp => exact PinInv_unpin c id f hf hp h
  | pop _ v hv => exact (PinInv_pop c v hv h).1
  | assign _ v id hv _ _ =>
    obtain ⟨h1, h2, _⟩ := PinInv_pop c v hv h
    exact PinInv_assign c.pop v id h2 h1
  | delete id f hf _ => exact PinInv_delete c id f hf h

theorem PoolStepOk.toStep (fr : Bool) (c c' : PoolCore) (call : PoolCall)
    (hs : PoolStepOk fr c call c') : PoolStep fr c call c' := by
  cases hs with
  | same => exact .same _
  | hit id f hf => exact .hit id f hf
  | unpin id d f hf hp => exact .unpin id d f hf hp
  | assign _ v id hv hi hf => exact .assign _ v id hv hi hf
  | delete id f hf hp => exact .delete id f hf hp

/-- The pin invariant holds in every state the pool can be in. -/
theorem PinInv_of_reachable (ok : BufferPoolManager → PoolCall → Prop)
    (bpm : BufferPoolManager) (h : BufferPoolManager.ReachableBy ok bpm) : bpm.core.PinInv := by
  induction h with
  | init n dm => exact PinInv_init n dm
  | step s call _ _ ih =>
    exact PinInv_step false _ _ call (apply_step s call false (fun e => by cases e)) ih
  | write s f data _ ih =>
    rw [core_set_data]
    exact ih
/-! ## Buffer pool: invariants along calls that do not throw -/

theorem PoolCore.pop_spec (c : PoolCore) (v : Int) (h : c.victim = some v) :
    c.pop.pool_size = c.pool_size ∧ c.pop.ids = c.ids ∧ c.pop.pins = c.pins ∧
    c.pop.page_table = c.page_table ∧
    (∀ g, g ∈ c.pop.free_list → g ∈ c.free_list) ∧
    (∀ g, g ∈ c.pop.lru → g ∈ c.lru) ∧
    (∀ g, g ≠ v → g ∈ c.free_list → g ∈ c.pop.free_list) ∧
    (∀ g, g ≠ v → g ∈ c.lru → g ∈ c.pop.lru) ∧
    (v ∈ c.free_list ∨ (c.free_list = [] ∧ v ∈ c.lru)) := by
  rcases PoolCore.victim_cases c v h with ⟨rest, h1, h2⟩ | ⟨h1, rest, h2, h3⟩
  · rw [h2]
    refine ⟨rfl, rfl, rfl, rfl, ?_, fun g hg => hg, ?_, fun g _ hg => hg, Or.inl ?_⟩
    · intro g hg
      rw [h1]
      exact List.mem_cons_of_mem _ hg
    · intro g hne hg
      rw [h1] at hg
      rcases List.mem_cons.1 hg with e | e
      · exact absurd e hne
      · exact e
    · rw [h1]
      exact List.mem_cons_self _ _
  · rw [h3]
    refine ⟨rfl, rfl, rfl, rfl, fun g hg => hg, ?_, fun g _ hg => hg, ?_, Or.inr ⟨h1, ?_⟩⟩
    · intro g hg
      rw [h2]
      exact List.mem_cons_of_mem _ hg
    · intro g hne hg
      rw [h2] at hg
      rcases List.mem_cons.1 hg with e | e
      · exact absurd e hne
      · exact e
    · rw [h2]
      exact List.mem_cons_self _ _

theorem RangeInv_init (pool_size : Nat) (dm : DiskManager) :
    (BufferPoolManager.init pool_size dm).core.RangeInv := by
  have hmem : ∀ f : Int, f ∈ (List.range pool_size).map (fun (i : Nat) => (i : Int)) ↔
      0 ≤ f ∧ f < (pool_size : Int) := by
    intro f
    simp only [List.mem_map, List.mem_range]
    constructor
    · rintro ⟨i, hi, rfl⟩
      omega
    · rintro ⟨h0, h1⟩
      exact ⟨f.toNat, by omega, by omega⟩
  refine ⟨?_, ?_, ?_, ?_⟩
  · intro f hf
    exact (hmem f).1 hf
  · intro f hf
    cases hf
  · intro id f h
    cases h
  · intro f h0 h1 _
    exact Or.inl ((hmem f).2 ⟨h0, h1⟩)

theorem MapInv_init (pool_size : Nat) (dm : DiskManager) :
    (BufferPoolManager.init pool_size dm).core.MapInv := by
  refine ⟨?_, ?_⟩
  · intro id f h
    cases h
  · intro f
    exact Or.inl rfl

/-- The range invariant is kept by every step that gives up no frame. -/
theorem RangeInv_step (fr : Bool) (c c' : PoolCore) (call : PoolCall)
    (hs : PoolStepOk fr c call c') (hp : c.PinInv) (h : c.RangeInv) : c'.RangeInv := by
  cases hs with
  | same => exact h
  | hit id f hf =>
    have hmem : ∀ g, g ∈ (c.hit f).lru ↔ g ∈ c.lru ∧ g ≠ f := by
      intro g
      simp [PoolCore.hit, List.mem_filter]
    refine ⟨h.free_range, fun g hg => h.lru_range g ((hmem g).1 hg).1, h.table_range, ?_⟩
    intro g h0 h1 hz
    have hz' : setAt c.pins f (c.pins f + 1) g = 0 := hz
    have hgf : g ≠ f := by
      intro e
      rw [e, setAt_same] at hz'
      have := hp.pin_nonneg f
      omega
    rw [setAt_other _ _ _ _ hgf] at hz'
    rcases h.covered g h0 h1 hz' with h2 | h2
    · exact Or.inl h2
    · exact Or.inr ((hmem g).2 ⟨h2, hgf⟩)
  | unpin id d f hf hpin =>
    have hsub : ∀ g, g ∈ c.lru → g ∈ (c.unpin f).lru := by
      intro g hg
      show g ∈ (if c.pins f - 1 = 0 then _ else _)
      split
      · exact (LRUReplacer.mem_unpin _ f g).2 (Or.inl hg)
      · exact hg
    have hsup : ∀ g, g ∈ (c.unpin f).lru → g ∈ c.lru ∨ g = f := by
      intro g hg
      have hg' : g ∈ (if c.pins f - 1 = 0 then _ else _) := hg
      split at hg'
      · exact (LRUReplacer.mem_unpin _ f g).1 hg'
      · exact Or.inl hg'
    refine ⟨h.free_range, ?_, h.table_range, ?_⟩
    · intro g hg
      rcases hsup g hg with h1 | h1
      · exact h.lru_range g h1
      · rw [h1]
        exact h.table_range id f hf
    · intro g h0 h1 hz
      have hz' : setAt c.pins f (c.pins f - 1) g = 0 := hz
      by_cases hgf : g = f
      · rw [hgf, setAt_same] at hz'
        right
        show g ∈ (if c.pins f - 1 = 0 then _ else _)
        rw [if_pos hz', hgf]
        exact (LRUReplacer.mem_unpin _ f f).2 (Or.inr rfl)
      · rw [setAt_other _ _ _ _ hgf] at hz'
        rcases h.covered g h0 h1 hz' with h2 | h2
        · exact Or.inl h2
        · exact Or.inr (hsub g h2)
  | assign _ v id hv _ _ =>
    obtain ⟨e1, _, e3, e4, s1, s2, s3, s4, hvin⟩ := PoolCore.pop_spec c v hv
    have hvr : 0 ≤ v ∧ v < (c.pool_size : Int) := by
      rcases hvin with h1 | ⟨_, h1⟩
      · exact h.free_range v h1
      · exact h.lru_range v h1
    have hmem : ∀ g, g ∈ (c.pop.assign v id).lru ↔ g ∈ c.pop.lru ∧ g ≠ v := by
      intro g
      simp [PoolCore.assign, List.mem_filter]
    refine ⟨?_, ?_, ?_, ?_⟩
    · intro g hg
      have := h.free_range g (s1 g hg)
      rw [← e1] at this
      exact this
    · intro g hg
      have := h.lru_range g (s2 g ((hmem g).1 hg).1)
      rw [← e1] at this
      exact this
    · intro x g hx
      show 0 ≤ g ∧ g < (c.pop.pool_size : Int)
      rw [e1]
      rcases PageTable.find_insert_some _ _ _ _ _ hx with ⟨_, e⟩ | ⟨_, h2⟩
      · rw [e]
        exact hvr
      · have h3 := (PageTable.find_erase_some _ _ _ _ h2).2
        rw [e4] at h3
        exact h.table_range x g h3
    · intro g h0 h1 hz
      have h1' : g < (c.pool_size : Int) := by
        have : g < (c.pop.pool_size : Int) := h1
        rw [e1] at this
        exact this
      have hz' : setAt c.pop.pins v 1 g = 0 := hz
      have hgv : g ≠ v := by
        intro e
        rw [e, setAt_same] at hz'
        omega
      rw [setAt_other _ _ _ _ hgv, e3] at hz'
      rcases h.covered g h0 h1' hz' with h2 | h2
      · exact Or.inl (s3 g hgv h2)
      · exact Or.inr ((hmem g).2 ⟨s4 g hgv h2, hgv⟩)
  | delete id f hf _ =>
    have hfr := h.table_range id f hf
    refine ⟨?_, ?_, ?_, ?_⟩
    · intro g hg
      have hg' : g ∈ c.free_list ++ [f] := hg
      rcases List.mem_append.1 hg' with h1 | h1
      · exact h.free_range g h1
      · rw [List.mem_singleton.1 h1]
        exact hfr
    · intro g hg
      rcases (LRUReplacer.mem_unpin { lru_list := c.lru } f g).1 hg with h1 | h1
      · exact h.lru_range g h1
      · rw [h1]
        exact hfr
    · intro x g hx
      exact h.table_range x g (PageTable.find_erase_some _ _ _ _ hx).2
    · intro g h0 h1 hz
      have hz' : setAt c.pins f 0 g = 0 := hz
      by_cases hgf : g = f
      · left
        show g ∈ c.free_list ++ [f]
        rw [hgf]
        exact List.mem_append_right _ (List.mem_singleton_self f)
      · rw [setAt_other _ _ _ _ hgf] at hz'
        rcases h.covered g h0 h1 hz' with h2 | h2
        · exact Or.inl (List.mem_append_left _ h2)
        · exact Or.inr ((LRUReplacer.mem_unpin { lru_list := c.lru } f g).2 (Or.inl h2))

/-- The mapping invariant is kept by every step that gives frames to unmapped pages only. -/
theorem MapInv_step (c c' : PoolCore) (call : PoolCall)
    (hs : PoolStep true c call c') (h : c.MapInv) : c'.MapInv := by
  cases hs with
  | same => exact h
  | hit id f hf => exact ⟨h.key_valid, h.frame_mapped⟩
  | unpin id d f hf hpin => exact ⟨h.key_valid, h.frame_mapped⟩
  | pop _ v hv =>
    obtain ⟨_, e2, _, e4, _⟩ := PoolCore.pop_spec c v hv
    refine ⟨?_, ?_⟩
    · intro x g hx
      rw [e4] at hx
      exact h.key_valid x g hx
    · intro g
      rw [e2, e4]
      exact h.frame_mapped g
  | assign _ v id hv hi hfresh =>
    obtain ⟨_, e2, _, e4, _⟩ := PoolCore.pop_spec c v hv
    have hnone : c.page_table.find id = none := hfresh rfl
    refine ⟨?_, ?_⟩
    · intro x g hx
      rcases PageTable.find_insert_some _ _ _ _ _ hx with ⟨e, _⟩ | ⟨_, h2⟩
      · rw [e]
        exact hi
      · have h3 := (PageTable.find_erase_some _ _ _ _ h2).2
        rw [e4] at h3
        exact h.key_valid x g h3
    · intro g
      show (setAt c.pop.ids v id g).page_no = INVALID_PAGE_ID ∨
        PageTable.find ((c.pop.page_table.erase (c.pop.ids v)).insert id v)
          (setAt c.pop.ids v id g) = some g
      rw [e2, e4]
      by_cases hgv : g = v
      · right
        rw [hgv, setAt_same]
        exact PageTable.find_insert_same _ _ _
      · rw [setAt_other _ _ _ _ hgv]
        rcases h.frame_mapped g with h1 | h1
        · exact Or.inl h1
        · by_cases hinv : (c.ids g).page_no = INVALID_PAGE_ID
          · exact Or.inl hinv
          · right
            have hne1 : c.ids g ≠ id := by
              intro e
              rw [e, hnone] at h1
              cases h1
            have hne2 : c.ids g ≠ c.ids v := by
              intro e
              rcases h.frame_mapped v with h2 | h2
              · rw [e] at hinv
                exact hinv h2
              · rw [e, h2] at h1
                exact hgv (Option.some.inj h1).symm
            rw [PageTable.find_insert_other _ _ _ _ hne1,
              PageTable.find_erase_other _ _ _ hne2]
            exact h1
  | delete id f hf _ =>
    refine ⟨fun x g hx => h.key_valid x g (PageTable.find_erase_some _ _ _ _ hx).2, ?_⟩
    intro g
    show (setAt c.ids f _ g).page_no = INVALID_PAGE_ID ∨
      PageTable.find (c.page_table.erase id) (setAt c.ids f _ g) = some g
    by_cases hgf : g = f
    · left
      rw [hgf, setAt_same]
    · rw [setAt_other _ _ _ _ hgf]
      rcases h.frame_mapped g with h1 | h1
      · exact Or.inl h1
      · right
        have hne : c.ids g ≠ id := by
          intro e
          rw [e, hf] at h1
          exact hgf (Option.some.inj h1).symm
        rw [PageTable.find_erase_other _ _ _ hne]
        exact h1

theorem RangeInv_of_reachable (bpm : BufferPoolManager) (h : bpm.ReachableOk) :
    bpm.core.PinInv ∧ bpm.core.RangeInv := by
  induction h with
  | init n dm => exact ⟨PinInv_init n dm, RangeInv_init n dm⟩
  | step s call _ ha ih =>
    exact ⟨PinInv_step false _ _ call (apply_step s call false (fun e => by cases e)) ih.1,
      RangeInv_step false _ _ call (apply_step_ok s call false ha (fun e => by cases e))
        ih.1 ih.2⟩
  | write s f data _ ih =>
    rw [core_set_data]
    exact ih

theorem MapInv_of_reachable (bpm : BufferPoolManager) (h : bpm.ReachableFresh) :
    bpm.core.PinInv ∧ bpm.core.MapInv := by
  induction h with
  | init n dm => exact ⟨PinInv_init n dm, MapInv_init n dm⟩
  | step s call _ ha ih =>
    have hs := apply_step s call true (fun _ => ha)
    exact ⟨PinInv_step true _ _ call hs ih.1, MapInv_step _ _ call hs ih.2⟩
  | write s f data _ ih =>
    rw [core_set_data]
    exact ih
/-! ## Buffer pool: the claims about pins -/

/-- C13 (pin safety invariant): for every sequence of calls of the six operations applied to the
initial pool, whether the calls return or throw, in the initial state and after each call every
frame has `pin_count ≥ 0`, a frame chosen by `find_victim_page` has `pin_count = 0` when it is
chosen, and a frame with `pin_count > 0` keeps its page id through the next call, whatever the
call is. -/
theorem pin_safety (pool_size : Nat) (dm : DiskManager) (calls : List PoolCall) :
    ∀ s ∈ BufferPoolManager.init pool_size dm ::
        (BufferPoolManager.init pool_size dm).trace calls,
      (∀ f, 0 ≤ (s.pages f).pin_count) ∧
      (∀ v s1, s.find_victim_page = (some v, s1) → (s.pages v).pin_count = 0) ∧
      (∀ call g, 0 < (s.pages g).pin_count → ((s.apply call).pages g).id = (s.pages g).id) := by
  have key : ∀ (cs : List PoolCall) (b : BufferPoolManager), b.core.PinInv →
      ∀ s ∈ b :: b.trace cs, s.core.PinInv := by
    intro cs
    induction cs with
    | nil =>
      intro b hb s hs
      rcases List.mem_cons.1 hs with e | e
      · rw [e]
        exact hb
      · cases e
    | cons c rest ih =>
      intro b hb s hs
      rcases List.mem_cons.1 hs with e | e
      · rw [e]
        exact hb
      · exact ih (b.apply c)
          (PinInv_step false _ _ c (apply_step b c false (fun e => by cases e)) hb) s e
  intro s hs
  have hinv := key calls _ (PinInv_init pool_size dm) s hs
  refine ⟨hinv.pin_nonneg, ?_, ?_⟩
  · intro v s1 hv
    rcases find_victim_page_core s with ⟨h1, _⟩ | ⟨w, h1, h2, _⟩
    · rw [hv] at h1
      cases h1
    · rw [hv] at h1
      simp only [Option.some.injEq] at h1
      subst h1
      exact (PinInv_pop s.core v h2 hinv).2.2
  · intro call g hg
    have hg' : 0 < s.core.pins g := hg
    show (s.apply call).core.ids g = s.core.ids g
    have hstep := apply_step s call false (fun e => by cases e)
    generalize (s.apply call).core = c' at hstep
    cases hstep with
    | same => rfl
    | hit id f hf => rfl
    | unpin id d f hf hp => rfl
    | pop _ v hv => rw [(PoolCore.pop_spec s.core v hv).2.1]
    | assign _ v id hv _ _ =>
      have hz := (PinInv_pop s.core v hv hinv).2.2
      have hgv : g ≠ v := by
        intro e
        rw [e] at hg'
        omega
      show setAt s.core.pop.ids v id g = s.core.ids g
      rw [setAt_other _ _ _ _ hgv, (PoolCore.pop_spec s.core v hv).2.1]
    | delete id f hf hp =>
      have hgf : g ≠ f := by
        intro e
        rw [e] at hg'
        omega
      show setAt s.core.ids f _ g = s.core.ids g
      rw [setAt_other _ _ _ _ hgf]

/-- C13, witness: after `fetch A`, `fetch B` on a pool of two frames. -/
theorem pin_safety_witness :
    (∀ f, 0 ≤ (pinned_pool.pages f).pin_count) ∧
    (∀ v s1, pinned_pool.find_victim_page = (some v, s1) →
      (pinned_pool.pages v).pin_count = 0) ∧
    (∀ call g, 0 < (pinned_pool.pages g).pin_count →
      ((pinned_pool.apply call).pages g).id = (pinned_pool.pages g).id) :=
  pin_safety 2 small_disk [.fetch page_a, .fetch page_b] pinned_pool
    (List.Mem.tail _ (List.Mem.tail _ (List.Mem.head _)))
/-- C14 (`unpin` semantics): in every state the pool can be in, `unpin_page(id, d)` returns
false exactly when `id` is not in the page table or its frame has `pin_count = 0`, and then
changes nothing; otherwise it returns true, lowers the pin count of that frame by one, sets its
`is_dirty` to (old `is_dirty` or `d`), leaves its id and bytes, every other frame, the page
table, the free list and the disk as they were. On a page with `pin_count = 1` two
`unpin_page(id, false)` in a row return true, then false; and no `unpin_page` turns a dirty
frame clean. -/
theorem unpin_page_semantics (bpm : BufferPoolManager) (hr : bpm.Reachable) (id : PageId)
    (d : Bool) :
    ((bpm.unpin_page id d).1 = false ↔
      (bpm.page_table.find id = none ∨
        ∃ f, bpm.page_table.find id = some f ∧ (bpm.pages f).pin_count = 0)) ∧
    ((bpm.unpin_page id d).1 = false → (bpm.unpin_page id d).2 = bpm) ∧
    (∀ f, bpm.page_table.find id = some f → (bpm.pages f).pin_count ≠ 0 →
      (bpm.unpin_page id d).1 = true ∧
      ((bpm.unpin_page id d).2.pages f).pin_count = (bpm.pages f).pin_count - 1 ∧
      ((bpm.unpin_page id d).2.pages f).is_dirty = ((bpm.pages f).is_dirty || d) ∧
      ((bpm.unpin_page id d).2.pages f).id = (bpm.pages f).id ∧
      ((bpm.unpin_page id d).2.pages f).data = (bpm.pages f).data ∧
      (∀ g, g ≠ f → (bpm.unpin_page id d).2.pages g = bpm.pages g) ∧
      (bpm.unpin_page id d).2.page_table = bpm.page_table ∧
      (bpm.unpin_page id d).2.free_list = bpm.free_list ∧
      (bpm.unpin_page id d).2.disk_manager = bpm.disk_manager) ∧
    (∀ f, bpm.page_table.find id = some f → (bpm.pages f).pin_count = 1 →
      (bpm.unpin_page id false).1 = true ∧
      ((bpm.unpin_page id false).2.unpin_page id false).1 = false) ∧
    (∀ g, (bpm.pages g).is_dirty = true → ((bpm.unpin_page id d).2.pages g).is_dirty = true) := by
  have hnn : ∀ f, 0 ≤ (bpm.pages f).pin_count := (PinInv_of_reachable _ bpm hr).pin_nonneg
  cases hf : bpm.page_table.find id with
  | none =>
    have hu : ∀ d', bpm.unpin_page id d' = (false, bpm) := by
      intro d'
      unfold BufferPoolManager.unpin_page
      simp only [hf]
    rw [hu]
    refine ⟨⟨fun _ => Or.inl rfl, fun _ => rfl⟩, fun _ => rfl, ?_, ?_, fun g hg => hg⟩
    · intro f h
      cases h
    · intro f h
      cases h
  | some f =>
    by_cases hp : (bpm.pages f).pin_count = 0
    · have hu : ∀ d', bpm.unpin_page id d' = (false, bpm) := by
        intro d'
        unfold BufferPoolManager.unpin_page
        simp [hf, hp]
      rw [hu]
      refine ⟨⟨fun _ => Or.inr ⟨f, rfl, hp⟩, fun _ => rfl⟩, fun _ => rfl, ?_, ?_, fun g hg => hg⟩
      · intro f' h hne
        simp only [Option.some.injEq] at h
        subst h
        exact absurd hp hne
      · intro f' h h1
        simp only [Option.some.injEq] at h
        subst h
        omega
    · have hpos : ¬ (bpm.pages f).pin_count ≤ 0 := by
        have := hnn f
        omega
      have hu : ∀ d', bpm.unpin_page id d' =
          (true,
            { bpm with
              pages := setAt bpm.pages f
                { bpm.pages f with
                  pin_count := (bpm.pages f).pin_count - 1
                  is_dirty := ((bpm.pages f).is_dirty || d') }
              replacer := if (bpm.pages f).pin_count - 1 = 0 then bpm.replacer.unpin f
                else bpm.replacer }) := by
        intro d'
        unfold BufferPoolManager.unpin_page
        simp only [hf, hpos, if_false]
        cases d' <;> simp
      refine ⟨⟨?_, ?_⟩, ?_, ?_, ?_, ?_⟩
      · intro h
        rw [hu] at h
        cases h
      · rintro (h | ⟨f', h1, h2⟩)
        · cases h
        · simp only [Option.some.injEq] at h1
          subst h1
          exact absurd h2 hp
      · intro h
        rw [hu] at h
        cases h
      · intro f' h _
        simp only [Option.some.injEq] at h
        subst h
        rw [hu]
        refine ⟨rfl, ?_, ?_, ?_, ?_, ?_, rfl, rfl, rfl⟩
        · simp only [setAt_same]
        · simp only [setAt_same]
        · simp only [setAt_same]
        · simp only [setAt_same]
        · intro g hg
          exact setAt_other _ _ _ _ hg
      · intro f' h h1
        simp only [Option.some.injEq] at h
        subst h
        rw [hu]
        refine ⟨rfl, ?_⟩
        unfold BufferPoolManager.unpin_page
        simp [hf, setAt_same, h1]
      · intro g hg
        rw [hu]
        by_cases hgf : g = f
        · rw [hgf] at hg
          simp [hgf, setAt_same, hg]
        · simp only [setAt_other _ _ _ _ hgf]
          exact hg

/-- C14, witness: a pool of two frames after `fetch A`; `A` is in frame 0 with `pin_count = 1`,
and `unpin_page(A, true)` returns true, leaves `pin_count = 0` and the frame dirty. -/
theorem unpin_page_semantics_witness :
    ((BufferPoolManager.init 2 small_disk).apply (.fetch page_a)).Reachable ∧
    (((BufferPoolManager.init 2 small_disk).apply (.fetch page_a)).unpin_page page_a true).1 =
      true ∧
    ((((BufferPoolManager.init 2 small_disk).apply (.fetch page_a)).unpin_page page_a
      true).2.pages 0).pin_count = 0 ∧
    ((((BufferPoolManager.init 2 small_disk).apply (.fetch page_a)).unpin_page page_a
      true).2.pages 0).is_dirty = true :=
  have hr : ((BufferPoolManager.init 2 small_disk).apply (.fetch page_a)).Reachable :=
    BufferPoolManager.ReachableBy.step _ _ (BufferPoolManager.ReachableBy.init 2 small_disk)
      trivial
  have h := (unpin_page_semantics _ hr page_a true).2.2.1 0 rfl (by decide)
  ⟨hr, h.1, h.2.1, h.2.2.1⟩
/-! ## Buffer pool: exhaustion -/

/-- C11 (pool exhaustion), as amended: in every state reached from an initial pool by writes
into frames and by calls none of which threw (`new_page` never having been handed
`INVALID_PAGE_ID`), `fetch_page(id)` returns null if and only if `id` is not in the page table,
the free list is empty and no frame of the pool has `pin_count = 0`; no frame of the pool has
`pin_count = 0` exactly when the free list is empty and the replacer has no victim; and a
`fetch_page` that returns null leaves the whole state as it was: page table, frames, free list,
replacer and disk. -/
theorem fetch_page_null_iff (bpm : BufferPoolManager) (hr : bpm.ReachableOk) (id : PageId) :
    ((bpm.fetch_page id).1 = .ok none ↔
      (bpm.page_table.find id = none ∧ bpm.free_list = [] ∧
        ∀ f : Int, 0 ≤ f → f < (bpm.pool_size : Int) → (bpm.pages f).pin_count ≠ 0)) ∧
    ((∀ f : Int, 0 ≤ f → f < (bpm.pool_size : Int) → (bpm.pages f).pin_count ≠ 0) ↔
      (bpm.free_list = [] ∧ bpm.replacer.victim.1 = none)) ∧
    ((bpm.fetch_page id).1 = .ok none → (bpm.fetch_page id).2 = bpm) := by
  obtain ⟨hp, hrange⟩ := RangeInv_of_reachable bpm hr
  have hvict : bpm.core.victim = none ↔
      (bpm.free_list = [] ∧ bpm.replacer.lru_list = []) := by
    show (match bpm.free_list with | f :: _ => some f | [] => bpm.replacer.lru_list.head?) = none
      ↔ _
    cases bpm.free_list with
    | cons a l => simp
    | nil => cases bpm.replacer.lru_list <;> simp
  have hrep : bpm.replacer.victim.1 = none ↔ bpm.replacer.lru_list = [] := by
    unfold LRUReplacer.victim
    cases bpm.replacer.lru_list <;> simp
  have hfull : (∀ f : Int, 0 ≤ f → f < (bpm.pool_size : Int) → (bpm.pages f).pin_count ≠ 0) ↔
      (bpm.free_list = [] ∧ bpm.replacer.lru_list = []) := by
    constructor
    · intro h
      constructor
      · cases hfl : bpm.free_list with
        | nil => rfl
        | cons a l =>
          have ha : a ∈ bpm.core.free_list := by
            show a ∈ bpm.free_list
            rw [hfl]
            exact List.mem_cons_self _ _
          exact absurd (hp.free_pin a ha) (h a (hrange.free_range a ha).1 (hrange.free_range a ha).2)
      · cases hl : bpm.replacer.lru_list with
        | nil => rfl
        | cons a l =>
          have ha : a ∈ bpm.core.lru := by
            show a ∈ bpm.replacer.lru_list
            rw [hl]
            exact List.mem_cons_self _ _
          exact absurd (hp.lru_pin a ha) (h a (hrange.lru_range a ha).1 (hrange.lru_range a ha).2)
    · rintro ⟨h1, h2⟩ f h0 hlt hz
      rcases hrange.covered f h0 hlt hz with h3 | h3
      · have h4 : f ∈ bpm.free_list := h3
        rw [h1] at h4
        cases h4
      · have h4 : f ∈ bpm.replacer.lru_list := h3
        rw [h2] at h4
        cases h4
  refine ⟨?_, ?_, ?_⟩
  · rcases fetch_page_core bpm id with
      ⟨f, h1, h2, _⟩ | ⟨h1, h2, h3⟩ | ⟨h1, v, hv, (⟨e, h2, _⟩ | ⟨h2, _, _⟩)⟩
    · rw [h2]
      constructor
      · intro h
        simp at h
      · rintro ⟨h, _⟩
        rw [h1] at h
        cases h
    · rw [h3]
      refine ⟨fun _ => ⟨h1, (hvict.1 h2).1, hfull.2 (hvict.1 h2)⟩, fun _ => rfl⟩
    · rw [h2]
      constructor
      · intro h
        cases h
      · rintro ⟨_, h3, h4⟩
        have := hvict.2 (hfull.1 h4)
        rw [hv] at this
        cases this
    · rw [h2]
      constructor
      · intro h
        simp at h
      · rintro ⟨_, h3, h4⟩
        have := hvict.2 (hfull.1 h4)
        rw [hv] at this
        cases this
  · rw [hfull, hrep]
  · intro h
    rcases fetch_page_core bpm id with
      ⟨f, h1, h2, _⟩ | ⟨h1, h2, h3⟩ | ⟨h1, v, hv, (⟨e, h2, _⟩ | ⟨h2, _, _⟩)⟩
    · rw [h2] at h
      simp at h
    · rw [h3]
    · rw [h2] at h
      cases h
    · rw [h2] at h
      simp at h

/-- C11, witness: pool size 2, `fetch A`, `fetch B` without unpin; `fetch C` returns null, no
frame of the pool is unpinned and the state is unchanged. -/
theorem fetch_page_null_iff_witness :
    pinned_pool.ReachableOk ∧
    (pinned_pool.fetch_page page_c).1 = .ok none ∧
    (pinned_pool.page_table.find page_c = none ∧ pinned_pool.free_list = [] ∧
      ∀ f : Int, 0 ≤ f → f < (pinned_pool.pool_size : Int) →
        (pinned_pool.pages f).pin_count ≠ 0) ∧
    (pinned_pool.fetch_page page_c).2 = pinned_pool :=
  have hr : pinned_pool.ReachableOk :=
    BufferPoolManager.ReachableBy.step _ (.fetch page_b)
      (BufferPoolManager.ReachableBy.step _ (.fetch page_a)
        (BufferPoolManager.ReachableBy.init 2 small_disk) ⟨rfl, fun _ h => by cases h⟩)
      ⟨rfl, fun _ h => by cases h⟩
  have h := fetch_page_null_iff pinned_pool hr page_c
  ⟨hr, rfl, h.1.1 rfl, h.2.2 rfl⟩

/-- C11, counterexample. `leaked_pool`: a pool of one frame after a `fetch_page` that threw on a
short read; the frame was taken off the free list and is nowhere, so `fetch_page(A)` returns null
although frame 0 has `pin_count = 0`. `drained_pool`: the same after a `new_page` that was handed
`INVALID_PAGE_ID` and returned null without throwing. -/
theorem fetch_null_with_unpinned_frame :
    (leaked_pool.Reachable ∧
      (BufferPoolManager.init 1 small_disk).raises (.fetch page_past_end) = true ∧
      (leaked_pool.fetch_page page_a).1 = .ok none ∧
      (leaked_pool.pages 0).pin_count = 0 ∧
      ¬ ((leaked_pool.fetch_page page_a).1 = .ok none ↔
        (leaked_pool.page_table.find page_a = none ∧ leaked_pool.free_list = [] ∧
          ∀ f : Int, 0 ≤ f → f < (leaked_pool.pool_size : Int) →
            (leaked_pool.pages f).pin_count ≠ 0))) ∧
    (drained_pool.Reachable ∧
      (BufferPoolManager.init 1 exhausted_disk).raises (.new_page { fd := 3, page_no := 0 }) =
        false ∧
      (drained_pool.fetch_page page_a).1 = .ok none ∧
      (drained_pool.pages 0).pin_count = 0 ∧
      ¬ ((drained_pool.fetch_page page_a).1 = .ok none ↔
        (drained_pool.page_table.find page_a = none ∧ drained_pool.free_list = [] ∧
          ∀ f : Int, 0 ≤ f → f < (drained_pool.pool_size : Int) →
            (drained_pool.pages f).pin_count ≠ 0))) :=
  ⟨⟨BufferPoolManager.ReachableBy.step _ _ (BufferPoolManager.ReachableBy.init 1 small_disk)
      trivial,
    rfl, rfl, rfl, fun h => (h.1 rfl).2.2 0 (le_refl 0) (by decide) rfl⟩,
   ⟨BufferPoolManager.ReachableBy.step _ _ (BufferPoolManager.ReachableBy.init 1 exhausted_disk)
      trivial,
    rfl, rfl, rfl, fun h => (h.1 rfl).2.2 0 (le_refl 0) (by decide) rfl⟩⟩
/-! ## Buffer pool: dirty pages survive eviction -/

theorem write_page_ok_inv (dm dm' : DiskManager) (fd page_no : Int) (data : List Byte)
    (h : dm.write_page fd page_no data = (.ok (), dm')) :
    0 ≤ page_no ∧ dm'.files { fd := fd, page_no := page_no } = some data ∧
      dm'.transfers = dm.transfers ++ [.write fd page_no data] ∧
      (∀ id d, dm.files id = some d → id ≠ { fd := fd, page_no := page_no } →
        dm'.files id = some d) := by
  by_cases hn : page_no < 0
  · unfold DiskManager.write_page at h
    simp [hn] at h
  · obtain ⟨dm2, w1, w2, w3, _, _, w6⟩ := write_page_ok dm fd page_no data (by omega)
    rw [w1] at h
    simp only [Prod.mk.injEq, true_and] at h
    subst h
    exact ⟨by omega, w2, w3, w6⟩

/-- The explicit state after an `unpin_page` that returns true. -/
theorem unpin_page_of_pinned (bpm : BufferPoolManager) (id : PageId) (d : Bool) (f : Int)
    (hf : bpm.page_table.find id = some f) (hp : 0 < (bpm.pages f).pin_count) :
    bpm.unpin_page id d =
      (true,
        { bpm with
          pages := setAt bpm.pages f
            { bpm.pages f with
              pin_count := (bpm.pages f).pin_count - 1
              is_dirty := ((bpm.pages f).is_dirty || d) }
          replacer := if (bpm.pages f).pin_count - 1 = 0 then bpm.replacer.unpin f
            else bpm.replacer }) := by
  have hpos : ¬ (bpm.pages f).pin_count ≤ 0 := by omega
  unfold BufferPoolManager.unpin_page
  simp only [hf, hpos, if_false]
  cases d <;> simp

/-- A frame is given a page: what that does to the bytes of another page `P`. -/
theorem keeps_assign (bpm s : BufferPoolManager) (P Q : PageId) (B newdata : List Byte)
    (v : Int) (hQ : Q ≠ P) (hid : ∀ id f, bpm.page_table.find id = some f → (bpm.pages f).id = id)
    (hh : bpm.keeps P B)
    (ht : s.page_table = (bpm.page_table.erase (bpm.pages v).id).insert Q v)
    (hpg : s.pages = setAt bpm.pages v
      { id := Q, data := newdata, is_dirty := false, pin_count := 1 })
    (hfiles : ((bpm.pages v).is_dirty = false ∧
        s.disk_manager.files = bpm.disk_manager.files) ∨
      ((bpm.pages v).is_dirty = true ∧
        s.disk_manager.files (bpm.pages v).id = some (bpm.pages v).data ∧
        ∀ id d, bpm.disk_manager.files id = some d → id ≠ (bpm.pages v).id →
          s.disk_manager.files id = some d)) :
    s.keeps P B := by
  obtain ⟨hstale, hj⟩ := hh
  have hPQ : P ≠ Q := fun e => hQ e.symm
  have hfind : (bpm.pages v).id ≠ P → s.page_table.find P = bpm.page_table.find P := by
    intro hne
    rw [ht, PageTable.find_insert_other _ _ _ _ hPQ,
      PageTable.find_erase_other _ _ _ (fun e => hne e.symm)]
  have hkeepfile : (bpm.pages v).id ≠ P → bpm.disk_manager.files P = some B →
      s.disk_manager.files P = some B := by
    intro hne hB
    rcases hfiles with ⟨_, h1⟩ | ⟨_, _, h1⟩
    · rw [h1]
      exact hB
    · exact h1 P B hB (fun e => hne e.symm)
  constructor
  · intro g hg
    rw [hpg] at hg
    by_cases hgv : g = v
    · rw [hgv, setAt_same] at hg
      exact absurd hg hQ
    · rw [setAt_other _ _ _ _ hgv] at hg
      have h1 := hstale g hg
      have hne : (bpm.pages v).id ≠ P := by
        intro e
        have h2 := hstale v e
        rw [h1] at h2
        exact hgv (Option.some.inj h2)
      rw [hfind hne]
      exact h1
  · rcases hj with ⟨f, h1, h2, h3⟩ | ⟨h1, h2⟩
    · by_cases hfv : f = v
      · right
        have hidv : (bpm.pages v).id = P := by
          rw [← hfv]
          exact hid P f h1
        constructor
        · rw [ht, PageTable.find_insert_other _ _ _ _ hPQ, hidv]
          exact PageTable.find_erase_same _ _
        · rw [hfv] at h2 h3
          rcases hfiles with ⟨hc, hf1⟩ | ⟨_, hf1, _⟩
          · rw [hf1]
            rcases h3 with h3 | h3
            · rw [hc] at h3
              cases h3
            · exact h3
          · rw [hidv, h2] at hf1
            exact hf1
      · left
        have hne : (bpm.pages v).id ≠ P := by
          intro e
          have h4 := hstale v e
          rw [h1] at h4
          exact hfv (Option.some.inj h4)
        refine ⟨f, ?_, ?_, ?_⟩
        · rw [hfind hne]
          exact h1
        · rw [hpg, setAt_other _ _ _ _ hfv]
          exact h2
        · rw [hpg, setAt_other _ _ _ _ hfv]
          rcases h3 with h3 | h3
          · exact Or.inl h3
          · exact Or.inr (hkeepfile hne h3)
    · right
      have hne : (bpm.pages v).id ≠ P := by
        intro e
        have h4 := hstale v e
        rw [h1] at h4
        cases h4
      exact ⟨by rw [hfind hne]; exact h1, hkeepfile hne h2⟩

/-- A frame keeps its id, bytes and dirty flag, or gets dirtier: the bytes of `P` stay safe. -/
theorem keeps_of_frames (bpm s : BufferPoolManager) (P : PageId) (B : List Byte)
    (hh : bpm.keeps P B) (ht : s.page_table = bpm.page_table)
    (hd : s.disk_manager.files = bpm.disk_manager.files)
    (hp : ∀ g, (s.pages g).id = (bpm.pages g).id ∧ (s.pages g).data = (bpm.pages g).data ∧
      ((bpm.pages g).is_dirty = true → (s.pages g).is_dirty = true)) :
    s.keeps P B := by
  obtain ⟨hstale, hj⟩ := hh
  constructor
  · intro g hg
    rw [(hp g).1] at hg
    rw [ht]
    exact hstale g hg
  · rw [ht, hd]
    rcases hj with ⟨f, h1, h2, h3⟩ | h
    · left
      refine ⟨f, h1, by rw [(hp f).2.1]; exact h2, ?_⟩
      rcases h3 with h3 | h3
      · exact Or.inl ((hp f).2.2 h3)
      · exact Or.inr h3
    · exact Or.inr h
theorem new_page_null (bpm : BufferPoolManager) (id : PageId)
    (h : (bpm.new_page id).1 = .ok none) :
    (bpm.new_page id).2.2.pages = bpm.pages ∧
      (bpm.new_page id).2.2.page_table = bpm.page_table ∧
      (bpm.new_page id).2.2.disk_manager.files = bpm.disk_manager.files := by
  unfold BufferPoolManager.new_page at h ⊢
  rcases hv : bpm.find_victim_page with ⟨r, bpm1⟩
  obtain ⟨e1, e2, e3, _⟩ := find_victim_page_frame bpm bpm1 r hv
  rw [hv] at h
  cases r with
  | none => exact ⟨e1, e3, by rw [e2]⟩
  | some v =>
    simp only [DiskManager.allocate_page] at h ⊢
    by_cases hi : bpm1.disk_manager.fd2pageno id.fd = INVALID_PAGE_ID
    · simp only [hi, if_true]
      exact ⟨e1, e3, by rw [e2]⟩
    · simp only [hi, if_false] at h
      by_cases hd : (bpm1.pages v).is_dirty = true
      · simp only [hd, if_true] at h
        rcases hw : DiskManager.write_page
            { bpm1.disk_manager with
              fd2pageno := setAt bpm1.disk_manager.fd2pageno id.fd
                (bpm1.disk_manager.fd2pageno id.fd + 1) }
            (bpm1.pages v).id.fd (bpm1.pages v).id.page_no (bpm1.pages v).data with ⟨rw, dmw⟩
        rw [hw] at h
        cases rw with
        | error e => cases h
        | ok u => simp at h
      · have hd' : (bpm1.pages v).is_dirty = false := by simpa using hd
        simp [hd'] at h

/-- A call that leaves `P` alone keeps the bytes of `P` safe. -/
theorem keeps_step (bpm : BufferPoolManager) (P : PageId) (B : List Byte) (call : PoolCall)
    (hid : ∀ id f, bpm.page_table.find id = some f → (bpm.pages f).id = id)
    (hh : bpm.keeps P B) (ha : bpm.avoids P call) : (bpm.apply call).keeps P B := by
  cases call with
  | fetch Q =>
    obtain ⟨hQ, hr⟩ := ha
    show (bpm.fetch_page Q).2.keeps P B
    cases hf : bpm.page_table.find Q with
    | some g =>
      rw [fetch_page_hit bpm Q g hf]
      refine keeps_of_frames bpm _ P B hh rfl rfl ?_
      intro x
      by_cases hx : x = g
      · rw [hx]
        simp only [setAt_same]
        exact ⟨trivial, trivial, fun h => h⟩
      · simp only [setAt_other _ _ _ _ hx]
        exact ⟨trivial, trivial, fun h => h⟩
    | none =>
      rcases fetch_page_miss_cases bpm Q hf with
        ⟨_, h⟩ | ⟨v, bpm1, hv, _, _, (⟨e, s, h, _⟩ | ⟨d, dmw, hw, _, _, h⟩)⟩
      · rw [h]
        exact hh
      · have : bpm.raises (.fetch Q) = true := by
          simp [BufferPoolManager.raises, h]
        rw [this] at hr
        cases hr
      · rw [h]
        refine keeps_assign bpm _ P Q B d v hQ hid hh rfl rfl ?_
        rcases hw with ⟨hc, hw⟩ | ⟨hdirty, hw⟩
        · left
          refine ⟨hc, ?_⟩
          show dmw.files = _
          rw [hw]
        · right
          obtain ⟨_, w2, _, w4⟩ := write_page_ok_inv _ _ _ _ _ hw
          exact ⟨hdirty, w2, fun id d' h1 h2 => w4 id d' h1 h2⟩
  | unpin Q d =>
    show (bpm.unpin_page Q d).2.keeps P B
    rcases unpin_page_core bpm Q d with ⟨h, _⟩ | ⟨f, h1, h2, _, _⟩
    · rw [h]
      exact hh
    · rw [unpin_page_of_pinned bpm Q d f h1 h2]
      refine keeps_of_frames bpm _ P B hh rfl rfl ?_
      intro x
      by_cases hx : x = f
      · rw [hx]
        simp only [setAt_same]
        refine ⟨trivial, trivial, fun h => ?_⟩
        rw [h]
        rfl
      · simp only [setAt_other _ _ _ _ hx]
        exact ⟨trivial, trivial, fun h => h⟩
  | new_page id =>
    obtain ⟨hQ, hr⟩ := ha
    show (bpm.new_page id).2.2.keeps P B
    rcases hn : bpm.new_page id with ⟨r, P', s⟩
    cases r with
    | error e =>
      have : bpm.raises (.new_page id) = true := by
        simp [BufferPoolManager.raises, hn]
      rw [this] at hr
      cases hr
    | ok o =>
      cases o with
      | none =>
        have h1 := new_page_null bpm id (by rw [hn])
        rw [hn] at h1
        exact keeps_of_frames bpm s P B hh h1.2.1 h1.2.2
          (fun g => by rw [h1.1]; exact ⟨rfl, rfl, fun h => h⟩)
      | some F =>
        obtain ⟨bpm1, dm2, hv, hP, _, hs, hw⟩ := new_page_ok_inv bpm s id P' F hn
        obtain ⟨e1, e2, e3, _⟩ := find_victim_page_frame bpm bpm1 _ hv
        rw [e2] at hP
        rw [e1, e3] at hs
        have hQ' : P' ≠ P := by
          rw [hP]
          exact hQ
        refine keeps_assign bpm s P P' B (List.replicate dm2.page_size 0) F hQ' hid hh
          (by rw [hs]) (by rw [hs]) ?_
        rw [e1, e2] at hw
        rcases hw with ⟨hc, hw⟩ | ⟨hdirty, hw⟩
        · left
          refine ⟨hc, ?_⟩
          rw [hs, hw]
          rfl
        · right
          obtain ⟨_, w2, _, w4⟩ := write_page_ok_inv _ _ _ _ _ hw
          rw [hs]
          exact ⟨hdirty, w2, fun id d' h1 h2 => w4 id d' h1 h2⟩
  | flush Q => exact ha.elim
  | delete Q => exact ha.elim
  | flush_all fd => exact ha.elim

theorem keeps_run (P : PageId) (B : List Byte) (calls : List PoolCall) :
    ∀ bpm : BufferPoolManager, bpm.core.PinInv → bpm.keeps P B →
      BufferPoolManager.run_avoids P bpm calls →
      (bpm.run calls).core.PinInv ∧ (bpm.run calls).keeps P B := by
  induction calls with
  | nil =>
    intro bpm hp hh _
    exact ⟨hp, hh⟩
  | cons c rest ih =>
    intro bpm hp hh ha
    exact ih (bpm.apply c)
      (PinInv_step false _ _ c (apply_step bpm c false (fun e => by cases e)) hp)
      (keeps_step bpm P B c hp.table_id hh ha.1) ha.2

/-- Once the bytes of `P` are safe, a `fetch_page(P)` that returns a frame returns them. -/
theorem keeps_fetch (bpm s : BufferPoolManager) (P : PageId) (B : List Byte) (g : Int)
    (hh : bpm.keeps P B) (h : bpm.fetch_page P = (.ok (some g), s)) :
    (s.pages g).data = B := by
  obtain ⟨hstale, hj⟩ := hh
  cases hf : bpm.page_table.find P with
  | some f =>
    rw [fetch_page_hit bpm P f hf] at h
    simp only [Prod.mk.injEq, Except.ok.injEq, Option.some.injEq] at h
    obtain ⟨h1, h2⟩ := h
    subst h1
    rw [← h2]
    simp only [setAt_same]
    rcases hj with ⟨f', h3, h4, _⟩ | ⟨h3, _⟩
    · rw [hf] at h3
      rw [Option.some.inj h3]
      exact h4
    · rw [hf] at h3
      cases h3
  | none =>
    rcases hj with ⟨f', h3, _⟩ | ⟨_, hB⟩
    · rw [hf] at h3
      cases h3
    · rcases fetch_page_miss_cases bpm P hf with
        ⟨_, h1⟩ | ⟨v, bpm1, hv, _, _, (⟨e, s', h1, _⟩ | ⟨d, dmw, hw, _, hd, h1⟩)⟩
      · rw [h1] at h
        simp at h
      · rw [h1] at h
        simp at h
      · rw [h1] at h
        simp only [Prod.mk.injEq, Except.ok.injEq, Option.some.injEq] at h
        obtain ⟨h2, h3⟩ := h
        subst h2
        rw [← h3]
        simp only [setAt_same]
        have hne : (bpm.pages v).id ≠ P := by
          intro e
          have := hstale v e
          rw [hf] at this
          cases this
        have : dmw.files P = some B := by
          rcases hw with ⟨_, hw⟩ | ⟨_, hw⟩
          · rw [hw]
            exact hB
          · exact (write_page_ok_inv _ _ _ _ _ hw).2.2.2 P B hB (fun e => hne e.symm)
        rw [this] at hd
        exact (Option.some.inj hd).symm
theorem fetch_page_ok_find (bpm s : BufferPoolManager) (P : PageId) (f : Int)
    (hp : ∀ g, 0 ≤ (bpm.pages g).pin_count) (h : bpm.fetch_page P = (.ok (some f), s)) :
    s.page_table.find P = some f ∧ 0 < (s.pages f).pin_count := by
  cases hf : bpm.page_table.find P with
  | some f' =>
    rw [fetch_page_hit bpm P f' hf] at h
    simp only [Prod.mk.injEq, Except.ok.injEq, Option.some.injEq] at h
    obtain ⟨h1, h2⟩ := h
    subst h1
    rw [← h2]
    refine ⟨hf, ?_⟩
    simp only [setAt_same]
    have := hp f'
    omega
  | none =>
    rcases fetch_page_miss_cases bpm P hf with
      ⟨_, h1⟩ | ⟨v, bpm1, hv, _, _, (⟨e, s', h1, _⟩ | ⟨d, dmw, hw, _, hd, h1⟩)⟩
    · rw [h1] at h
      simp at h
    · rw [h1] at h
      simp at h
    · rw [h1] at h
      simp only [Prod.mk.injEq, Except.ok.injEq, Option.some.injEq] at h
      obtain ⟨h2, h3⟩ := h
      subst h2
      rw [← h3]
      refine ⟨PageTable.find_insert_same _ _ _, ?_⟩
      simp only [setAt_same]
      decide

/-- A miss of `fetch_page` that reuses a dirty frame writes the frame back first. -/
theorem fetch_page_writes_back (bpm s : BufferPoolManager) (Q : PageId) (v : Int)
    (hf : bpm.page_table.find Q = none) (h : bpm.fetch_page Q = (.ok (some v), s))
    (hd : (bpm.pages v).is_dirty = true) :
    s.disk_manager.transfers = bpm.disk_manager.transfers ++
      [.write (bpm.pages v).id.fd (bpm.pages v).id.page_no (bpm.pages v).data,
        .read Q.fd Q.page_no] := by
  rcases fetch_page_miss_cases bpm Q hf with
    ⟨_, h1⟩ | ⟨w, bpm1, hv, _, _, (⟨e, s', h1, _⟩ | ⟨d, dmw, hw, _, _, h1⟩)⟩
  · rw [h1] at h
    simp at h
  · rw [h1] at h
    simp at h
  · rw [h1] at h
    simp only [Prod.mk.injEq, Except.ok.injEq, Option.some.injEq] at h
    obtain ⟨h2, h3⟩ := h
    subst h2
    rw [← h3]
    rcases hw with ⟨hc, _⟩ | ⟨_, hw⟩
    · rw [hc] at hd
      cases hd
    · show dmw.transfers ++ _ = _
      rw [(write_page_ok_inv _ _ _ _ _ hw).2.2.1]
      simp

/-- A `new_page` that reuses a dirty frame writes the frame back. -/
theorem new_page_writes_back (bpm s : BufferPoolManager) (id Q : PageId) (v : Int)
    (h : bpm.new_page id = (.ok (some v), Q, s)) (hd : (bpm.pages v).is_dirty = true) :
    s.disk_manager.transfers = bpm.disk_manager.transfers ++
      [.write (bpm.pages v).id.fd (bpm.pages v).id.page_no (bpm.pages v).data] := by
  obtain ⟨bpm1, dm2, hv, _, _, hs, hw⟩ := new_page_ok_inv bpm s id Q v h
  obtain ⟨e1, e2, _, _⟩ := find_victim_page_frame bpm bpm1 _ hv
  rw [e1, e2] at hw
  rw [hs]
  rcases hw with ⟨hc, _⟩ | ⟨_, hw⟩
  · rw [hc] at hd
    cases hd
  · exact (write_page_ok_inv _ _ _ _ _ hw).2.2.1

/-- C16 (dirty pages survive eviction), as amended: start in a state reached from an initial
pool by writes into frames and by any calls in which `new_page` was never handed the id of a
page that was in the page table. If `fetch_page(P)` returns frame `f`, the bytes of `f` are set to `B`, and
`unpin_page(P, true)` is called, then that call returns true, and after any sequence of
`fetch_page` / `unpin_page` / `new_page` calls that do not throw and are on pages other than `P`,
a `fetch_page(P)` that returns a frame returns one whose bytes are `B`. And in any state, a miss
of `fetch_page` or a `new_page` that reuses a dirty frame has written the bytes of the frame to
disk at the old page id of the frame, before the read of the new page. -/
theorem dirty_page_survives_eviction (s0 s1 s2 s3 : BufferPoolManager) (P : PageId)
    (B : List Byte) (f g : Int) (r : Bool) (calls : List PoolCall)
    (hr : s0.ReachableFresh)
    (hfetch : s0.fetch_page P = (.ok (some f), s1))
    (hunpin : (s1.set_data f B).unpin_page P true = (r, s2))
    (hcalls : BufferPoolManager.run_avoids P s2 calls)
    (hlast : (s2.run calls).fetch_page P = (.ok (some g), s3)) :
    r = true ∧ (s3.pages g).data = B ∧
    (∀ (bpm s : BufferPoolManager) (Q : PageId) (v : Int),
      bpm.page_table.find Q = none → bpm.fetch_page Q = (.ok (some v), s) →
      (bpm.pages v).is_dirty = true →
      s.disk_manager.transfers = bpm.disk_manager.transfers ++
        [.write (bpm.pages v).id.fd (bpm.pages v).id.page_no (bpm.pages v).data,
          .read Q.fd Q.page_no]) ∧
    (∀ (bpm s : BufferPoolManager) (id Q : PageId) (v : Int),
      bpm.new_page id = (.ok (some v), Q, s) → (bpm.pages v).is_dirty = true →
      s.disk_manager.transfers = bpm.disk_manager.transfers ++
        [.write (bpm.pages v).id.fd (bpm.pages v).id.page_no (bpm.pages v).data]) := by
  have hr1 : s1.ReachableFresh := by
    have := BufferPoolManager.ReachableBy.step s0 (.fetch P) hr (fun _ h => by cases h)
    have e : s0.apply (.fetch P) = s1 := by
      show (s0.fetch_page P).2 = s1
      rw [hfetch]
    rw [e] at this
    exact this
  obtain ⟨hp0, _⟩ := MapInv_of_reachable s0 hr
  obtain ⟨hp1, hm1⟩ := MapInv_of_reachable s1 hr1
  obtain ⟨hfind, hpin⟩ := fetch_page_ok_find s0 s1 P f hp0.pin_nonneg hfetch
  have hu := unpin_page_of_pinned (s1.set_data f B) P true f hfind
    (by
      show 0 < (setAt s1.pages f { s1.pages f with data := B } f).pin_count
      rw [setAt_same]
      exact hpin)
  rw [hu] at hunpin
  simp only [Prod.mk.injEq] at hunpin
  obtain ⟨hr2, hs2⟩ := hunpin
  have hcore : (s1.set_data f B).core = s1.core :=
    core_of_frame_update s1 f { s1.pages f with data := B } s1.disk_manager rfl rfl
  have hp2 : s2.core.PinInv := by
    have hstep := apply_step (s1.set_data f B) (.unpin P true) false (fun e => by cases e)
    have e : (s1.set_data f B).apply (.unpin P true) = s2 := by
      show ((s1.set_data f B).unpin_page P true).2 = s2
      rw [hu]
      exact hs2
    rw [e, hcore] at hstep
    exact PinInv_step false _ _ _ hstep hp1
  have hk2 : s2.keeps P B := by
    rw [← hs2]
    constructor
    · intro x hx
      show s1.page_table.find P = some x
      have hx' : (s1.pages x).id = P := by
        by_cases hxf : x = f
        · rw [hxf] at hx ⊢
          simpa [BufferPoolManager.set_data, setAt_same] using hx
        · simpa [BufferPoolManager.set_data, setAt_other _ _ _ _ hxf] using hx
      rcases hm1.frame_mapped x with h1 | h1
      · have h2 : (s1.pages x).id.page_no = INVALID_PAGE_ID := h1
        rw [hx'] at h2
        exact absurd h2 (hm1.key_valid P f hfind)
      · have h2 : s1.page_table.find (s1.pages x).id = some x := h1
        rw [hx'] at h2
        exact h2
    · left
      refine ⟨f, hfind, ?_, Or.inl ?_⟩
      · simp [BufferPoolManager.set_data, setAt_same]
      · simp [BufferPoolManager.set_data, setAt_same]
  obtain ⟨_, hk3⟩ := keeps_run P B calls s2 hp2 hk2 hcalls
  exact ⟨hr2.symm, keeps_fetch _ s3 P B g hk3 hlast, fetch_page_writes_back,
    new_page_writes_back⟩
/-- C16, witness: a pool of one frame. `fetch A`, bytes set to `7, 7`, `unpin(A, true)`; then
`fetch B` evicts `A` and `unpin B`; the next `fetch A` returns the bytes `7, 7`. -/
theorem dirty_page_survives_eviction_witness :
    ((BufferPoolManager.init 1 small_disk).fetch_page page_a).1 = .ok (some 0) ∧
    ((((((BufferPoolManager.init 1 small_disk).fetch_page page_a).2.set_data 0
        [7, 7]).unpin_page page_a true).2.run
        [.fetch page_b, .unpin page_b false]).page_table.find page_a = none) ∧
    ((((((BufferPoolManager.init 1 small_disk).fetch_page page_a).2.set_data 0
        [7, 7]).unpin_page page_a true).2.run
        [.fetch page_b, .unpin page_b false]).fetch_page page_a).1 = .ok (some 0) ∧
    (((((((BufferPoolManager.init 1 small_disk).fetch_page page_a).2.set_data 0
        [7, 7]).unpin_page page_a true).2.run
        [.fetch page_b, .unpin page_b false]).fetch_page page_a).2.pages 0).data = [7, 7] :=
  have h := dirty_page_survives_eviction (BufferPoolManager.init 1 small_disk)
    ((BufferPoolManager.init 1 small_disk).fetch_page page_a).2
    ((((BufferPoolManager.init 1 small_disk).fetch_page page_a).2.set_data 0
      [7, 7]).unpin_page page_a true).2
    ((((((BufferPoolManager.init 1 small_disk).fetch_page page_a).2.set_data 0
      [7, 7]).unpin_page page_a true).2.run
      [.fetch page_b, .unpin page_b false]).fetch_page page_a).2
    page_a [7, 7] 0 0 true [.fetch page_b, .unpin page_b false]
    (BufferPoolManager.ReachableBy.init 1 small_disk) rfl rfl
    ⟨⟨by decide, rfl⟩, (by decide : page_b ≠ page_a), trivial⟩ rfl
  ⟨rfl, rfl, rfl, h.2.1⟩

/-- C16, counterexample: in `stale_pool`, reached by three calls that all return a frame or
true, `fetch A` returns frame 1; its bytes are set to `7, 7` and `unpin(A, true)` returns true.
Then `fetch C`, `fetch D`, `unpin D`, all on other pages and all successful: `fetch D` reuses
frame 0, which still carries the id `A`, and so removes `A` from the page table without frame 1
being written. The next `fetch A` returns a frame with the bytes `0, 0` of the disk. -/
theorem dirty_page_lost_after_id_collision :
    stale_pool.ReachableOk ∧
    (stale_pool.fetch_page page_a).1 = .ok (some 1) ∧
    (((stale_pool.fetch_page page_a).2.set_data 1 [7, 7]).unpin_page page_a true).1 = true ∧
    BufferPoolManager.run_avoids page_a
      (((stale_pool.fetch_page page_a).2.set_data 1 [7, 7]).unpin_page page_a true).2
      [.fetch page_c, .fetch page_d, .unpin page_d false] ∧
    (((((stale_pool.fetch_page page_a).2.set_data 1 [7, 7]).unpin_page page_a true).2.run
      [.fetch page_c, .fetch page_d, .unpin page_d false]).fetch_page page_a).1 =
        .ok (some 0) ∧
    ((((((stale_pool.fetch_page page_a).2.set_data 1 [7, 7]).unpin_page page_a true).2.run
      [.fetch page_c, .fetch page_d, .unpin page_d false]).fetch_page page_a).2.pages 0).data =
        [0, 0] ∧
    ((((((stale_pool.fetch_page page_a).2.set_data 1 [7, 7]).unpin_page page_a true).2.run
      [.fetch page_c, .fetch page_d, .unpin page_d false]).fetch_page page_a).2.pages 0).data ≠
        [7, 7] :=
  ⟨BufferPoolManager.ReachableBy.step _ (.new_page { fd := 3, page_no := 0 })
      (BufferPoolManager.ReachableBy.step _ (.unpin page_a false)
        (BufferPoolManager.ReachableBy.step _ (.fetch page_a)
          (BufferPoolManager.ReachableBy.init 3 unsynced_disk) ⟨rfl, fun _ h => by cases h⟩)
        ⟨rfl, fun _ h => by cases h⟩)
      ⟨rfl, fun _ _ => (by decide : (0 : Int) ≠ -1)⟩,
    rfl, rfl,
    ⟨⟨by decide, rfl⟩, ⟨by decide, rfl⟩, (by decide : page_d ≠ page_a), trivial⟩, rfl, rfl,
    by decide⟩
/-! ## Buffer pool: which frame is reused -/

theorem IdInv_init (pool_size : Nat) (dm : DiskManager) :
    (BufferPoolManager.init pool_size dm).core.IdInv := by
  refine ⟨?_, ?_⟩
  · intro id f h
    cases h
  · intro f _
    rfl

/-- The id invariant is kept by every step of the core. -/
theorem IdInv_step (fr : Bool) (c c' : PoolCore) (call : PoolCall)
    (hs : PoolStep fr c call c') (hp : c.PinInv) (h : c.IdInv) : c'.IdInv := by
  cases hs with
  | same => exact h
  | hit id f hf => exact ⟨h.key_valid, h.free_id⟩
  | unpin id d f hf hpin => exact ⟨h.key_valid, h.free_id⟩
  | pop _ v hv =>
    obtain ⟨_, e2, _, e4, s1, _⟩ := PoolCore.pop_spec c v hv
    refine ⟨?_, ?_⟩
    · intro x g hx
      rw [e4] at hx
      exact h.key_valid x g hx
    · intro g hg
      rw [e2]
      exact h.free_id g (s1 g hg)
  | assign _ v id hv hi _ =>
    obtain ⟨_, e2, _, e4, s1, _⟩ := PoolCore.pop_spec c v hv
    have hv2 := (PinInv_pop c v hv hp).2.1
    refine ⟨?_, ?_⟩
    · intro x g hx
      rcases PageTable.find_insert_some _ _ _ _ _ hx with ⟨e, _⟩ | ⟨_, h2⟩
      · rw [e]
        exact hi
      · have h3 := (PageTable.find_erase_some _ _ _ _ h2).2
        rw [e4] at h3
        exact h.key_valid x g h3
    · intro g hg
      have hg' : g ∈ c.pop.free_list := hg
      have hgv : g ≠ v := fun e => hv2 (e ▸ hg')
      show (setAt c.pop.ids v id g).page_no = INVALID_PAGE_ID
      rw [setAt_other _ _ _ _ hgv, e2]
      exact h.free_id g (s1 g hg')
  | delete id f hf _ =>
    refine ⟨fun x g hx => h.key_valid x g (PageTable.find_erase_some _ _ _ _ hx).2, ?_⟩
    intro g hg
    have hg' : g ∈ c.free_list ++ [f] := hg
    show (setAt c.ids f _ g).page_no = INVALID_PAGE_ID
    by_cases hgf : g = f
    · rw [hgf, setAt_same]
    · rw [setAt_other _ _ _ _ hgf]
      rcases List.mem_append.1 hg' with h1 | h1
      · exact h.free_id g h1
      · exact absurd (List.mem_singleton.1 h1) hgf

theorem IdInv_of_reachable (ok : BufferPoolManager → PoolCall → Prop)
    (bpm : BufferPoolManager) (h : BufferPoolManager.ReachableBy ok bpm) :
    bpm.core.PinInv ∧ bpm.core.IdInv := by
  induction h with
  | init n dm => exact ⟨PinInv_init n dm, IdInv_init n dm⟩
  | step s call _ _ ih =>
    have hs := apply_step s call false (fun e => by cases e)
    exact ⟨PinInv_step false _ _ call hs ih.1, IdInv_step false _ _ call hs ih.1 ih.2⟩
  | write s f data _ ih =>
    rw [core_set_data]
    exact ih

/-- The replacer invariant is kept by every step that gives up no frame. -/
theorem LruInv_step (fr : Bool) (c c' : PoolCore) (call : PoolCall)
    (hs : PoolStepOk fr c call c') (hp : c.PinInv) (hi : c.IdInv) (h : c.LruInv) :
    c'.LruInv := by
  cases hs with
  | same => exact h
  | hit id f hf =>
    intro g hg
    have hg' : g ∈ c.lru ∧ g ≠ f := by
      simpa [PoolCore.hit, List.mem_filter] using hg
    exact h g hg'.1
  | unpin id d f hf hpin =>
    intro g hg
    have hg' : g ∈ (if c.pins f - 1 = 0 then _ else _) := hg
    have hg2 : g ∈ c.lru ∨ g = f := by
      split at hg'
      · exact (LRUReplacer.mem_unpin _ f g).1 hg'
      · exact Or.inl hg'
    rcases hg2 with h1 | h1
    · exact h g h1
    · right
      rw [h1]
      show (c.ids f).page_no ≠ INVALID_PAGE_ID
      rw [hp.table_id id f hf]
      exact hi.key_valid id f hf
  | assign _ v id hv _ _ =>
    obtain ⟨_, e2, _, _, _, s2, s3, _, _⟩ := PoolCore.pop_spec c v hv
    intro g hg
    have hg' : g ∈ c.pop.lru ∧ g ≠ v := by
      simpa [PoolCore.assign, List.mem_filter] using hg
    show g ∈ c.pop.free_list ∨ (setAt c.pop.ids v id g).page_no ≠ INVALID_PAGE_ID
    rw [setAt_other _ _ _ _ hg'.2, e2]
    rcases h g (s2 g hg'.1) with h1 | h1
    · exact Or.inl (s3 g hg'.2 h1)
    · exact Or.inr h1
  | delete id f hf _ =>
    intro g hg
    show g ∈ c.free_list ++ [f] ∨ (setAt c.ids f _ g).page_no ≠ INVALID_PAGE_ID
    by_cases hgf : g = f
    · left
      rw [hgf]
      exact List.mem_append_right _ (List.mem_singleton_self f)
    · rw [setAt_other _ _ _ _ hgf]
      rcases (LRUReplacer.mem_unpin { lru_list := c.lru } f g).1 hg with h1 | h1
      · rcases h g h1 with h2 | h2
        · exact Or.inl (List.mem_append_left _ h2)
        · exact Or.inr h2
      · exact absurd h1 hgf

/-- But for `unpin_page`, a step that gives up no frame only removes frames from the
replacer. -/
theorem lru_sublist_step (fr : Bool) (c c' : PoolCore) (call : PoolCall)
    (hs : PoolStepOk fr c call c') (hcall : ∀ id d, call ≠ .unpin id d)
    (hp : c.PinInv) (hr : c.RangeInv) : c'.lru.Sublist c.lru := by
  cases hs with
  | same => exact List.Sublist.refl _
  | hit id f hf => exact List.filter_sublist _
  | unpin id d f hf hpin => exact absurd rfl (hcall id d)
  | assign _ v id hv _ _ =>
    have h1 : c.pop.lru.Sublist c.lru := by
      rcases PoolCore.victim_cases c v hv with ⟨rest, _, h2⟩ | ⟨_, rest, h2, h3⟩
      · rw [h2]
      · rw [h3, h2]
        exact List.sublist_cons_self _ _
    exact (List.filter_sublist _).trans h1
  | delete id f hf hpin =>
    have hz : c.pins f = 0 := by
      have := hp.pin_nonneg f
      omega
    have hfr := hr.table_range id f hf
    have hmem : f ∈ c.lru := by
      rcases hr.covered f hfr.1 hfr.2 hz with h1 | h1
      · exact absurd h1 (hp.free_unmapped id f hf)
      · exact h1
    show (LRUReplacer.unpin { lru_list := c.lru } f).lru_list.Sublist c.lru
    rw [LRUReplacer.unpin_of_mem _ f hmem]
theorem Sorted_step (t : TimedPool) (call : PoolCall) (ha : t.bpm.admissible call)
    (hp : t.bpm.core.PinInv) (hr : t.bpm.core.RangeInv) (h : t.Sorted) :
    (t.apply call).Sorted := by
  have other : (∀ id d, call ≠ .unpin id d) → (t.apply call).zero_at = t.zero_at →
      (t.apply call).Sorted := by
    intro hcall hz
    have hsub : (t.bpm.apply call).core.lru.Sublist t.bpm.core.lru :=
      lru_sublist_step false _ _ call
        (apply_step_ok t.bpm call false ha (fun e => by cases e)) hcall hp hr
    constructor
    · rw [hz]
      exact h.ordered.sublist hsub
    · intro f hf
      rw [hz]
      have := h.past f (hsub.subset hf)
      show t.zero_at f < t.now + 1
      omega
  cases call with
  | unpin id d =>
    rcases unpin_page_core t.bpm id d with ⟨h1, h2⟩ | ⟨f, h1, h2, _, _⟩
    · have hz : (t.apply (.unpin id d)).zero_at = t.zero_at := by
        show (match t.bpm.page_table.find id with
          | some f => if (t.bpm.pages f).pin_count = 1 then setAt t.zero_at f t.now
            else t.zero_at
          | none => t.zero_at) = t.zero_at
        rcases h2 with h2 | ⟨f, h2, h3⟩
        · rw [h2]
        · rw [h2]
          have : ¬ (t.bpm.pages f).pin_count = 1 := by omega
          simp only [this, if_false]
      have hb : (t.apply (.unpin id d)).bpm = t.bpm := by
        show (t.bpm.unpin_page id d).2 = t.bpm
        rw [h1]
      constructor
      · rw [hz, hb]
        exact h.ordered
      · intro f hf
        rw [hz]
        rw [hb] at hf
        have := h.past f hf
        show t.zero_at f < t.now + 1
        omega
    · have hb : (t.apply (.unpin id d)).bpm.replacer =
          if (t.bpm.pages f).pin_count - 1 = 0 then t.bpm.replacer.unpin f
          else t.bpm.replacer := by
        show (t.bpm.unpin_page id d).2.replacer = _
        rw [unpin_page_of_pinned t.bpm id d f h1 h2]
      have hz : (t.apply (.unpin id d)).zero_at =
          if (t.bpm.pages f).pin_count = 1 then setAt t.zero_at f t.now else t.zero_at := by
        show (match t.bpm.page_table.find id with
          | some f => if (t.bpm.pages f).pin_count = 1 then setAt t.zero_at f t.now
            else t.zero_at
          | none => t.zero_at) = _
        rw [h1]
      by_cases h1pin : (t.bpm.pages f).pin_count = 1
      · have hnot : f ∉ t.bpm.replacer.lru_list := by
          intro hmem
          have := hp.lru_pin f hmem
          have h3 : (t.bpm.pages f).pin_count = 0 := this
          omega
        have h0 : (t.bpm.pages f).pin_count - 1 = 0 := by omega
        rw [if_pos h0] at hb
        rw [if_pos h1pin] at hz
        have hl : (t.apply (.unpin id d)).bpm.replacer.lru_list =
            t.bpm.replacer.lru_list ++ [f] := by
          rw [hb]
          exact LRUReplacer.unpin_of_not_mem _ f hnot
        have hsame : ∀ a ∈ t.bpm.replacer.lru_list, setAt t.zero_at f t.now a = t.zero_at a := by
          intro a hmem
          exact setAt_other _ _ _ _ (fun e => hnot (e ▸ hmem))
        constructor
        · rw [hl, hz, List.pairwise_append]
          refine ⟨?_, List.pairwise_singleton _ _, ?_⟩
          · refine h.ordered.imp_of_mem ?_
            intro a b hma hmb hab
            rw [hsame a hma, hsame b hmb]
            exact hab
          · intro a hma b hmb
            rw [List.mem_singleton.1 hmb, hsame a hma, setAt_same]
            exact h.past a hma
        · intro a hmem
          rw [hl] at hmem
          rw [hz]
          show _ < t.now + 1
          rcases List.mem_append.1 hmem with h3 | h3
          · rw [hsame a h3]
            have := h.past a h3
            omega
          · rw [List.mem_singleton.1 h3, setAt_same]
            omega
      · have h0 : ¬ (t.bpm.pages f).pin_count - 1 = 0 := by omega
        rw [if_neg h0] at hb
        rw [if_neg h1pin] at hz
        constructor
        · rw [hz, hb]
          exact h.ordered
        · intro a hmem
          rw [hb] at hmem
          rw [hz]
          have := h.past a hmem
          show t.zero_at a < t.now + 1
          omega
  | fetch id => exact other (fun _ _ e => by cases e) rfl
  | new_page id => exact other (fun _ _ e => by cases e) rfl
  | flush id => exact other (fun _ _ e => by cases e) rfl
  | delete id => exact other (fun _ _ e => by cases e) rfl
  | flush_all fd => exact other (fun _ _ e => by cases e) rfl

/-- Everything that holds of a state of the pool with a clock. -/
theorem TimedPool.inv_of_reachable (t : TimedPool) (h : t.Reachable) :
    t.bpm.core.PinInv ∧ t.bpm.core.RangeInv ∧ t.bpm.core.MapInv ∧ t.bpm.core.IdInv ∧
      t.bpm.core.LruInv ∧ t.Sorted := by
  induction h with
  | init n dm =>
    refine ⟨PinInv_init n dm, RangeInv_init n dm, MapInv_init n dm, IdInv_init n dm, ?_, ?_, ?_⟩
    · intro f hf
      cases hf
    · exact List.Pairwise.nil
    · intro f hf
      cases hf
  | step t call _ ha hf ih =>
    obtain ⟨hp, hr, hm, hi, hl, hs⟩ := ih
    have hok := apply_step_ok t.bpm call true ha (fun _ => hf)
    have hst := PoolStepOk.toStep true _ _ call hok
    exact ⟨PinInv_step true _ _ call hst hp, RangeInv_step true _ _ call hok hp hr,
      MapInv_step _ _ call hst hm, IdInv_step true _ _ call hst hp hi,
      LruInv_step true _ _ call hok hp hi hl, Sorted_step t call ha hp hr hs⟩
  | write t f data _ ih =>
    obtain ⟨hp, hr, hm, hi, hl, hs⟩ := ih
    have hc : (t.bpm.set_data f data).core = t.bpm.core := core_set_data t.bpm f data
    refine ⟨?_, ?_, ?_, ?_, ?_, ⟨hs.ordered, hs.past⟩⟩
    · show (t.bpm.set_data f data).core.PinInv
      rw [hc]
      exact hp
    · show (t.bpm.set_data f data).core.RangeInv
      rw [hc]
      exact hr
    · show (t.bpm.set_data f data).core.MapInv
      rw [hc]
      exact hm
    · show (t.bpm.set_data f data).core.IdInv
      rw [hc]
      exact hi
    · show (t.bpm.set_data f data).core.LruInv
      rw [hc]
      exact hl
/-- C12 (LRU victim choice with free-list priority), as amended. In every state the pool can be
in, a miss of `fetch_page` that finds the free list non-empty takes the frame at its front and
removes no mapping. In every state reached by writes into frames and by calls none of which
threw, `new_page` never having been handed `INVALID_PAGE_ID` or the id of a mapped page, a miss of `fetch_page` that finds the
free list empty and returns a frame reuses the frame `v` with `pin_count = 0` whose pin count
reached 0 before that of every other unpinned frame of the pool; the page `v` held was mapped
and is unmapped afterwards, the fetched page is mapped to `v`, and every other mapping is as
before. -/
theorem lru_victim_choice :
    (∀ (bpm s : BufferPoolManager) (id : PageId) (v : Int), bpm.Reachable →
      bpm.page_table.find id = none → bpm.free_list ≠ [] →
      bpm.fetch_page id = (.ok (some v), s) →
      bpm.free_list.head? = some v ∧ s.page_table.find id = some v ∧
        ∀ q, q ≠ id → s.page_table.find q = bpm.page_table.find q) ∧
    (∀ (t : TimedPool) (s : BufferPoolManager) (id : PageId) (v : Int), t.Reachable →
      t.bpm.page_table.find id = none → t.bpm.free_list = [] →
      t.bpm.fetch_page id = (.ok (some v), s) →
      (t.bpm.pages v).pin_count = 0 ∧
        t.bpm.page_table.find (t.bpm.pages v).id = some v ∧
        (∀ g : Int, 0 ≤ g → g < (t.bpm.pool_size : Int) → (t.bpm.pages g).pin_count = 0 →
          g ≠ v → t.zero_at v < t.zero_at g) ∧
        s.page_table.find (t.bpm.pages v).id = none ∧
        s.page_table.find id = some v ∧
        ∀ q, q ≠ id → q ≠ (t.bpm.pages v).id →
          s.page_table.find q = t.bpm.page_table.find q) := by
  have miss : ∀ (bpm s : BufferPoolManager) (id : PageId) (v : Int),
      bpm.page_table.find id = none → bpm.fetch_page id = (.ok (some v), s) →
      bpm.core.victim = some v ∧
        s.page_table = (bpm.page_table.erase (bpm.pages v).id).insert id v := by
    intro bpm s id v hf h
    rcases fetch_page_miss_cases bpm id hf with
      ⟨_, h1⟩ | ⟨w, bpm1, hv, hvc, _, (⟨e, s', h1, _⟩ | ⟨d, dmw, hw, _, _, h1⟩)⟩
    · rw [h1] at h
      simp at h
    · rw [h1] at h
      simp at h
    · rw [h1] at h
      simp only [Prod.mk.injEq, Except.ok.injEq, Option.some.injEq] at h
      obtain ⟨h2, h3⟩ := h
      subst h2
      rw [← h3]
      exact ⟨hvc, rfl⟩
  constructor
  · intro bpm s id v hr hf hfree h
    obtain ⟨hp, hi⟩ := IdInv_of_reachable _ bpm hr
    obtain ⟨hv, ht⟩ := miss bpm s id v hf h
    have hhead : bpm.free_list.head? = some v := by
      rcases PoolCore.victim_cases bpm.core v hv with ⟨rest, h1, _⟩ | ⟨h1, _⟩
      · have h2 : bpm.free_list = v :: rest := h1
        rw [h2]
        rfl
      · exact absurd h1 hfree
    have hmem : v ∈ bpm.core.free_list := by
      show v ∈ bpm.free_list
      cases hl : bpm.free_list with
      | nil => exact absurd hl hfree
      | cons a l =>
        rw [hl] at hhead
        simp only [List.head?_cons, Option.some.injEq] at hhead
        rw [hhead]
        exact List.mem_cons_self _ _
    have hnone : bpm.page_table.find (bpm.pages v).id = none := by
      cases hx : bpm.page_table.find (bpm.pages v).id with
      | none => rfl
      | some g => exact absurd (hi.free_id v hmem) (hi.key_valid _ g hx)
    refine ⟨hhead, ?_, ?_⟩
    · rw [ht]
      exact PageTable.find_insert_same _ _ _
    · intro q hq
      rw [ht, PageTable.find_insert_other _ _ _ _ hq]
      by_cases hq2 : q = (bpm.pages v).id
      · rw [hq2, PageTable.find_erase_same, hnone]
      · exact PageTable.find_erase_other _ _ _ hq2
  · intro t s id v hr hf hfree h
    obtain ⟨hp, hrange, hm, hi, hl, hs⟩ := TimedPool.inv_of_reachable t hr
    obtain ⟨hv, ht⟩ := miss t.bpm s id v hf h
    obtain ⟨rest, hlru⟩ : ∃ rest, t.bpm.replacer.lru_list = v :: rest := by
      rcases PoolCore.victim_cases t.bpm.core v hv with ⟨rest, h1, _⟩ | ⟨_, rest, h1, _⟩
      · have h2 : t.bpm.free_list = v :: rest := h1
        rw [hfree] at h2
        cases h2
      · exact ⟨rest, h1⟩
    have hmem : v ∈ t.bpm.core.lru := by
      show v ∈ t.bpm.replacer.lru_list
      rw [hlru]
      exact List.mem_cons_self _ _
    have hnofree : ∀ g, g ∉ t.bpm.core.free_list := by
      intro g hg
      have hg' : g ∈ t.bpm.free_list := hg
      rw [hfree] at hg'
      cases hg'
    have hmapped : t.bpm.page_table.find (t.bpm.pages v).id = some v := by
      rcases hm.frame_mapped v with h1 | h1
      · rcases hl v hmem with h2 | h2
        · exact absurd h2 (hnofree v)
        · exact absurd h1 h2
      · exact h1
    have hne : (t.bpm.pages v).id ≠ id := by
      intro e
      rw [e, hf] at hmapped
      cases hmapped
    refine ⟨hp.lru_pin v hmem, hmapped, ?_, ?_, ?_, ?_⟩
    · intro g h0 h1 hz hgv
      rcases hrange.covered g h0 h1 hz with h2 | h2
      · exact absurd h2 (hnofree g)
      · have h3 : g ∈ t.bpm.replacer.lru_list := h2
        have hord := hs.ordered
        rw [hlru] at h3 hord
        rcases List.mem_cons.1 h3 with e | e
        · exact absurd e hgv
        · exact (List.pairwise_cons.1 hord).1 g e
    · rw [ht, PageTable.find_insert_other _ _ _ _ hne]
      exact PageTable.find_erase_same _ _
    · rw [ht]
      exact PageTable.find_insert_same _ _ _
    · intro q hq hq2
      rw [ht, PageTable.find_insert_other _ _ _ _ hq]
      exact PageTable.find_erase_other _ _ _ hq2

/-- C12, witness: pool size 3, `fetch` and `unpin` of `A`, `B`, `C` in that order, then
`fetch D`: frame 0, the frame of `A`, is reused; `A` is unmapped and `B`, `C`, `D` are mapped. -/
theorem lru_victim_choice_witness :
    lru_pool.Reachable ∧
    (lru_pool.bpm.fetch_page page_d).1 = .ok (some 0) ∧
    (lru_pool.bpm.pages 0).id = page_a ∧
    (∀ g : Int, 0 ≤ g → g < (lru_pool.bpm.pool_size : Int) →
      (lru_pool.bpm.pages g).pin_count = 0 → g ≠ 0 → lru_pool.zero_at 0 < lru_pool.zero_at g) ∧
    (lru_pool.bpm.fetch_page page_d).2.page_table.find page_a = none ∧
    (lru_pool.bpm.fetch_page page_d).2.page_table.find page_b = some 1 ∧
    (lru_pool.bpm.fetch_page page_d).2.page_table.find page_c = some 2 ∧
    (lru_pool.bpm.fetch_page page_d).2.page_table.find page_d = some 0 :=
  have hr : lru_pool.Reachable :=
    TimedPool.Reachable.step _ (.unpin page_c false)
      (TimedPool.Reachable.step _ (.fetch page_c)
        (TimedPool.Reachable.step _ (.unpin page_b false)
          (TimedPool.Reachable.step _ (.fetch page_b)
            (TimedPool.Reachable.step _ (.unpin page_a false)
              (TimedPool.Reachable.step _ (.fetch page_a)
                (TimedPool.Reachable.init 3 small_disk)
                ⟨rfl, fun _ h => by cases h⟩ (fun _ h => by cases h))
              ⟨rfl, fun _ h => by cases h⟩ (fun _ h => by cases h))
            ⟨rfl, fun _ h => by cases h⟩ (fun _ h => by cases h))
          ⟨rfl, fun _ h => by cases h⟩ (fun _ h => by cases h))
        ⟨rfl, fun _ h => by cases h⟩ (fun _ h => by cases h))
      ⟨rfl, fun _ h => by cases h⟩ (fun _ h => by cases h)
  have h := lru_victim_choice.2 lru_pool (lru_pool.bpm.fetch_page page_d).2 page_d 0 hr
    rfl rfl rfl
  ⟨hr, rfl, rfl, h.2.2.1, h.2.2.2.1, rfl, rfl, h.2.2.2.2.1⟩

/-- C12, counterexample. In `skipped_pool` the free list is empty, `A` is in frame 0 and `B` in
frame 1, both unpinned, and the pin count of frame 0 reached 0 first; a `fetch_page` that threw
has taken frame 0 out of the replacer, so `fetch C` evicts `B` and leaves `A` mapped. In
`collided_pool` the free list is empty and `A` is mapped to frame 1, which is pinned; frame 0,
the only unpinned frame, still carries the id `A`, so `fetch B` reuses frame 0 and removes `A`
from the page table. -/
theorem lru_victim_not_the_earliest :
    (skipped_pool.bpm.Reachable ∧ skipped_pool.bpm.free_list = [] ∧
      skipped_pool.bpm.page_table.find page_a = some 0 ∧
      skipped_pool.bpm.page_table.find page_b = some 1 ∧
      (skipped_pool.bpm.pages 0).pin_count = 0 ∧ (skipped_pool.bpm.pages 1).pin_count = 0 ∧
      skipped_pool.zero_at 0 < skipped_pool.zero_at 1 ∧
      skipped_pool.bpm.page_table.find page_c = none ∧
      (skipped_pool.bpm.fetch_page page_c).1 = .ok (some 1) ∧
      (skipped_pool.bpm.fetch_page page_c).2.page_table.find page_b = none ∧
      (skipped_pool.bpm.fetch_page page_c).2.page_table.find page_a = some 0) ∧
    (collided_pool.ReachableOk ∧ collided_pool.free_list = [] ∧
      collided_pool.page_table.find page_a = some 1 ∧
      (collided_pool.pages 1).pin_count = 1 ∧ (collided_pool.pages 0).pin_count = 0 ∧
      collided_pool.page_table.find page_b = none ∧
      (collided_pool.fetch_page page_b).1 = .ok (some 0) ∧
      (collided_pool.fetch_page page_b).2.page_table.find page_a = none) :=
  ⟨⟨BufferPoolManager.ReachableBy.step _ (.fetch page_past_end)
      (BufferPoolManager.ReachableBy.step _ (.unpin page_b false)
        (BufferPoolManager.ReachableBy.step _ (.fetch page_b)
          (BufferPoolManager.ReachableBy.step _ (.unpin page_a false)
            (BufferPoolManager.ReachableBy.step _ (.fetch page_a)
              (BufferPoolManager.ReachableBy.init 2 small_disk) trivial)
            trivial)
          trivial)
        trivial)
      trivial,
    rfl, rfl, rfl, rfl, rfl, by decide, rfl, rfl, rfl, rfl⟩,
   ⟨BufferPoolManager.ReachableBy.step _ (.new_page { fd := 3, page_no := 0 })
      (BufferPoolManager.ReachableBy.step _ (.unpin page_a false)
        (BufferPoolManager.ReachableBy.step _ (.fetch page_a)
          (BufferPoolManager.ReachableBy.init 2 unsynced_disk) ⟨rfl, fun _ h => by cases h⟩)
        ⟨rfl, fun _ h => by cases h⟩)
      ⟨rfl, fun _ _ => (by decide : (0 : Int) ≠ -1)⟩,
    rfl, rfl, rfl, rfl, rfl, rfl, rfl⟩⟩
/-! ## Buffer pool: `new_page` and `delete_page` -/

/-- C15 (`new_page` then `fetch` hits the same frame): whenever `new_page` returns frame `F` and
leaves the page id `P`, the `fetch_page(P)` that follows returns `F`, makes no disk transfer
(the disk manager is unchanged), leaves the bytes and the dirty flag of `F` as they were, and
raises the pin count of `F` from 1 to 2. -/
theorem new_page_then_fetch (bpm s : BufferPoolManager) (id P : PageId) (F : Int)
    (h : bpm.new_page id = (.ok (some F), P, s)) :
    (s.fetch_page P).1 = .ok (some F) ∧
      (s.fetch_page P).2.disk_manager = s.disk_manager ∧
      ((s.fetch_page P).2.pages F).data = (s.pages F).data ∧
      ((s.fetch_page P).2.pages F).is_dirty = (s.pages F).is_dirty ∧
      (s.pages F).pin_count = 1 ∧ ((s.fetch_page P).2.pages F).pin_count = 2 ∧
      ((s.fetch_page P).2.pages F).id = P := by
  obtain ⟨bpm1, dm2, _, _, _, hs, _⟩ := new_page_ok_inv bpm s id P F h
  have h1 : s.page_table.find P = some F := by
    rw [hs]
    exact PageTable.find_insert_same _ _ _
  have h2 : s.pages F =
      { id := P, data := List.replicate dm2.page_size 0, is_dirty := false, pin_count := 1 } := by
    rw [hs]
    exact setAt_same _ _ _
  rw [fetch_page_hit s P F h1]
  simp [setAt_same, h2]


/-- C18 (`delete_page` trichotomy): `delete_page(P)` returns true and changes nothing when `P`
is not mapped; returns false and changes nothing when `P` is mapped to a frame with
`pin_count > 0`; and when `P` is mapped to a frame `f` with `pin_count = 0` (and, if `f` is
dirty, `P` has a page number that can be written) it returns true, `P` is no longer in the page
table, `f` is on the free list with zeroed bytes, `pin_count` 0, `is_dirty` false and no page,
every other mapping and frame is as before, and if `f` was dirty its bytes have been written to
disk at `P`, no transfer being made otherwise. -/
theorem delete_page_trichotomy (bpm : BufferPoolManager) (P : PageId) :
    (bpm.page_table.find P = none → bpm.delete_page P = (.ok true, bpm)) ∧
    (∀ f, bpm.page_table.find P = some f → 0 < (bpm.pages f).pin_count →
      bpm.delete_page P = (.ok false, bpm)) ∧
    (∀ f, bpm.page_table.find P = some f → (bpm.pages f).pin_count = 0 →
      ((bpm.pages f).is_dirty = true → 0 ≤ P.page_no) →
      ∃ s, bpm.delete_page P = (.ok true, s) ∧
        s.page_table.find P = none ∧
        (∀ id', id' ≠ P → s.page_table.find id' = bpm.page_table.find id') ∧
        s.free_list = bpm.free_list ++ [f] ∧
        s.pages f =
          { id := { fd := -1, page_no := INVALID_PAGE_ID }
            data := List.replicate bpm.disk_manager.page_size 0
            is_dirty := false, pin_count := 0 } ∧
        (∀ g, g ≠ f → s.pages g = bpm.pages g) ∧
        ((bpm.pages f).is_dirty = true →
          s.disk_manager.files P = some (bpm.pages f).data ∧
          s.disk_manager.transfers = bpm.disk_manager.transfers ++
            [.write P.fd P.page_no (bpm.pages f).data]) ∧
        ((bpm.pages f).is_dirty = false → s.disk_manager = bpm.disk_manager)) := by
  refine ⟨?_, ?_, ?_⟩
  · intro h
    unfold BufferPoolManager.delete_page
    simp only [h]
  · intro f h hpin
    unfold BufferPoolManager.delete_page
    simp only [h, gt_iff_lt, hpin, if_true]
  · intro f h hpin hdirty
    have hn : ¬ (bpm.pages f).pin_count > 0 := by omega
    unfold BufferPoolManager.delete_page
    simp only [h, hn, if_false]
    by_cases hd : (bpm.pages f).is_dirty = true
    · obtain ⟨dm2, w1, w2, w3, _, w5, _⟩ := write_page_ok bpm.disk_manager P.fd P.page_no
        (bpm.pages f).data (hdirty hd)
      simp only [hd, if_true, w1]
      refine ⟨_, rfl, PageTable.find_erase_same _ _,
        fun id' h1 => PageTable.find_erase_other _ _ _ h1, rfl, ?_, ?_, ?_, ?_⟩
      · simp only [setAt_same, Page.reset_memory, w5]
      · intro g hg
        simp only [setAt_other _ _ _ _ hg]
      · intro _
        exact ⟨w2, w3⟩
      · intro hf
        exact Bool.noConfusion hf
    · have hd' : (bpm.pages f).is_dirty = false := by simpa using hd
      simp only [hd', Bool.false_eq_true, if_false]
      refine ⟨_, rfl, PageTable.find_erase_same _ _,
        fun id' h1 => PageTable.find_erase_other _ _ _ h1, rfl, ?_, ?_, ?_, ?_⟩
      · simp only [setAt_same, Page.reset_memory]
      · intro g hg
        exact setAt_other _ _ _ _ hg
      · intro hf
        exact hf.elim
      · intro _
        rfl

/-- C15, witness: on the initial pool of two frames `new_page` returns frame 0 with page 10 of
descriptor 3, and the `fetch_page` of that page returns frame 0 with `pin_count = 2`. -/
theorem new_page_then_fetch_witness :
    ((BufferPoolManager.init 2 small_disk).new_page { fd := 3, page_no := 0 }).1 =
      .ok (some 0) ∧
    ((BufferPoolManager.init 2 small_disk).new_page { fd := 3, page_no := 0 }).2.1 =
      { fd := 3, page_no := 10 } ∧
    (((BufferPoolManager.init 2 small_disk).new_page { fd := 3, page_no := 0 }).2.2.fetch_page
      { fd := 3, page_no := 10 }).1 = .ok (some 0) ∧
    ((((BufferPoolManager.init 2 small_disk).new_page { fd := 3, page_no := 0 }).2.2.fetch_page
      { fd := 3, page_no := 10 }).2.pages 0).pin_count = 2 :=
  have h := new_page_then_fetch (BufferPoolManager.init 2 small_disk)
    ((BufferPoolManager.init 2 small_disk).new_page { fd := 3, page_no := 0 }).2.2
    { fd := 3, page_no := 0 } { fd := 3, page_no := 10 } 0 rfl
  ⟨rfl, rfl, h.1, h.2.2.2.2.2.1⟩

/-- C18, witness: in `dirty_pool` frame 0 holds `A`, dirty and unpinned, with the bytes `7, 7`.
`delete_page(A)` returns true, `A` is unmapped, frame 0 is on the free list, zeroed, and the disk
holds `7, 7` for `A`. -/
theorem delete_page_trichotomy_witness :
    ∃ s, dirty_pool.delete_page page_a = (.ok true, s) ∧
      s.page_table.find page_a = none ∧ s.free_list = [0] ∧
      s.pages 0 =
        { id := { fd := -1, page_no := INVALID_PAGE_ID }, data := [0, 0], is_dirty := false,
          pin_count := 0 } ∧
      s.disk_manager.files page_a = some [7, 7] := by
  obtain ⟨s, h1, h2, _, h4, h5, _, h7, _⟩ :=
    (delete_page_trichotomy dirty_pool page_a).2.2 0 rfl rfl (fun _ => by decide)
  exact ⟨s, h1, h2, h4, h5, (h7 rfl).1⟩
/-! ## Pin discipline of the heap file and of the scan -/

/-- After a fetch, `unpin_page` restores the pin counts and or-s the dirty flag in. -/
theorem unpin_after_fetch (fh : RmFileHandle) (c : Int → Int) (p : Int) (d : Bool)
    (hc : 0 ≤ c p) (h : fh.pool.pin_count = setAt c p (c p + 1)) :
    (fh.unpin p d).pool.pin_count = c ∧
      (fh.unpin p d).pool.is_dirty =
        (if d then setAt fh.pool.is_dirty p true else fh.pool.is_dirty) := by
  have hn : ¬ (c p + 1 ≤ 0) := by omega
  have hm : c p + 1 - 1 = c p := by omega
  unfold RmFileHandle.unpin PoolView.unpin_page
  rw [h]
  simp only [setAt_same, hn, if_false, setAt_setAt, hm]
  exact ⟨setAt_self c p, trivial⟩

/-- After `new_page`, `unpin_page` leaves the new page unpinned. -/
theorem unpin_after_new_page (fh : RmFileHandle) (c : Int → Int) (p : Int) (d : Bool)
    (h : fh.pool.pin_count = setAt c p 1) :
    (fh.unpin p d).pool.pin_count = setAt c p 0 ∧
      (fh.unpin p d).pool.is_dirty =
        (if d then setAt fh.pool.is_dirty p true else fh.pool.is_dirty) := by
  have hn : ¬ ((1 : Int) ≤ 0) := by omega
  have hm : (1 : Int) - 1 = 0 := by omega
  unfold RmFileHandle.unpin PoolView.unpin_page
  rw [h]
  simp only [setAt_same, hn, if_false, setAt_setAt, hm]
  exact ⟨trivial, trivial⟩

/-- The pin counts and dirty flags after `create_page_handle`. -/
theorem create_page_handle_pins (fh fh1 : RmFileHandle) (ph : RmPageHandle)
    (h : fh.create_page_handle = (.ok ph, fh1)) :
    (fh.file_hdr.first_free_page_no ≠ RM_NO_PAGE ∧
      fh1.pool.pin_count =
        setAt fh.pool.pin_count ph.page_no (fh.pool.pin_count ph.page_no + 1) ∧
      fh1.pool.is_dirty = fh.pool.is_dirty) ∨
    (fh.file_hdr.first_free_page_no = RM_NO_PAGE ∧
      fh1.pool.pin_count = setAt fh.pool.pin_count ph.page_no 1 ∧
      fh1.pool.is_dirty = setAt fh.pool.is_dirty ph.page_no false) := by
  unfold RmFileHandle.create_page_handle at h
  by_cases hh : fh.file_hdr.first_free_page_no = RM_NO_PAGE
  · right
    simp only [hh, if_true] at h
    refine ⟨hh, ?_⟩
    unfold RmFileHandle.create_new_page_handle PoolView.new_page at h
    by_cases hv : fh.pool.has_victim = false
    · simp [hv] at h
    · by_cases hi : fh.pool.fd2pageno = INVALID_PAGE_ID
      · simp [hv, hi] at h
      · simp only [hv, hi, if_false, Bool.true_eq_false, Prod.mk.injEq, Except.ok.injEq] at h
        obtain ⟨h1, h2⟩ := h
        subst h1 h2
        exact ⟨rfl, rfl⟩
  · left
    simp only [hh, if_false] at h
    refine ⟨hh, ?_⟩
    rcases hf : fh.fetch_page_handle fh.file_hdr.first_free_page_no with ⟨r, fh2⟩
    rw [hf] at h
    cases r with
    | error e => simp at h
    | ok ph2 =>
      simp only [Prod.mk.injEq, Except.ok.injEq] at h
      obtain ⟨h1, h2⟩ := h
      subst h1 h2
      obtain ⟨_, _, e1, _, e2⟩ := fetch_page_handle_inv fh fh2 _ ph2 hf
      rw [e2, e1]
      exact ⟨rfl, rfl⟩

theorem unpin_store_pool (fh : RmFileHandle) (ph : RmPageHandle) (p : Int) (d : Bool) :
    ((fh.store ph).unpin p d).pool.pin_count = (fh.unpin p d).pool.pin_count ∧
      ((fh.store ph).unpin p d).pool.is_dirty = (fh.unpin p d).pool.is_dirty := by
  unfold RmFileHandle.unpin RmFileHandle.store PoolView.unpin_page
  simp only
  split <;> exact ⟨rfl, rfl⟩

theorem release_page_handle_pool (fh : RmFileHandle) (ph : RmPageHandle) :
    (fh.release_page_handle ph).1.pool = fh.pool ∧
      (fh.release_page_handle ph).2.page_no = ph.page_no := by
  unfold RmFileHandle.release_page_handle
  split <;> exact ⟨rfl, rfl⟩

/-- The last step of `insert_record`: store the page, unpin it dirty. -/
theorem insert_record_pool (fh fh1 : RmFileHandle) (ph : RmPageHandle) (buf : List Byte)
    (hc : fh.create_page_handle = (.ok ph, fh1)) :
    ∃ (fh2 : RmFileHandle) (ph2 : RmPageHandle), fh2.pool = fh1.pool ∧
      (fh.insert_record buf).2 = (fh2.store ph2).unpin ph.page_no true ∧
      ∃ slot, (fh.insert_record buf).1 = .ok { page_no := ph.page_no, slot_no := slot } := by
  unfold RmFileHandle.insert_record
  rw [hc]
  refine ⟨_, _, ?_, rfl, _, rfl⟩
  simp only
  split <;> rfl

/-- The last step of `delete_record`: store the page, unpin it dirty. -/
theorem delete_record_pool (fh fh1 : RmFileHandle) (ph : RmPageHandle) (rid : Rid)
    (hf : fh.fetch_page_handle rid.page_no = (.ok ph, fh1)) :
    ∃ (fh2 : RmFileHandle) (ph2 : RmPageHandle), fh2.pool = fh1.pool ∧
      fh.delete_record rid = (.ok (), (fh2.store ph2).unpin ph.page_no true) := by
  unfold RmFileHandle.delete_record
  rw [hf]
  refine ⟨_, _, ?_, rfl⟩
  simp only
  split
  · exact (release_page_handle_pool fh1 _).1
  · rfl

/-- The last step of `update_record`: store the page, unpin it dirty. -/
theorem update_record_pool (fh fh1 : RmFileHandle) (ph : RmPageHandle) (rid : Rid)
    (buf : List Byte) (hf : fh.fetch_page_handle rid.page_no = (.ok ph, fh1)) :
    ∃ ph2 : RmPageHandle, fh.update_record rid buf = (.ok (), (fh1.store ph2).unpin ph.page_no true) := by
  unfold RmFileHandle.update_record
  rw [hf]
  exact ⟨_, rfl⟩

/-- A page fetched in a pool with pin counts that are not negative, stored and unpinned dirty:
the pin counts are as before the fetch and the page is dirty. -/
theorem store_unpin_after_fetch (fh fh1 fh2 : RmFileHandle) (ph ph2 : RmPageHandle) (p : Int)
    (hpin : ∀ q, 0 ≤ fh.pool.pin_count q) (hf : fh.fetch_page_handle p = (.ok ph, fh1))
    (h2 : fh2.pool = fh1.pool) :
    ((fh2.store ph2).unpin ph.page_no true).pool.pin_count = fh.pool.pin_count ∧
      ((fh2.store ph2).unpin ph.page_no true).pool.is_dirty p = true ∧
      (∀ q, q ≠ p → ((fh2.store ph2).unpin ph.page_no true).pool.is_dirty q =
        fh.pool.is_dirty q) := by
  obtain ⟨_, _, e1, _, e2⟩ := fetch_page_handle_inv fh fh1 p ph hf
  obtain ⟨s1, s2⟩ := unpin_store_pool fh2 ph2 ph.page_no true
  have hu := unpin_after_fetch fh2 fh.pool.pin_count p true (hpin p)
    (by rw [h2, e2])
  rw [s1, s2, e1, hu.1, hu.2, h2, e2]
  refine ⟨rfl, ?_, ?_⟩
  · simp only [if_true, setAt_same]
  · intro q hq
    simp only [if_true, setAt_other _ _ _ _ hq]

/-- C19 (pin discipline of the heap-file operations): in a file whose pages have pin counts that
are not negative, each of `get_record`, `insert_record`, `delete_record` and `update_record`,
when it returns normally, leaves the pin count of every page as it was, but for the page
`insert_record` created, whose pin count ends as 0; `insert_record`, `delete_record` and
`update_record` leave the page of the record dirty and the dirty flag of every other page as it
was, and `get_record` leaves every dirty flag as it was. -/
theorem heap_pin_discipline (fh : RmFileHandle) (hpin : ∀ p, 0 ≤ fh.pool.pin_count p) :
    (∀ rid rec fh', fh.get_record rid = (.ok rec, fh') →
      fh'.pool.pin_count = fh.pool.pin_count ∧ fh'.pool.is_dirty = fh.pool.is_dirty) ∧
    (∀ buf rid fh', fh.insert_record buf = (.ok rid, fh') →
      (∀ p, p ≠ rid.page_no → fh'.pool.pin_count p = fh.pool.pin_count p) ∧
      (fh.file_hdr.first_free_page_no ≠ RM_NO_PAGE →
        fh'.pool.pin_count rid.page_no = fh.pool.pin_count rid.page_no) ∧
      (fh.file_hdr.first_free_page_no = RM_NO_PAGE → fh'.pool.pin_count rid.page_no = 0) ∧
      fh'.pool.is_dirty rid.page_no = true ∧
      (∀ p, p ≠ rid.page_no → fh'.pool.is_dirty p = fh.pool.is_dirty p)) ∧
    (∀ rid fh', fh.delete_record rid = (.ok (), fh') →
      fh'.pool.pin_count = fh.pool.pin_count ∧ fh'.pool.is_dirty rid.page_no = true ∧
      (∀ p, p ≠ rid.page_no → fh'.pool.is_dirty p = fh.pool.is_dirty p)) ∧
    (∀ rid buf fh', fh.update_record rid buf = (.ok (), fh') →
      fh'.pool.pin_count = fh.pool.pin_count ∧ fh'.pool.is_dirty rid.page_no = true ∧
      (∀ p, p ≠ rid.page_no → fh'.pool.is_dirty p = fh.pool.is_dirty p)) := by
  refine ⟨?_, ?_, ?_, ?_⟩
  · intro rid rec fh' h
    unfold RmFileHandle.get_record at h
    rcases hf : fh.fetch_page_handle rid.page_no with ⟨r, fh1⟩
    rw [hf] at h
    cases r with
    | error e => simp at h
    | ok ph =>
      simp only [Prod.mk.injEq, Except.ok.injEq] at h
      obtain ⟨_, _, e1, _, e2⟩ := fetch_page_handle_inv fh fh1 _ ph hf
      have hu := unpin_after_fetch fh1 fh.pool.pin_count rid.page_no false (hpin _)
        (by rw [e2])
      rw [← h.2, e1]
      refine ⟨hu.1, ?_⟩
      rw [hu.2, e2]
      rfl
  · intro buf rid fh' h
    rcases hc : fh.create_page_handle with ⟨r, fh1⟩
    cases r with
    | error e =>
      unfold RmFileHandle.insert_record at h
      rw [hc] at h
      simp at h
    | ok ph =>
      obtain ⟨fh2, ph2, e1, e2, slot, e3⟩ := insert_record_pool fh fh1 ph buf hc
      rw [h] at e2 e3
      simp only [Except.ok.injEq] at e2 e3
      have hrid : rid.page_no = ph.page_no := by rw [e3]
      obtain ⟨s1, s2⟩ := unpin_store_pool fh2 ph2 ph.page_no true
      rw [e2, s1, s2, hrid]
      rcases create_page_handle_pins fh fh1 ph hc with ⟨c1, c2, c3⟩ | ⟨c1, c2, c3⟩
      · have hu := unpin_after_fetch fh2 fh.pool.pin_count ph.page_no true (hpin _)
          (by rw [e1, c2])
        rw [hu.1, hu.2, e1, c3]
        refine ⟨fun _ _ => rfl, fun _ => rfl, fun h0 => absurd h0 c1, ?_, ?_⟩
        · simp only [if_true, setAt_same]
        · intro q hq
          simp only [if_true, setAt_other _ _ _ _ hq]
      · have hu := unpin_after_new_page fh2 fh.pool.pin_count ph.page_no true
          (by rw [e1, c2])
        rw [hu.1, hu.2, e1, c3]
        refine ⟨fun q hq => setAt_other _ _ _ _ hq, fun h0 => absurd c1 h0,
          fun _ => setAt_same _ _ _, ?_, ?_⟩
        · simp only [if_true, setAt_same]
        · intro q hq
          simp only [if_true, setAt_other _ _ _ _ hq]
  · intro rid fh' h
    rcases hf : fh.fetch_page_handle rid.page_no with ⟨r, fh1⟩
    cases r with
    | error e =>
      unfold RmFileHandle.delete_record at h
      rw [hf] at h
      simp at h
    | ok ph =>
      obtain ⟨fh2, ph2, e1, e2⟩ := delete_record_pool fh fh1 ph rid hf
      rw [h] at e2
      simp only [Prod.mk.injEq, true_and] at e2
      rw [e2]
      exact store_unpin_after_fetch fh fh1 fh2 ph ph2 rid.page_no hpin hf e1
  · intro rid buf fh' h
    rcases hf : fh.fetch_page_handle rid.page_no with ⟨r, fh1⟩
    cases r with
    | error e =>
      unfold RmFileHandle.update_record at h
      rw [hf] at h
      simp at h
    | ok ph =>
      obtain ⟨ph2, e2⟩ := update_record_pool fh fh1 ph rid buf hf
      rw [h] at e2
      simp only [Prod.mk.injEq, true_and] at e2
      rw [e2]
      exact store_unpin_after_fetch fh fh1 fh1 ph ph2 rid.page_no hpin hf rfl
/-- C19, witness: `sparse_page_file` has page 1 on the free list with slots 0, 2, 4 occupied and
all pin counts 0. `insert_record` puts the record in slot 1 of page 1 and leaves the pin count of
page 1 at 0 and the page dirty; `get_record` of that record leaves the pin counts and the dirty
flags as they are. -/
theorem heap_pin_discipline_witness :
    (∀ p, 0 ≤ sparse_page_file.pool.pin_count p) ∧
    (sparse_page_file.insert_record [9]).1 = .ok { page_no := 1, slot_no := 1 } ∧
    (sparse_page_file.insert_record [9]).2.pool.pin_count 1 = 0 ∧
    (sparse_page_file.insert_record [9]).2.pool.is_dirty 1 = true ∧
    (sparse_page_file.get_record { page_no := 1, slot_no := 0 }).1 = .ok [7] ∧
    (sparse_page_file.get_record { page_no := 1, slot_no := 0 }).2.pool.pin_count =
      sparse_page_file.pool.pin_count :=
  have hp : ∀ p, 0 ≤ sparse_page_file.pool.pin_count p := fun _ => le_refl 0
  have h := heap_pin_discipline sparse_page_file hp
  have h1 := h.2.1 [9] { page_no := 1, slot_no := 1 } (sparse_page_file.insert_record [9]).2 rfl
  have h2 := h.1 { page_no := 1, slot_no := 0 } [7]
    (sparse_page_file.get_record { page_no := 1, slot_no := 0 }).2 rfl
  ⟨hp, rfl, h1.2.1 (by decide), h1.2.2.2.1, rfl, h2.1⟩

/-- C20 (pin discipline of the heap scan) fails on the code: a scan of `sparse_page_file`, whose
pages all have pin count 0, visits the three records of page 1 and reaches the end, and leaves
page 1 with pin count 4: the constructor and each of the three calls of `next` fetch page 1 and
none unpins it. The constructor alone leaves pin count 1. -/
theorem scan_leaves_pages_pinned :
    sparse_page_file.pool.pin_count 1 = 0 ∧
    (RmScan.new sparse_page_file).1 = .ok () ∧
    (RmScan.new sparse_page_file).2.rid = { page_no := 1, slot_no := 0 } ∧
    (RmScan.new sparse_page_file).2.file_handle.pool.pin_count 1 = 1 ∧
    (sparse_page_file.scan_all 10).map (fun r => (r.1, r.2.is_end)) =
      some (.ok [{ page_no := 1, slot_no := 0 }, { page_no := 1, slot_no := 2 },
        { page_no := 1, slot_no := 4 }], true) ∧
    (sparse_page_file.scan_all 10).map (fun r => r.2.file_handle.pool.pin_count 1) = some 4 :=
  ⟨rfl, rfl, rfl, rfl, rfl, rfl⟩

/-! ## C28: `fetch_page_handle` on the frames of the pool -/

theorem write_page_error_internal (dm s : DiskManager) (fd page_no : Int) (data : List Byte)
    (e : Error) (h : dm.write_page fd page_no data = (.error e, s)) : e = .InternalError := by
  unfold DiskManager.write_page at h
  by_cases hn : page_no < 0
  · simp only [hn, if_true, Prod.mk.injEq, Except.error.injEq] at h
    exact h.1.symm
  · simp [hn] at h

theorem read_page_error_internal (dm s : DiskManager) (fd page_no : Int) (e : Error)
    (h : dm.read_page fd page_no = (.error e, s)) : e = .InternalError := by
  unfold DiskManager.read_page at h
  by_cases hn : page_no < 0
  · simp only [hn, if_true, Prod.mk.injEq, Except.error.injEq] at h
    exact h.1.symm
  · simp only [hn, if_false] at h
    split at h
    · simp only [Prod.mk.injEq, Except.error.injEq] at h
      exact h.1.symm
    · simp at h

/-- `fetch_page` throws nothing but the `InternalError` of the disk manager. -/
theorem fetch_page_error_internal (bpm s : BufferPoolManager) (id : PageId) (e : Error)
    (h : bpm.fetch_page id = (.error e, s)) : e = .InternalError := by
  unfold BufferPoolManager.fetch_page at h
  cases hf : bpm.page_table.find id with
  | some f => simp [hf] at h
  | none =>
    simp only [hf] at h
    rcases hv : bpm.find_victim_page with ⟨r, bpm1⟩
    cases r with
    | none => simp [hv] at h
    | some v =>
      simp only [hv] at h
      by_cases hd : (bpm1.pages v).is_dirty = true
      · simp only [hd, if_true] at h
        rcases hw : bpm1.disk_manager.write_page (bpm1.pages v).id.fd (bpm1.pages v).id.page_no
            (bpm1.pages v).data with ⟨rw, dmw⟩
        cases rw with
        | error e2 =>
          simp only [hw, Prod.mk.injEq, Except.error.injEq] at h
          rw [← h.1]
          exact write_page_error_internal _ _ _ _ _ _ hw
        | ok u =>
          simp only [hw] at h
          rcases hr : dmw.read_page id.fd id.page_no with ⟨rr, dmr⟩
          cases rr with
          | error e2 =>
            simp only [hr, Prod.mk.injEq, Except.error.injEq] at h
            rw [← h.1]
            exact read_page_error_internal _ _ _ _ _ hr
          | ok d => simp [hr] at h
      · simp only [hd, if_false, Bool.false_eq_true] at h
        rcases hr : bpm1.disk_manager.read_page id.fd id.page_no with ⟨rr, dmr⟩
        cases rr with
        | error e2 =>
          simp only [hr, Prod.mk.injEq, Except.error.injEq] at h
          rw [← h.1]
          exact read_page_error_internal _ _ _ _ _ hr
        | ok d => simp [hr] at h

/-- A `fetch_page` that returns a frame has raised the pin count of the page by one, and the page
table maps the page to that frame. -/
theorem fetch_page_pins_once (bpm s : BufferPoolManager) (id : PageId) (f : Int)
    (h : bpm.fetch_page id = (.ok (some f), s)) :
    s.page_table.find id = some f ∧ s.pin_count_of id = bpm.pin_count_of id + 1 := by
  cases hf : bpm.page_table.find id with
  | some f' =>
    rw [fetch_page_hit bpm id f' hf] at h
    simp only [Prod.mk.injEq, Except.ok.injEq, Option.some.injEq] at h
    obtain ⟨h1, h2⟩ := h
    subst h1
    rw [← h2]
    refine ⟨hf, ?_⟩
    simp only [BufferPoolManager.pin_count_of, hf, setAt_same]
  | none =>
    rcases fetch_page_miss_cases bpm id hf with
      ⟨_, h1⟩ | ⟨v, bpm1, hv, _, _, (⟨e, s', h1, _⟩ | ⟨d, dmw, hw, _, hd, h1⟩)⟩
    · rw [h1] at h
      simp at h
    · rw [h1] at h
      simp at h
    · rw [h1] at h
      simp only [Prod.mk.injEq, Except.ok.injEq, Option.some.injEq] at h
      obtain ⟨h2, h3⟩ := h
      subst h2
      rw [← h3]
      refine ⟨PageTable.find_insert_same _ _ _, ?_⟩
      simp only [BufferPoolManager.pin_count_of, hf, PageTable.find_insert_same, setAt_same]
      rfl

/-- C28 (failure condition of `fetch_page_handle`), on the frames of the pool:
`fetch_page_handle(page_no)` raises `PageNotExistError` if and only if `page_no < 0`, or
`page_no ≥ num_pages`, or the pool's `fetch_page` returns null. Out of range the pool is not
called: the state, and with it every pin count, is as before. In range the state is the one
`fetch_page` leaves, and: when `fetch_page` returns a frame, the result is the handle on that
frame, the page table maps `(fd, page_no)` to it, and the pin count of the page has gone up by
one; when `fetch_page` throws (the `InternalError` of a failed disk transfer), the exception
passes through and no handle is returned. -/
theorem fetch_page_handle_contract (fh : RmFileHandleOnPool) (page_no : Int) :
    (((fh.fetch_page_handle page_no).1 = .error .PageNotExistError) ↔
      (page_no < 0 ∨ page_no ≥ fh.file_hdr_.num_pages ∨
        (fh.buffer_pool_manager_.fetch_page { fd := fh.fd_, page_no := page_no }).1 = .ok none)) ∧
    ((page_no < 0 ∨ page_no ≥ fh.file_hdr_.num_pages) → (fh.fetch_page_handle page_no).2 = fh) ∧
    ((0 ≤ page_no ∧ page_no < fh.file_hdr_.num_pages) →
      (fh.fetch_page_handle page_no).2 =
        { fh with buffer_pool_manager_ :=
            (fh.buffer_pool_manager_.fetch_page { fd := fh.fd_, page_no := page_no }).2 } ∧
      (∀ f, (fh.buffer_pool_manager_.fetch_page { fd := fh.fd_, page_no := page_no }).1 =
          .ok (some f) →
        (fh.fetch_page_handle page_no).1 = .ok f ∧
        (fh.fetch_page_handle page_no).2.buffer_pool_manager_.page_table.find
          { fd := fh.fd_, page_no := page_no } = some f ∧
        (fh.fetch_page_handle page_no).2.buffer_pool_manager_.pin_count_of
            { fd := fh.fd_, page_no := page_no } =
          fh.buffer_pool_manager_.pin_count_of { fd := fh.fd_, page_no := page_no } + 1) ∧
      (∀ e, (fh.buffer_pool_manager_.fetch_page { fd := fh.fd_, page_no := page_no }).1 =
          .error e →
        e = .InternalError ∧ (fh.fetch_page_handle page_no).1 = .error .InternalError)) := by
  by_cases hr : page_no < 0 ∨ page_no ≥ fh.file_hdr_.num_pages
  · have hv : fh.fetch_page_handle page_no = (.error .PageNotExistError, fh) := by
      unfold RmFileHandleOnPool.fetch_page_handle
      simp only [hr, if_true]
    refine ⟨?_, fun _ => by rw [hv], fun h => ?_⟩
    · rw [hv]
      constructor
      · intro _
        rcases hr with h | h
        · exact Or.inl h
        · exact Or.inr (Or.inl h)
      · intro _
        rfl
    · rcases hr with h1 | h1 <;> omega
  · have hr1 : ¬ page_no < 0 := fun h => hr (Or.inl h)
    have hr2 : ¬ page_no ≥ fh.file_hdr_.num_pages := fun h => hr (Or.inr h)
    rcases hfp : fh.buffer_pool_manager_.fetch_page { fd := fh.fd_, page_no := page_no } with
      ⟨res, bpm⟩
    have hv : fh.fetch_page_handle page_no =
        (match res with
          | .error e => .error e
          | .ok none => .error .PageNotExistError
          | .ok (some f) => .ok f, { fh with buffer_pool_manager_ := bpm }) := by
      unfold RmFileHandleOnPool.fetch_page_handle
      simp only [hr, if_false, hfp]
      cases res with
      | error e => rfl
      | ok o =>
        cases o with
        | none => rfl
        | some f => rfl
    rw [hv]
    cases res with
    | error e =>
      have he := fetch_page_error_internal _ _ _ _ hfp
      subst he
      refine ⟨?_, fun h => absurd h hr, fun _ => ⟨rfl, ?_, ?_⟩⟩
      · simp [hr1, hr2]
      · intro f hf
        simp at hf
      · intro e he
        simp only [Except.error.injEq] at he
        exact ⟨he.symm, rfl⟩
    | ok o =>
      cases o with
      | none =>
        refine ⟨?_, fun h => absurd h hr, fun _ => ⟨rfl, ?_, ?_⟩⟩
        · simp
        · intro f hf
          simp at hf
        · intro e he
          simp at he
      | some f =>
        obtain ⟨p1, p2⟩ := fetch_page_pins_once _ _ _ _ hfp
        refine ⟨?_, fun h => absurd h hr, fun _ => ⟨rfl, ?_, ?_⟩⟩
        · simp [hr1, hr2]
        · intro f' hf
          simp only [Except.ok.injEq, Option.some.injEq] at hf
          subst hf
          exact ⟨rfl, p1, p2⟩
        · intro e he
          simp at he

/-- Witness for C28: on a pool of two free frames over `small_disk`, a file of ten pages:
page 4 is handed out pinned once, page 10 is out of range and the pool is left alone. -/
theorem fetch_page_handle_contract_witness :
    (({ truncated_file with file_hdr_ := { truncated_file.file_hdr_ with num_pages := 10 } }
        : RmFileHandleOnPool).fetch_page_handle 4).1 = .ok 0 ∧
    ((({ truncated_file with file_hdr_ := { truncated_file.file_hdr_ with num_pages := 10 } }
        : RmFileHandleOnPool).fetch_page_handle 4).2.buffer_pool_manager_.pin_count_of
      { fd := 3, page_no := 4 } = 1) ∧
    (({ truncated_file with file_hdr_ := { truncated_file.file_hdr_ with num_pages := 10 } }
        : RmFileHandleOnPool).fetch_page_handle 10).1 = .error .PageNotExistError ∧
    (((10 : Int) < 0 ∨ (10 : Int) ≥ 10) →
      (({ truncated_file with file_hdr_ := { truncated_file.file_hdr_ with num_pages := 10 } }
        : RmFileHandleOnPool).fetch_page_handle 10).2 =
      ({ truncated_file with file_hdr_ := { truncated_file.file_hdr_ with num_pages := 10 } }
        : RmFileHandleOnPool)) :=
  ⟨rfl, rfl, rfl,
    (fetch_page_handle_contract
      ({ truncated_file with file_hdr_ := { truncated_file.file_hdr_ with num_pages := 10 } }
        : RmFileHandleOnPool) 10).2.1⟩

/-- Counterexample to C28 as stated: the header of `truncated_file` counts eleven pages, so page
10 is in range, and the pool's `fetch_page` does not return null: it takes a free frame and
throws `InternalError` on the short read. `fetch_page_handle(10)` then neither raises
`PageNotExistError` nor returns a handle. -/
theorem fetch_page_handle_throws_internal :
    ¬ ((10 : Int) < 0 ∨ (10 : Int) ≥ truncated_file.file_hdr_.num_pages ∨
        (truncated_file.buffer_pool_manager_.fetch_page { fd := 3, page_no := 10 }).1 =
          .ok none) ∧
    (truncated_file.fetch_page_handle 10).1 = .error .InternalError ∧
    (truncated_file.fetch_page_handle 10).2.buffer_pool_manager_.free_list = [1] := by
  refine ⟨?_, rfl, rfl⟩
  rintro (h | h | h)
  · exact absurd h (by decide)
  · exact absurd h (by decide)
  · have h2 : (truncated_file.buffer_pool_manager_.fetch_page { fd := 3, page_no := 10 }).1 =
        .error .InternalError := rfl
    rw [h2] at h
    exact Except.noConfusion h

/-! ## Nested-loop join: records and cursor -/

theorem memcpy_length (dst : List Byte) (doff : Nat) (src : List Byte) (n : Nat) :
    (memcpy dst doff src n).length = dst.length := by
  simp [memcpy]

theorem memcpy_getElem (dst : List Byte) (doff : Nat) (src : List Byte) (n i : Nat)
    (h : i < (memcpy dst doff src n).length) :
    (memcpy dst doff src n)[i] =
      if doff ≤ i ∧ i < doff + n then src.getD (i - doff) 0 else dst.getD i 0 := by
  simp [memcpy]

/-- The record `Next` builds: the two copies into a record of `len_` bytes give the left record
followed by the right record. -/
theorem join_record_eq (lhs rhs : List Byte) :
    memcpy (memcpy (RmRecord.alloc (lhs.length + rhs.length)) 0 lhs lhs.length) lhs.length rhs
      rhs.length = lhs ++ rhs := by
  apply List.ext_getElem
  · simp [memcpy_length, RmRecord.alloc]
  · intro i h1 h2
    rw [memcpy_getElem]
    simp only [List.length_append] at h2
    by_cases hi : i < lhs.length
    · have hn : ¬ (lhs.length ≤ i ∧ i < lhs.length + rhs.length) := by omega
      simp only [hn, if_false]
      have h3 : i < (memcpy (RmRecord.alloc (lhs.length + rhs.length)) 0 lhs lhs.length).length := by
        simp [memcpy_length, RmRecord.alloc]; omega
      rw [List.getD_eq_getElem _ _ h3, memcpy_getElem]
      have hy : 0 ≤ i ∧ i < 0 + lhs.length := by omega
      simp only [hy, and_self, if_true, Nat.sub_zero]
      rw [List.getD_eq_getElem _ _ hi, List.getElem_append_left hi]
    · have hy : lhs.length ≤ i ∧ i < lhs.length + rhs.length := by omega
      simp only [hy, and_self, if_true]
      have h3 : i - lhs.length < rhs.length := by omega
      rw [List.getD_eq_getElem _ _ h3, List.getElem_append_right (by omega)]

theorem col_bytes_append_left (lhs rhs : List Byte) (offset len : Nat)
    (h : offset + len ≤ lhs.length) :
    col_bytes (lhs ++ rhs) offset len = col_bytes lhs offset len := by
  unfold col_bytes
  rw [List.drop_append_of_le_length (by omega), List.take_append_of_le_length]
  simp only [List.length_drop]
  omega

theorem col_bytes_append_right (lhs rhs : List Byte) (offset len : Nat) :
    col_bytes (lhs ++ rhs) (offset + lhs.length) len = col_bytes rhs offset len := by
  unfold col_bytes
  rw [Nat.add_comm, List.drop_append]

theorem ChildExecutor.Next_mem (c : ChildExecutor) (row : List Byte) (h : c.Next = some row) :
    row ∈ c.rows := by
  unfold ChildExecutor.Next at h
  exact List.get?_mem h

theorem NestedLoopJoinExecutor.same_refl (j : NestedLoopJoinExecutor) : j.same j :=
  ⟨rfl, rfl, rfl, rfl, rfl, rfl, rfl, rfl, rfl⟩

theorem NestedLoopJoinExecutor.same_trans (j j1 j2 : NestedLoopJoinExecutor)
    (h1 : j.same j1) (h2 : j1.same j2) : j.same j2 :=
  ⟨h2.lrows.trans h1.lrows, h2.rrows.trans h1.rrows, h2.lcols.trans h1.lcols,
    h2.rcols.trans h1.rcols, h2.llen.trans h1.llen, h2.rlen.trans h1.rlen,
    h2.len.trans h1.len, h2.cols.trans h1.cols, h2.conds.trans h1.conds⟩

theorem eval_cond_same (cmp : IxCompare) (j j1 : NestedLoopJoinExecutor) (h : j.same j1)
    (l r : Option (List Byte)) (cond : Condition) :
    j1.eval_cond cmp l r cond = j.eval_cond cmp l r cond := by
  unfold NestedLoopJoinExecutor.eval_cond
  rw [h.lcols, h.rcols]

theorem eval_conds_same (cmp : IxCompare) (j j1 : NestedLoopJoinExecutor) (h : j.same j1)
    (l r : Option (List Byte)) (conds : List Condition) :
    j1.eval_conds cmp l r conds = j.eval_conds cmp l r conds := by
  induction conds with
  | nil => rfl
  | cons c cs ih =>
    simp only [NestedLoopJoinExecutor.eval_conds, eval_cond_same cmp j j1 h, ih]

/-- With conditions that name columns of the children, `eval_conds` on two records returns a
truth value. -/
theorem eval_conds_total (cmp : IxCompare) (j : NestedLoopJoinExecutor) (l r : List Byte)
    (conds : List Condition)
    (h : ∀ cond ∈ conds,
      (∃ c, get_col j.left_.cols cond.lhs_col = .ok c) ∧
      (∃ c, get_col j.right_.cols cond.rhs_col = .ok c)) :
    ∃ b, j.eval_conds cmp (some l) (some r) conds = .ok b := by
  induction conds with
  | nil => exact ⟨true, rfl⟩
  | cons c cs ih =>
    obtain ⟨⟨⟨_, lc⟩, h1⟩, ⟨⟨_, rc⟩, h2⟩⟩ := h c (List.mem_cons_self _ _)
    obtain ⟨b, hb⟩ := ih (fun c' hc' => h c' (List.mem_cons_of_mem _ hc'))
    simp only [NestedLoopJoinExecutor.eval_conds, NestedLoopJoinExecutor.eval_cond, h1, h2]
    cases hop : c.op.holds (cmp (List.drop lc.offset l) (List.drop rc.offset r) rc.type rc.len)
    · exact ⟨false, rfl⟩
    · exact ⟨b, hb⟩

theorem holds_true_iff (x : Except Error Bool) : holds_true x = true ↔ x = .ok true := by
  cases x with
  | error e => simp [holds_true]
  | ok b => cases b <;> simp [holds_true]

theorem holds_true_false_of_ok (x : Except Error Bool) (b : Bool) (h : x = .ok b)
    (hn : holds_true x = false) : x = .ok false := by
  subst h
  cases b
  · rfl
  · simp [holds_true] at hn

theorem inner_loop_same (cmp : IxCompare) (left_rec : Option (List Byte)) :
    ∀ (fuel : Nat) (j j1 : NestedLoopJoinExecutor) (r : Except Error Bool),
      NestedLoopJoinExecutor.inner_loop cmp left_rec fuel j = (r, j1) →
      j.same j1 ∧ j1.left_ = j.left_ ∧ j1.isend = j.isend := by
  intro fuel
  induction fuel with
  | zero =>
    intro j j1 r h
    simp only [NestedLoopJoinExecutor.inner_loop, Prod.mk.injEq] at h
    rw [← h.2]
    exact ⟨j.same_refl, rfl, rfl⟩
  | succ fuel ih =>
    intro j j1 r h
    simp only [NestedLoopJoinExecutor.inner_loop] at h
    by_cases he : j.right_.is_end = false
    · simp only [he, if_true] at h
      cases hv : j.eval_conds cmp left_rec j.right_.Next j.fed_conds_ with
      | error e =>
        simp only [hv, Prod.mk.injEq] at h
        rw [← h.2]
        exact ⟨j.same_refl, rfl, rfl⟩
      | ok b =>
        cases b with
        | true =>
          simp only [hv, Prod.mk.injEq] at h
          rw [← h.2]
          exact ⟨j.same_refl, rfl, rfl⟩
        | false =>
          simp only [hv] at h
          obtain ⟨a, b, c⟩ := ih _ _ _ h
          exact ⟨⟨a.lrows, a.rrows, a.lcols, a.rcols, a.llen, a.rlen, a.len, a.cols, a.conds⟩,
            b, c⟩
    · rw [Bool.not_eq_false] at he
      simp only [he, Bool.true_eq_false, if_false, Prod.mk.injEq] at h
      rw [← h.2]
      exact ⟨j.same_refl, rfl, rfl⟩

theorem outer_loop_same (cmp : IxCompare) :
    ∀ (fuel : Nat) (j j1 : NestedLoopJoinExecutor) (r : Except Error Unit),
      NestedLoopJoinExecutor.outer_loop cmp fuel j = (r, j1) → j.same j1 := by
  intro fuel
  induction fuel with
  | zero =>
    intro j j1 r h
    simp only [NestedLoopJoinExecutor.outer_loop, Prod.mk.injEq] at h
    rw [← h.2]
    exact ⟨rfl, rfl, rfl, rfl, rfl, rfl, rfl, rfl, rfl⟩
  | succ fuel ih =>
    intro j j1 r h
    simp only [NestedLoopJoinExecutor.outer_loop] at h
    by_cases he : j.left_.is_end = false
    · simp only [he, if_true] at h
      rcases hi : NestedLoopJoinExecutor.inner_loop cmp j.left_.Next
          (j.right_.rows.length - j.right_.pos) j with ⟨ri, ji⟩
      obtain ⟨a, _, _⟩ := inner_loop_same cmp _ _ _ _ _ hi
      cases ri with
      | error e =>
        simp only [hi, Prod.mk.injEq] at h
        rw [← h.2]
        exact a
      | ok b =>
        cases b with
        | true =>
          simp only [hi, Prod.mk.injEq] at h
          rw [← h.2]
          exact a
        | false =>
          simp only [hi] at h
          by_cases he2 : ji.left_.nextTuple.is_end = true
          · simp only [he2, if_true, Prod.mk.injEq] at h
            rw [← h.2]
            exact ⟨a.lrows, a.rrows, a.lcols, a.rcols, a.llen, a.rlen, a.len, a.cols, a.conds⟩
          · simp only [he2, if_false, Bool.false_eq_true] at h
            have b := ih _ _ _ h
            exact ⟨b.lrows.trans a.lrows, b.rrows.trans a.rrows, b.lcols.trans a.lcols,
              b.rcols.trans a.rcols, b.llen.trans a.llen, b.rlen.trans a.rlen,
              b.len.trans a.len, b.cols.trans a.cols, b.conds.trans a.conds⟩
    · rw [Bool.not_eq_false] at he
      simp only [he, Bool.true_eq_false, if_false, Prod.mk.injEq] at h
      rw [← h.2]
      exact ⟨rfl, rfl, rfl, rfl, rfl, rfl, rfl, rfl, rfl⟩

theorem nextTuple_same (cmp : IxCompare) (j j1 : NestedLoopJoinExecutor)
    (r : Except Error Unit) (h : j.nextTuple cmp = (r, j1)) : j.same j1 := by
  unfold NestedLoopJoinExecutor.nextTuple at h
  have a := outer_loop_same cmp _ _ _ _ h
  by_cases he : j.right_.is_end = false
  · simp only [he, if_true] at a
    exact ⟨a.lrows, a.rrows, a.lcols, a.rcols, a.llen, a.rlen, a.len, a.cols, a.conds⟩
  · rw [Bool.not_eq_false] at he
    simp only [he, Bool.true_eq_false, if_false] at a
    exact a

/-- A record that `Next` returns is built from the records under the cursors of the state it
leaves. -/
theorem Next_record (cmp : IxCompare) :
    ∀ (fuel : Nat) (j j1 : NestedLoopJoinExecutor) (rec : List Byte),
      NestedLoopJoinExecutor.Next cmp fuel j = some (.ok (some rec), j1) →
      j.same j1 ∧ ∃ lhs rhs, j1.left_.Next = some lhs ∧ j1.right_.Next = some rhs ∧
        rec = memcpy (memcpy (RmRecord.alloc j1.len_) 0 lhs j1.left_.len) j1.left_.len rhs
          j1.right_.len := by
  intro fuel
  induction fuel with
  | zero =>
    intro j j1 rec h
    simp only [NestedLoopJoinExecutor.Next] at h
    split at h <;> simp at h
  | succ fuel ih =>
    intro j j1 rec h
    simp only [NestedLoopJoinExecutor.Next] at h
    by_cases hend : j.isend = true
    · simp [hend] at h
    · simp only [hend, if_false, Bool.false_eq_true] at h
      cases hv : j.eval_conds cmp j.left_.Next j.right_.Next j.fed_conds_ with
      | error e => simp [hv] at h
      | ok b =>
        cases b with
        | true =>
          simp only [hv] at h
          cases hl : j.left_.Next with
          | none => simp [hl] at h
          | some lhs =>
            cases hr : j.right_.Next with
            | none => simp [hl, hr] at h
            | some rhs =>
              simp only [hl, hr, Option.some.injEq, Prod.mk.injEq, Except.ok.injEq] at h
              obtain ⟨h1, h2⟩ := h
              subst h2
              exact ⟨j.same_refl, lhs, rhs, hl, hr, h1.symm⟩
        | false =>
          simp only [hv] at h
          rcases hn : j.nextTuple cmp with ⟨rn, jn⟩
          have a := nextTuple_same cmp _ _ _ hn
          cases rn with
          | error e => simp [hn] at h
          | ok u =>
            simp only [hn] at h
            obtain ⟨b, c⟩ := ih _ _ _ h
            exact ⟨j.same_trans jn j1 a b, c⟩

/-- C27 (join schema and record layout): the columns of the join are the columns of the left
child followed by the columns of the right child, each with its offset increased by
`left.tupleLen()` and nothing else changed; `tupleLen()` is the sum of the tuple lengths of the
children; and in every state of the join (any position of the cursors, rows of the children of
their tuple lengths) a record that `Next()` returns is the current record of the left child
followed by the current record of the right child, has `tupleLen()` bytes, and read at a column of
the join gives the bytes of the column of the child: at the same offset for a left column, at the
offset increased by `left.tupleLen()` for a right column. -/
theorem join_schema_and_layout (left right : ChildExecutor) (conds : List Condition) :
    (NestedLoopJoinExecutor.new left right conds).cols_ =
      left.cols ++ right.cols.map (fun col => { col with offset := col.offset + left.len }) ∧
    (NestedLoopJoinExecutor.new left right conds).len_ = left.len + right.len ∧
    (∀ (cmp : IxCompare) (fuel : Nat) (j j1 : NestedLoopJoinExecutor) (rec : List Byte),
      (NestedLoopJoinExecutor.new left right conds).same j →
      (∀ row ∈ left.rows, row.length = left.len) →
      (∀ row ∈ right.rows, row.length = right.len) →
      NestedLoopJoinExecutor.Next cmp fuel j = some (.ok (some rec), j1) →
      ∃ lhs rhs, j1.left_.Next = some lhs ∧ j1.right_.Next = some rhs ∧
        rec = lhs ++ rhs ∧ lhs.length = left.len ∧ rhs.length = right.len ∧
        rec.length = (NestedLoopJoinExecutor.new left right conds).len_ ∧
        (∀ col ∈ left.cols, col.offset + col.len ≤ left.len →
          col_bytes rec col.offset col.len = col_bytes lhs col.offset col.len) ∧
        (∀ col ∈ right.cols,
          col_bytes rec (col.offset + left.len) col.len = col_bytes rhs col.offset col.len)) := by
  refine ⟨rfl, rfl, ?_⟩
  intro cmp fuel j j1 rec hs hl hr h
  obtain ⟨a, lhs, rhs, e1, e2, e3⟩ := Next_record cmp fuel j j1 rec h
  have b := (NestedLoopJoinExecutor.new left right conds).same_trans j j1 hs a
  have hll : lhs.length = left.len := by
    apply hl
    have := ChildExecutor.Next_mem _ _ e1
    rw [b.lrows] at this
    exact this
  have hrl : rhs.length = right.len := by
    apply hr
    have := ChildExecutor.Next_mem _ _ e2
    rw [b.rrows] at this
    exact this
  have hrec : rec = lhs ++ rhs := by
    rw [e3, b.len, b.llen, b.rlen]
    show memcpy (memcpy (RmRecord.alloc (left.len + right.len)) 0 lhs left.len) left.len rhs
      right.len = lhs ++ rhs
    rw [← hll, ← hrl]
    exact join_record_eq lhs rhs
  refine ⟨lhs, rhs, e1, e2, hrec, hll, hrl, ?_, ?_, ?_⟩
  · rw [hrec, List.length_append, hll, hrl]
    rfl
  · intro col _ hc
    rw [hrec]
    exact col_bytes_append_left _ _ _ _ (by omega)
  · intro col _
    rw [hrec, ← hll]
    exact col_bytes_append_right _ _ _ _

/-- Witness for C27: the join of `R(x)` and `S(y)` has the columns `R.x` at offset 0 and `S.y` at
offset 4 and tuple length 8, and on the pair of rows `(1, 1)` its `Next()` returns the eight bytes
of the two rows, whose first four and last four bytes are the two columns. -/
theorem join_schema_and_layout_witness :
    (NestedLoopJoinExecutor.new join_left join_right [join_cond]).cols_ =
      [int_col "R" "x", { int_col "S" "y" with offset := 4 }] ∧
    NestedLoopJoinExecutor.Next le_compare 2
        (NestedLoopJoinExecutor.new join_left join_right [join_cond]).beginTuple =
      some (.ok (some [1, 0, 0, 0, 1, 0, 0, 0]),
        (NestedLoopJoinExecutor.new join_left join_right [join_cond]).beginTuple) ∧
    ∃ lhs rhs,
      (NestedLoopJoinExecutor.new join_left join_right [join_cond]).beginTuple.left_.Next =
        some lhs ∧
      (NestedLoopJoinExecutor.new join_left join_right [join_cond]).beginTuple.right_.Next =
        some rhs ∧
      [1, 0, 0, 0, 1, 0, 0, 0] = lhs ++ rhs ∧ lhs.length = join_left.len ∧
      rhs.length = join_right.len ∧
      ([1, 0, 0, 0, 1, 0, 0, 0] : List Byte).length =
        (NestedLoopJoinExecutor.new join_left join_right [join_cond]).len_ ∧
      (∀ col ∈ join_left.cols, col.offset + col.len ≤ join_left.len →
        col_bytes [1, 0, 0, 0, 1, 0, 0, 0] col.offset col.len =
          col_bytes lhs col.offset col.len) ∧
      (∀ col ∈ join_right.cols,
        col_bytes [1, 0, 0, 0, 1, 0, 0, 0] (col.offset + join_left.len) col.len =
          col_bytes rhs col.offset col.len) :=
  ⟨rfl, rfl,
    (join_schema_and_layout join_left join_right [join_cond]).2.2 le_compare 2
      (NestedLoopJoinExecutor.new join_left join_right [join_cond]).beginTuple
      (NestedLoopJoinExecutor.new join_left join_right [join_cond]).beginTuple
      [1, 0, 0, 0, 1, 0, 0, 0] ⟨rfl, rfl, rfl, rfl, rfl, rfl, rfl, rfl, rfl⟩
      (by decide) (by decide) rfl⟩

/-! ## Nested-loop join: the driver -/

theorem row_matches_same (cmp : IxCompare) (j j1 : NestedLoopJoinExecutor) (h : j.same j1)
    (lhs : List Byte) (rights : List (List Byte)) :
    j1.row_matches cmp lhs rights = j.row_matches cmp lhs rights := by
  unfold NestedLoopJoinExecutor.row_matches
  simp only [h.conds, eval_conds_same cmp j j1 h]

theorem todo_at_same (cmp : IxCompare) (j j1 : NestedLoopJoinExecutor) (h : j.same j1)
    (i k : Nat) : j1.todo_at cmp i k = j.todo_at cmp i k := by
  unfold NestedLoopJoinExecutor.todo_at
  simp only [h.lrows, h.rrows, row_matches_same cmp j j1 h]

theorem todo_same (cmp : IxCompare) (j j1 : NestedLoopJoinExecutor) (h : j.same j1)
    (hl : j1.left_.pos = j.left_.pos) (hr : j1.right_.pos = j.right_.pos) :
    j1.todo cmp = j.todo cmp := by
  unfold NestedLoopJoinExecutor.todo
  rw [todo_at_same cmp j j1 h, hl, hr]

theorem well_formed_same (j j1 : NestedLoopJoinExecutor) (h : j.same j1)
    (hw : j.well_formed) : j1.well_formed := by
  obtain ⟨a, b, c, d⟩ := hw
  refine ⟨?_, ?_, ?_, ?_⟩
  · intro cond hc
    rw [h.lcols, h.rcols]
    rw [h.conds] at hc
    exact a cond hc
  · rw [h.lrows, h.llen]
    exact b
  · rw [h.rrows, h.rlen]
    exact c
  · rw [h.len, h.llen, h.rlen]
    exact d

theorem row_matches_cons (cmp : IxCompare) (j : NestedLoopJoinExecutor) (lhs rhs : List Byte)
    (rest : List (List Byte)) :
    j.row_matches cmp lhs (rhs :: rest) =
      (if holds_true (j.eval_conds cmp (some lhs) (some rhs) j.fed_conds_) = true
        then [lhs ++ rhs] else []) ++ j.row_matches cmp lhs rest := by
  unfold NestedLoopJoinExecutor.row_matches
  by_cases h : holds_true (j.eval_conds cmp (some lhs) (some rhs) j.fed_conds_) = true
  · simp [h]
  · simp [h]

theorem get?_some_getElem {α : Type} (l : List α) (n : Nat) (h : n < l.length) :
    l.get? n = some l[n] := by
  simp [h]

theorem get?_some_lt {α : Type} (l : List α) (n : Nat) (a : α) (h : l.get? n = some a) :
    ∃ hn : n < l.length, l[n] = a := by
  obtain ⟨hk, hk2⟩ := List.get?_eq_some.mp h
  exact ⟨hk, by rw [← hk2]; rfl⟩

theorem todo_at_end (cmp : IxCompare) (j : NestedLoopJoinExecutor) (i k : Nat)
    (h : j.left_.rows.length ≤ i) : j.todo_at cmp i k = [] := by
  unfold NestedLoopJoinExecutor.todo_at
  have h1 : j.left_.rows.get? i = none := List.get?_eq_none.mpr h
  have h2 : List.drop (i + 1) j.left_.rows = [] := List.drop_eq_nil_of_le (by omega)
  rw [h1, h2]
  rfl

/-- Moving from the end of the right rows to the start of the next left row leaves what is to be
emitted as it is. -/
theorem todo_at_next_row (cmp : IxCompare) (j : NestedLoopJoinExecutor) (i k : Nat)
    (hk : j.right_.rows.length ≤ k) :
    j.todo_at cmp i k = j.todo_at cmp (i + 1) 0 := by
  unfold NestedLoopJoinExecutor.todo_at
  have h0 : List.drop k j.right_.rows = [] := List.drop_eq_nil_of_le hk
  have h1 : (match j.left_.rows.get? i with
      | none => []
      | some lhs => j.row_matches cmp lhs (j.right_.rows.drop k)) = [] := by
    rw [h0]
    cases j.left_.rows.get? i <;> rfl
  rw [h1, List.nil_append, List.drop_zero]
  by_cases hi : i + 1 < j.left_.rows.length
  · rw [List.drop_eq_getElem_cons hi, List.flatMap_cons, get?_some_getElem _ _ hi]
  · have h2 : List.drop (i + 1) j.left_.rows = [] := List.drop_eq_nil_of_le (by omega)
    have h3 : j.left_.rows.get? (i + 1) = none := List.get?_eq_none.mpr (by omega)
    have h4 : List.drop (i + 1 + 1) j.left_.rows = [] := List.drop_eq_nil_of_le (by omega)
    rw [h2, h3, h4]
    rfl

/-- A step of the right cursor: the pair left behind is what is emitted first if it satisfies the
conditions. -/
theorem todo_at_step (cmp : IxCompare) (j : NestedLoopJoinExecutor) (i k : Nat)
    (lhs rhs : List Byte) (hl : j.left_.rows.get? i = some lhs)
    (hr : j.right_.rows.get? k = some rhs) :
    j.todo_at cmp i k =
      (if holds_true (j.eval_conds cmp (some lhs) (some rhs) j.fed_conds_) = true
        then [lhs ++ rhs] else []) ++ j.todo_at cmp i (k + 1) := by
  unfold NestedLoopJoinExecutor.todo_at
  obtain ⟨hk, hk2⟩ := get?_some_lt _ _ _ hr
  rw [hl]
  simp only
  rw [List.drop_eq_getElem_cons hk, hk2, row_matches_cons, List.append_assoc]

theorem ChildExecutor.is_end_false (c : ChildExecutor) (h : c.pos < c.rows.length) :
    c.is_end = false := by
  unfold ChildExecutor.is_end
  simp only [decide_eq_false_iff_not]
  omega

theorem ChildExecutor.is_end_true (c : ChildExecutor) (h : c.rows.length ≤ c.pos) :
    c.is_end = true := by
  unfold ChildExecutor.is_end
  simp only [decide_eq_true_eq]
  exact h

theorem ChildExecutor.Next_lt (c : ChildExecutor) (row : List Byte) (h : c.Next = some row) :
    c.pos < c.rows.length :=
  (get?_some_lt _ _ _ h).1

/-- The inner loop of `nextTuple`: it returns, leaving what is to be emitted as it is, either on
the first right row from the cursor on that satisfies the conditions with the left row, or at the
end of the right rows. -/
theorem inner_loop_spec (cmp : IxCompare) (lhs : List Byte) :
    ∀ (fuel : Nat) (j : NestedLoopJoinExecutor), j.resolves → j.left_.Next = some lhs →
      j.right_.pos + fuel = j.right_.rows.length →
      ∃ j1 b, NestedLoopJoinExecutor.inner_loop cmp (some lhs) fuel j = (.ok b, j1) ∧
        j.same j1 ∧ j1.left_ = j.left_ ∧ j1.isend = j.isend ∧ j1.todo cmp = j.todo cmp ∧
        ((b = true ∧ ∃ rhs, j1.right_.Next = some rhs ∧
            j1.eval_conds cmp (some lhs) (some rhs) j1.fed_conds_ = .ok true) ∨
          (b = false ∧ j1.right_.pos = j1.right_.rows.length)) := by
  intro fuel
  induction fuel with
  | zero =>
    intro j _ _ hk
    exact ⟨j, false, rfl, j.same_refl, rfl, rfl, rfl, Or.inr ⟨rfl, by omega⟩⟩
  | succ fuel ih =>
    intro j hres hl hk
    have hlt : j.right_.pos < j.right_.rows.length := by omega
    have hr : j.right_.Next = some j.right_.rows[j.right_.pos] := get?_some_getElem _ _ hlt
    obtain ⟨b, hb⟩ := eval_conds_total cmp j lhs j.right_.rows[j.right_.pos] j.fed_conds_ hres
    simp only [NestedLoopJoinExecutor.inner_loop, ChildExecutor.is_end_false _ hlt, if_true, hr,
      hb]
    cases b with
    | true =>
      exact ⟨j, true, rfl, j.same_refl, rfl, rfl, rfl, Or.inl ⟨rfl, _, hr, hb⟩⟩
    | false =>
      simp only
      obtain ⟨j1, b1, e1, e2, e3, e4, e5, e6⟩ := ih { j with right_ := j.right_.nextTuple }
        hres hl (by simp only [ChildExecutor.nextTuple]; omega)
      refine ⟨j1, b1, e1, ?_, e3, e4, ?_, e6⟩
      · exact ⟨e2.lrows, e2.rrows, e2.lcols, e2.rcols, e2.llen, e2.rlen, e2.len, e2.cols,
          e2.conds⟩
      · rw [e5]
        unfold NestedLoopJoinExecutor.todo
        have hs : j.same { j with right_ := j.right_.nextTuple } :=
          ⟨rfl, rfl, rfl, rfl, rfl, rfl, rfl, rfl, rfl⟩
        rw [todo_at_same cmp j _ hs]
        rw [todo_at_step cmp j j.left_.pos j.right_.pos lhs _ hl hr, hb]
        rfl

/-- The outer loop of `nextTuple`: it returns, leaving what is to be emitted as it is, either on
the first pair from the cursors on that satisfies the conditions, or with `isend` set and the left
child at its end when there is no such pair. -/
theorem outer_loop_spec (cmp : IxCompare) :
    ∀ (fuel : Nat) (j : NestedLoopJoinExecutor), j.resolves →
      j.left_.pos + fuel = j.left_.rows.length → j.right_.pos ≤ j.right_.rows.length →
      ∃ j1, NestedLoopJoinExecutor.outer_loop cmp fuel j = (.ok (), j1) ∧ j.same j1 ∧
        j1.todo cmp = j.todo cmp ∧
        ((j1.isend = true ∧ j1.left_.is_end = true ∧ j.todo cmp = []) ∨
          (j1.isend = j.isend ∧ ∃ lhs rhs, j1.left_.Next = some lhs ∧
            j1.right_.Next = some rhs ∧
            j1.eval_conds cmp (some lhs) (some rhs) j1.fed_conds_ = .ok true)) := by
  intro fuel
  induction fuel with
  | zero =>
    intro j _ hi _
    refine ⟨{ j with isend := true }, rfl, ⟨rfl, rfl, rfl, rfl, rfl, rfl, rfl, rfl, rfl⟩,
      todo_same cmp j _ ⟨rfl, rfl, rfl, rfl, rfl, rfl, rfl, rfl, rfl⟩ rfl rfl,
      Or.inl ⟨rfl, ChildExecutor.is_end_true _ (by simp only; omega), ?_⟩⟩
    exact todo_at_end cmp j _ _ (by omega)
  | succ fuel ih =>
    intro j hres hi hk
    have hlt : j.left_.pos < j.left_.rows.length := by omega
    have hl : j.left_.Next = some j.left_.rows[j.left_.pos] := get?_some_getElem _ _ hlt
    obtain ⟨ji, b, e1, e2, e3, e4, e5, e6⟩ := inner_loop_spec cmp _
      (j.right_.rows.length - j.right_.pos) j hres hl (by omega)
    simp only [NestedLoopJoinExecutor.outer_loop, ChildExecutor.is_end_false _ hlt, if_true, hl,
      e1]
    rcases e6 with ⟨hb, rhs, hr, hv⟩ | ⟨hb, hend⟩
    · subst hb
      refine ⟨ji, rfl, e2, e5, Or.inr ⟨e4, _, rhs, ?_, hr, hv⟩⟩
      rw [e3]
      exact hl
    · subst hb
      simp only
      have hji : ji.todo cmp = ji.todo_at cmp (j.left_.pos + 1) 0 := by
        unfold NestedLoopJoinExecutor.todo
        rw [e3]
        exact todo_at_next_row cmp ji _ _ (by omega)
      by_cases hle : ji.left_.nextTuple.is_end = true
      · simp only [hle, if_true]
        have hge : j.left_.rows.length ≤ j.left_.pos + 1 := by
          unfold ChildExecutor.is_end ChildExecutor.nextTuple at hle
          simp only [decide_eq_true_eq, e3] at hle
          exact hle
        have hz : ji.todo cmp = [] := by
          rw [hji]
          exact todo_at_end cmp ji _ _ (by rw [e2.lrows]; exact hge)
        refine ⟨_, rfl, ⟨e2.lrows, e2.rrows, e2.lcols, e2.rcols, e2.llen, e2.rlen, e2.len,
          e2.cols, e2.conds⟩, ?_, Or.inl ⟨rfl, hle, ?_⟩⟩
        · rw [← e5, hz]
          exact todo_at_end cmp _ _ _ (by
            show ji.left_.rows.length ≤ ji.left_.pos + 1
            rw [e2.lrows, e3]
            exact hge)
        · rw [← e5]
          exact hz
      · simp only [hle, if_false, Bool.false_eq_true]
        have hlt2 : j.left_.pos + 1 < j.left_.rows.length := by
          unfold ChildExecutor.is_end ChildExecutor.nextTuple at hle
          simp only [decide_eq_true_eq, e3] at hle
          omega
        have hres1 : ji.resolves := by
          intro cond hc
          rw [e2.lcols, e2.rcols]
          rw [e2.conds] at hc
          exact hres cond hc
        obtain ⟨j1, f1, f2, f3, f4⟩ := ih
          { ji with left_ := ji.left_.nextTuple, right_ := ji.right_.beginTuple } hres1
          (by
            show ji.left_.pos + 1 + fuel = ji.left_.rows.length
            rw [e3]
            omega)
          (by
            show 0 ≤ ji.right_.rows.length
            omega)
        have hs : ji.same { ji with left_ := ji.left_.nextTuple, right_ := ji.right_.beginTuple } :=
          ⟨rfl, rfl, rfl, rfl, rfl, rfl, rfl, rfl, rfl⟩
        have ht : NestedLoopJoinExecutor.todo cmp
            { ji with left_ := ji.left_.nextTuple, right_ := ji.right_.beginTuple } =
            j.todo cmp := by
          rw [← e5, hji]
          unfold NestedLoopJoinExecutor.todo
          rw [todo_at_same cmp ji _ hs]
          show ji.todo_at cmp (ji.left_.pos + 1) 0 = _
          rw [e3]
        refine ⟨j1, f1, j.same_trans _ _ (j.same_trans _ _ e2 hs) f2, ?_, ?_⟩
        · rw [f3, ht]
        · rcases f4 with ⟨g1, g2, g3⟩ | ⟨g1, g2⟩
          · exact Or.inl ⟨g1, g2, by rw [← ht]; exact g3⟩
          · refine Or.inr ⟨?_, g2⟩
            rw [g1]
            exact e4

/-- `nextTuple` from a pair of rows: the pair is left behind, and the join is either on the next
pair that satisfies the conditions or at its end. -/
theorem nextTuple_spec (cmp : IxCompare) (j : NestedLoopJoinExecutor) (hres : j.resolves)
    (lhs rhs : List Byte) (hl : j.left_.Next = some lhs) (hr : j.right_.Next = some rhs) :
    ∃ j1, j.nextTuple cmp = (.ok (), j1) ∧ j.same j1 ∧
      j.todo cmp =
        (if holds_true (j.eval_conds cmp (some lhs) (some rhs) j.fed_conds_) = true
          then [lhs ++ rhs] else []) ++ j1.todo cmp ∧
      ((j1.isend = true ∧ j1.left_.is_end = true ∧ j1.todo cmp = []) ∨
        (j1.isend = j.isend ∧ ∃ l r, j1.left_.Next = some l ∧ j1.right_.Next = some r ∧
          j1.eval_conds cmp (some l) (some r) j1.fed_conds_ = .ok true)) := by
  have hi := ChildExecutor.Next_lt _ _ hl
  have hk := ChildExecutor.Next_lt _ _ hr
  have hs : j.same { j with right_ := j.right_.nextTuple } :=
    ⟨rfl, rfl, rfl, rfl, rfl, rfl, rfl, rfl, rfl⟩
  obtain ⟨j1, e1, e2, e3, e4⟩ := outer_loop_spec cmp (j.left_.rows.length - j.left_.pos)
    { j with right_ := j.right_.nextTuple } hres
    (by
      show j.left_.pos + (j.left_.rows.length - j.left_.pos) = j.left_.rows.length
      omega)
    (by
      show j.right_.pos + 1 ≤ j.right_.rows.length
      omega)
  have ht : NestedLoopJoinExecutor.todo cmp { j with right_ := j.right_.nextTuple } =
      j.todo_at cmp j.left_.pos (j.right_.pos + 1) := by
    unfold NestedLoopJoinExecutor.todo
    rw [todo_at_same cmp j _ hs]
    rfl
  refine ⟨j1, ?_, j.same_trans _ _ hs e2, ?_, ?_⟩
  · unfold NestedLoopJoinExecutor.nextTuple
    simp only [ChildExecutor.is_end_false _ hk, if_true]
    exact e1
  · rw [e3, ht]
    exact todo_at_step cmp j _ _ lhs rhs hl hr
  · rcases e4 with ⟨g1, g2, g3⟩ | ⟨g1, g2⟩
    · exact Or.inl ⟨g1, g2, by rw [e3]; exact g3⟩
    · exact Or.inr ⟨g1, g2⟩

/-- `Next` on a pair that satisfies the conditions returns the left record followed by the right
record and moves nothing. -/
theorem Next_at_match (cmp : IxCompare) (j : NestedLoopJoinExecutor) (hw : j.well_formed)
    (hend : j.isend = false) (lhs rhs : List Byte) (hl : j.left_.Next = some lhs)
    (hr : j.right_.Next = some rhs)
    (hv : j.eval_conds cmp (some lhs) (some rhs) j.fed_conds_ = .ok true) (fuel : Nat) :
    NestedLoopJoinExecutor.Next cmp (fuel + 1) j = some (.ok (some (lhs ++ rhs)), j) := by
  obtain ⟨_, a, b, c⟩ := hw
  simp only [NestedLoopJoinExecutor.Next, hend, Bool.false_eq_true, if_false, hl, hr, hv]
  rw [c, ← a lhs (ChildExecutor.Next_mem _ _ hl), ← b rhs (ChildExecutor.Next_mem _ _ hr),
    join_record_eq]

/-- `Next` on a pair of rows with something left to emit returns after at most two rounds of its
loop, on the first pair from the cursors on that satisfies the conditions, with that pair
concatenated. -/
theorem Next_spec (cmp : IxCompare) (j : NestedLoopJoinExecutor) (hw : j.well_formed)
    (hend : j.isend = false) (lhs rhs : List Byte) (hl : j.left_.Next = some lhs)
    (hr : j.right_.Next = some rhs) (hne : j.todo cmp ≠ []) (fuel : Nat) :
    ∃ j1 l r, NestedLoopJoinExecutor.Next cmp (fuel + 2) j = some (.ok (some (l ++ r)), j1) ∧
      j.same j1 ∧ j1.isend = false ∧ j1.left_.Next = some l ∧ j1.right_.Next = some r ∧
      j1.eval_conds cmp (some l) (some r) j1.fed_conds_ = .ok true ∧
      j1.todo cmp = j.todo cmp := by
  obtain ⟨b, hb⟩ := eval_conds_total cmp j lhs rhs j.fed_conds_ hw.1
  cases b with
  | true =>
    exact ⟨j, lhs, rhs, Next_at_match cmp j hw hend lhs rhs hl hr hb (fuel + 1), j.same_refl,
      hend, hl, hr, hb, rfl⟩
  | false =>
    obtain ⟨j1, e1, e2, e3, e4⟩ := nextTuple_spec cmp j hw.1 lhs rhs hl hr
    have ht : j1.todo cmp = j.todo cmp := by
      rw [e3, hb]
      rfl
    rcases e4 with ⟨_, _, g3⟩ | ⟨g1, l, r, g2, g3, g4⟩
    · rw [ht] at g3
      exact absurd g3 hne
    · refine ⟨j1, l, r, ?_, e2, by rw [g1]; exact hend, g2, g3, g4, ht⟩
      have hn : NestedLoopJoinExecutor.Next cmp (fuel + 1 + 1) j =
          NestedLoopJoinExecutor.Next cmp (fuel + 1) j1 := by
        simp only [NestedLoopJoinExecutor.Next, hend, Bool.false_eq_true, if_false, hl, hr, hb, e1]
      rw [hn]
      exact Next_at_match cmp j1 (well_formed_same j j1 e2 hw) (by rw [g1]; exact hend) l r g2 g3
        g4 fuel

/-- The loop of the driver emits what is left to emit and ends with `is_end()` true. -/
theorem drive_loop_spec (cmp : IxCompare) (next_fuel : Nat) :
    ∀ (fuel : Nat) (j : NestedLoopJoinExecutor), j.well_formed →
      (j.left_.is_end = true ∨
        (j.isend = false ∧ (∃ rhs, j.right_.Next = some rhs) ∧ j.todo cmp ≠ [])) →
      (j.todo cmp).length ≤ fuel →
      ∃ j1, NestedLoopJoinExecutor.drive_loop cmp (next_fuel + 2) fuel j =
          some (.ok ((j.todo cmp).map some), j1) ∧ j.same j1 ∧ j1.is_end = true := by
  intro fuel
  induction fuel with
  | zero =>
    intro j _ hinv hlen
    rcases hinv with h | ⟨_, _, h⟩
    · have hz : j.todo cmp = [] := by
        unfold ChildExecutor.is_end at h
        simp only [decide_eq_true_eq] at h
        exact todo_at_end cmp j _ _ h
      refine ⟨j, ?_, j.same_refl, h⟩
      simp only [NestedLoopJoinExecutor.drive_loop, NestedLoopJoinExecutor.is_end, h, if_true, hz,
        List.map_nil]
    · exact absurd (List.length_eq_zero.mp (by omega)) h
  | succ fuel ih =>
    intro j hw hinv hlen
    by_cases hend : j.left_.is_end = true
    · have hz : j.todo cmp = [] := by
        unfold ChildExecutor.is_end at hend
        simp only [decide_eq_true_eq] at hend
        exact todo_at_end cmp j _ _ hend
      refine ⟨j, ?_, j.same_refl, hend⟩
      simp only [NestedLoopJoinExecutor.drive_loop, NestedLoopJoinExecutor.is_end, hend, if_true,
        hz, List.map_nil]
    · rcases hinv with h | ⟨h1, ⟨rhs, hr⟩, h3⟩
      · exact absurd h hend
      · have hlt : j.left_.pos < j.left_.rows.length := by
          unfold ChildExecutor.is_end at hend
          simp only [decide_eq_true_eq] at hend
          omega
        have hl : j.left_.Next = some j.left_.rows[j.left_.pos] := get?_some_getElem _ _ hlt
        obtain ⟨j1, l, r, e1, e2, e3, e4, e5, e6, e7⟩ :=
          Next_spec cmp j hw h1 _ rhs hl hr h3 next_fuel
        have hw1 := well_formed_same j j1 e2 hw
        obtain ⟨j2, f1, f2, f3, f4⟩ := nextTuple_spec cmp j1 hw1.1 l r e4 e5
        rw [e6] at f3
        simp only [holds_true, if_true, List.singleton_append] at f3
        have hw2 := well_formed_same j1 j2 f2 hw1
        have hlen2 : (j2.todo cmp).length ≤ fuel := by
          rw [← e7, f3] at hlen
          simp only [List.length_cons] at hlen
          omega
        have hinv2 : j2.left_.is_end = true ∨
            (j2.isend = false ∧ (∃ rhs, j2.right_.Next = some rhs) ∧ j2.todo cmp ≠ []) := by
          rcases f4 with ⟨_, g, _⟩ | ⟨g1, l2, r2, g2, g3, g4⟩
          · exact Or.inl g
          · refine Or.inr ⟨by rw [g1]; exact e3, ⟨r2, g3⟩, ?_⟩
            unfold NestedLoopJoinExecutor.todo
            rw [todo_at_step cmp j2 _ _ l2 r2 g2 g3, g4]
            simp [holds_true]
        obtain ⟨j3, k1, k2, k3⟩ := ih j2 hw2 hinv2 hlen2
        refine ⟨j3, ?_, j.same_trans _ _ (j.same_trans _ _ e2 f2) k2, k3⟩
        have hne : j.is_end = false := by
          unfold NestedLoopJoinExecutor.is_end
          simpa using hend
        simp only [NestedLoopJoinExecutor.drive_loop, hne, Bool.false_eq_true, if_false, e1, f1,
          k1]
        rw [← e7, f3]
        rfl

theorem todo_at_zero (cmp : IxCompare) (j : NestedLoopJoinExecutor) :
    j.todo_at cmp 0 0 = j.matches cmp := by
  unfold NestedLoopJoinExecutor.todo_at NestedLoopJoinExecutor.matches
  cases h : j.left_.rows with
  | nil => rfl
  | cons l rest => simp [List.flatMap_cons]

theorem mem_matches (cmp : IxCompare) (j : NestedLoopJoinExecutor) (lhs rhs : List Byte)
    (hl : lhs ∈ j.left_.rows) (hr : rhs ∈ j.right_.rows)
    (hv : j.eval_conds cmp (some lhs) (some rhs) j.fed_conds_ = .ok true) :
    lhs ++ rhs ∈ j.matches cmp := by
  unfold NestedLoopJoinExecutor.matches NestedLoopJoinExecutor.row_matches
  simp only [List.mem_flatMap, List.mem_map, List.mem_filter]
  exact ⟨lhs, hl, rhs, ⟨hr, by rw [hv]; rfl⟩, rfl⟩

/-- On rows that are there, `eval_conds` of the join says of a pair what the predicates say of
it. -/
theorem eval_conds_pair_satisfies (cmp : IxCompare) (j : NestedLoopJoinExecutor)
    (lhs rhs : List Byte) :
    ∀ conds : List Condition,
      (∀ cond ∈ conds,
        (∃ c, get_col j.left_.cols cond.lhs_col = .ok c) ∧
        (∃ c, get_col j.right_.cols cond.rhs_col = .ok c)) →
      holds_true (j.eval_conds cmp (some lhs) (some rhs) conds) =
        pair_satisfies cmp j.left_.cols j.right_.cols conds lhs rhs := by
  intro conds
  induction conds with
  | nil => intro _; rfl
  | cons cond rest ih =>
    intro hcols
    obtain ⟨⟨⟨lp, lc⟩, hlc⟩, ⟨⟨rp, rc⟩, hrc⟩⟩ := hcols cond (List.mem_cons_self _ _)
    have hrest := ih (fun c hc => hcols c (List.mem_cons_of_mem _ hc))
    have he : j.eval_cond cmp (some lhs) (some rhs) cond =
        .ok (cond.op.holds (cmp (lhs.drop lc.offset) (rhs.drop rc.offset) rc.type rc.len)) := by
      unfold NestedLoopJoinExecutor.eval_cond
      simp only [hlc, hrc]
    have hp : pair_satisfies_cond cmp j.left_.cols j.right_.cols lhs rhs cond =
        cond.op.holds (cmp (lhs.drop lc.offset) (rhs.drop rc.offset) rc.type rc.len) := by
      unfold pair_satisfies_cond
      simp only [hlc, hrc]
    unfold pair_satisfies
    rw [List.all_cons, hp]
    unfold NestedLoopJoinExecutor.eval_conds
    rw [he]
    cases hv : cond.op.holds (cmp (lhs.drop lc.offset) (rhs.drop rc.offset) rc.type rc.len) with
    | false => rfl
    | true =>
      simp only [Bool.true_and]
      exact hrest

/-- The matches of the join, as its own `eval_conds` finds them, are the pairs that satisfy every
predicate. -/
theorem matches_eq_join_pairs (cmp : IxCompare) (left right : ChildExecutor)
    (conds : List Condition)
    (hcols : ∀ cond ∈ conds,
      (∃ c, get_col left.cols cond.lhs_col = .ok c) ∧
      (∃ c, get_col right.cols cond.rhs_col = .ok c)) :
    (NestedLoopJoinExecutor.new left right conds).matches cmp =
      join_pairs cmp left right conds := by
  unfold NestedLoopJoinExecutor.matches join_pairs NestedLoopJoinExecutor.row_matches
  have hf : ∀ lhs rhs,
      holds_true ((NestedLoopJoinExecutor.new left right conds).eval_conds cmp (some lhs)
        (some rhs) (NestedLoopJoinExecutor.new left right conds).fed_conds_) =
      pair_satisfies cmp left.cols right.cols conds lhs rhs :=
    fun lhs rhs =>
      eval_conds_pair_satisfies cmp (NestedLoopJoinExecutor.new left right conds) lhs rhs conds
        hcols
  simp only [hf]
  rfl

/-- C21 (nested-loop join output): for a join over children with the row sequences `L` and `R`
(rows of the children's tuple lengths), with predicates that name columns of the children, and
with at least one pair in `L × R` that satisfies every predicate (so that neither sequence is
empty), the driver `beginTuple(); while not is_end(): emit Next(); nextTuple()` raises no error
and emits exactly the concatenations `l ++ r` of the pairs that satisfy every predicate: `l` in
the order of `L` and, for each `l`, `r` in the order of `R`, each pair of positions once; it ends
with `is_end()` true. Two rounds of the loop of `Next` are enough for every call, and as many
rounds of the driver as there are such pairs. A pair satisfies a predicate `lhs op rhs` when the
operator holds of the three-way comparison `c` of the bytes of the left column in `l` with the
bytes of the right column in `r`: `c = 0`, `c ≠ 0`, `c < 0`, `c > 0`, `c ≤ 0`, `c ≥ 0` for
`=, ≠, <, >, ≤, ≥`, and never for another operator; this is what `eval_cond` of the join
computes. -/
theorem join_output (cmp : IxCompare) (left right : ChildExecutor) (conds : List Condition)
    (hcols : ∀ cond ∈ conds,
      (∃ c, get_col left.cols cond.lhs_col = .ok c) ∧
      (∃ c, get_col right.cols cond.rhs_col = .ok c))
    (hl : ∀ row ∈ left.rows, row.length = left.len)
    (hr : ∀ row ∈ right.rows, row.length = right.len)
    (hmatch : ∃ lhs ∈ left.rows, ∃ rhs ∈ right.rows,
      pair_satisfies cmp left.cols right.cols conds lhs rhs = true)
    (next_fuel fuel : Nat) (hn : 2 ≤ next_fuel)
    (hfuel : (join_pairs cmp left right conds).length ≤ fuel) :
    (∃ j1, (NestedLoopJoinExecutor.new left right conds).drive cmp next_fuel fuel =
        some (.ok ((left.rows.flatMap (fun lhs =>
          (right.rows.filter (fun rhs =>
            pair_satisfies cmp left.cols right.cols conds lhs rhs)).map
              (fun rhs => lhs ++ rhs))).map some), j1) ∧
      j1.is_end = true) ∧
    (∀ lhs rhs, pair_satisfies cmp left.cols right.cols conds lhs rhs = true ↔
      ∀ cond ∈ conds, ∃ lpos left_col rpos right_col,
        get_col left.cols cond.lhs_col = .ok (lpos, left_col) ∧
        get_col right.cols cond.rhs_col = .ok (rpos, right_col) ∧
        cond.op.holds (cmp (lhs.drop left_col.offset) (rhs.drop right_col.offset)
          right_col.type right_col.len) = true) ∧
    (∀ (lhs rhs : List Byte) (cond : Condition) (lpos rpos : Nat) (left_col right_col : ColMeta),
      get_col left.cols cond.lhs_col = .ok (lpos, left_col) →
      get_col right.cols cond.rhs_col = .ok (rpos, right_col) →
      (NestedLoopJoinExecutor.new left right conds).eval_cond cmp (some lhs) (some rhs) cond =
        .ok (cond.op.holds (cmp (lhs.drop left_col.offset) (rhs.drop right_col.offset)
          right_col.type right_col.len))) ∧
    (∀ c : Int,
      (CompOp.OP_EQ.holds c = true ↔ c = 0) ∧ (CompOp.OP_NE.holds c = true ↔ c ≠ 0) ∧
      (CompOp.OP_LT.holds c = true ↔ c < 0) ∧ (CompOp.OP_GT.holds c = true ↔ c > 0) ∧
      (CompOp.OP_LE.holds c = true ↔ c ≤ 0) ∧ (CompOp.OP_GE.holds c = true ↔ c ≥ 0) ∧
      CompOp.OP_OTHER.holds c = false) := by
  refine ⟨?_, ?_, ?_, ?_⟩
  · have hw : (NestedLoopJoinExecutor.new left right conds).well_formed := ⟨hcols, hl, hr, rfl⟩
    have hs : (NestedLoopJoinExecutor.new left right conds).same
        (NestedLoopJoinExecutor.new left right conds).beginTuple :=
      ⟨rfl, rfl, rfl, rfl, rfl, rfl, rfl, rfl, rfl⟩
    have ht : (NestedLoopJoinExecutor.new left right conds).beginTuple.todo cmp =
        (NestedLoopJoinExecutor.new left right conds).matches cmp := by
      unfold NestedLoopJoinExecutor.todo
      rw [todo_at_same cmp _ _ hs]
      exact todo_at_zero cmp _
    have hmp := matches_eq_join_pairs cmp left right conds hcols
    obtain ⟨lhs, h1, rhs, h2, h3⟩ := hmatch
    have h3' : (NestedLoopJoinExecutor.new left right conds).eval_conds cmp (some lhs)
        (some rhs) (NestedLoopJoinExecutor.new left right conds).fed_conds_ = .ok true := by
      have he := eval_conds_pair_satisfies cmp (NestedLoopJoinExecutor.new left right conds)
        lhs rhs conds hcols
      have he' : holds_true ((NestedLoopJoinExecutor.new left right conds).eval_conds cmp
          (some lhs) (some rhs) conds) = true := by
        rw [he]
        exact h3
      change (NestedLoopJoinExecutor.new left right conds).eval_conds cmp (some lhs)
        (some rhs) conds = .ok true
      cases hv : (NestedLoopJoinExecutor.new left right conds).eval_conds cmp (some lhs)
          (some rhs) conds with
      | error e => rw [hv] at he'; cases he'
      | ok b =>
        cases b with
        | false => rw [hv] at he'; cases he'
        | true => rfl
    have hne : (NestedLoopJoinExecutor.new left right conds).matches cmp ≠ [] :=
      List.ne_nil_of_mem (mem_matches cmp _ lhs rhs h1 h2 h3')
    have hrne : ∃ row, (NestedLoopJoinExecutor.new left right conds).beginTuple.right_.Next =
        some row := by
      have h2' : rhs ∈ right.rows := h2
      cases hrows : right.rows with
      | nil => rw [hrows] at h2'; simp at h2'
      | cons row rest =>
        refine ⟨row, ?_⟩
        show right.rows.get? 0 = some row
        rw [hrows]
        rfl
    obtain ⟨m, hm⟩ : ∃ m, next_fuel = m + 2 := ⟨next_fuel - 2, by omega⟩
    subst hm
    obtain ⟨j1, e1, _, e3⟩ := drive_loop_spec cmp m fuel
      (NestedLoopJoinExecutor.new left right conds).beginTuple (well_formed_same _ _ hs hw)
      (Or.inr ⟨rfl, hrne, by rw [ht]; exact hne⟩) (by rw [ht, hmp]; exact hfuel)
    refine ⟨j1, ?_, e3⟩
    unfold NestedLoopJoinExecutor.drive
    rw [e1, ht, hmp]
    rfl
  · intro lhs rhs
    unfold pair_satisfies
    rw [List.all_eq_true]
    constructor
    · intro h cond hc
      have hcond := h cond hc
      obtain ⟨⟨⟨lp, lc⟩, hlc⟩, ⟨⟨rp, rc⟩, hrc⟩⟩ := hcols cond hc
      refine ⟨lp, lc, rp, rc, hlc, hrc, ?_⟩
      unfold pair_satisfies_cond at hcond
      simp only [hlc, hrc] at hcond
      exact hcond
    · intro h cond hc
      obtain ⟨lp, lc, rp, rc, hlc, hrc, hv⟩ := h cond hc
      unfold pair_satisfies_cond
      simp only [hlc, hrc]
      exact hv
  · intro lhs rhs cond lpos rpos left_col right_col hlc hrc
    unfold NestedLoopJoinExecutor.eval_cond
    have hlc' : get_col (NestedLoopJoinExecutor.new left right conds).left_.cols cond.lhs_col =
        .ok (lpos, left_col) := hlc
    have hrc' : get_col (NestedLoopJoinExecutor.new left right conds).right_.cols cond.rhs_col =
        .ok (rpos, right_col) := hrc
    simp only [hlc', hrc']
  · intro c
    simp [CompOp.holds]

/-- Witness for C21: left `R(x)` with the rows 1, 2, right `S(y)` with the rows 1, 3, the
predicate `R.x = S.y`: the driver emits exactly the record `(1, 1)`. -/
theorem join_output_witness :
    ((NestedLoopJoinExecutor.new join_left join_right [join_cond]).drive le_compare 2 1).map
      (fun r => r.1) = some (.ok [some (int_bytes 1 ++ int_bytes 1)]) ∧
    join_pairs le_compare join_left join_right [join_cond] = [int_bytes 1 ++ int_bytes 1] ∧
    ∃ j1, (NestedLoopJoinExecutor.new join_left join_right [join_cond]).drive le_compare 2 1 =
        some (.ok ((join_left.rows.flatMap (fun lhs =>
          (join_right.rows.filter (fun rhs =>
            pair_satisfies le_compare join_left.cols join_right.cols [join_cond] lhs rhs)).map
                (fun rhs => lhs ++ rhs))).map some), j1) ∧
      j1.is_end = true :=
  ⟨rfl, rfl, (join_output le_compare join_left join_right [join_cond]
    (fun cond hc => by
      have : cond = join_cond := by simpa using hc
      subst this
      exact ⟨⟨_, rfl⟩, ⟨_, rfl⟩⟩)
    (by decide) (by decide)
    ⟨int_bytes 1, List.mem_cons_self _ _, int_bytes 1, List.mem_cons_self _ _, rfl⟩
    2 1 (le_refl _) (by decide)).1⟩

/-! ## Projection -/

theorem get_col_from_spec (target : TabCol) :
    ∀ (cols : List ColMeta) (base i : Nat) (col : ColMeta),
      get_col_from target cols base = some (i, col) →
      ∃ k, i = base + k ∧ cols.get? k = some col ∧ col.tab_name = target.tab_name ∧
        col.name = target.col_name := by
  intro cols
  induction cols with
  | nil =>
    intro base i col h
    simp [get_col_from] at h
  | cons c rest ih =>
    intro base i col h
    simp only [get_col_from] at h
    by_cases hc : c.tab_name = target.tab_name ∧ c.name = target.col_name
    · simp only [hc, and_self, if_true, Option.some.injEq, Prod.mk.injEq] at h
      obtain ⟨h1, h2⟩ := h
      subst h1 h2
      exact ⟨0, rfl, rfl, hc.1, hc.2⟩
    · simp only [hc, if_false] at h
      obtain ⟨k, e1, e2, e3, e4⟩ := ih _ _ _ h
      exact ⟨k + 1, by omega, e2, e3, e4⟩

/-- What `get_col` returns: the position and the metadata of a column with the table and column
name asked for. -/
theorem get_col_spec (cols : List ColMeta) (target : TabCol) (pos : Nat) (col : ColMeta)
    (h : get_col cols target = .ok (pos, col)) :
    cols.get? pos = some col ∧ col.tab_name = target.tab_name ∧ col.name = target.col_name := by
  unfold get_col at h
  cases hf : get_col_from target cols 0 with
  | none => simp [hf] at h
  | some r =>
    simp only [hf, Except.ok.injEq] at h
    subst h
    obtain ⟨k, e1, e2, e3, e4⟩ := get_col_from_spec target cols 0 pos col hf
    have : pos = k := by omega
    subst this
    exact ⟨e2, e3, e4⟩

theorem relocate_length : ∀ (cols : List ColMeta) (offset : Nat),
    (relocate cols offset).length = cols.length := by
  intro cols
  induction cols with
  | nil => intro _; rfl
  | cons c rest ih =>
    intro offset
    simp only [relocate, List.length_cons, ih]

theorem relocate_getElem : ∀ (cols : List ColMeta) (offset i : Nat) (h : i < cols.length)
    (h2 : i < (relocate cols offset).length),
    (relocate cols offset)[i] =
      { cols[i] with offset := offset + ((cols.take i).map (·.len)).sum } := by
  intro cols
  induction cols with
  | nil => intro _ i h; simp at h
  | cons c rest ih =>
    intro offset i h h2
    cases i with
    | zero => simp [relocate]
    | succ i =>
      simp only [relocate, List.getElem_cons_succ, List.take_succ_cons, List.map_cons,
        List.sum_cons]
      rw [ih (offset + c.len) i (by simpa using h)]
      simp only [Nat.add_assoc]

/-- The loop of the constructor: with selected columns that all occur upstream, it appends their
positions and their metadata, laid out from the current offset on. -/
theorem new_loop_spec (prev_cols : List ColMeta) :
    ∀ (sel_cols : List TabCol) (curr_offset : Nat) (sel_idxs : List Nat) (cols : List ColMeta),
      (∀ sc ∈ sel_cols, ∃ r, get_col prev_cols sc = .ok r) →
      ∃ sel : List (Nat × ColMeta),
        List.Forall₂ (fun sc s => get_col prev_cols sc = .ok s) sel_cols sel ∧
        ProjectionExecutor.new_loop prev_cols sel_cols curr_offset sel_idxs cols =
          .ok (curr_offset + (sel.map (·.2.len)).sum, sel_idxs ++ sel.map (·.1),
            cols ++ relocate (sel.map (·.2)) curr_offset) := by
  intro sel_cols
  induction sel_cols with
  | nil =>
    intro off idxs cols _
    exact ⟨[], List.Forall₂.nil, by simp [ProjectionExecutor.new_loop, relocate]⟩
  | cons sc rest ih =>
    intro off idxs cols h
    obtain ⟨⟨pos, col⟩, hr⟩ := h sc (List.mem_cons_self _ _)
    obtain ⟨sel, e1, e2⟩ := ih (off + col.len) (idxs ++ [pos])
      (cols ++ [{ col with offset := off }]) (fun sc' hs => h sc' (List.mem_cons_of_mem _ hs))
    refine ⟨(pos, col) :: sel, List.Forall₂.cons hr e1, ?_⟩
    simp only [ProjectionExecutor.new_loop, hr, e2, List.map_cons, List.sum_cons, relocate,
      List.append_assoc, List.singleton_append, Nat.add_assoc]

theorem memcpy_getD (dst : List Byte) (doff : Nat) (src : List Byte) (n i : Nat)
    (h : i < dst.length) :
    (memcpy dst doff src n).getD i 0 =
      if doff ≤ i ∧ i < doff + n then src.getD (i - doff) 0 else dst.getD i 0 := by
  have h2 : i < (memcpy dst doff src n).length := by rw [memcpy_length]; exact h
  rw [List.getD_eq_getElem _ _ h2, memcpy_getElem]

theorem col_bytes_eq_of_getD (l1 l2 : List Byte) (o1 o2 len : Nat)
    (h1 : o1 + len ≤ l1.length) (h2 : o2 + len ≤ l2.length)
    (h : ∀ i < len, l1.getD (o1 + i) 0 = l2.getD (o2 + i) 0) :
    col_bytes l1 o1 len = col_bytes l2 o2 len := by
  unfold col_bytes
  apply List.ext_getElem
  · simp only [List.length_take, List.length_drop]
    omega
  · intro i hi1 hi2
    simp only [List.length_take, List.length_drop] at hi1
    have hi : i < len := by omega
    have := h i hi
    rw [List.getD_eq_getElem _ _ (by omega), List.getD_eq_getElem _ _ (by omega)] at this
    simp only [List.getElem_take, List.getElem_drop]
    exact this

/-- The loop of `Next`: the copies do not overlap, so each column of the result holds the bytes
of its source column, and what the record held below the first offset stays. -/
theorem copy_loop_spec (prev_cols : List ColMeta) (prev_rec : List Byte) :
    ∀ (sel : List (Nat × ColMeta)) (offset : Nat) (proj_rec : List Byte),
      (∀ s ∈ sel, prev_cols.get? s.1 = some s.2) →
      (∀ s ∈ sel, s.2.offset + s.2.len ≤ prev_rec.length) →
      offset + (sel.map (·.2.len)).sum ≤ proj_rec.length →
      ∃ out, ProjectionExecutor.copy_loop prev_cols prev_rec (sel.map (·.1))
          (relocate (sel.map (·.2)) offset) proj_rec = .ok out ∧
        out.length = proj_rec.length ∧
        (∀ i < offset, out.getD i 0 = proj_rec.getD i 0) ∧
        (∀ k (h : k < sel.length),
          col_bytes out (offset + ((sel.take k).map (·.2.len)).sum) sel[k].2.len =
            col_bytes prev_rec sel[k].2.offset sel[k].2.len) := by
  intro sel
  induction sel with
  | nil =>
    intro offset proj _ _ _
    exact ⟨proj, rfl, rfl, fun _ _ => rfl, fun k h => by simp at h⟩
  | cons s rest ih =>
    intro offset proj hget hfit hlen
    simp only [List.map_cons, List.sum_cons] at hlen
    have hs := hget s (List.mem_cons_self _ _)
    have hf := hfit s (List.mem_cons_self _ _)
    obtain ⟨out, e1, e2, e3, e4⟩ := ih (offset + s.2.len)
      (memcpy proj offset (prev_rec.drop s.2.offset) s.2.len)
      (fun s' h' => hget s' (List.mem_cons_of_mem _ h'))
      (fun s' h' => hfit s' (List.mem_cons_of_mem _ h'))
      (by rw [memcpy_length]; omega)
    rw [memcpy_length] at e2
    refine ⟨out, ?_, e2, ?_, ?_⟩
    · simp only [List.map_cons, relocate, ProjectionExecutor.copy_loop, hs]
      exact e1
    · intro i hi
      rw [e3 i (by omega), memcpy_getD _ _ _ _ _ (by omega)]
      have hn : ¬ (offset ≤ i ∧ i < offset + s.2.len) := by omega
      simp only [hn, if_false]
    · intro k hk
      cases k with
      | zero =>
        simp only [List.take_zero, List.map_nil, List.sum_nil, Nat.add_zero,
          List.getElem_cons_zero]
        apply col_bytes_eq_of_getD _ _ _ _ _ (by omega) hf
        intro i hi
        rw [e3 (offset + i) (by omega), memcpy_getD _ _ _ _ _ (by omega)]
        have hy : offset ≤ offset + i ∧ offset + i < offset + s.2.len := by omega
        simp only [hy, and_self, if_true, Nat.add_sub_cancel_left]
        rw [List.getD_eq_getElem _ _ (by simp only [List.length_drop]; omega),
          List.getD_eq_getElem _ _ (by omega), List.getElem_drop]
      | succ k =>
        have := e4 k (by simpa using hk)
        simp only [List.take_succ_cons, List.map_cons, List.sum_cons, List.getElem_cons_succ]
        rw [← Nat.add_assoc]
        exact this

theorem forall₂_right_mem {α β : Type} (R : α → β → Prop) :
    ∀ (as : List α) (bs : List β), List.Forall₂ R as bs → ∀ b ∈ bs, ∃ a, R a b := by
  intro as bs h
  induction h with
  | nil => intro b hb; simp at hb
  | cons hab _ ih =>
    intro b hb
    rcases List.mem_cons.mp hb with h1 | h1
    · subst h1
      exact ⟨_, hab⟩
    · exact ih b h1

/-- C22 (projection rewrite): for a child with any schema and selected columns that all occur in
it, the constructor succeeds; with `sel` the positions and metadata `get_col` finds for the
selected columns, the `i`-th column of the projection is the `i`-th of them (name, type, length
and the other fields) with its offset replaced by the sum of the lengths of the selected columns
before it, and `tupleLen()` is the sum of all selected lengths. At any position of the cursor,
`Next()` returns null when the child's record is null; for a record of the child that contains
its selected columns it returns a record of `tupleLen()` bytes whose bytes at the `i`-th column of
the projection are the bytes of the child's record at the `i`-th selected column. -/
theorem projection_rewrite (prev : ChildExecutor) (sel_cols : List TabCol)
    (hsel : ∀ sc ∈ sel_cols, ∃ r, get_col prev.cols sc = .ok r) :
    ∃ (p : ProjectionExecutor) (sel : List (Nat × ColMeta)),
      ProjectionExecutor.new prev sel_cols = .ok p ∧
      List.Forall₂ (fun sc s => get_col prev.cols sc = .ok s ∧ prev.cols.get? s.1 = some s.2 ∧
        s.2.tab_name = sc.tab_name ∧ s.2.name = sc.col_name) sel_cols sel ∧
      p.prev_ = prev ∧ p.cols_.length = sel.length ∧ p.sel_idxs_ = sel.map (·.1) ∧
      (∀ i (h : i < sel.length) (h2 : i < p.cols_.length),
        p.cols_[i] = { sel[i].2 with offset := ((sel.take i).map (·.2.len)).sum }) ∧
      p.len_ = (sel.map (·.2.len)).sum ∧
      (∀ n : Nat,
        (({ p with prev_ := { prev with pos := n } } : ProjectionExecutor).prev_.Next = none →
          ({ p with prev_ := { prev with pos := n } } : ProjectionExecutor).Next = .ok none) ∧
        (∀ prev_rec,
          ({ p with prev_ := { prev with pos := n } } : ProjectionExecutor).prev_.Next =
            some prev_rec →
          (∀ s ∈ sel, s.2.offset + s.2.len ≤ prev_rec.length) →
          ∃ out, ({ p with prev_ := { prev with pos := n } } : ProjectionExecutor).Next =
              .ok (some out) ∧
            out.length = p.len_ ∧
            (∀ i (h : i < sel.length) (h2 : i < p.cols_.length),
              col_bytes out p.cols_[i].offset p.cols_[i].len =
                col_bytes prev_rec sel[i].2.offset sel[i].2.len))) := by
  obtain ⟨sel, e1, e2⟩ := new_loop_spec prev.cols sel_cols 0 [] [] hsel
  simp only [Nat.zero_add, List.nil_append] at e2
  have hcols : ∀ i (h : i < sel.length) (h2 : i < (relocate (sel.map (·.2)) 0).length),
      (relocate (sel.map (·.2)) 0)[i] =
        { sel[i].2 with offset := ((sel.take i).map (·.2.len)).sum } := by
    intro i h h2
    rw [relocate_getElem _ _ _ (by simpa using h)]
    simp only [List.getElem_map, Nat.zero_add, ← List.map_take, List.map_map]
    rfl
  have hget : ∀ s ∈ sel, prev.cols.get? s.1 = some s.2 := by
    intro s hs
    obtain ⟨sc, hsc⟩ := forall₂_right_mem _ _ _ e1 s hs
    exact (get_col_spec _ _ _ _ hsc).1
  refine ⟨⟨prev, relocate (sel.map (·.2)) 0, (sel.map (·.2.len)).sum, sel.map (·.1)⟩, sel,
    ?_, ?_, rfl, ?_, rfl, hcols, rfl, ?_⟩
  · unfold ProjectionExecutor.new
    rw [e2]
  · exact e1.imp (fun sc s h => ⟨h, get_col_spec _ _ _ _ h⟩)
  · simp [relocate_length]
  · intro n
    constructor
    · intro hnone
      simp only [ProjectionExecutor.Next, hnone]
    · intro prev_rec hrec hfit
      obtain ⟨out, f1, f2, _, f4⟩ := copy_loop_spec prev.cols prev_rec sel 0
        (RmRecord.alloc (sel.map (·.2.len)).sum) hget hfit (by simp [RmRecord.alloc])
      refine ⟨out, ?_, ?_, ?_⟩
      · simp only [ProjectionExecutor.Next, hrec, f1]
      · rw [f2]
        simp [RmRecord.alloc]
      · intro i h h2
        have := f4 i h
        simp only [Nat.zero_add] at this
        simp only [hcols i h h2]
        exact this

/-- Witness for C22: the schema `(a, b, c)` with the rows `(1, 2, 3)` and `(4, 5, 6)`, projected
on `(c, a)`: the columns are `c` at offset 0 and `a` at offset 4, the tuple length is 8, and
`Next()` yields `(3, 1)`, then `(6, 4)`, then null. -/
theorem projection_rewrite_witness :
    ProjectionExecutor.new abc_rows
      [{ tab_name := "t", col_name := "c" }, { tab_name := "t", col_name := "a" }] =
        .ok ca_projection ∧
    ca_projection.beginTuple.Next = .ok (some (int_bytes 3 ++ int_bytes 1)) ∧
    ca_projection.beginTuple.nextTuple.Next = .ok (some (int_bytes 6 ++ int_bytes 4)) ∧
    ca_projection.beginTuple.nextTuple.nextTuple.Next = .ok none ∧
    ∃ (p : ProjectionExecutor) (sel : List (Nat × ColMeta)),
      ProjectionExecutor.new abc_rows
        [{ tab_name := "t", col_name := "c" }, { tab_name := "t", col_name := "a" }] = .ok p ∧
      List.Forall₂ (fun sc s => get_col abc_rows.cols sc = .ok s ∧
        abc_rows.cols.get? s.1 = some s.2 ∧
        s.2.tab_name = sc.tab_name ∧ s.2.name = sc.col_name)
        [{ tab_name := "t", col_name := "c" }, { tab_name := "t", col_name := "a" }] sel ∧
      p.prev_ = abc_rows ∧ p.cols_.length = sel.length ∧ p.sel_idxs_ = sel.map (·.1) ∧
      (∀ i (h : i < sel.length) (h2 : i < p.cols_.length),
        p.cols_[i] = { sel[i].2 with offset := ((sel.take i).map (·.2.len)).sum }) ∧
      p.len_ = (sel.map (·.2.len)).sum ∧
      (∀ n : Nat,
        (({ p with prev_ := { abc_rows with pos := n } } : ProjectionExecutor).prev_.Next = none →
          ({ p with prev_ := { abc_rows with pos := n } } : ProjectionExecutor).Next = .ok none) ∧
        (∀ prev_rec,
          ({ p with prev_ := { abc_rows with pos := n } } : ProjectionExecutor).prev_.Next =
            some prev_rec →
          (∀ s ∈ sel, s.2.offset + s.2.len ≤ prev_rec.length) →
          ∃ out, ({ p with prev_ := { abc_rows with pos := n } } : ProjectionExecutor).Next =
              .ok (some out) ∧
            out.length = p.len_ ∧
            (∀ i (h : i < sel.length) (h2 : i < p.cols_.length),
              col_bytes out p.cols_[i].offset p.cols_[i].len =
                col_bytes prev_rec sel[i].2.offset sel[i].2.len))) :=
  ⟨rfl, rfl, rfl, rfl,
    projection_rewrite abc_rows
      [{ tab_name := "t", col_name := "c" }, { tab_name := "t", col_name := "a" }]
      (fun sc hsc => by
        simp only [List.mem_cons, List.mem_singleton, List.not_mem_nil, or_false] at hsc
        rcases hsc with h | h
        · subst h
          exact ⟨_, rfl⟩
        · subst h
          exact ⟨_, rfl⟩)⟩

/-! ## Sequential scan -/

/-- `get_record` leaves the header and the pages of the file as they are. -/
theorem get_record_frame (fh : RmFileHandle) (rid : Rid) :
    (fh.get_record rid).2.file_hdr = fh.file_hdr ∧
      (fh.get_record rid).2.pool.pages = fh.pool.pages := by
  unfold RmFileHandle.get_record
  rcases hf : fh.fetch_page_handle rid.page_no with ⟨r, fh1⟩
  cases r with
  | error e =>
    rw [fetch_page_handle_error _ _ _ _ hf]
    exact ⟨rfl, rfl⟩
  | ok ph =>
    obtain ⟨_, _, _, _, e⟩ := fetch_page_handle_inv _ _ _ _ hf
    subst e
    simp only [RmFileHandle.unpin, PoolView.unpin_page]
    split <;> simp

/-- `get_record` on a page that can be fetched returns the record stored at the RID. -/
theorem get_record_value (fh : RmFileHandle) (rid : Rid)
    (h0 : 0 ≤ rid.page_no) (h1 : rid.page_no < fh.file_hdr.num_pages)
    (hp : ∃ pg, fh.pool.pages rid.page_no = some pg) :
    (fh.get_record rid).1 = .ok (fh.record_at rid) := by
  obtain ⟨pg, hpg⟩ := hp
  rw [get_record_ok fh rid pg h0 h1 hpg]
  unfold RmFileHandle.record_at
  rw [hpg]

theorem SeqScanExecutor.scan_same_refl (e : SeqScanExecutor) : e.same e := ⟨rfl, rfl, rfl, rfl⟩

theorem SeqScanExecutor.scan_same_trans (e e1 e2 : SeqScanExecutor) (h1 : e.same e1)
    (h2 : e1.same e2) : e.same e2 :=
  ⟨h2.conds.trans h1.conds, h2.cols.trans h1.cols, h2.hdr.trans h1.hdr,
    h2.pages.trans h1.pages⟩

theorem scan_eval_cond_same (cmp : IxCompare) (e e1 : SeqScanExecutor) (h : e.same e1)
    (rec : List Byte) (cond : Condition) :
    e1.eval_cond cmp rec cond = e.eval_cond cmp rec cond := by
  unfold SeqScanExecutor.eval_cond
  rw [h.cols]

theorem scan_eval_conds_same (cmp : IxCompare) (e e1 : SeqScanExecutor) (h : e.same e1)
    (rec : List Byte) (conds : List Condition) :
    e1.eval_conds cmp rec conds = e.eval_conds cmp rec conds := by
  induction conds with
  | nil => rfl
  | cons c cs ih =>
    simp only [SeqScanExecutor.eval_conds, scan_eval_cond_same cmp e e1 h, ih]

theorem record_at_same (fh fh1 : RmFileHandle) (hhdr : fh1.file_hdr = fh.file_hdr)
    (hpages : fh1.pool.pages = fh.pool.pages) (rid : Rid) :
    fh1.record_at rid = fh.record_at rid := by
  unfold RmFileHandle.record_at
  rw [hhdr, hpages]

theorem satisfied_same (cmp : IxCompare) (e e1 : SeqScanExecutor) (h : e.same e1) (rid : Rid) :
    e1.satisfied cmp rid = e.satisfied cmp rid := by
  unfold SeqScanExecutor.satisfied
  rw [scan_eval_conds_same cmp e e1 h, record_at_same _ _ h.hdr h.pages, h.conds]

theorem scan_todo_same (cmp : IxCompare) (e e1 : SeqScanExecutor) (h : e.same e1) (cur : Rid) :
    e1.todo cmp cur = e.todo cmp cur := by
  unfold SeqScanExecutor.todo RmScan.todo RmScan.is_end
  simp only [rids_after_congr _ _ h.hdr h.pages]
  congr 1
  funext rid
  exact satisfied_same cmp e e1 h rid

/-- What `eval_cond` computes for a condition whose columns are columns of the table: the
operator of the condition applied to the three-way comparison of the bytes of the left column
with the literal, or with the bytes of the right column, under the type of the right side and the
length of the left column. -/
theorem scan_eval_cond_value (cmp : IxCompare) (e : SeqScanExecutor) (rec : List Byte)
    (cond : Condition) (pos : Nat) (left_col : ColMeta)
    (hl : get_col e.cols_ cond.lhs_col = .ok (pos, left_col)) :
    (cond.is_rhs_val = true →
      e.eval_cond cmp rec cond =
        .ok (cond.op.holds (cmp (rec.drop left_col.offset) cond.rhs_val.raw cond.rhs_val.type
          left_col.len))) ∧
    (∀ rpos right_col, cond.is_rhs_val = false →
      get_col e.cols_ cond.rhs_col = .ok (rpos, right_col) →
      e.eval_cond cmp rec cond =
        .ok (cond.op.holds (cmp (rec.drop left_col.offset) (rec.drop right_col.offset)
          right_col.type left_col.len))) := by
  constructor
  · intro hv
    simp only [SeqScanExecutor.eval_cond, hl, hv, if_true]
  · intro rpos right_col hv hr
    simp only [SeqScanExecutor.eval_cond, hl, hv, hr, if_false, Bool.false_eq_true]

theorem scan_eval_conds_total (cmp : IxCompare) (e : SeqScanExecutor) (rec : List Byte)
    (conds : List Condition)
    (h : ∀ cond ∈ conds,
      (∃ r, get_col e.cols_ cond.lhs_col = .ok r) ∧
      (cond.is_rhs_val = false → ∃ r, get_col e.cols_ cond.rhs_col = .ok r)) :
    ∃ b, e.eval_conds cmp rec conds = .ok b := by
  induction conds with
  | nil => exact ⟨true, rfl⟩
  | cons c cs ih =>
    obtain ⟨⟨⟨lp, lc⟩, h1⟩, h2⟩ := h c (List.mem_cons_self _ _)
    obtain ⟨b, hb⟩ := ih (fun c' hc' => h c' (List.mem_cons_of_mem _ hc'))
    have hv : ∃ b1, e.eval_cond cmp rec c = .ok b1 := by
      by_cases hr : c.is_rhs_val = true
      · exact ⟨_, (scan_eval_cond_value cmp e rec c lp lc h1).1 hr⟩
      · rw [Bool.not_eq_true] at hr
        obtain ⟨⟨rp, rc⟩, h3⟩ := h2 hr
        exact ⟨_, (scan_eval_cond_value cmp e rec c lp lc h1).2 rp rc hr h3⟩
    obtain ⟨b1, hb1⟩ := hv
    simp only [SeqScanExecutor.eval_conds, hb1]
    cases b1
    · exact ⟨false, rfl⟩
    · exact ⟨b, hb⟩

/-- The test `conds_.empty() || eval_conds(...)` of the loop is the test `eval_conds(...)`. -/
theorem scan_found_eq (cmp : IxCompare) (e : SeqScanExecutor) (rec : List Byte) :
    (if e.conds_.isEmpty then (.ok true : Except Error Bool)
      else e.eval_conds cmp rec e.conds_) = e.eval_conds cmp rec e.conds_ := by
  cases h : e.conds_ with
  | nil => rfl
  | cons c cs => rfl

theorem scan_todo_cons (cmp : IxCompare) (e : SeqScanExecutor) (cur : Rid)
    (hne : RmScan.is_end { file_handle := e.fh_, rid := cur } = false) :
    e.todo cmp cur =
      (if e.satisfied cmp cur = true then [cur] else []) ++
        (e.fh_.rids_after cur).filter (fun rid => e.satisfied cmp rid) := by
  unfold SeqScanExecutor.todo RmScan.todo
  simp only [hne, Bool.false_eq_true, if_false, List.filter_cons]
  by_cases h : e.satisfied cmp cur = true
  · simp [h]
  · simp [h]

theorem scan_todo_length_cons (fh : RmFileHandle) (cur : Rid)
    (hne : RmScan.is_end { file_handle := fh, rid := cur } = false) :
    (RmScan.todo { file_handle := fh, rid := cur }).length = (fh.rids_after cur).length + 1 := by
  unfold RmScan.todo
  simp only [hne, Bool.false_eq_true, if_false, List.length_cons]

/-- The loop of `beginTuple` and `nextTuple`: it skips the RIDs whose records do not satisfy the
conditions and stops on the first that does, or at the end of the file. -/
theorem seek_spec (cmp : IxCompare) :
    ∀ (fuel : Nat) (e : SeqScanExecutor) (cur : Rid),
      e.scan_ = some cur →
      (∀ p, 1 ≤ p → p < e.fh_.file_hdr.num_pages → ∃ pg, e.fh_.pool.pages p = some pg) →
      e.resolves →
      (RmScan.is_end { file_handle := e.fh_, rid := cur } = true ∨
        (1 ≤ cur.page_no ∧ cur.page_no < e.fh_.file_hdr.num_pages)) →
      (RmScan.todo { file_handle := e.fh_, rid := cur }).length ≤ fuel →
      ∃ e1 cur1, SeqScanExecutor.seek cmp fuel e = some (.ok (), e1) ∧ e.same e1 ∧
        e1.scan_ = some cur1 ∧
        (RmScan.todo { file_handle := e1.fh_, rid := cur1 }).length ≤
          (RmScan.todo { file_handle := e.fh_, rid := cur }).length ∧
        e1.todo cmp cur1 = e.todo cmp cur ∧
        (RmScan.is_end { file_handle := e1.fh_, rid := cur1 } = true ∨
          (1 ≤ cur1.page_no ∧ cur1.page_no < e.fh_.file_hdr.num_pages ∧ e1.rid_ = cur1 ∧
            e1.satisfied cmp cur1 = true)) := by
  intro fuel
  induction fuel with
  | zero =>
    intro e cur hs _ _ hpos hlen
    by_cases hend : RmScan.is_end { file_handle := e.fh_, rid := cur } = true
    · refine ⟨e, cur, ?_, e.scan_same_refl, hs, le_refl _, rfl, Or.inl hend⟩
      unfold SeqScanExecutor.seek
      simp only [hs, hend, if_true]
    · rw [Bool.not_eq_true] at hend
      rw [scan_todo_length_cons _ _ hend] at hlen
      omega
  | succ fuel ih =>
    intro e cur hs hfetch hres hpos hlen
    by_cases hend : RmScan.is_end { file_handle := e.fh_, rid := cur } = true
    · refine ⟨e, cur, ?_, e.scan_same_refl, hs, le_refl _, rfl, Or.inl hend⟩
      unfold SeqScanExecutor.seek
      simp only [hs, hend, if_true]
    · rcases hpos with h | ⟨hp1, hp2⟩
      · exact absurd h hend
      · rw [Bool.not_eq_true] at hend
        have hrec := get_record_value e.fh_ cur (by omega) hp2 (hfetch _ hp1 hp2)
        obtain ⟨g1, g2⟩ := get_record_frame e.fh_ cur
        rcases hg : e.fh_.get_record cur with ⟨r, fh1⟩
        rw [hg] at hrec g1 g2
        simp only at hrec g1 g2
        subst hrec
        have hs2 : e.same { e with rid_ := cur, fh_ := fh1, scan_ := some cur } := ⟨rfl, rfl, g1, g2⟩
        obtain ⟨b, hb⟩ := scan_eval_conds_total cmp e (e.fh_.record_at cur) e.conds_ hres
        have hsat : e.satisfied cmp cur = b := by
          unfold SeqScanExecutor.satisfied
          rw [hb]
          cases b <;> rfl
        have hstep : SeqScanExecutor.seek cmp (fuel + 1) e =
            (match b with
              | true => some (.ok (), { e with rid_ := cur, fh_ := fh1, scan_ := some cur })
              | false =>
                match RmScan.next { file_handle := fh1, rid := cur } with
                | (.error err, s) =>
                  some (.error err,
                    { e with rid_ := cur, fh_ := s.file_handle, scan_ := some s.rid })
                | (.ok _, s) =>
                  SeqScanExecutor.seek cmp fuel
                    { e with rid_ := cur, fh_ := s.file_handle, scan_ := some s.rid }) := by
          rw [SeqScanExecutor.seek]
          simp only [hs, hend, Bool.false_eq_true, if_false, hg]
          have hfound := scan_found_eq cmp { e with rid_ := cur, fh_ := fh1, scan_ := some cur }
            (e.fh_.record_at cur)
          simp only at hfound
          rw [hfound, scan_eval_conds_same cmp e _ hs2]
          simp only [hb]
          cases b <;> rfl
        rw [hstep]
        cases b with
        | true =>
          refine ⟨_, cur, rfl, hs2, rfl, ?_, scan_todo_same cmp e _ hs2 cur, Or.inr ⟨hp1, hp2, rfl, ?_⟩⟩
          · unfold RmScan.todo RmScan.is_end
            simp only [rids_after_congr e.fh_ fh1 g1 g2]
            exact le_refl _
          · rw [satisfied_same cmp e _ hs2]
            exact hsat
        | false =>
          simp only
          obtain ⟨s1, n1, n2, n3, n4, n5⟩ := next_spec { file_handle := fh1, rid := cur }
            (by simp only [g1, g2]; exact hfetch) hp1 (by simp only [g1]; exact hp2)
          simp only at n2 n3 n4 n5
          rw [n1]
          simp only
          have hs3 : e.same { e with rid_ := cur, fh_ := s1.file_handle, scan_ := some s1.rid } :=
            ⟨rfl, rfl, n2.trans g1, n3.trans g2⟩
          have htl : RmScan.todo { file_handle := s1.file_handle, rid := s1.rid } =
              e.fh_.rids_after cur := by
            show s1.todo = _
            rw [n5]
            exact rids_after_congr e.fh_ fh1 g1 g2 cur
          obtain ⟨e1, cur1, k1, k2, k3, k4, k5, k6⟩ := ih
            { e with rid_ := cur, fh_ := s1.file_handle, scan_ := some s1.rid } s1.rid rfl
            (by
              show ∀ p, 1 ≤ p → p < s1.file_handle.file_hdr.num_pages →
                ∃ pg, s1.file_handle.pool.pages p = some pg
              rw [n2, n3, g1, g2]
              exact hfetch)
            (by
              intro cond hc
              exact hres cond hc)
            (by
              show RmScan.is_end { file_handle := s1.file_handle, rid := s1.rid } = true ∨
                (1 ≤ s1.rid.page_no ∧ s1.rid.page_no < s1.file_handle.file_hdr.num_pages)
              rw [n2]
              exact n4)
            (by
              show (RmScan.todo { file_handle := s1.file_handle, rid := s1.rid }).length ≤ fuel
              rw [htl]
              rw [scan_todo_length_cons _ _ hend] at hlen
              omega)
          refine ⟨e1, cur1, k1, e.scan_same_trans _ _ hs3 k2, k3, ?_, ?_, ?_⟩
          · refine le_trans k4 ?_
            show (RmScan.todo { file_handle := s1.file_handle, rid := s1.rid }).length ≤ _
            rw [htl, scan_todo_length_cons _ _ hend]
            omega
          · rw [k5]
            show SeqScanExecutor.todo cmp
              { e with rid_ := cur, fh_ := s1.file_handle, scan_ := some s1.rid } s1.rid = _
            rw [scan_todo_cons cmp e cur hend, hsat]
            simp only [Bool.false_eq_true, if_false, List.nil_append]
            unfold SeqScanExecutor.todo
            rw [htl]
            congr 1
            funext rid
            exact satisfied_same cmp e _ hs3 rid
          · rcases k6 with h | ⟨h1, h2, h3, h4⟩
            · exact Or.inl h
            · refine Or.inr ⟨h1, ?_, h3, h4⟩
              have : s1.file_handle.file_hdr.num_pages = e.fh_.file_hdr.num_pages := by
                rw [n2, g1]
              rw [← this]
              exact h2

theorem scan_is_end_of_range (fh : RmFileHandle) (cur : Rid) (h : 1 ≤ cur.page_no) :
    RmScan.is_end { file_handle := fh, rid := cur } = false := by
  unfold RmScan.is_end
  simp only [RM_NO_PAGE, decide_eq_false_iff_not]
  omega

/-- `nextTuple` from a RID of the file: the scan goes to the next RID whose record satisfies the
conditions, or to the end. -/
theorem scan_nextTuple_spec (cmp : IxCompare) (fuel : Nat) (e : SeqScanExecutor) (cur : Rid)
    (hs : e.scan_ = some cur)
    (hfetch : ∀ p, 1 ≤ p → p < e.fh_.file_hdr.num_pages → ∃ pg, e.fh_.pool.pages p = some pg)
    (hres : e.resolves) (hp1 : 1 ≤ cur.page_no) (hp2 : cur.page_no < e.fh_.file_hdr.num_pages)
    (hlen : (e.fh_.rids_after cur).length ≤ fuel) :
    ∃ e1 cur1, e.nextTuple cmp fuel = some (.ok (), e1) ∧ e.same e1 ∧ e1.scan_ = some cur1 ∧
      (RmScan.todo { file_handle := e1.fh_, rid := cur1 }).length ≤
        (e.fh_.rids_after cur).length ∧
      e1.todo cmp cur1 = (e.fh_.rids_after cur).filter (fun rid => e.satisfied cmp rid) ∧
      (RmScan.is_end { file_handle := e1.fh_, rid := cur1 } = true ∨
        (1 ≤ cur1.page_no ∧ cur1.page_no < e.fh_.file_hdr.num_pages ∧ e1.rid_ = cur1 ∧
          e1.satisfied cmp cur1 = true)) := by
  have hend := scan_is_end_of_range e.fh_ cur hp1
  obtain ⟨s1, n1, n2, n3, n4, n5⟩ := next_spec { file_handle := e.fh_, rid := cur } hfetch hp1 hp2
  simp only at n2 n3 n4 n5
  have hs3 : e.same { e with fh_ := s1.file_handle, scan_ := some s1.rid } :=
    ⟨rfl, rfl, n2, n3⟩
  have htl : RmScan.todo { file_handle := s1.file_handle, rid := s1.rid } =
      e.fh_.rids_after cur := n5
  obtain ⟨e1, cur1, k1, k2, k3, k4, k5, k6⟩ := seek_spec cmp fuel
    { e with fh_ := s1.file_handle, scan_ := some s1.rid } s1.rid rfl
    (by
      show ∀ p, 1 ≤ p → p < s1.file_handle.file_hdr.num_pages →
        ∃ pg, s1.file_handle.pool.pages p = some pg
      rw [n2, n3]
      exact hfetch)
    (fun cond hc => hres cond hc)
    (by
      show RmScan.is_end { file_handle := s1.file_handle, rid := s1.rid } = true ∨
        (1 ≤ s1.rid.page_no ∧ s1.rid.page_no < s1.file_handle.file_hdr.num_pages)
      rw [n2]
      exact n4)
    (by
      show (RmScan.todo { file_handle := s1.file_handle, rid := s1.rid }).length ≤ fuel
      rw [htl]
      exact hlen)
  refine ⟨e1, cur1, ?_, e.scan_same_trans _ _ hs3 k2, k3, ?_, ?_, ?_⟩
  · unfold SeqScanExecutor.nextTuple
    simp only [hs, hend, Bool.false_eq_true, if_false, n1]
    exact k1
  · refine le_trans k4 ?_
    show (RmScan.todo { file_handle := s1.file_handle, rid := s1.rid }).length ≤ _
    rw [htl]
  · rw [k5]
    unfold SeqScanExecutor.todo
    show List.filter _ (RmScan.todo { file_handle := s1.file_handle, rid := s1.rid }) = _
    rw [htl]
    congr 1
    funext rid
    exact satisfied_same cmp e _ hs3 rid
  · rcases k6 with h | ⟨h1, h2, h3, h4⟩
    · exact Or.inl h
    · refine Or.inr ⟨h1, ?_, h3, h4⟩
      rw [← n2]
      exact h2

/-- The loop of the driver emits, from a RID whose record satisfies the conditions or from the
end, what is left to emit, and ends with `is_end()` true. -/
theorem scan_drive_loop_spec (cmp : IxCompare) (seek_fuel : Nat) :
    ∀ (fuel : Nat) (e : SeqScanExecutor) (cur : Rid),
      e.scan_ = some cur →
      (∀ p, 1 ≤ p → p < e.fh_.file_hdr.num_pages → ∃ pg, e.fh_.pool.pages p = some pg) →
      e.resolves →
      (RmScan.todo { file_handle := e.fh_, rid := cur }).length ≤ seek_fuel →
      (RmScan.is_end { file_handle := e.fh_, rid := cur } = true ∨
        (1 ≤ cur.page_no ∧ cur.page_no < e.fh_.file_hdr.num_pages ∧ e.rid_ = cur ∧
          e.satisfied cmp cur = true)) →
      (e.todo cmp cur).length ≤ fuel →
      ∃ e1, SeqScanExecutor.drive_loop cmp seek_fuel fuel e = some (.ok (e.todo cmp cur), e1) ∧
        e1.is_end = .ok true := by
  intro fuel
  induction fuel with
  | zero =>
    intro e cur hs _ _ _ hinv hlen
    by_cases hend : RmScan.is_end { file_handle := e.fh_, rid := cur } = true
    · refine ⟨e, ?_, by simp only [SeqScanExecutor.is_end, hs, hend]⟩
      rw [SeqScanExecutor.drive_loop]
      simp only [SeqScanExecutor.is_end, hs, hend, SeqScanExecutor.todo, RmScan.todo, if_true,
        List.filter_nil]
    · rcases hinv with h | ⟨h1, h2, h3, h4⟩
      · exact absurd h hend
      · rw [Bool.not_eq_true] at hend
        rw [scan_todo_cons cmp e cur hend, h4] at hlen
        simp at hlen
  | succ fuel ih =>
    intro e cur hs hfetch hres hsf hinv hlen
    by_cases hend : RmScan.is_end { file_handle := e.fh_, rid := cur } = true
    · refine ⟨e, ?_, by simp only [SeqScanExecutor.is_end, hs, hend]⟩
      rw [SeqScanExecutor.drive_loop]
      simp only [SeqScanExecutor.is_end, hs, hend, SeqScanExecutor.todo, RmScan.todo, if_true,
        List.filter_nil]
    · rcases hinv with h | ⟨h1, h2, h3, h4⟩
      · exact absurd h hend
      · rw [Bool.not_eq_true] at hend
        have htodo := scan_todo_cons cmp e cur hend
        rw [h4] at htodo
        simp only [if_true, List.singleton_append] at htodo
        rw [scan_todo_length_cons _ _ hend] at hsf
        obtain ⟨e1, cur1, k1, k2, k3, k4, k5, k6⟩ := scan_nextTuple_spec cmp seek_fuel e cur hs
          hfetch hres h1 h2 (by omega)
        obtain ⟨e2, m1, m2⟩ := ih e1 cur1 k3
          (by rw [k2.hdr, k2.pages]; exact hfetch)
          (by
            intro cond hc
            rw [k2.cols]
            rw [k2.conds] at hc
            exact hres cond hc)
          (by omega)
          (by
            rcases k6 with h | ⟨a, b, c, d⟩
            · exact Or.inl h
            · exact Or.inr ⟨a, by rw [k2.hdr]; exact b, c, d⟩)
          (by
            rw [k5]
            rw [htodo] at hlen
            simp only [List.length_cons] at hlen
            omega)
        refine ⟨e2, ?_, m2⟩
        rw [SeqScanExecutor.drive_loop]
        simp only [SeqScanExecutor.is_end, hs, hend, k1, m1]
        rw [htodo, k5, h3]

/-- `beginTuple` on a file with a data page: the scan is on the first RID whose record satisfies
the conditions, or at the end. -/
theorem scan_beginTuple_spec (cmp : IxCompare) (fuel : Nat) (e : SeqScanExecutor)
    (hnp : 2 ≤ e.fh_.file_hdr.num_pages)
    (hfetch : ∀ p, 1 ≤ p → p < e.fh_.file_hdr.num_pages → ∃ pg, e.fh_.pool.pages p = some pg)
    (hres : e.resolves)
    (hlen : (e.fh_.rids_from 1 (e.fh_.file_hdr.num_pages - 1).toNat).length ≤ fuel) :
    ∃ e1 cur1, e.beginTuple cmp fuel = some (.ok (), e1) ∧ e.same e1 ∧ e1.scan_ = some cur1 ∧
      (RmScan.todo { file_handle := e1.fh_, rid := cur1 }).length ≤
        (e.fh_.rids_from 1 (e.fh_.file_hdr.num_pages - 1).toNat).length ∧
      e1.todo cmp cur1 =
        (e.fh_.rids_from 1 (e.fh_.file_hdr.num_pages - 1).toNat).filter
          (fun rid => e.satisfied cmp rid) ∧
      (RmScan.is_end { file_handle := e1.fh_, rid := cur1 } = true ∨
        (1 ≤ cur1.page_no ∧ cur1.page_no < e.fh_.file_hdr.num_pages ∧ e1.rid_ = cur1 ∧
          e1.satisfied cmp cur1 = true)) := by
  obtain ⟨s1, n1, n2, n3, n4, n5⟩ := next_spec
    { file_handle := e.fh_, rid := { page_no := RM_FIRST_RECORD_PAGE, slot_no := -1 } }
    hfetch (le_refl _) (by simp only [RM_FIRST_RECORD_PAGE]; omega)
  simp only at n2 n3 n4
  have htl : RmScan.todo { file_handle := s1.file_handle, rid := s1.rid } =
      e.fh_.rids_from 1 (e.fh_.file_hdr.num_pages - 1).toNat := by
    show s1.todo = _
    rw [n5]
    have hk : (e.fh_.file_hdr.num_pages - 1).toNat =
        (e.fh_.file_hdr.num_pages - (1 + 1)).toNat + 1 := by omega
    rw [hk]
    rfl
  have hs3 : e.same { e with fh_ := s1.file_handle, scan_ := some s1.rid } :=
    ⟨rfl, rfl, n2, n3⟩
  obtain ⟨e1, cur1, k1, k2, k3, k4, k5, k6⟩ := seek_spec cmp fuel
    { e with fh_ := s1.file_handle, scan_ := some s1.rid } s1.rid rfl
    (by
      show ∀ p, 1 ≤ p → p < s1.file_handle.file_hdr.num_pages →
        ∃ pg, s1.file_handle.pool.pages p = some pg
      rw [n2, n3]
      exact hfetch)
    (fun cond hc => hres cond hc)
    (by
      show RmScan.is_end { file_handle := s1.file_handle, rid := s1.rid } = true ∨
        (1 ≤ s1.rid.page_no ∧ s1.rid.page_no < s1.file_handle.file_hdr.num_pages)
      rw [n2]
      exact n4)
    (by
      show (RmScan.todo { file_handle := s1.file_handle, rid := s1.rid }).length ≤ fuel
      rw [htl]
      exact hlen)
  have hk4 : (RmScan.todo { file_handle := e1.fh_, rid := cur1 }).length ≤
      (e.fh_.rids_from 1 (e.fh_.file_hdr.num_pages - 1).toNat).length := by
    refine le_trans k4 ?_
    show (RmScan.todo { file_handle := s1.file_handle, rid := s1.rid }).length ≤ _
    rw [htl]
  have hk5 : e1.todo cmp cur1 =
      (e.fh_.rids_from 1 (e.fh_.file_hdr.num_pages - 1).toNat).filter
        (fun rid => e.satisfied cmp rid) := by
    rw [k5]
    unfold SeqScanExecutor.todo
    show List.filter _ (RmScan.todo { file_handle := s1.file_handle, rid := s1.rid }) = _
    rw [htl]
    congr 1
    funext rid
    exact satisfied_same cmp e _ hs3 rid
  have hbegin : e.beginTuple cmp fuel =
      (match e1.is_end with
        | .error err => some (.error err, e1)
        | .ok true => some (.ok (), { e1 with rid_ := { page_no := -1, slot_no := -1 } })
        | .ok false => some (.ok (), e1)) := by
    unfold SeqScanExecutor.beginTuple RmScan.new
    rw [n1]
    simp only [k1]
  rw [hbegin]
  simp only [SeqScanExecutor.is_end, k3]
  rcases k6 with h | ⟨h1, h2, h3, h4⟩
  · simp only [h]
    refine ⟨_, cur1, rfl, ?_, rfl, hk4, ?_, Or.inl h⟩
    · have := e.scan_same_trans _ _ hs3 k2
      exact ⟨this.conds, this.cols, this.hdr, this.pages⟩
    · rw [← hk5]
      exact scan_todo_same cmp e1
        { e1 with rid_ := { page_no := -1, slot_no := -1 }, scan_ := some cur1 }
        ⟨rfl, rfl, rfl, rfl⟩ cur1
  · have hne := scan_is_end_of_range e1.fh_ cur1 h1
    simp only [hne]
    refine ⟨e1, cur1, rfl, e.scan_same_trans _ _ hs3 k2, k3, hk4, hk5, Or.inr ⟨h1, ?_, h3, h4⟩⟩
    rw [← n2]
    exact h2

theorem scan_eval_conds_true_iff (cmp : IxCompare) (e : SeqScanExecutor) (rec : List Byte)
    (conds : List Condition) :
    e.eval_conds cmp rec conds = .ok true ↔
      ∀ cond ∈ conds, e.eval_cond cmp rec cond = .ok true := by
  induction conds with
  | nil => simp [SeqScanExecutor.eval_conds]
  | cons c cs ih =>
    simp only [SeqScanExecutor.eval_conds, List.mem_cons, forall_eq_or_imp]
    cases hc : e.eval_cond cmp rec c with
    | error err => simp
    | ok b =>
      cases b with
      | false => simp
      | true => simpa using ih

/-- The sequential scan through a pool view that hands out every data page whenever it is
asked: for a scan over a heap with at least one data page and conditions whose columns are
columns of the table, the driver `beginTuple(); while not is_end(): emit rid(); nextTuple()`
raises no error, ends with `is_end()` true and emits a list of RIDs that holds exactly the
occupied RIDs whose record satisfies every condition and is strictly increasing in
`(page_no, slot_no)`, so each is emitted once. A record satisfies the conditions iff `eval_cond`
is true of each; for a condition `lhs op rhs` that is the operator applied to the three-way
comparison `c` of the bytes of the left column with the literal or with the bytes of the right
column: `c = 0`, `c ≠ 0`, `c < 0`, `c > 0`, `c ≤ 0`, `c ≥ 0` for `=, ≠, <, >, ≤, ≥`, and never
for another operator. With no condition every occupied RID is emitted. On the frames of the
pool the fetches of the scan can fail (`SeqScanExecutorOnPool`). -/
theorem seq_scan_filter_when_fetches_succeed (cmp : IxCompare) (e : SeqScanExecutor)
    (hnp : 2 ≤ e.fh_.file_hdr.num_pages)
    (hfetch : ∀ p, 1 ≤ p → p < e.fh_.file_hdr.num_pages → ∃ pg, e.fh_.pool.pages p = some pg)
    (hres : e.resolves) :
    (∃ rids : List Rid,
      (∀ seek_fuel fuel,
        (e.fh_.rids_from 1 (e.fh_.file_hdr.num_pages - 1).toNat).length ≤ seek_fuel →
        rids.length ≤ fuel →
        ∃ e1, e.drive cmp seek_fuel fuel = some (.ok rids, e1) ∧ e1.is_end = .ok true) ∧
      (∀ r, r ∈ rids ↔ (e.fh_.occupied r ∧ e.satisfied cmp r = true)) ∧
      rids.Pairwise Rid.lt ∧ rids.Nodup) ∧
    (∀ r, e.satisfied cmp r = true ↔
      ∀ cond ∈ e.conds_, e.eval_cond cmp (e.fh_.record_at r) cond = .ok true) ∧
    (∀ (rec : List Byte) (cond : Condition) (pos : Nat) (left_col : ColMeta),
      get_col e.cols_ cond.lhs_col = .ok (pos, left_col) →
      (cond.is_rhs_val = true →
        e.eval_cond cmp rec cond =
          .ok (cond.op.holds (cmp (rec.drop left_col.offset) cond.rhs_val.raw cond.rhs_val.type
            left_col.len))) ∧
      (∀ rpos right_col, cond.is_rhs_val = false →
        get_col e.cols_ cond.rhs_col = .ok (rpos, right_col) →
        e.eval_cond cmp rec cond =
          .ok (cond.op.holds (cmp (rec.drop left_col.offset) (rec.drop right_col.offset)
            right_col.type left_col.len)))) ∧
    (∀ c : Int,
      (CompOp.OP_EQ.holds c = true ↔ c = 0) ∧ (CompOp.OP_NE.holds c = true ↔ c ≠ 0) ∧
      (CompOp.OP_LT.holds c = true ↔ c < 0) ∧ (CompOp.OP_GT.holds c = true ↔ c > 0) ∧
      (CompOp.OP_LE.holds c = true ↔ c ≤ 0) ∧ (CompOp.OP_GE.holds c = true ↔ c ≥ 0) ∧
      CompOp.OP_OTHER.holds c = false) ∧
    (e.conds_ = [] → ∀ r, e.satisfied cmp r = true) := by
  refine ⟨⟨(e.fh_.rids_from 1 (e.fh_.file_hdr.num_pages - 1).toNat).filter
      (fun rid => e.satisfied cmp rid), ?_, ?_, ?_, ?_⟩, ?_, ?_, ?_, ?_⟩
  · intro seek_fuel fuel h1 h2
    obtain ⟨e1, cur1, k1, k2, k3, k4, k5, k6⟩ :=
      scan_beginTuple_spec cmp seek_fuel e hnp hfetch hres h1
    obtain ⟨e2, m1, m2⟩ := scan_drive_loop_spec cmp seek_fuel fuel e1 cur1 k3
      (by rw [k2.hdr, k2.pages]; exact hfetch)
      (by
        intro cond hc
        rw [k2.cols]
        rw [k2.conds] at hc
        exact hres cond hc)
      (le_trans k4 h1)
      (by
        rcases k6 with h | ⟨a, b, c, d⟩
        · exact Or.inl h
        · exact Or.inr ⟨a, by rw [k2.hdr]; exact b, c, d⟩)
      (by rw [k5]; exact h2)
    refine ⟨e2, ?_, m2⟩
    unfold SeqScanExecutor.drive
    simp only [k1, m1, k5]
  · intro r
    rw [List.mem_filter, rids_from_mem]
    unfold RmFileHandle.occupied
    constructor
    · rintro ⟨⟨a, b, c, d, f⟩, g⟩
      exact ⟨⟨a, by omega, c, d, f⟩, g⟩
    · rintro ⟨⟨a, b, c, d, f⟩, g⟩
      exact ⟨⟨a, by omega, c, d, f⟩, g⟩
  · exact (rids_from_sorted e.fh_ _ _).filter _
  · refine List.Pairwise.imp ?_ ((rids_from_sorted e.fh_ _ _).filter _)
    intro a b hab heq
    subst heq
    rcases hab with h | ⟨_, h⟩ <;> omega
  · intro r
    unfold SeqScanExecutor.satisfied
    rw [holds_true_iff]
    exact scan_eval_conds_true_iff cmp e _ _
  · intro rec cond pos left_col hl
    exact scan_eval_cond_value cmp e rec cond pos left_col hl
  · intro c
    simp [CompOp.holds]
  · intro h r
    unfold SeqScanExecutor.satisfied
    rw [h]
    rfl

/-- Example of the scan through a pool view: the table `t(a, b, c)` with the rows `(1, 2, 3)` at `(1, 0)` and
`(4, 5, 6)` at `(1, 1)`, scanned with the condition `a > 1`: the driver emits `(1, 1)` alone. -/
theorem seq_scan_filter_when_fetches_succeed_example :
    ((SeqScanExecutor.new abc_table abc_file [a_above_one]).drive le_compare 2 1).map
      (fun r => r.1) = some (.ok [{ page_no := 1, slot_no := 1 }]) ∧
    ((SeqScanExecutor.new abc_table abc_file []).drive le_compare 2 2).map
      (fun r => r.1) = some (.ok [{ page_no := 1, slot_no := 0 }, { page_no := 1, slot_no := 1 }]) ∧
    ∃ rids : List Rid,
      (∀ seek_fuel fuel,
        ((SeqScanExecutor.new abc_table abc_file [a_above_one]).fh_.rids_from 1
          ((SeqScanExecutor.new abc_table abc_file
            [a_above_one]).fh_.file_hdr.num_pages - 1).toNat).length ≤ seek_fuel →
        rids.length ≤ fuel →
        ∃ e1, (SeqScanExecutor.new abc_table abc_file [a_above_one]).drive le_compare seek_fuel
            fuel = some (.ok rids, e1) ∧ e1.is_end = .ok true) ∧
      (∀ r, r ∈ rids ↔
        ((SeqScanExecutor.new abc_table abc_file [a_above_one]).fh_.occupied r ∧
          (SeqScanExecutor.new abc_table abc_file [a_above_one]).satisfied le_compare r =
            true)) ∧
      rids.Pairwise Rid.lt ∧ rids.Nodup :=
  ⟨rfl, rfl,
    (seq_scan_filter_when_fetches_succeed le_compare (SeqScanExecutor.new abc_table abc_file [a_above_one])
      (by decide)
      (fun p h1 h2 => by
        have h3 : p < 2 := h2
        have hp : p = 1 := by omega
        subst hp
        exact ⟨_, rfl⟩)
      (fun cond hc => by
        have : cond = a_above_one := by simpa [SeqScanExecutor.new] using hc
        subst this
        exact ⟨⟨_, rfl⟩, fun h => by simp [a_above_one] at h⟩)).1⟩

/-! ## Index keys -/

theorem memcpy_take (key : List Byte) (offset : Nat) (src : List Byte) (n : Nat)
    (hk : offset + n ≤ key.length) (hs : n ≤ src.length) :
    (memcpy key offset src n).take (offset + n) = key.take offset ++ src.take n := by
  apply List.ext_getElem
  · simp only [List.length_take, memcpy_length, List.length_append]
    omega
  · intro i h1 h2
    simp only [List.length_take, memcpy_length] at h1
    rw [List.getElem_take, memcpy_getElem]
    by_cases hi : i < offset
    · have hn : ¬ (offset ≤ i ∧ i < offset + n) := by omega
      simp only [hn, if_false]
      rw [List.getD_eq_getElem _ _ (by omega),
        List.getElem_append_left (by simp only [List.length_take]; omega), List.getElem_take]
    · have hy : offset ≤ i ∧ i < offset + n := by omega
      simp only [hy, and_self, if_true]
      rw [List.getD_eq_getElem _ _ (by omega),
        List.getElem_append_right (by simp only [List.length_take]; omega), List.getElem_take]
      simp only [List.length_take]
      congr 1
      omega

theorem memcpy_take_below (key : List Byte) (offset : Nat) (src : List Byte) (n : Nat)
    (hk : offset ≤ key.length) :
    (memcpy key offset src n).take offset = key.take offset := by
  apply List.ext_getElem
  · simp only [List.length_take, memcpy_length]
  · intro i h1 h2
    simp only [List.length_take, memcpy_length] at h1
    rw [List.getElem_take, memcpy_getElem, List.getElem_take]
    have hn : ¬ (offset ≤ i ∧ i < offset + n) := by omega
    simp only [hn, if_false]
    rw [List.getD_eq_getElem _ _ (by omega)]

theorem fill_key_length (rec : List Byte) :
    ∀ (cols : List ColMeta) (offset : Nat) (key : List Byte),
      (fill_key rec cols offset key).length = key.length := by
  intro cols
  induction cols with
  | nil => intro _ _; rfl
  | cons c rest ih =>
    intro offset key
    simp only [fill_key, ih, memcpy_length]

/-- The loop that builds a key writes the bytes of the columns one after the other: a buffer
that ends where the last column ends holds, from the start offset on, the bytes of the columns
in order. -/
theorem fill_key_spec (rec : List Byte) :
    ∀ (cols : List ColMeta) (offset : Nat) (key : List Byte),
      key.length = offset + (cols.map (fun col => col.len)).sum →
      (∀ col ∈ cols, col.offset + col.len ≤ rec.length) →
      fill_key rec cols offset key =
        key.take offset ++ (cols.map (fun col => col_bytes rec col.offset col.len)).flatten := by
  intro cols
  induction cols with
  | nil =>
    intro offset key hlen _
    simp only [List.map_nil, List.sum_nil, Nat.add_zero] at hlen
    simp only [fill_key, List.map_nil, List.flatten_nil, List.append_nil]
    rw [List.take_of_length_le (by omega)]
  | cons c rest ih =>
    intro offset key hlen hfit
    simp only [List.map_cons, List.sum_cons] at hlen
    have hc := hfit c (List.mem_cons_self _ _)
    simp only [fill_key, List.map_cons, List.flatten_cons]
    rw [ih (offset + c.len) _ (by rw [memcpy_length]; omega)
      (fun col h => hfit col (List.mem_cons_of_mem _ h))]
    rw [memcpy_take _ _ _ _ (by omega) (by simp only [List.length_drop]; omega),
      List.append_assoc]
    rfl

/-- The key an executor builds for a record that contains the index columns is the key of the
record, whatever the buffer of `col_tot_len` bytes held before. -/
theorem fill_eq_key_of (index : IndexMeta) (rec key : List Byte) (hfit : index.fits rec)
    (hlen : key.length = index.col_tot_len) : index.fill rec key = index.key_of rec := by
  obtain ⟨h1, h2, h3⟩ := hfit
  unfold IndexMeta.fill IndexMeta.key_of
  rw [h1, List.take_length]
  rw [fill_key_spec rec index.cols 0 key (by rw [hlen, h2, Nat.zero_add]) h3]
  simp

theorem key_of_length (index : IndexMeta) (rec : List Byte) (hfit : index.fits rec) :
    (index.key_of rec).length = index.col_tot_len := by
  obtain ⟨h1, h2, h3⟩ := hfit
  have := fill_key_spec rec index.cols 0 (List.replicate index.col_tot_len 0)
    (by simp [h2]) h3
  simp only [List.take_zero, List.nil_append] at this
  unfold IndexMeta.key_of
  rw [← this, fill_key_length]
  simp

/-! ## String-keyed maps -/

theorem StrMap.modify_cons {α : Type} (k1 : String) (v1 : α) (rest : StrMap α) (key : String)
    (f : α → α) :
    StrMap.modify ((k1, v1) :: rest) key f =
      (if k1 = key then (k1, f v1) else (k1, v1)) :: StrMap.modify rest key f := rfl

theorem StrMap.find_modify {α : Type} (m : StrMap α) (key : String) (f : α → α)
    (k : String) :
    StrMap.find (StrMap.modify m key f) k =
      (StrMap.find m k).map (fun v => if k = key then f v else v) := by
  induction m with
  | nil => rfl
  | cons e rest ih =>
    obtain ⟨k1, v1⟩ := e
    rw [StrMap.modify_cons]
    by_cases h1 : k1 = key
    · rw [if_pos h1]
      simp only [StrMap.find]
      by_cases h2 : k1 = k
      · have h3 : k = key := h2.symm.trans h1
        simp only [h2, h3, if_true, Option.map_some']
      · simp only [h2, if_false]
        exact ih
    · rw [if_neg h1]
      simp only [StrMap.find]
      by_cases h2 : k1 = k
      · have h3 : ¬ k = key := fun h => h1 (h2.trans h)
        simp only [h2, h3, if_true, if_false, Option.map_some']
      · simp only [h2, if_false]
        exact ih

theorem StrMap.find_modify_isSome {α : Type} (m : StrMap α) (key : String) (f : α → α)
    (k : String) (h : (StrMap.find m k).isSome = true) :
    (StrMap.find (StrMap.modify m key f) k).isSome = true := by
  rw [StrMap.find_modify]
  cases hf : StrMap.find m k with
  | none => rw [hf] at h; simp at h
  | some v => rfl

/-! ## Delete -/

theorem vacated_of_frame (fh fh1 : RmFileHandle) (hhdr : fh1.file_hdr = fh.file_hdr)
    (hpages : fh1.pool.pages = fh.pool.pages) : fh.vacated fh1 [] := by
  refine ⟨by rw [hhdr], by rw [hhdr], by rw [hhdr], fun p => ⟨fun h => by rw [hpages]; exact h,
    fun pg h => ⟨pg, by rw [hpages]; exact h, rfl, fun s => by simp⟩⟩⟩

theorem vacated_trans (fh fh1 fh2 : RmFileHandle) (g1 g2 : List Rid)
    (h1 : fh.vacated fh1 g1) (h2 : fh1.vacated fh2 g2) : fh.vacated fh2 (g1 ++ g2) := by
  obtain ⟨a1, a2, a3, a4⟩ := h1
  obtain ⟨b1, b2, b3, b4⟩ := h2
  refine ⟨b1.trans a1, b2.trans a2, b3.trans a3, fun p => ⟨fun h => (b4 p).1 ((a4 p).1 h), ?_⟩⟩
  intro pg hpg
  obtain ⟨pg1, c1, c2, c3⟩ := (a4 p).2 pg hpg
  obtain ⟨pg2, d1, d2, d3⟩ := (b4 p).2 pg1 c1
  refine ⟨pg2, d1, d2.trans c2, fun s => ?_⟩
  rw [d3 s, c3 s]
  by_cases m1 : ({ page_no := p, slot_no := s } : Rid) ∈ g1 <;>
    by_cases m2 : ({ page_no := p, slot_no := s } : Rid) ∈ g2 <;>
    simp [m1, m2]

theorem vacated_record_at (fh fh1 : RmFileHandle) (gone : List Rid) (h : fh.vacated fh1 gone)
    (rid : Rid) : fh1.record_at rid = fh.record_at rid := by
  obtain ⟨a1, _, _, a4⟩ := h
  unfold RmFileHandle.record_at
  cases hp : fh.pool.pages rid.page_no with
  | none => rw [(a4 rid.page_no).1 hp]
  | some pg =>
    obtain ⟨pg1, c1, c2, _⟩ := (a4 rid.page_no).2 pg hp
    simp only [c1, c2, a1]

theorem vacated_occupied (fh fh1 : RmFileHandle) (gone : List Rid) (h : fh.vacated fh1 gone)
    (rid : Rid) : fh1.occupied rid ↔ (fh.occupied rid ∧ rid ∉ gone) := by
  obtain ⟨_, a2, a3, a4⟩ := h
  unfold RmFileHandle.occupied
  rw [a2, a3]
  constructor
  · rintro ⟨h1, h2, h3, h4, pg1, h5, h6⟩
    cases hp : fh.pool.pages rid.page_no with
    | none =>
      rw [(a4 rid.page_no).1 hp] at h5
      simp at h5
    | some pg =>
      obtain ⟨pg2, c1, _, c3⟩ := (a4 rid.page_no).2 pg hp
      rw [c1] at h5
      simp only [Option.some.injEq] at h5
      subst h5
      rw [c3] at h6
      simp only [Bool.and_eq_true, decide_eq_true_eq] at h6
      exact ⟨⟨h1, h2, h3, h4, pg, rfl, h6.1⟩, h6.2⟩
  · rintro ⟨⟨h1, h2, h3, h4, pg, h5, h6⟩, h7⟩
    obtain ⟨pg2, c1, _, c3⟩ := (a4 rid.page_no).2 pg h5
    refine ⟨h1, h2, h3, h4, pg2, c1, ?_⟩
    rw [c3, h6]
    simpa using h7

/-- The index loop of `DeleteExecutor::Next`: with a handle for every index it calls
`delete_entry` once on each, in the order of the indexes, with the key of the record. -/
theorem delete_entries_spec (tab_name : String) (rec : List Byte) :
    ∀ (indexes : List IndexMeta) (ihs : StrMap IxIndexHandle) (calls : List Call),
      (∀ index ∈ indexes,
        (StrMap.find ihs (get_index_name tab_name index.cols)).isSome = true) →
      (∀ index ∈ indexes, index.fits rec) →
      ∃ ihs1, DeleteExecutor.delete_entries tab_name rec indexes ihs calls =
          (.ok (), ihs1, calls ++ indexes.map (fun index =>
            Call.delete_entry (get_index_name tab_name index.cols) (index.key_of rec))) ∧
        ∀ k, (StrMap.find ihs k).isSome = true → (StrMap.find ihs1 k).isSome = true := by
  intro indexes
  induction indexes with
  | nil =>
    intro ihs calls _ _
    exact ⟨ihs, by simp [DeleteExecutor.delete_entries], fun _ h => h⟩
  | cons index rest ih =>
    intro ihs calls hih hfit
    have h1 := hih index (List.mem_cons_self _ _)
    have h2 := hfit index (List.mem_cons_self _ _)
    cases hf : StrMap.find ihs (get_index_name tab_name index.cols) with
    | none => rw [hf] at h1; simp at h1
    | some h =>
      obtain ⟨ihs1, e1, e2⟩ := ih
        (StrMap.modify ihs (get_index_name tab_name index.cols)
          (fun h => h.delete_entry (index.key_of rec)))
        (calls ++ [Call.delete_entry (get_index_name tab_name index.cols) (index.key_of rec)])
        (fun i hi => StrMap.find_modify_isSome _ _ _ _ (hih i (List.mem_cons_of_mem _ hi)))
        (fun i hi => hfit i (List.mem_cons_of_mem _ hi))
      refine ⟨ihs1, ?_, fun k hk => e2 k (StrMap.find_modify_isSome _ _ _ _ hk)⟩
      simp only [DeleteExecutor.delete_entries, hf]
      rw [fill_eq_key_of index rec _ h2 (by simp [RmRecord.alloc]), e1]
      simp

theorem calls_for_congr (ex ex1 : DeleteExecutor) (h1 : ex1.tab_ = ex.tab_)
    (h2 : ex1.tab_name_ = ex.tab_name_) (h3 : ∀ rid, ex1.fh_.record_at rid = ex.fh_.record_at rid)
    (rid : Rid) : ex1.calls_for rid = ex.calls_for rid := by
  unfold DeleteExecutor.calls_for
  rw [h1, h2, h3]

/-- The loop over the RIDs of `DeleteExecutor::Next`. -/
theorem delete_rows_spec :
    ∀ (rids : List Rid) (ex : DeleteExecutor),
      (∀ rid ∈ rids, 1 ≤ rid.page_no ∧ rid.page_no < ex.fh_.file_hdr.num_pages ∧
        ∃ pg, ex.fh_.pool.pages rid.page_no = some pg) →
      (∀ index ∈ ex.tab_.indexes,
        (StrMap.find ex.ihs_ (get_index_name ex.tab_name_ index.cols)).isSome = true) →
      (∀ rid ∈ rids, ∀ index ∈ ex.tab_.indexes, index.fits (ex.fh_.record_at rid)) →
      ∃ ex1, DeleteExecutor.delete_rows rids ex = (.ok (), ex1) ∧ ex1.tab_ = ex.tab_ ∧
        ex1.tab_name_ = ex.tab_name_ ∧ ex1.rids_ = ex.rids_ ∧
        ex1.calls = ex.calls ++ rids.flatMap ex.calls_for ∧
        ex.fh_.vacated ex1.fh_ rids ∧
        (∀ k, (StrMap.find ex.ihs_ k).isSome = true → (StrMap.find ex1.ihs_ k).isSome = true) := by
  intro rids
  induction rids with
  | nil =>
    intro ex _ _ _
    exact ⟨ex, rfl, rfl, rfl, rfl, by simp, vacated_of_frame _ _ rfl rfl, fun _ h => h⟩
  | cons rid rest ih =>
    intro ex hr hih hfit
    obtain ⟨hp1, hp2, pg, hpg⟩ := hr rid (List.mem_cons_self _ _)
    have hrec := get_record_value ex.fh_ rid (by omega) hp2 ⟨pg, hpg⟩
    obtain ⟨g1, g2⟩ := get_record_frame ex.fh_ rid
    rcases hg : ex.fh_.get_record rid with ⟨r, fh1⟩
    rw [hg] at hrec g1 g2
    simp only at hrec g1 g2
    subst hrec
    obtain ⟨ihs1, d1, d2⟩ := delete_entries_spec ex.tab_name_ (ex.fh_.record_at rid)
      ex.tab_.indexes ex.ihs_ ex.calls hih (hfit rid (List.mem_cons_self _ _))
    obtain ⟨fh2, pg1, m1, m2, _, _, m5, m6, m7, m8, m9, _⟩ := delete_record_spec fh1 rid pg
      (by omega) (by rw [g1]; exact hp2) (by rw [g2]; exact hpg)
    have hv : ex.fh_.vacated fh2 [rid] := by
      refine ⟨by rw [m5, g1], by rw [m6, g1], by rw [m7, g1], fun p => ?_⟩
      rw [m2, g2]
      by_cases hp : p = rid.page_no
      · subst hp
        rw [setAt_same]
        refine ⟨fun h => by rw [hpg] at h; simp at h, fun pg0 h0 => ?_⟩
        rw [hpg] at h0
        simp only [Option.some.injEq] at h0
        subst h0
        refine ⟨pg1, rfl, m9, fun s => ?_⟩
        rw [m8]
        unfold Bitmap.reset
        by_cases hs : s = rid.slot_no
        · subst hs
          simp
        · have hne : ({ page_no := rid.page_no, slot_no := s } : Rid) ≠ rid := by
            intro h
            apply hs
            rw [← h]
          simp [hs, hne]
      · rw [setAt_other _ _ _ _ hp]
        refine ⟨fun h => h, fun pg0 h0 => ⟨pg0, h0, rfl, fun s => ?_⟩⟩
        have hne : ({ page_no := p, slot_no := s } : Rid) ≠ rid := by
          intro h
          apply hp
          rw [← h]
        simp [hne]
    have hrecs : ∀ r, fh2.record_at r = ex.fh_.record_at r := vacated_record_at _ _ _ hv
    obtain ⟨ex1, k1, k2, k3, k4, k5, k6, k7⟩ := ih
      { ex with fh_ := fh2, ihs_ := ihs1,
                calls := ex.calls ++ ex.tab_.indexes.map (fun index =>
                  Call.delete_entry (get_index_name ex.tab_name_ index.cols)
                    (index.key_of (ex.fh_.record_at rid))) ++ [Call.delete_record rid] }
      (by
        intro r hrm
        obtain ⟨a, b, pg0, c⟩ := hr r (List.mem_cons_of_mem _ hrm)
        obtain ⟨pg2, c1, _, _⟩ := (hv.2.2.2 r.page_no).2 pg0 c
        exact ⟨a, by show r.page_no < fh2.file_hdr.num_pages; rw [hv.2.1]; exact b, pg2, c1⟩)
      (fun index hi => d2 _ (hih index hi))
      (by
        intro r hrm index hi
        show index.fits (fh2.record_at r)
        rw [hrecs]
        exact hfit r (List.mem_cons_of_mem _ hrm) index hi)
    refine ⟨ex1, ?_, k2, k3, k4, ?_, ?_, fun k hk => k7 k (d2 k hk)⟩
    · simp only [DeleteExecutor.delete_rows, hg, d1, m1]
      exact k1
    · rw [k5]
      have hcf : rest.flatMap (DeleteExecutor.calls_for
          { ex with fh_ := fh2, ihs_ := ihs1,
                    calls := ex.calls ++ ex.tab_.indexes.map (fun index =>
                      Call.delete_entry (get_index_name ex.tab_name_ index.cols)
                        (index.key_of (ex.fh_.record_at rid))) ++ [Call.delete_record rid] }) =
          rest.flatMap ex.calls_for := by
        congr 1
        funext r
        exact calls_for_congr ex
          { ex with fh_ := fh2, ihs_ := ihs1,
                    calls := ex.calls ++ ex.tab_.indexes.map (fun index =>
                      Call.delete_entry (get_index_name ex.tab_name_ index.cols)
                        (index.key_of (ex.fh_.record_at rid))) ++ [Call.delete_record rid] }
          rfl rfl hrecs r
      rw [hcf]
      simp only [List.flatMap_cons, DeleteExecutor.calls_for, List.append_assoc]
    · exact vacated_trans _ _ _ [rid] rest hv k6

theorem delete_rows_append :
    ∀ (pre post : List Rid) (ex ex0 : DeleteExecutor),
      DeleteExecutor.delete_rows pre ex = (.ok (), ex0) →
      DeleteExecutor.delete_rows (pre ++ post) ex = DeleteExecutor.delete_rows post ex0 := by
  intro pre
  induction pre with
  | nil =>
    intro post ex ex0 h
    simp only [DeleteExecutor.delete_rows, Prod.mk.injEq, true_and] at h
    rw [List.nil_append, h]
  | cons rid rest ih =>
    intro post ex ex0 h
    simp only [List.cons_append, DeleteExecutor.delete_rows] at h ⊢
    rcases hg : ex.fh_.get_record rid with ⟨r, fh1⟩
    rw [hg] at h
    cases r with
    | error e => simp at h
    | ok rec =>
      simp only at h ⊢
      rcases hd : DeleteExecutor.delete_entries ex.tab_name_ rec ex.tab_.indexes ex.ihs_
        ex.calls with ⟨r2, ihs1, calls1⟩
      rw [hd] at h
      cases r2 with
      | error e => simp at h
      | ok u =>
        simp only at h ⊢
        rcases hdr : fh1.delete_record rid with ⟨r3, fh2⟩
        rw [hdr] at h
        cases r3 with
        | error e => simp at h
        | ok u2 =>
          simp only at h ⊢
          exact ih post _ ex0 h

/-- C25 (delete removes the index entries before it vacates the slot): for a list of distinct
occupied RIDs, a handle in `ihs_` for every index of the table, and records that contain the
index columns, `DeleteExecutor::Next()` raises no error and makes, for each RID in list order,
exactly these calls: `delete_entry` once on every index of the table, in their order, with the
key that is the concatenation of the record's bytes of the index columns, and then the one
`delete_record(rid)`. When the calls for a RID start (the RIDs `pre` before it done), the slot is
still occupied and holds the record the keys are built from. After `Next()` the bit of every
listed RID is clear, a RID not listed is occupied iff it was, and the bytes of every slot are as
before. -/
theorem delete_removes_index_entries_first (ex : DeleteExecutor)
    (hocc : ∀ rid ∈ ex.rids_, ex.fh_.occupied rid) (hnodup : ex.rids_.Nodup)
    (hih : ∀ index ∈ ex.tab_.indexes,
      (StrMap.find ex.ihs_ (get_index_name ex.tab_name_ index.cols)).isSome = true)
    (hfit : ∀ rid ∈ ex.rids_, ∀ index ∈ ex.tab_.indexes, index.fits (ex.fh_.record_at rid)) :
    ∃ ex1, ex.Next = (.ok (), ex1) ∧
      ex1.calls = ex.calls ++ ex.rids_.flatMap (fun rid =>
        ex.tab_.indexes.map (fun index =>
          Call.delete_entry (get_index_name ex.tab_name_ index.cols)
            ((index.cols.map (fun col =>
              col_bytes (ex.fh_.record_at rid) col.offset col.len)).flatten)) ++
        [Call.delete_record rid]) ∧
      (∀ pre rid post, ex.rids_ = pre ++ rid :: post →
        ∃ ex0, DeleteExecutor.delete_rows pre ex = (.ok (), ex0) ∧
          DeleteExecutor.delete_rows (rid :: post) ex0 = (.ok (), ex1) ∧
          ex0.calls = ex.calls ++ pre.flatMap ex.calls_for ∧
          ex0.fh_.occupied rid ∧ (ex0.fh_.get_record rid).1 = .ok (ex.fh_.record_at rid)) ∧
      (∀ rid ∈ ex.rids_, ¬ ex1.fh_.occupied rid ∧
        ∃ pg1, ex1.fh_.pool.pages rid.page_no = some pg1 ∧ pg1.bitmap rid.slot_no = false) ∧
      (∀ rid, rid ∉ ex.rids_ → (ex1.fh_.occupied rid ↔ ex.fh_.occupied rid)) ∧
      (∀ p pg, ex.fh_.pool.pages p = some pg →
        ∃ pg1, ex1.fh_.pool.pages p = some pg1 ∧ pg1.slots = pg.slots ∧
          ∀ s, ({ page_no := p, slot_no := s } : Rid) ∉ ex.rids_ → pg1.bitmap s = pg.bitmap s) := by
  have hrange : ∀ l : List Rid, (∀ rid ∈ l, rid ∈ ex.rids_) →
      ∀ rid ∈ l, 1 ≤ rid.page_no ∧ rid.page_no < ex.fh_.file_hdr.num_pages ∧
        ∃ pg, ex.fh_.pool.pages rid.page_no = some pg := by
    intro l hl rid hr
    obtain ⟨a, b, _, _, pg, c, _⟩ := hocc rid (hl rid hr)
    exact ⟨a, b, pg, c⟩
  obtain ⟨ex1, e1, e2, e3, e4, e5, e6, e7⟩ := delete_rows_spec ex.rids_ ex
    (hrange _ (fun _ h => h)) hih hfit
  refine ⟨ex1, e1, ?_, ?_, ?_, ?_, ?_⟩
  · rw [e5]
    rfl
  · intro pre rid post hsplit
    have hsub : ∀ r ∈ pre, r ∈ ex.rids_ := by
      intro r hr
      rw [hsplit]
      exact List.mem_append_left _ hr
    have hmem : rid ∈ ex.rids_ := by
      rw [hsplit]
      exact List.mem_append_right _ (List.mem_cons_self _ _)
    obtain ⟨ex0, f1, f2, f3, f4, f5, f6, f7⟩ := delete_rows_spec pre ex (hrange _ hsub) hih
      (fun r hr => hfit r (hsub r hr))
    have hnot : rid ∉ pre := by
      have hn := hnodup
      rw [hsplit] at hn
      intro hin
      have := (List.nodup_append.mp hn).2.2 hin (List.mem_cons_self _ _)
      exact this
    have hocc0 : ex0.fh_.occupied rid := (vacated_occupied _ _ _ f6 rid).mpr ⟨hocc rid hmem, hnot⟩
    refine ⟨ex0, f1, ?_, f5, hocc0, ?_⟩
    · rw [← delete_rows_append pre (rid :: post) ex ex0 f1, ← hsplit]
      exact e1
    · obtain ⟨a, b, _, _, pg, c, _⟩ := hocc0
      rw [get_record_value ex0.fh_ rid (by omega) b ⟨pg, c⟩]
      rw [vacated_record_at _ _ _ f6]
  · intro rid hr
    have hno : ¬ ex1.fh_.occupied rid := by
      intro h
      exact ((vacated_occupied _ _ _ e6 rid).mp h).2 hr
    refine ⟨hno, ?_⟩
    obtain ⟨_, _, _, _, pg, c, _⟩ := hocc rid hr
    obtain ⟨pg1, c1, _, c3⟩ := (e6.2.2.2 rid.page_no).2 pg c
    refine ⟨pg1, c1, ?_⟩
    rw [c3]
    simp [hr]
  · intro rid hr
    rw [vacated_occupied _ _ _ e6 rid]
    exact ⟨fun h => h.1, fun h => ⟨h, hr⟩⟩
  · intro p pg hpg
    obtain ⟨pg1, c1, c2, c3⟩ := (e6.2.2.2 p).2 pg hpg
    refine ⟨pg1, c1, c2, fun s hs => ?_⟩
    rw [c3]
    simp [hs]

/-- Witness for C25: the table `t(a, b, c)` with an index on `a`, the rows `(1, 2, 3)` at
`(1, 0)` and `(4, 5, 6)` at `(1, 1)`, and the RID list `[(1, 0)]`: `Next()` calls
`delete_entry` with the key 1 and then `delete_record((1, 0))`. -/
theorem delete_removes_index_entries_first_witness :
    delete_first_row.Next.1 = .ok () ∧
    delete_first_row.Next.2.calls =
      [Call.delete_entry "t_a" (int_bytes 1), Call.delete_record { page_no := 1, slot_no := 0 }] ∧
    delete_first_row.Next.2.ihs_ =
      [("t_a", { fd := 5, entries := [(int_bytes 4, { page_no := 1, slot_no := 1 })] })] ∧
    ∃ ex1, delete_first_row.Next = (.ok (), ex1) ∧
      ex1.calls = delete_first_row.calls ++ delete_first_row.rids_.flatMap (fun rid =>
        delete_first_row.tab_.indexes.map (fun index =>
          Call.delete_entry (get_index_name delete_first_row.tab_name_ index.cols)
            ((index.cols.map (fun col =>
              col_bytes (delete_first_row.fh_.record_at rid) col.offset col.len)).flatten)) ++
        [Call.delete_record rid]) ∧
      (∀ pre rid post, delete_first_row.rids_ = pre ++ rid :: post →
        ∃ ex0, DeleteExecutor.delete_rows pre delete_first_row = (.ok (), ex0) ∧
          DeleteExecutor.delete_rows (rid :: post) ex0 = (.ok (), ex1) ∧
          ex0.calls = delete_first_row.calls ++ pre.flatMap delete_first_row.calls_for ∧
          ex0.fh_.occupied rid ∧
          (ex0.fh_.get_record rid).1 = .ok (delete_first_row.fh_.record_at rid)) ∧
      (∀ rid ∈ delete_first_row.rids_, ¬ ex1.fh_.occupied rid ∧
        ∃ pg1, ex1.fh_.pool.pages rid.page_no = some pg1 ∧ pg1.bitmap rid.slot_no = false) ∧
      (∀ rid, rid ∉ delete_first_row.rids_ →
        (ex1.fh_.occupied rid ↔ delete_first_row.fh_.occupied rid)) ∧
      (∀ p pg, delete_first_row.fh_.pool.pages p = some pg →
        ∃ pg1, ex1.fh_.pool.pages p = some pg1 ∧ pg1.slots = pg.slots ∧
          ∀ s, ({ page_no := p, slot_no := s } : Rid) ∉ delete_first_row.rids_ →
            pg1.bitmap s = pg.bitmap s) :=
  ⟨rfl, rfl, rfl,
    delete_removes_index_entries_first delete_first_row
      (fun rid hr => by
        have : rid = { page_no := 1, slot_no := 0 } := by
          simpa [delete_first_row] using hr
        subst this
        exact ⟨by decide, by decide, by decide, by decide, _, rfl, rfl⟩)
      (by decide)
      (fun index hi => by
        have : index = a_index := by simpa [delete_first_row, abc_indexed] using hi
        subst this
        rfl)
      (fun rid hr index hi => by
        have h1 : rid = { page_no := 1, slot_no := 0 } := by
          simpa [delete_first_row] using hr
        have h2 : index = a_index := by simpa [delete_first_row, abc_indexed] using hi
        subst h1 h2
        refine ⟨rfl, rfl, ?_⟩
        intro col hc
        have h3 : col = int_col "t" "a" := by simpa [a_index] using hc
        subst h3
        decide)⟩

/-! ## Update -/

theorem memcpy_splice (rec : List Byte) (offset : Nat) (v : List Byte) (n : Nat)
    (hr : offset + n ≤ rec.length) (hv : n ≤ v.length) :
    memcpy rec offset v n = rec.take offset ++ v.take n ++ rec.drop (offset + n) := by
  apply List.ext_getElem
  · simp only [memcpy_length, List.length_append, List.length_take, List.length_drop]
    omega
  · intro i h1 h2
    rw [memcpy_length] at h1
    rw [memcpy_getElem]
    by_cases hi : i < offset
    · have hn : ¬ (offset ≤ i ∧ i < offset + n) := by omega
      simp only [hn, if_false]
      rw [List.getD_eq_getElem _ _ (by omega),
        List.getElem_append_left (by
          simp only [List.length_append, List.length_take]; omega),
        List.getElem_append_left (by simp only [List.length_take]; omega), List.getElem_take]
    · by_cases hi2 : i < offset + n
      · have hy : offset ≤ i ∧ i < offset + n := by omega
        simp only [hy, and_self, if_true]
        rw [List.getD_eq_getElem _ _ (by omega),
          List.getElem_append_left (by
            simp only [List.length_append, List.length_take]; omega),
          List.getElem_append_right (by simp only [List.length_take]; omega),
          List.getElem_take]
        simp only [List.length_take]
        congr 1
        omega
      · have hn : ¬ (offset ≤ i ∧ i < offset + n) := by omega
        simp only [hn, if_false]
        rw [List.getD_eq_getElem _ _ (by omega),
          List.getElem_append_right (by
            simp only [List.length_append, List.length_take]; omega),
          List.getElem_drop]
        simp only [List.length_append, List.length_take]
        congr 1
        omega

/-- The loop over the assignments computes the row with the assignments applied, and keeps the
length of the record. -/
theorem apply_set_clauses_spec (tab : TabMeta) :
    ∀ (clauses : List SetClause) (rec : List Byte),
      (∀ sc ∈ clauses, ∃ col, tab.get_col sc.lhs.col_name = .ok col ∧
        col.offset + col.len ≤ rec.length ∧ col.len ≤ sc.rhs.raw.length) →
      UpdateExecutor.apply_set_clauses tab clauses rec = .ok (assigned_row tab clauses rec) ∧
        (assigned_row tab clauses rec).length = rec.length := by
  intro clauses
  induction clauses with
  | nil => intro rec _; exact ⟨rfl, rfl⟩
  | cons sc rest ih =>
    intro rec h
    obtain ⟨col, h1, h2, h3⟩ := h sc (List.mem_cons_self _ _)
    have hm := memcpy_splice rec col.offset sc.rhs.raw col.len h2 h3
    have hl : (memcpy rec col.offset sc.rhs.raw col.len).length = rec.length :=
      memcpy_length _ _ _ _
    obtain ⟨e1, e2⟩ := ih (memcpy rec col.offset sc.rhs.raw col.len) (by
      intro sc2 hs2
      obtain ⟨c2, g1, g2, g3⟩ := h sc2 (List.mem_cons_of_mem _ hs2)
      exact ⟨c2, g1, by rw [hl]; exact g2, g3⟩)
    simp only [UpdateExecutor.apply_set_clauses, assigned_row, h1]
    rw [← hm]
    exact ⟨e1, e2.trans hl⟩

/-- The loop that deletes index entries in `UpdateExecutor::Next`: the key of each index is built
from the buffer it is given and stays in the key buffer. -/
theorem update_delete_entries_spec (rec : List Byte) :
    ∀ (handles : List (IndexMeta × String × List Byte)) (ihs : StrMap IxIndexHandle)
      (calls : List Call),
      (∀ h ∈ handles, h.1.fits rec ∧ h.2.2.length = h.1.col_tot_len) →
      ∃ ihs1, UpdateExecutor.delete_entries rec handles ihs calls =
        (handles.map (fun h => (h.1, h.2.1, h.1.key_of rec)), ihs1,
          calls ++ handles.map (fun h => Call.delete_entry h.2.1 (h.1.key_of rec))) := by
  intro handles
  induction handles with
  | nil =>
    intro ihs calls _
    exact ⟨ihs, by simp [UpdateExecutor.delete_entries]⟩
  | cons h rest ih =>
    intro ihs calls hfit
    obtain ⟨index, name, key_buf⟩ := h
    obtain ⟨f1, f2⟩ := hfit (index, name, key_buf) (List.mem_cons_self _ _)
    have hk := fill_eq_key_of index rec key_buf f1 f2
    obtain ⟨ihs1, e1⟩ := ih (StrMap.modify ihs name (fun h => h.delete_entry (index.key_of rec)))
      (calls ++ [Call.delete_entry name (index.key_of rec)])
      (fun h2 hh => hfit h2 (List.mem_cons_of_mem _ hh))
    refine ⟨ihs1, ?_⟩
    simp only [UpdateExecutor.delete_entries, hk, e1, List.map_cons, List.append_assoc,
      List.singleton_append]

/-- The loop that inserts index entries in `UpdateExecutor::Next`: `insert_entry` with the key
buffer of each index. -/
theorem update_insert_entries_spec (rid : Rid) :
    ∀ (handles : List (IndexMeta × String × List Byte)) (ihs : StrMap IxIndexHandle)
      (calls : List Call),
      ∃ ihs1, UpdateExecutor.insert_entries rid handles ihs calls =
        (ihs1, calls ++ handles.map (fun h => Call.insert_entry h.2.1 h.2.2 rid)) := by
  intro handles
  induction handles with
  | nil =>
    intro ihs calls
    exact ⟨ihs, by simp [UpdateExecutor.insert_entries]⟩
  | cons h rest ih =>
    intro ihs calls
    obtain ⟨index, name, key_buf⟩ := h
    obtain ⟨ihs1, e1⟩ := ih (StrMap.modify ihs name (fun h => h.insert_entry key_buf rid))
      (calls ++ [Call.insert_entry name key_buf rid])
    refine ⟨ihs1, ?_⟩
    simp only [UpdateExecutor.insert_entries, e1, List.map_cons, List.append_assoc,
      List.singleton_append]

/-- One round of the loop over the RIDs of `UpdateExecutor::Next`: the calls are those of
`calls_for`, and the heap file has the row replaced by the row with the assignments applied. -/
theorem update_rows_step (rid : Rid)
    (handles : List (IndexMeta × String × List Byte)) (ex : UpdateExecutor)
    (hready : ex.ready [rid] handles) :
    ∃ fh2 ihs2 pg pg1,
      (∀ rest, UpdateExecutor.update_rows (rid :: rest) handles ex =
        UpdateExecutor.update_rows rest
          (handles.map (fun h => (h.1, h.2.1,
            h.1.key_of (assigned_row ex.tab_ ex.set_clauses_ (ex.fh_.record_at rid)))))
          { ex with fh_ := fh2, ihs_ := ihs2, calls := ex.calls ++ ex.calls_for handles rid }) ∧
      fh2.file_hdr = ex.fh_.file_hdr ∧
      ex.fh_.pool.pages rid.page_no = some pg ∧
      fh2.pool.pages = setAt ex.fh_.pool.pages rid.page_no (some pg1) ∧
      pg1.bitmap = pg.bitmap ∧ pg1.page_hdr = pg.page_hdr ∧
      pg1.slots = setAt pg.slots rid.slot_no
        (assigned_row ex.tab_ ex.set_clauses_ (ex.fh_.record_at rid)) ∧
      (assigned_row ex.tab_ ex.set_clauses_ (ex.fh_.record_at rid)).length =
        ex.fh_.file_hdr.record_size := by
  obtain ⟨hr, hsc, hh⟩ := hready
  obtain ⟨hp1, hp2, ⟨pg, hpg⟩, hlen⟩ := hr rid (List.mem_cons_self _ _)
  have hrec := get_record_value ex.fh_ rid (by omega) hp2 ⟨pg, hpg⟩
  obtain ⟨g1, g2⟩ := get_record_frame ex.fh_ rid
  rcases hg : ex.fh_.get_record rid with ⟨r, fh1⟩
  rw [hg] at hrec g1 g2
  simp only at hrec g1 g2
  subst hrec
  obtain ⟨a1, a2⟩ := apply_set_clauses_spec ex.tab_ ex.set_clauses_ (ex.fh_.record_at rid) (by
    intro sc hs
    obtain ⟨col, c1, c2, c3⟩ := hsc sc hs
    exact ⟨col, c1, by rw [hlen]; exact c2, c3⟩)
  have hbl : (assigned_row ex.tab_ ex.set_clauses_ (ex.fh_.record_at rid)).length =
      ex.fh_.file_hdr.record_size := a2.trans hlen
  obtain ⟨ihs1, d1⟩ := update_delete_entries_spec
    (assigned_row ex.tab_ ex.set_clauses_ (ex.fh_.record_at rid)) handles ex.ihs_ ex.calls (by
      intro h hm
      obtain ⟨b1, b2, b3, b4⟩ := hh h hm
      exact ⟨⟨b1, b2, fun col hc => by rw [hbl]; exact b3 col hc⟩, b4⟩)
  obtain ⟨fh2, pg1, m1, m2, _, _, m5, m6, m7, m8⟩ := update_record_spec fh1 rid
    (assigned_row ex.tab_ ex.set_clauses_ (ex.fh_.record_at rid)) pg (by omega)
    (by rw [g1]; exact hp2) (by rw [g2]; exact hpg)
  obtain ⟨ihs2, i1⟩ := update_insert_entries_spec rid
    (handles.map (fun h => (h.1, h.2.1,
      h.1.key_of (assigned_row ex.tab_ ex.set_clauses_ (ex.fh_.record_at rid))))) ihs1
    (ex.calls ++ handles.map (fun h => Call.delete_entry h.2.1
      (h.1.key_of (assigned_row ex.tab_ ex.set_clauses_ (ex.fh_.record_at rid)))) ++
      [Call.update_record rid (assigned_row ex.tab_ ex.set_clauses_ (ex.fh_.record_at rid))])
  refine ⟨fh2, ihs2, pg, pg1, ?_, m5.trans g1, hpg, by rw [m2, g2], m6, m7, ?_, hbl⟩
  · intro rest
    simp only [UpdateExecutor.update_rows, hg, a1, d1, m1, i1]
    congr 2
    simp only [UpdateExecutor.calls_for, List.map_map, List.append_assoc]
    rfl
  · rw [m8, g1, copy_record_of_length _ _ hbl]

theorem flatMap_congr_mem {α β : Type} (l : List α) (f g : α → List β)
    (h : ∀ a ∈ l, f a = g a) : l.flatMap f = l.flatMap g := by
  induction l with
  | nil => rfl
  | cons a rest ih =>
    simp only [List.flatMap_cons]
    rw [h a (List.mem_cons_self _ _), ih (fun b hb => h b (List.mem_cons_of_mem _ hb))]

theorem update_calls_for_congr (ex ex1 : UpdateExecutor)
    (handles handles1 : List (IndexMeta × String × List Byte)) (rid : Rid)
    (h1 : ex1.tab_ = ex.tab_) (h2 : ex1.set_clauses_ = ex.set_clauses_)
    (h3 : ex1.fh_.record_at rid = ex.fh_.record_at rid)
    (h4 : handles1.map (fun h => (h.1, h.2.1)) = handles.map (fun h => (h.1, h.2.1))) :
    ex1.calls_for handles1 rid = ex.calls_for handles rid := by
  unfold UpdateExecutor.calls_for
  rw [h1, h2, h3]
  have e1 : ∀ (k : List Byte) (l : List (IndexMeta × String × List Byte)),
      l.map (fun h => Call.delete_entry h.2.1 (h.1.key_of k)) =
        (l.map (fun h => (h.1, h.2.1))).map (fun q => Call.delete_entry q.2 (q.1.key_of k)) := by
    intro k l
    simp only [List.map_map]
    rfl
  have e2 : ∀ (k : List Byte) (l : List (IndexMeta × String × List Byte)),
      l.map (fun h => Call.insert_entry h.2.1 (h.1.key_of k) rid) =
        (l.map (fun h => (h.1, h.2.1))).map
          (fun q => Call.insert_entry q.2 (q.1.key_of k) rid) := by
    intro k l
    simp only [List.map_map]
    rfl
  rw [e1 _ handles1, e1 _ handles, e2 _ handles1, e2 _ handles, h4]

theorem record_at_setAt (fh fh2 : RmFileHandle) (rid : Rid) (pg pg1 : RmPage)
    (buf : List Byte) (hhdr : fh2.file_hdr = fh.file_hdr)
    (hpg : fh.pool.pages rid.page_no = some pg)
    (hpages : fh2.pool.pages = setAt fh.pool.pages rid.page_no (some pg1))
    (hslots : pg1.slots = setAt pg.slots rid.slot_no buf)
    (hlen : buf.length = fh.file_hdr.record_size) (r : Rid) :
    fh2.record_at r = if r = rid then buf else fh.record_at r := by
  unfold RmFileHandle.record_at
  rw [hpages, hhdr]
  by_cases hp : r.page_no = rid.page_no
  · rw [hp, setAt_same, hpg]
    simp only [hslots]
    by_cases hs : r.slot_no = rid.slot_no
    · have hr : r = rid := by
        cases r
        cases rid
        simp only at hp hs
        rw [hp, hs]
      simp only [hr, setAt_same, if_true]
      exact copy_record_of_length _ _ hlen
    · have hr : ¬ r = rid := fun h => hs (by rw [h])
      simp only [hr, if_false]
      rw [setAt_other _ _ _ _ hs]
  · have hr : ¬ r = rid := fun h => hp (by rw [h])
    simp only [hr, if_false]
    rw [setAt_other _ _ _ _ hp]

/-- The loop over the RIDs of `UpdateExecutor::Next`: it runs to its end without error; the rest
of a longer list is then processed from the state it leaves, which is ready for it; and for
distinct RIDs the calls are those of `calls_for` on the rows as stored at the start, and the heap
file has exactly the listed rows rewritten. -/
theorem update_rows_spec :
    ∀ (rids more : List Rid) (handles : List (IndexMeta × String × List Byte))
      (ex : UpdateExecutor), ex.ready (rids ++ more) handles →
      ∃ ex1 handles1,
        (∀ post, UpdateExecutor.update_rows (rids ++ post) handles ex =
          UpdateExecutor.update_rows post handles1 ex1) ∧
        ex1.ready more handles1 ∧
        handles1.map (fun h => (h.1, h.2.1)) = handles.map (fun h => (h.1, h.2.1)) ∧
        ex1.tab_ = ex.tab_ ∧ ex1.set_clauses_ = ex.set_clauses_ ∧
        ex1.tab_name_ = ex.tab_name_ ∧ ex1.rids_ = ex.rids_ ∧
        (rids.Nodup →
          ex.fh_.rewritten ex1.fh_ rids (assigned_row ex.tab_ ex.set_clauses_) ∧
          ex1.calls = ex.calls ++ rids.flatMap (ex.calls_for handles)) := by
  intro rids
  induction rids with
  | nil =>
    intro more handles ex hready
    refine ⟨ex, handles, fun _ => rfl, hready, rfl, rfl, rfl, rfl, rfl, fun _ => ⟨⟨rfl, ?_⟩, ?_⟩⟩
    · intro p
      exact ⟨fun h => h, fun pg h => ⟨pg, h, rfl, rfl, fun s => by simp⟩⟩
    · simp
  | cons rid rest ih =>
    intro more handles ex hready
    obtain ⟨hr, hsc, hh⟩ := hready
    have hready1 : ex.ready [rid] handles := by
      refine ⟨?_, hsc, hh⟩
      intro r hrm
      have : r = rid := by simpa using hrm
      subst this
      exact hr r (List.mem_cons_self _ _)
    obtain ⟨fh2, ihs2, pg, pg1, s1, s2, s3, s4, s5, s6, s7, s8⟩ :=
      update_rows_step rid handles ex hready1
    have hrecs := record_at_setAt ex.fh_ fh2 rid pg pg1 _ s2 s3 s4 s7 s8
    have hready2 : UpdateExecutor.ready
        { ex with fh_ := fh2, ihs_ := ihs2, calls := ex.calls ++ ex.calls_for handles rid }
        (rest ++ more)
        (handles.map (fun h => (h.1, h.2.1,
          h.1.key_of (assigned_row ex.tab_ ex.set_clauses_ (ex.fh_.record_at rid))))) := by
      refine ⟨?_, ?_, ?_⟩
      · intro r hrm
        obtain ⟨a, b, ⟨pg0, c⟩, d⟩ := hr r (List.mem_cons_of_mem _ hrm)
        refine ⟨a, by show r.page_no < fh2.file_hdr.num_pages; rw [s2]; exact b, ?_, ?_⟩
        · show ∃ pg, fh2.pool.pages r.page_no = some pg
          rw [s4]
          by_cases hp : r.page_no = rid.page_no
          · rw [hp, setAt_same]
            exact ⟨pg1, rfl⟩
          · rw [setAt_other _ _ _ _ hp]
            exact ⟨pg0, c⟩
        · show (fh2.record_at r).length = fh2.file_hdr.record_size
          rw [hrecs, s2]
          by_cases hrr : r = rid
          · simp only [hrr, if_true]
            exact s8
          · simp only [hrr, if_false]
            exact d
      · intro sc hs
        obtain ⟨col, c1, c2, c3⟩ := hsc sc hs
        exact ⟨col, c1, by show col.offset + col.len ≤ fh2.file_hdr.record_size; rw [s2]; exact c2,
          c3⟩
      · intro h hm
        obtain ⟨h0, hm0, rfl⟩ := List.mem_map.mp hm
        obtain ⟨b1, b2, b3, _⟩ := hh h0 hm0
        refine ⟨b1, b2, fun col hc => by
          show col.offset + col.len ≤ fh2.file_hdr.record_size
          rw [s2]
          exact b3 col hc, ?_⟩
        exact key_of_length h0.1 _ ⟨b1, b2, fun col hc => by rw [s8]; exact b3 col hc⟩
    obtain ⟨ex1, handles1, k1, k2, k3, k4, k5, k6, k7, k8⟩ := ih more _ _ hready2
    refine ⟨ex1, handles1, ?_, k2, ?_, k4, k5, k6, k7, ?_⟩
    · intro post
      show UpdateExecutor.update_rows (rid :: (rest ++ post)) handles ex = _
      rw [s1 (rest ++ post)]
      exact k1 post
    · rw [k3]
      simp only [List.map_map]
      rfl
    · intro hnd
      obtain ⟨hnot, hnd2⟩ := List.nodup_cons.mp hnd
      obtain ⟨⟨w1, w2⟩, w3⟩ := k8 hnd2
      constructor
      · refine ⟨w1.trans s2, fun p => ?_⟩
        constructor
        · intro hnone
          apply (w2 p).1
          show fh2.pool.pages p = none
          rw [s4]
          by_cases hp : p = rid.page_no
          · rw [hp, s3] at hnone
            simp at hnone
          · rw [setAt_other _ _ _ _ hp]
            exact hnone
        · intro pg0 hpg0
          by_cases hp : p = rid.page_no
          · subst hp
            rw [s3] at hpg0
            simp only [Option.some.injEq] at hpg0
            subst hpg0
            obtain ⟨pgB, x1, x2, x3, x4⟩ := (w2 rid.page_no).2 pg1 (by
              show fh2.pool.pages rid.page_no = some pg1
              rw [s4, setAt_same])
            refine ⟨pgB, x1, x2.trans s5, x3.trans s6, fun s => ?_⟩
            rw [x4 s]
            show (if ({ page_no := rid.page_no, slot_no := s } : Rid) ∈ rest then
                assigned_row ex.tab_ ex.set_clauses_
                  (copy_record (pg1.slots s) fh2.file_hdr.record_size)
              else pg1.slots s) = _
            rw [s2, s7]
            by_cases hs : s = rid.slot_no
            · subst hs
              have hm : ({ page_no := rid.page_no, slot_no := rid.slot_no } : Rid) = rid := rfl
              rw [hm]
              simp only [hnot, if_false, setAt_same, List.mem_cons, true_or, if_true]
              unfold RmFileHandle.record_at
              rw [s3]
            · have hne : ({ page_no := rid.page_no, slot_no := s } : Rid) ≠ rid := by
                intro h
                apply hs
                rw [← h]
              rw [setAt_other _ _ _ _ hs]
              simp only [List.mem_cons, hne, false_or]
          · obtain ⟨pgB, x1, x2, x3, x4⟩ := (w2 p).2 pg0 (by
              show fh2.pool.pages p = some pg0
              rw [s4, setAt_other _ _ _ _ hp]
              exact hpg0)
            refine ⟨pgB, x1, x2, x3, fun s => ?_⟩
            rw [x4 s]
            have hne : ({ page_no := p, slot_no := s } : Rid) ≠ rid := by
              intro h
              apply hp
              rw [← h]
            show (if ({ page_no := p, slot_no := s } : Rid) ∈ rest then
                assigned_row ex.tab_ ex.set_clauses_
                  (copy_record (pg0.slots s) fh2.file_hdr.record_size)
              else pg0.slots s) = _
            rw [s2]
            simp only [List.mem_cons, hne, false_or]
      · rw [w3]
        show ex.calls ++ ex.calls_for handles rid ++ _ = _
        rw [List.flatMap_cons, List.append_assoc]
        congr 2
        apply flatMap_congr_mem
        intro r hrm
        have hne : ¬ r = rid := fun h => hnot (h ▸ hrm)
        exact update_calls_for_congr ex
          { ex with fh_ := fh2, ihs_ := ihs2, calls := ex.calls ++ ex.calls_for handles rid }
          handles _ r rfl rfl
          (by
            show fh2.record_at r = _
            rw [hrecs]
            simp only [hne, if_false])
          (by
            simp only [List.map_map]
            rfl)

theorem update_rows_nil (handles : List (IndexMeta × String × List Byte))
    (ex : UpdateExecutor) : UpdateExecutor.update_rows [] handles ex = (.ok (), ex) := rfl

/-- C26 (update row result): for an executor that is ready to run (listed RIDs name slots of
fetchable data pages holding records of `record_size` bytes, assignments name columns inside the
record with values of at least the column length, well-formed index metadata) over distinct
RIDs, `UpdateExecutor::Next()` raises no error, and afterwards `get_record` of every listed RID
returns the row stored before the call with the assignments applied in order: for each
assignment the bytes `[offset, offset + len)` of its column replaced by the first `len` bytes of
its value, all other bytes as they were. The header of the file, every bitmap, every page header
(with `num_records`) and every slot of a RID that is not listed are unchanged. -/
theorem update_row_result (ex : UpdateExecutor)
    (hready : ex.ready ex.rids_ ex.index_handles) (hnodup : ex.rids_.Nodup) :
    ∃ ex1, ex.Next = (.ok (), ex1) ∧
      (∀ rid ∈ ex.rids_,
        (ex.fh_.get_record rid).1 = .ok (ex.fh_.record_at rid) ∧
        (ex1.fh_.get_record rid).1 =
          .ok (assigned_row ex.tab_ ex.set_clauses_ (ex.fh_.record_at rid))) ∧
      (∀ rid, rid ∉ ex.rids_ → ex1.fh_.record_at rid = ex.fh_.record_at rid) ∧
      ex1.fh_.file_hdr = ex.fh_.file_hdr ∧
      (∀ p, ex.fh_.pool.pages p = none → ex1.fh_.pool.pages p = none) ∧
      (∀ p pg, ex.fh_.pool.pages p = some pg →
        ∃ pg1, ex1.fh_.pool.pages p = some pg1 ∧ pg1.bitmap = pg.bitmap ∧
          pg1.page_hdr = pg.page_hdr ∧
          ∀ s, ({ page_no := p, slot_no := s } : Rid) ∉ ex.rids_ → pg1.slots s = pg.slots s) ∧
      (∀ (tab : TabMeta) (sc : SetClause) (rest : List SetClause) (rec : List Byte)
        (col : ColMeta), tab.get_col sc.lhs.col_name = .ok col →
        assigned_row tab (sc :: rest) rec =
          assigned_row tab rest
            (rec.take col.offset ++ sc.rhs.raw.take col.len ++
              rec.drop (col.offset + col.len))) := by
  obtain ⟨ex1, handles1, k1, _, _, _, _, _, _, k8⟩ :=
    update_rows_spec ex.rids_ [] ex.index_handles ex (by rw [List.append_nil]; exact hready)
  obtain ⟨⟨w1, w2⟩, _⟩ := k8 hnodup
  have hnext : ex.Next = (.ok (), ex1) := by
    unfold UpdateExecutor.Next
    have := k1 []
    rw [List.append_nil, update_rows_nil] at this
    exact this
  have hrec : ∀ rid, ex1.fh_.record_at rid =
      if rid ∈ ex.rids_ then
        copy_record (assigned_row ex.tab_ ex.set_clauses_ (ex.fh_.record_at rid))
          ex.fh_.file_hdr.record_size
      else ex.fh_.record_at rid := by
    intro rid
    unfold RmFileHandle.record_at
    cases hp : ex.fh_.pool.pages rid.page_no with
    | none =>
      rw [(w2 rid.page_no).1 hp]
      by_cases hm : rid ∈ ex.rids_
      · obtain ⟨_, _, ⟨pg, c⟩, _⟩ := hready.1 rid hm
        rw [hp] at c
        simp at c
      · simp only [hm, if_false]
    | some pg =>
      obtain ⟨pg1, x1, _, _, x4⟩ := (w2 rid.page_no).2 pg hp
      rw [x1]
      simp only [x4, w1]
      have hm : ({ page_no := rid.page_no, slot_no := rid.slot_no } : Rid) = rid := rfl
      rw [hm]
      by_cases hin : rid ∈ ex.rids_
      · simp only [hin, if_true]
      · simp only [hin, if_false]
  refine ⟨ex1, hnext, ?_, ?_, w1, fun p => (w2 p).1, ?_, ?_⟩
  · intro rid hm
    obtain ⟨a, b, c, d⟩ := hready.1 rid hm
    have hlen : (assigned_row ex.tab_ ex.set_clauses_ (ex.fh_.record_at rid)).length =
        ex.fh_.file_hdr.record_size := by
      have := (apply_set_clauses_spec ex.tab_ ex.set_clauses_ (ex.fh_.record_at rid) (by
        intro sc hs
        obtain ⟨col, c1, c2, c3⟩ := hready.2.1 sc hs
        exact ⟨col, c1, by rw [d]; exact c2, c3⟩)).2
      rw [this, d]
    refine ⟨get_record_value ex.fh_ rid (by omega) b c, ?_⟩
    obtain ⟨pg, hpg⟩ := c
    obtain ⟨pg1, x1, _⟩ := (w2 rid.page_no).2 pg hpg
    rw [get_record_value ex1.fh_ rid (by omega) (by rw [w1]; exact b) ⟨pg1, x1⟩, hrec]
    simp only [hm, if_true]
    rw [copy_record_of_length _ _ hlen]
  · intro rid hm
    rw [hrec]
    simp only [hm, if_false]
  · intro p pg hpg
    obtain ⟨pg1, x1, x2, x3, x4⟩ := (w2 p).2 pg hpg
    refine ⟨pg1, x1, x2, x3, fun s hs => ?_⟩
    rw [x4 s]
    simp only [hs, if_false]
  · intro tab sc rest rec col hcol
    simp only [assigned_row, hcol]

/-- Witness for C26: in the table `t(a, b, c)` with the rows `(1, 2, 3)` and `(4, 5, 6)`, the
update `a := 7` of the row at `(1, 0)` leaves `(7, 2, 3)` there and `(4, 5, 6)` at `(1, 1)`. -/
theorem update_row_result_witness :
    update_first_row.Next.1 = .ok () ∧
    (update_first_row.Next.2.fh_.get_record { page_no := 1, slot_no := 0 }).1 =
      .ok (int_bytes 7 ++ int_bytes 2 ++ int_bytes 3) ∧
    (update_first_row.Next.2.fh_.get_record { page_no := 1, slot_no := 1 }).1 =
      .ok (int_bytes 4 ++ int_bytes 5 ++ int_bytes 6) ∧
    ∃ ex1, update_first_row.Next = (.ok (), ex1) ∧
      (∀ rid ∈ update_first_row.rids_,
        (update_first_row.fh_.get_record rid).1 = .ok (update_first_row.fh_.record_at rid) ∧
        (ex1.fh_.get_record rid).1 =
          .ok (assigned_row update_first_row.tab_ update_first_row.set_clauses_
            (update_first_row.fh_.record_at rid))) ∧
      (∀ rid, rid ∉ update_first_row.rids_ →
        ex1.fh_.record_at rid = update_first_row.fh_.record_at rid) ∧
      ex1.fh_.file_hdr = update_first_row.fh_.file_hdr ∧
      (∀ p, update_first_row.fh_.pool.pages p = none → ex1.fh_.pool.pages p = none) ∧
      (∀ p pg, update_first_row.fh_.pool.pages p = some pg →
        ∃ pg1, ex1.fh_.pool.pages p = some pg1 ∧ pg1.bitmap = pg.bitmap ∧
          pg1.page_hdr = pg.page_hdr ∧
          ∀ s, ({ page_no := p, slot_no := s } : Rid) ∉ update_first_row.rids_ →
            pg1.slots s = pg.slots s) ∧
      (∀ (tab : TabMeta) (sc : SetClause) (rest : List SetClause) (rec : List Byte)
        (col : ColMeta), tab.get_col sc.lhs.col_name = .ok col →
        assigned_row tab (sc :: rest) rec =
          assigned_row tab rest
            (rec.take col.offset ++ sc.rhs.raw.take col.len ++
              rec.drop (col.offset + col.len))) :=
  ⟨rfl, rfl, rfl,
    update_row_result update_first_row
      ⟨fun rid hr => by
          have : rid = { page_no := 1, slot_no := 0 } := by
            simpa [update_first_row] using hr
          subst this
          exact ⟨by decide, by decide, ⟨_, rfl⟩, rfl⟩,
        fun sc hs => by
          have : sc = { lhs := { tab_name := "t", col_name := "a" }, rhs := seven } := by
            simpa [update_first_row] using hs
          subst this
          exact ⟨int_col "t" "a", rfl, by decide, by decide⟩,
        fun h hm => by
          have : h = (a_index, "t_a", List.replicate 4 0) := by
            have hm2 : h ∈ [(a_index, "t_a", List.replicate 4 0)] := hm
            simpa using hm2
          subst this
          refine ⟨rfl, rfl, ?_, rfl⟩
          intro col hc
          have h3 : col = int_col "t" "a" := by simpa [a_index] using hc
          subst h3
          decide⟩
      (by decide)⟩

/-! ## Index maintenance of the update -/

theorem index_handles_names (ex : UpdateExecutor) :
    ex.index_handles.map (fun h => (h.1, h.2.1)) =
      (ex.tab_.indexes.filter (fun index =>
        (StrMap.find ex.ihs_ (get_index_name ex.tab_name_ index.cols)).isSome)).map
        (fun index => (index, get_index_name ex.tab_name_ index.cols)) := by
  unfold UpdateExecutor.index_handles
  induction ex.tab_.indexes with
  | nil => rfl
  | cons index rest ih =>
    cases hf : StrMap.find ex.ihs_ (get_index_name ex.tab_name_ index.cols) with
    | none =>
      rw [List.filterMap_cons_none (by simp only [hf]), List.filter_cons_of_neg (by simp [hf])]
      exact ih
    | some v =>
      rw [List.filterMap_cons_some (by simp only [hf]; rfl),
        List.filter_cons_of_pos (by simp [hf]), List.map_cons, List.map_cons, ih]

/-- C34 (index maintenance of the update): for an executor that is ready to run,
`UpdateExecutor::Next()` raises no error, the indexes it maintains are the declared indexes
whose name has a handle in `ihs_`, in their order, and in the round of each RID of the list it
calls `delete_entry(k_i)` on each of these indexes, then `update_record(rid, buf)`, then
`insert_entry(k_i, rid)` on each of them, where `buf` is the row stored at the start of the
round with all assignments applied and `k_i` is the concatenation of the bytes of `buf` at the
columns of index `i`, in index order: the same key, taken from the buffer after the assignments,
for both calls. -/
theorem update_index_maintenance_order (ex : UpdateExecutor)
    (hready : ex.ready ex.rids_ ex.index_handles) :
    ex.index_handles.map (fun h => (h.1, h.2.1)) =
      (ex.tab_.indexes.filter (fun index =>
        (StrMap.find ex.ihs_ (get_index_name ex.tab_name_ index.cols)).isSome)).map
        (fun index => (index, get_index_name ex.tab_name_ index.cols)) ∧
    (∀ (index : IndexMeta) (buf : List Byte),
      index.key_of buf = (index.cols.map (fun col => col_bytes buf col.offset col.len)).flatten) ∧
    ∃ ex1, ex.Next = (.ok (), ex1) ∧
      ∀ pre rid post, ex.rids_ = pre ++ rid :: post →
        ∃ before after,
          UpdateExecutor.update_rows pre ex.index_handles ex = (.ok (), before) ∧
          UpdateExecutor.update_rows (pre ++ [rid]) ex.index_handles ex = (.ok (), after) ∧
          (post = [] → after = ex1) ∧
          (before.fh_.get_record rid).1 = .ok (before.fh_.record_at rid) ∧
          after.calls = before.calls ++
            ex.index_handles.map (fun h => Call.delete_entry h.2.1
              (h.1.key_of (assigned_row ex.tab_ ex.set_clauses_ (before.fh_.record_at rid)))) ++
            [Call.update_record rid
              (assigned_row ex.tab_ ex.set_clauses_ (before.fh_.record_at rid))] ++
            ex.index_handles.map (fun h => Call.insert_entry h.2.1
              (h.1.key_of (assigned_row ex.tab_ ex.set_clauses_ (before.fh_.record_at rid)))
              rid) := by
  refine ⟨index_handles_names ex, fun _ _ => rfl, ?_⟩
  obtain ⟨ex1, handles1, k1, _⟩ :=
    update_rows_spec ex.rids_ [] ex.index_handles ex (by rw [List.append_nil]; exact hready)
  have hnext : ex.Next = (.ok (), ex1) := by
    unfold UpdateExecutor.Next
    have := k1 []
    rw [List.append_nil, update_rows_nil] at this
    exact this
  refine ⟨ex1, hnext, ?_⟩
  intro pre rid post hsplit
  obtain ⟨before, handles0, b1, b2, b3, b4, b5, _, _, _⟩ :=
    update_rows_spec pre (rid :: post) ex.index_handles ex (by rw [← hsplit]; exact hready)
  have hready0 : before.ready [rid] handles0 := by
    refine ⟨?_, b2.2.1, b2.2.2⟩
    intro r hrm
    have : r = rid := by simpa using hrm
    subst this
    exact b2.1 r (List.mem_cons_self _ _)
  obtain ⟨fh2, ihs2, pg, pg1, s1, _⟩ := update_rows_step rid handles0 before hready0
  have hpre : UpdateExecutor.update_rows pre ex.index_handles ex = (.ok (), before) := by
    have := b1 []
    rw [List.append_nil, update_rows_nil] at this
    exact this
  have hafter := b1 [rid]
  rw [s1 [], update_rows_nil] at hafter
  refine ⟨before, _, hpre, hafter, ?_, ?_, ?_⟩
  · intro hp
    subst hp
    have h2 : ex.Next = UpdateExecutor.update_rows (pre ++ [rid]) ex.index_handles ex := by
      unfold UpdateExecutor.Next
      rw [hsplit]
    rw [hafter, hnext] at h2
    exact ((Prod.mk.injEq _ _ _ _).mp h2).2.symm
  · obtain ⟨a, b, c, _⟩ := hready0.1 rid (List.mem_cons_self _ _)
    exact get_record_value before.fh_ rid (by omega) b c
  · show before.calls ++ before.calls_for handles0 rid = _
    rw [update_calls_for_congr before before ex.index_handles handles0 rid rfl rfl rfl b3]
    simp only [UpdateExecutor.calls_for, List.append_assoc, b4, b5]

/-- Witness for C34: the update `a := 7` of the row `(1, 2, 3)` at `(1, 0)` of the table with
an index on `a` calls `delete_entry(7)`, `update_record((1, 0), (7, 2, 3))` and
`insert_entry(7, (1, 0))`, in this order. -/
theorem update_index_maintenance_order_witness :
    update_first_row.Next.2.calls =
      [Call.delete_entry "t_a" (int_bytes 7),
        Call.update_record { page_no := 1, slot_no := 0 }
          (int_bytes 7 ++ int_bytes 2 ++ int_bytes 3),
        Call.insert_entry "t_a" (int_bytes 7) { page_no := 1, slot_no := 0 }] ∧
    (update_first_row.index_handles.map (fun h => (h.1, h.2.1)) =
      (update_first_row.tab_.indexes.filter (fun index =>
        (StrMap.find update_first_row.ihs_
          (get_index_name update_first_row.tab_name_ index.cols)).isSome)).map
        (fun index => (index, get_index_name update_first_row.tab_name_ index.cols)) ∧
    (∀ (index : IndexMeta) (buf : List Byte),
      index.key_of buf = (index.cols.map (fun col => col_bytes buf col.offset col.len)).flatten) ∧
    ∃ ex1, update_first_row.Next = (.ok (), ex1) ∧
      ∀ pre rid post, update_first_row.rids_ = pre ++ rid :: post →
        ∃ before after,
          UpdateExecutor.update_rows pre update_first_row.index_handles update_first_row =
            (.ok (), before) ∧
          UpdateExecutor.update_rows (pre ++ [rid]) update_first_row.index_handles
            update_first_row = (.ok (), after) ∧
          (post = [] → after = ex1) ∧
          (before.fh_.get_record rid).1 = .ok (before.fh_.record_at rid) ∧
          after.calls = before.calls ++
            update_first_row.index_handles.map (fun h => Call.delete_entry h.2.1
              (h.1.key_of (assigned_row update_first_row.tab_ update_first_row.set_clauses_
                (before.fh_.record_at rid)))) ++
            [Call.update_record rid
              (assigned_row update_first_row.tab_ update_first_row.set_clauses_
                (before.fh_.record_at rid))] ++
            update_first_row.index_handles.map (fun h => Call.insert_entry h.2.1
              (h.1.key_of (assigned_row update_first_row.tab_ update_first_row.set_clauses_
                (before.fh_.record_at rid)))
              rid)) :=
  ⟨rfl,
    update_index_maintenance_order update_first_row
      ⟨fun rid hr => by
          have : rid = { page_no := 1, slot_no := 0 } := by
            simpa [update_first_row] using hr
          subst this
          exact ⟨by decide, by decide, ⟨_, rfl⟩, rfl⟩,
        fun sc hs => by
          have : sc = { lhs := { tab_name := "t", col_name := "a" }, rhs := seven } := by
            simpa [update_first_row] using hs
          subst this
          exact ⟨int_col "t" "a", rfl, by decide, by decide⟩,
        fun h hm => by
          have : h = (a_index, "t_a", List.replicate 4 0) := by
            have hm2 : h ∈ [(a_index, "t_a", List.replicate 4 0)] := hm
            simpa using hm2
          subst this
          refine ⟨rfl, rfl, ?_, rfl⟩
          intro col hc
          have h3 : col = int_col "t" "a" := by simpa [a_index] using hc
          subst h3
          decide⟩⟩

/-! ## The index after an update of an indexed column -/

/-- C24 (update and index consistency), failing input: the table `t(a, b, c)` with an index on
`a`, the rows `(1, 2, 3)` at `(1, 0)` and `(4, 5, 6)` at `(1, 1)` and the index holding the
entries `1 ↦ (1, 0)` and `4 ↦ (1, 1)` is consistent. `UpdateExecutor::Next()` for `a := 7` on
the row at `(1, 0)` raises no error and stores `(7, 2, 3)`, calls `delete_entry` with the key 7
of the new row, which removes nothing, and leaves the index with the entries `1 ↦ (1, 0)`,
`4 ↦ (1, 1)` and `7 ↦ (1, 0)`: the entry of the old key stays, and the index is not consistent
with the heap file any more. -/
theorem update_leaves_stale_index_entry :
    index_consistent "t" abc_indexed abc_file abc_ihs ∧
    update_first_row.Next.1 = .ok () ∧
    (update_first_row.Next.2.fh_.get_record { page_no := 1, slot_no := 0 }).1 =
      .ok (int_bytes 7 ++ int_bytes 2 ++ int_bytes 3) ∧
    update_first_row.Next.2.calls =
      [Call.delete_entry "t_a" (int_bytes 7),
        Call.update_record { page_no := 1, slot_no := 0 }
          (int_bytes 7 ++ int_bytes 2 ++ int_bytes 3),
        Call.insert_entry "t_a" (int_bytes 7) { page_no := 1, slot_no := 0 }] ∧
    StrMap.find update_first_row.Next.2.ihs_ "t_a" =
      some { fd := 5
             entries := [(int_bytes 1, { page_no := 1, slot_no := 0 }),
               (int_bytes 4, { page_no := 1, slot_no := 1 }),
               (int_bytes 7, { page_no := 1, slot_no := 0 })] } ∧
    ¬ index_consistent "t" abc_indexed update_first_row.Next.2.fh_
        update_first_row.Next.2.ihs_ := by
  refine ⟨?_, rfl, rfl, rfl, rfl, ?_⟩
  · intro index hi
    have hidx : index = a_index := by simpa [abc_indexed] using hi
    subst hidx
    refine ⟨_, rfl, by decide, ?_⟩
    intro key rid
    constructor
    · intro hm
      have hm2 : (key, rid) ∈ [(int_bytes 1, ({ page_no := 1, slot_no := 0 } : Rid)),
          (int_bytes 4, ({ page_no := 1, slot_no := 1 } : Rid))] := hm
      simp only [List.mem_cons, Prod.mk.injEq, List.mem_singleton, List.not_mem_nil,
        or_false] at hm2
      rcases hm2 with ⟨h1, h2⟩ | ⟨h1, h2⟩
      · subst h1 h2
        exact ⟨⟨by decide, by decide, by decide, by decide, _, rfl, rfl⟩, rfl⟩
      · subst h1 h2
        exact ⟨⟨by decide, by decide, by decide, by decide, _, rfl, rfl⟩, rfl⟩
    · rintro ⟨⟨o1, o2, o3, o4, pg, o5, o6⟩, hk⟩
      obtain ⟨p, s⟩ := rid
      simp only at o1 o2 o3 o4 o5 o6
      have hp : p = 1 := by
        have : p < 2 := o2
        omega
      subst hp
      have hpg : pg = { page_hdr := { next_free_page_no := RM_NO_PAGE, num_records := 2 }
                        bitmap := fun i => decide (i = 0 ∨ i = 1)
                        slots := fun i =>
                          if i = 0 then int_bytes 1 ++ int_bytes 2 ++ int_bytes 3
                          else if i = 1 then int_bytes 4 ++ int_bytes 5 ++ int_bytes 6
                          else List.replicate 12 0 } := by
        have : abc_file.pool.pages 1 = some pg := o5
        simp only [abc_file, if_true] at this
        exact (Option.some.inj this).symm
      subst hpg
      simp only [decide_eq_true_eq] at o6
      rcases o6 with h | h
      · subst h
        subst hk
        exact List.mem_cons_self _ _
      · subst h
        subst hk
        exact List.mem_cons_of_mem _ (List.mem_cons_self _ _)
  · intro hc
    obtain ⟨ih, h1, _, h3⟩ := hc a_index (List.mem_cons_self _ _)
    have h4 : ih = { fd := 5
                     entries := [(int_bytes 1, { page_no := 1, slot_no := 0 }),
                       (int_bytes 4, { page_no := 1, slot_no := 1 }),
                       (int_bytes 7, { page_no := 1, slot_no := 0 })] } := by
      have h5 : StrMap.find update_first_row.Next.2.ihs_ "t_a" = some ih := h1
      have h6 : StrMap.find update_first_row.Next.2.ihs_ "t_a" =
          some { fd := 5
                 entries := [(int_bytes 1, { page_no := 1, slot_no := 0 }),
                   (int_bytes 4, { page_no := 1, slot_no := 1 }),
                   (int_bytes 7, { page_no := 1, slot_no := 0 })] } := rfl
      rw [h5] at h6
      exact Option.some.inj h6
    subst h4
    have h7 := ((h3 (int_bytes 1) { page_no := 1, slot_no := 0 }).mp
      (List.mem_cons_self _ _)).2
    have h8 : a_index.key_of
        (update_first_row.Next.2.fh_.record_at { page_no := 1, slot_no := 0 }) =
          int_bytes 7 := rfl
    rw [h8] at h7
    exact absurd h7 (by decide)

/-! ## Page numbers -/

theorem page_id_wrap_succ (c : Int) (hmin : PAGE_ID_MIN ≤ c) (hmax : c < PAGE_ID_MAX) :
    page_id_wrap (c + 1) = c + 1 := by
  unfold page_id_wrap
  unfold PAGE_ID_MIN at hmin
  unfold PAGE_ID_MAX at hmax
  omega

theorem page_id_wrap_last : page_id_wrap (PAGE_ID_MAX + 1) = PAGE_ID_MIN := by decide

theorem page_id_wrap_id (c : Int) (hmin : PAGE_ID_MIN ≤ c) (hmax : c ≤ PAGE_ID_MAX) :
    page_id_wrap c = c := by
  unfold page_id_wrap
  unfold PAGE_ID_MIN at hmin
  unfold PAGE_ID_MAX at hmax
  omega

theorem allocate_page_in_range (a : DiskCounters) (fd : Int) (hfd : 0 ≤ fd ∧ fd < MAX_FD) :
    a.allocate_page fd =
      some (a.fd2pageno_ fd,
        { fd2pageno_ := setAt a.fd2pageno_ fd (page_id_wrap (a.fd2pageno_ fd + 1)) }) := by
  unfold DiskCounters.allocate_page
  rw [if_pos hfd]

theorem allocate_pages_spec (fd : Int) (hfd : 0 ≤ fd ∧ fd < MAX_FD) :
    ∀ (k : Nat) (a : DiskCounters), PAGE_ID_MIN ≤ a.fd2pageno_ fd →
      a.fd2pageno_ fd ≤ PAGE_ID_MAX →
      a.fd2pageno_ fd + (k : Int) ≤ PAGE_ID_MAX + 1 →
      ∃ a1, DiskCounters.allocate_pages fd k a =
          some ((List.range k).map (fun (i : Nat) => a.fd2pageno_ fd + (i : Int)), a1) ∧
        a1.fd2pageno_ fd = page_id_wrap (a.fd2pageno_ fd + (k : Int)) ∧
        (∀ other, other ≠ fd → a1.fd2pageno_ other = a.fd2pageno_ other) := by
  intro k
  induction k with
  | zero =>
    intro a hmin hle _
    refine ⟨a, rfl, ?_, fun _ _ => rfl⟩
    simp only [Nat.cast_zero, Int.add_zero]
    exact (page_id_wrap_id _ hmin hle).symm
  | succ k ih =>
    intro a hmin hle hmax
    have hstep := allocate_page_in_range a fd hfd
    cases k with
    | zero =>
      refine ⟨DiskCounters.mk (setAt a.fd2pageno_ fd (page_id_wrap (a.fd2pageno_ fd + 1))),
        ?_, ?_, ?_⟩
      · unfold DiskCounters.allocate_pages
        rw [hstep]
        simp [DiskCounters.allocate_pages, List.range_succ]
      · simp [setAt]
      · intro other hne
        simp [setAt, hne]
    | succ m =>
      have hlt : a.fd2pageno_ fd < PAGE_ID_MAX := by
        unfold PAGE_ID_MAX at hmax ⊢
        push_cast at hmax
        omega
      have hw := page_id_wrap_succ _ hmin hlt
      have hc : (DiskCounters.mk
          (setAt a.fd2pageno_ fd (page_id_wrap (a.fd2pageno_ fd + 1)))).fd2pageno_ fd =
          a.fd2pageno_ fd + 1 := by
        simp [setAt, hw]
      obtain ⟨a1, h1, h2, h3⟩ := ih
        (DiskCounters.mk (setAt a.fd2pageno_ fd (page_id_wrap (a.fd2pageno_ fd + 1))))
        (by rw [hc]; omega)
        (by rw [hc]; omega)
        (by rw [hc]; push_cast at hmax ⊢; omega)
      have hc' : setAt a.fd2pageno_ fd (page_id_wrap (a.fd2pageno_ fd + 1)) fd =
          a.fd2pageno_ fd + 1 := hc
      simp only [hc'] at h1 h2
      have hl : List.map (fun (i : Nat) => a.fd2pageno_ fd + (i : Int)) (List.range (m + 1 + 1)) =
          a.fd2pageno_ fd ::
            List.map (fun (i : Nat) => a.fd2pageno_ fd + 1 + (i : Int)) (List.range (m + 1)) := by
        rw [List.range_succ_eq_map (m + 1), List.map_cons, List.map_map]
        simp only [Nat.cast_zero, Int.add_zero, List.cons.injEq, true_and]
        apply List.map_congr_left
        intro i _
        simp only [Function.comp, Nat.cast_succ]
        omega
      refine ⟨a1, ?_, ?_, ?_⟩
      · have hu : DiskCounters.allocate_pages fd (m + 1 + 1) a =
            (match a.allocate_page fd with
              | none => none
              | some (page_no, a1) =>
                match DiskCounters.allocate_pages fd (m + 1) a1 with
                | none => none
                | some (rest, a2) => some (page_no :: rest, a2)) := rfl
        rw [hu, hstep]
        simp only [h1]
        rw [hl]
      · rw [h2]
        congr 1
        push_cast
        omega
      · intro other hne
        rw [h3 other hne]
        simp [setAt, hne]

/-- C32 (page-number allocator): for a descriptor `fd` that passes the `assert`
(`0 ≤ fd < MAX_FD`) and a counter `c` of `fd`, `allocate_page(fd)` returns `c` and leaves the
counter of `fd` at `c + 1` in `page_id_t`, that is `c + 1` while `c` is below the greatest page
number and the least page number after the greatest; the counters of all other descriptors are
unchanged. Hence `k` successive calls on the same `fd` return the `k` consecutive numbers
`c, c + 1, …, c + k - 1`, a strictly increasing sequence, as long as these do not exceed the
greatest page number, and leave the counter at `c + k` in `page_id_t`. For a descriptor outside
the range the assertion fails. `deallocate_page` changes nothing. On the disk manager of the
buffer-pool development `allocate_page` is the same function below the greatest page number. -/
theorem allocate_page_counter (a : DiskCounters) (fd : Int) (hfd : 0 ≤ fd ∧ fd < MAX_FD)
    (hmin : PAGE_ID_MIN ≤ a.fd2pageno_ fd) (hmax : a.fd2pageno_ fd ≤ PAGE_ID_MAX) :
    (∃ a1, a.allocate_page fd = some (a.fd2pageno_ fd, a1) ∧
      a1.fd2pageno_ fd = page_id_wrap (a.fd2pageno_ fd + 1) ∧
      (a.fd2pageno_ fd < PAGE_ID_MAX → a1.fd2pageno_ fd = a.fd2pageno_ fd + 1) ∧
      (a.fd2pageno_ fd = PAGE_ID_MAX → a1.fd2pageno_ fd = PAGE_ID_MIN) ∧
      (∀ other, other ≠ fd → a1.fd2pageno_ other = a.fd2pageno_ other)) ∧
    (∀ k : Nat, a.fd2pageno_ fd + (k : Int) ≤ PAGE_ID_MAX + 1 →
      ∃ a1, DiskCounters.allocate_pages fd k a =
          some ((List.range k).map (fun (i : Nat) => a.fd2pageno_ fd + (i : Int)), a1) ∧
        ((List.range k).map (fun (i : Nat) => a.fd2pageno_ fd + (i : Int))).length = k ∧
        ((List.range k).map (fun (i : Nat) => a.fd2pageno_ fd + (i : Int))).Pairwise
          (fun x y => x < y) ∧
        a1.fd2pageno_ fd = page_id_wrap (a.fd2pageno_ fd + (k : Int)) ∧
        (a.fd2pageno_ fd + (k : Int) ≤ PAGE_ID_MAX →
          a1.fd2pageno_ fd = a.fd2pageno_ fd + (k : Int)) ∧
        (∀ other, other ≠ fd → a1.fd2pageno_ other = a.fd2pageno_ other)) ∧
    (∀ other, ¬ (0 ≤ other ∧ other < MAX_FD) → a.allocate_page other = none) ∧
    (∀ page_id, a.deallocate_page page_id = a) ∧
    (∀ dm : DiskManager, dm.counters = a → a.fd2pageno_ fd < PAGE_ID_MAX →
      a.allocate_page fd = some ((dm.allocate_page fd).1, (dm.allocate_page fd).2.counters)) := by
  refine ⟨?_, ?_, ?_, fun _ => rfl, ?_⟩
  · refine ⟨_, allocate_page_in_range a fd hfd, by simp [setAt], ?_, ?_, ?_⟩
    · intro hlt
      simp only [setAt, if_true]
      exact page_id_wrap_succ _ hmin hlt
    · intro he
      simp only [setAt, if_true]
      rw [he]
      exact page_id_wrap_last
    · intro other hne
      simp [setAt, hne]
  · intro k hk
    obtain ⟨a1, h1, h2, h3⟩ := allocate_pages_spec fd hfd k a hmin hmax hk
    refine ⟨a1, h1, by simp, ?_, h2, ?_, h3⟩
    · rw [List.pairwise_map]
      exact (List.pairwise_lt_range k).imp (fun h => by omega)
    · intro hle
      rw [h2]
      exact page_id_wrap_id _ (by omega) hle
  · intro other hno
    unfold DiskCounters.allocate_page
    rw [if_neg hno]
  · intro dm hdm hlt
    rw [allocate_page_in_range a fd hfd, page_id_wrap_succ _ hmin hlt]
    subst hdm
    rfl

/-- Witness for C32: with every counter at 10, three calls of `allocate_page(3)` return 10, 11,
12 and leave the counter of descriptor 3 at 13 and the others at 10; `allocate_page(-1)` and
`allocate_page(8192)` fail the assertion. -/
theorem allocate_page_counter_witness :
    (DiskCounters.allocate_pages 3 3 ten_counters).map (fun r => r.1) = some [10, 11, 12] ∧
    (DiskCounters.allocate_pages 3 3 ten_counters).map (fun r => (r.2.fd2pageno_ 3,
      r.2.fd2pageno_ 4)) = some (13, 10) ∧
    (ten_counters.allocate_page (-1)).isNone = true ∧
    (ten_counters.allocate_page 8192).isNone = true ∧
    (∃ a1, ten_counters.allocate_page 3 = some (ten_counters.fd2pageno_ 3, a1) ∧
      a1.fd2pageno_ 3 = page_id_wrap (ten_counters.fd2pageno_ 3 + 1) ∧
      (ten_counters.fd2pageno_ 3 < PAGE_ID_MAX →
        a1.fd2pageno_ 3 = ten_counters.fd2pageno_ 3 + 1) ∧
      (ten_counters.fd2pageno_ 3 = PAGE_ID_MAX → a1.fd2pageno_ 3 = PAGE_ID_MIN) ∧
      (∀ other, other ≠ 3 → a1.fd2pageno_ other = ten_counters.fd2pageno_ other)) :=
  ⟨rfl, rfl, rfl, rfl,
    (allocate_page_counter ten_counters 3 (by decide) (by decide) (by decide)).1⟩

/-- C32, counterexample. With the counter of descriptor 3 at the greatest page number
2147483647, `allocate_page(3)` returns 2147483647 and leaves the counter at -2147483648, not at
the counter plus one; two successive calls return 2147483647 and then -2147483648, which is not
an increasing sequence. -/
theorem allocate_page_wraps_at_last_page :
    (last_page_counters.allocate_page 3).map (fun r => (r.1, r.2.fd2pageno_ 3)) =
      some (2147483647, -2147483648) ∧
    (last_page_counters.allocate_page 3).map (fun r => decide (r.2.fd2pageno_ 3 =
      last_page_counters.fd2pageno_ 3 + 1)) = some false ∧
    (DiskCounters.allocate_pages 3 2 last_page_counters).map (fun r => r.1) =
      some [2147483647, -2147483648] ∧
    ¬ [(2147483647 : Int), -2147483648].Pairwise (fun x y => x < y) := by
  refine ⟨by decide, by decide, by decide, by decide⟩

/-! ## `delete_record` on a free slot -/

theorem popcount_le (bm : Int → Bool) (n : Int) : Bitmap.popcount bm n ≤ n.toNat := by
  unfold Bitmap.popcount
  calc ((List.range n.toNat).filter (fun (i : Nat) => bm (i : Int))).length
      ≤ (List.range n.toNat).length := List.length_filter_le _ _
    _ = n.toNat := List.length_range _

/-- A bitmap with a clear bit among its slots has fewer set bits than slots. -/
theorem popcount_lt_of_clear (bm : Int → Bool) (n s : Int) (h0 : 0 ≤ s) (h1 : s < n)
    (hb : bm s = false) : (Bitmap.popcount bm n : Int) < n := by
  have h2 := popcount_set bm n s h0 h1 hb
  have h3 := popcount_le (Bitmap.set bm s) n
  omega

theorem reset_of_clear (bm : Int → Bool) (s : Int) (hb : bm s = false) :
    Bitmap.reset bm s = bm := by
  funext i
  unfold Bitmap.reset
  by_cases h : i = s
  · rw [if_pos h, h, hb]
  · rw [if_neg h]

/-- C40 (no occupancy guard in `delete_record`): for a data page `p` in range whose
`num_records` equals the popcount of its bitmap and a slot `0 ≤ s < records_per_page` whose bit
is clear, `delete_record((p, s))` raises no error; the bitmap and the bytes of every slot of the
page, the file header with the head of the free list, the link `next_free_page_no` of the page
and all other pages are unchanged; and `num_records` of the page is decreased by exactly one, so
that it is one less than the popcount of the bitmap afterwards. -/
theorem delete_record_no_occupancy_guard (fh : RmFileHandle) (rid : Rid) (pg : RmPage)
    (hp1 : 1 ≤ rid.page_no) (hp2 : rid.page_no < fh.file_hdr.num_pages)
    (hpg : fh.pool.pages rid.page_no = some pg)
    (hcoh : pg.coherent fh.file_hdr.num_records_per_page)
    (hs0 : 0 ≤ rid.slot_no) (hs1 : rid.slot_no < fh.file_hdr.num_records_per_page)
    (hclear : pg.bitmap rid.slot_no = false) :
    ∃ fh1 pg1, fh.delete_record rid = (.ok (), fh1) ∧
      fh1.pool.pages = setAt fh.pool.pages rid.page_no (some pg1) ∧
      fh1.file_hdr = fh.file_hdr ∧
      pg1.bitmap = pg.bitmap ∧
      pg1.slots = pg.slots ∧
      pg1.page_hdr.next_free_page_no = pg.page_hdr.next_free_page_no ∧
      pg1.page_hdr.num_records = pg.page_hdr.num_records - 1 ∧
      pg1.page_hdr.num_records =
        (Bitmap.popcount pg1.bitmap fh.file_hdr.num_records_per_page : Int) - 1 ∧
      ¬ pg1.coherent fh1.file_hdr.num_records_per_page := by
  have hlt := popcount_lt_of_clear pg.bitmap _ _ hs0 hs1 hclear
  have hnf : ¬ pg.page_hdr.num_records = fh.file_hdr.num_records_per_page := by
    rw [hcoh]
    omega
  have hd : ∃ fh1, fh.delete_record rid = (.ok (), fh1) ∧
      fh1.pool.pages = setAt fh.pool.pages rid.page_no
        (some { page_hdr := ⟨pg.page_hdr.next_free_page_no, pg.page_hdr.num_records - 1⟩,
                bitmap := pg.bitmap, slots := pg.slots }) ∧
      fh1.file_hdr = fh.file_hdr := by
    unfold RmFileHandle.delete_record
    rw [fetch_page_handle_ok fh rid.page_no pg (by omega) hp2 hpg]
    simp only [hnf, decide_False, Bool.false_eq_true, if_false,
      reset_of_clear pg.bitmap rid.slot_no hclear]
    refine ⟨_, rfl, ?_, ?_⟩
    · simp [RmFileHandle.unpin, RmFileHandle.store, PoolView.unpin_page]
      split <;> simp
    · simp [RmFileHandle.unpin, RmFileHandle.store, PoolView.unpin_page]
  obtain ⟨fh1, d1, d2, d3⟩ := hd
  refine ⟨fh1, _, d1, d2, d3, rfl, rfl, rfl, rfl, ?_, ?_⟩
  · show pg.page_hdr.num_records - 1 = _
    rw [hcoh]
  · rw [d3]
    show ¬ (pg.page_hdr.num_records - 1 =
      (Bitmap.popcount pg.bitmap fh.file_hdr.num_records_per_page : Int))
    rw [hcoh]
    omega

/-- Witness for C40: in `sparse_page_file` (page 1 with the bits 0, 2, 4 set and 3 records),
`delete_record((1, 1))` on the free slot 1 leaves `num_records = 2` with three bits set. -/
theorem delete_record_no_occupancy_guard_witness :
    (sparse_page_file.delete_record { page_no := 1, slot_no := 1 }).1 = .ok () ∧
    ∃ fh1 pg1, sparse_page_file.delete_record { page_no := 1, slot_no := 1 } = (.ok (), fh1) ∧
      fh1.pool.pages = setAt sparse_page_file.pool.pages 1 (some pg1) ∧
      fh1.file_hdr = sparse_page_file.file_hdr ∧
      pg1.bitmap = (fun i => decide (i = 0 ∨ i = 2 ∨ i = 4)) ∧
      pg1.slots = (fun _ => [7]) ∧
      pg1.page_hdr.next_free_page_no = RM_NO_PAGE ∧
      pg1.page_hdr.num_records = 3 - 1 ∧
      pg1.page_hdr.num_records = (Bitmap.popcount pg1.bitmap 5 : Int) - 1 ∧
      ¬ pg1.coherent fh1.file_hdr.num_records_per_page :=
  ⟨rfl,
    delete_record_no_occupancy_guard sparse_page_file { page_no := 1, slot_no := 1 }
      { page_hdr := { next_free_page_no := RM_NO_PAGE, num_records := 3 }
        bitmap := fun i => decide (i = 0 ∨ i = 2 ∨ i = 4)
        slots := fun _ => [7] }
      (by decide) (by decide) rfl rfl (by decide) (by decide) rfl⟩

/-! ## The free list has no duplicates -/

/-- C35 (free list without duplicates or cycles): from a heap state whose chain
`first_free_page_no -> next_free_page_no -> ...` is finite, ends at `RM_NO_PAGE`, visits no page
twice and holds only non-full data pages, the chain has these properties again after every
`insert_record` and after every `delete_record` of an occupied RID, and so after each call of
any sequence of such calls; and `delete_record` of an occupied RID on a page of the chain leaves
the head and the chain as they are: it does not push the page again. -/
theorem free_list_duplicate_free (fh : RmFileHandle) (hfl : fh.free_list_ok) :
    (∀ buf, (fh.insert_record buf).2.free_list_ok) ∧
    (∀ rid, fh.occupied rid → (fh.delete_record rid).2.free_list_ok) ∧
    (∀ ops, fh.admissible ops → ∀ st ∈ fh.trace ops, st.free_list_ok) ∧
    (∀ rid l, fh.occupied rid → fh.free_chain fh.file_hdr.first_free_page_no l →
      rid.page_no ∈ l →
      (fh.delete_record rid).2.file_hdr.first_free_page_no = fh.file_hdr.first_free_page_no ∧
      (fh.delete_record rid).2.free_chain fh.file_hdr.first_free_page_no l) := by
  refine ⟨fun buf => free_list_ok_insert fh buf hfl,
    fun rid hocc => free_list_ok_delete fh rid hfl hocc,
    fun ops hadm => free_list_ok_trace fh ops hfl hadm, ?_⟩
  intro rid l hocc hc hin
  obtain ⟨o1, o2, _, _, pg, hpg, _⟩ := hocc
  obtain ⟨fh1, pg1, hdel, hpages, _, _, _, hnp, hn, _, _, hcnt, _, hnrel⟩ :=
    delete_record_spec fh rid pg (by omega) o2 hpg
  obtain ⟨_, _, pg', hpg', hlt⟩ := free_chain_mem fh l _ _ hc hin
  rw [hpg] at hpg'
  cases hpg'
  obtain ⟨hhead, hnx⟩ := hnrel (fun hfull => by omega)
  rw [hdel]
  refine ⟨hhead, ?_⟩
  refine free_chain_congr fh fh1 (by omega) hn l _ ?_ hc
  intro q _ pgq hpgq
  by_cases hqp : q = rid.page_no
  · subst hqp
    rw [hpg] at hpgq
    cases hpgq
    exact ⟨pg1, by rw [hpages]; exact setAt_same _ _ _, hnx, by omega⟩
  · exact ⟨pgq, by rw [hpages, setAt_other _ _ _ _ hqp]; exact hpgq, rfl, le_refl _⟩

/-- Witness for C35: `sparse_page_file`, whose free list is the single page 1 with the slots
0, 2, 4 occupied; deleting the record at `(1, 2)` leaves the free list as the single page 1. -/
theorem free_list_duplicate_free_witness :
    sparse_page_file.free_list_ok ∧
    (sparse_page_file.delete_record { page_no := 1, slot_no := 2 }).2.file_hdr.first_free_page_no
      = 1 ∧
    ((∀ buf, (sparse_page_file.insert_record buf).2.free_list_ok) ∧
    (∀ rid, sparse_page_file.occupied rid →
      (sparse_page_file.delete_record rid).2.free_list_ok) ∧
    (∀ ops, sparse_page_file.admissible ops →
      ∀ st ∈ sparse_page_file.trace ops, st.free_list_ok) ∧
    (∀ rid l, sparse_page_file.occupied rid →
      sparse_page_file.free_chain sparse_page_file.file_hdr.first_free_page_no l →
      rid.page_no ∈ l →
      (sparse_page_file.delete_record rid).2.file_hdr.first_free_page_no =
        sparse_page_file.file_hdr.first_free_page_no ∧
      (sparse_page_file.delete_record rid).2.free_chain
        sparse_page_file.file_hdr.first_free_page_no l)) :=
  ⟨⟨[1], ⟨rfl, by decide, by decide, _, rfl, by decide, rfl⟩, by decide⟩, rfl,
    free_list_duplicate_free sparse_page_file
      ⟨[1], ⟨rfl, by decide, by decide, _, rfl, by decide, rfl⟩, by decide⟩⟩

/-! ## The join without a match, and the second pass of a join -/

/-- C36 (current record of the join), failing input: the join of `R(x)` with the rows 1, 2 and
`S(y)` with the row 3 on `R.x = S.y`, where no pair matches. After `beginTuple()` the join is not
at its end (`is_end()` is that of the left child), `Next()` searches all pairs, sets `isend` and
returns the null record without error, and the driver
`beginTuple(); while not is_end(): emit Next(); nextTuple()` emits this one null record before
`is_end()` is true. -/
theorem join_emits_null_without_match :
    (NestedLoopJoinExecutor.new join_left join_right_unmatched [join_cond]).beginTuple.is_end =
      false ∧
    (NestedLoopJoinExecutor.Next le_compare 2
      (NestedLoopJoinExecutor.new join_left join_right_unmatched [join_cond]).beginTuple).map
        (fun r => (r.1, r.2.isend, r.2.is_end)) = some (.ok none, true, true) ∧
    (NestedLoopJoinExecutor.new join_left join_right_unmatched [join_cond]).matches le_compare
      = [] ∧
    (NestedLoopJoinExecutor.new join_left join_right_unmatched [join_cond]).emitted
      le_compare 2 2 = some (.ok [none]) ∧
    ((NestedLoopJoinExecutor.new join_left join_right_unmatched [join_cond]).drive
      le_compare 2 2).map (fun r => r.2.is_end) = some true := by
  refine ⟨rfl, rfl, rfl, rfl, rfl⟩

/-- C37 (restart of the join), failing input: the join of `R(x)` with the rows 1, 2 and `S(y)`
with the rows 1, 3 on `R.x = S.y`. The first pass of the driver emits `(1, 1)` and ends with
`is_end()` true and `isend` set; `beginTuple()` rewinds the children but leaves `isend` set, so
that on the second pass `Next()` returns the null record at once: the second pass emits one null
record and not `(1, 1)`. -/
theorem join_second_pass_differs :
    (NestedLoopJoinExecutor.new join_left join_right [join_cond]).emitted le_compare 2 2 =
      some (.ok [some (int_bytes 1 ++ int_bytes 1)]) ∧
    ((NestedLoopJoinExecutor.new join_left join_right [join_cond]).drive le_compare 2 2).map
      (fun r => (r.2.is_end, r.2.isend, r.2.left_.rows, r.2.right_.rows)) =
        some (true, true, join_left.rows, join_right.rows) ∧
    ((NestedLoopJoinExecutor.new join_left join_right [join_cond]).drive le_compare 2 2).map
      (fun r => (r.2.beginTuple.is_end, r.2.beginTuple.isend)) = some (false, true) ∧
    (NestedLoopJoinExecutor.new join_left join_right [join_cond]).emitted_again le_compare 2 2 =
      some (.ok [none]) := by
  refine ⟨rfl, rfl, rfl, rfl⟩

/-! ## Buffer pool: the frames between the free list and the page table -/

theorem ReachableBy_mono (ok ok' : BufferPoolManager → PoolCall → Prop)
    (himp : ∀ s call, ok s call → ok' s call) (bpm : BufferPoolManager)
    (h : BufferPoolManager.ReachableBy ok bpm) : BufferPoolManager.ReachableBy ok' bpm := by
  induction h with
  | init n dm => exact .init n dm
  | step s call _ ha ih => exact .step s call ih (himp s call ha)
  | write s f data _ ih => exact .write s f data ih

theorem PartInv_init (pool_size : Nat) (dm : DiskManager) :
    (BufferPoolManager.init pool_size dm).core.PartInv := by
  intro f h0 h1
  left
  show f ∈ (List.range pool_size).map (fun (i : Nat) => (i : Int))
  rw [List.mem_map]
  exact ⟨f.toNat, List.mem_range.mpr (by
    have : (f.toNat : Int) = f := Int.toNat_of_nonneg h0
    have h2 : f < (pool_size : Int) := h1
    omega), Int.toNat_of_nonneg h0⟩

theorem PartInv_step (c c' : PoolCore) (call : PoolCall) (hs : PoolStepOk true c call c')
    (_hp : c.PinInv) (hm : c.MapInv) (h : c.PartInv) : c'.PartInv := by
  cases hs with
  | same => exact h
  | hit id f hf => exact h
  | unpin id d f hf hpin => exact h
  | assign _ v id hv hvalid hfresh =>
    obtain ⟨e1, e2, e3, e4, e5, e6, e7, e8, e9⟩ := PoolCore.pop_spec c v hv
    intro g h0 h1
    by_cases hg : g = v
    · right
      subst hg
      exact ⟨id, PageTable.find_insert_same _ _ _⟩
    · have h1' : g < (c.pool_size : Int) := by
        have : (c.pop.assign v id).pool_size = c.pool_size := e1
        rw [this] at h1
        exact h1
      rcases h g h0 h1' with hfree | ⟨id', hid'⟩
      · left
        exact e7 g hg hfree
      · right
        refine ⟨id', ?_⟩
        have hne1 : id' ≠ id := by
          intro e
          rw [e, hfresh rfl] at hid'
          cases hid'
        have hne2 : id' ≠ c.ids v := by
          intro e
          rcases hm.frame_mapped v with hinv | hmap
          · exact hm.key_valid id' g hid' (by rw [e]; exact hinv)
          · rw [e, hmap] at hid'
            exact hg (Option.some.inj hid').symm
        show PageTable.find ((c.pop.page_table.erase (c.pop.ids v)).insert id v) id' = some g
        rw [PageTable.find_insert_other _ _ _ _ hne1, e2, e4,
          PageTable.find_erase_other _ _ _ hne2]
        exact hid'
  | delete id f hf hpin =>
    intro g h0 h1
    by_cases hg : g = f
    · left
      subst hg
      show g ∈ c.free_list ++ [g]
      simp
    · rcases h g h0 h1 with hfree | ⟨id', hid'⟩
      · left
        show g ∈ c.free_list ++ [f]
        exact List.mem_append_left _ hfree
      · right
        refine ⟨id', ?_⟩
        have hne : id' ≠ id := by
          intro e
          rw [e, hf] at hid'
          exact hg (Option.some.inj hid').symm
        show PageTable.find (c.page_table.erase id) id' = some g
        rw [PageTable.find_erase_other _ _ _ hne]
        exact hid'

theorem PartInv_of_reachable (bpm : BufferPoolManager) (h : bpm.ReachableOkFresh) :
    bpm.core.PinInv ∧ bpm.core.MapInv ∧ bpm.core.PartInv := by
  induction h with
  | init n dm => exact ⟨PinInv_init n dm, MapInv_init n dm, PartInv_init n dm⟩
  | step s call _ ha ih =>
    have hs := apply_step s call true (fun _ => ha.2)
    exact ⟨PinInv_step true _ _ call hs ih.1, MapInv_step _ _ call hs ih.2.1,
      PartInv_step _ _ call (apply_step_ok s call true ha.1 (fun _ => ha.2)) ih.1 ih.2.1
        ih.2.2⟩
  | write s f data _ ih =>
    rw [core_set_data]
    exact ih

theorem setAt_clean_mono (pages : Int → Page) (f g : Int) (pg : Page)
    (hpg : pg.is_dirty = true → (pages f).is_dirty = true)
    (hd : (setAt pages f pg g).is_dirty = true) : (pages g).is_dirty = true := by
  unfold setAt at hd
  by_cases hg : g = f
  · rw [if_pos hg] at hd
    rw [hg]
    exact hpg hd
  · rw [if_neg hg] at hd
    exact hd

/-- `fetch_page` makes no frame dirty. -/
theorem fetch_page_dirty_mono (bpm : BufferPoolManager) (id : PageId) (g : Int) :
    ((bpm.fetch_page id).2.pages g).is_dirty = true → (bpm.pages g).is_dirty = true := by
  unfold BufferPoolManager.fetch_page
  cases hf : bpm.page_table.find id with
  | some f =>
    simp only
    exact setAt_clean_mono bpm.pages f g _ (fun h => h)
  | none =>
    simp only
    rcases hv : bpm.find_victim_page with ⟨r, bpm1⟩
    obtain ⟨p1, _, _, _⟩ := find_victim_page_frame bpm bpm1 r hv
    cases r with
    | none =>
      simp only
      rw [p1]
      exact fun h => h
    | some v =>
      simp only
      by_cases hdirty : (bpm1.pages v).is_dirty = true
      · simp only [hdirty, if_true]
        rcases hw : bpm1.disk_manager.write_page (bpm1.pages v).id.fd (bpm1.pages v).id.page_no
          (bpm1.pages v).data with ⟨rw, dmw⟩
        cases rw with
        | error e =>
          simp only
          rw [p1]
          exact fun h => h
        | ok u =>
          simp only
          rcases hr : dmw.read_page id.fd id.page_no with ⟨rr, dmr⟩
          cases rr with
          | error e =>
            simp only
            intro hd
            rw [← p1]
            exact setAt_clean_mono bpm1.pages v g _ (fun h => by cases h) hd
          | ok d =>
            simp only
            intro hd
            rw [← p1]
            have h2 := setAt_clean_mono _ v g _ (fun h => by
              simp only [setAt, if_true] at h ⊢
              exact h) hd
            exact setAt_clean_mono bpm1.pages v g _ (fun h => by cases h) h2
      · have hdirty' : (bpm1.pages v).is_dirty = false := by simpa using hdirty
        simp only [hdirty', Bool.false_eq_true, if_false]
        rcases hr : bpm1.disk_manager.read_page id.fd id.page_no with ⟨rr, dmr⟩
        cases rr with
        | error e =>
          simp only
          rw [p1]
          exact fun h => h
        | ok d =>
          simp only
          intro hd
          rw [← p1]
          exact setAt_clean_mono bpm1.pages v g _ (fun h => by simp at h) hd

/-- `new_page` makes no frame dirty. -/
theorem new_page_dirty_mono (bpm : BufferPoolManager) (id : PageId) (g : Int) :
    ((bpm.new_page id).2.2.pages g).is_dirty = true → (bpm.pages g).is_dirty = true := by
  unfold BufferPoolManager.new_page
  rcases hv : bpm.find_victim_page with ⟨r, bpm1⟩
  obtain ⟨p1, _, _, _⟩ := find_victim_page_frame bpm bpm1 r hv
  cases r with
  | none =>
    simp only
    rw [p1]
    exact fun h => h
  | some v =>
    simp only [DiskManager.allocate_page]
    by_cases hinv : bpm1.disk_manager.fd2pageno id.fd = INVALID_PAGE_ID
    · simp only [hinv, if_true]
      rw [p1]
      exact fun h => h
    · simp only [hinv, if_false]
      by_cases hdirty : (bpm1.pages v).is_dirty = true
      · simp only [hdirty, if_true]
        rcases hw : DiskManager.write_page
          { bpm1.disk_manager with
            fd2pageno := setAt bpm1.disk_manager.fd2pageno id.fd
              (bpm1.disk_manager.fd2pageno id.fd + 1) }
          (bpm1.pages v).id.fd (bpm1.pages v).id.page_no (bpm1.pages v).data with ⟨rw, dmw⟩
        cases rw with
        | error e =>
          simp only
          rw [p1]
          exact fun h => h
        | ok u =>
          simp only
          intro hd
          rw [← p1]
          exact setAt_clean_mono bpm1.pages v g _ (fun h => by cases h) hd
      · have hdirty' : (bpm1.pages v).is_dirty = false := by simpa using hdirty
        simp only [hdirty', Bool.false_eq_true, if_false]
        intro hd
        rw [← p1]
        exact setAt_clean_mono bpm1.pages v g _ (fun h => by cases h) hd

/-- `flush_page` makes no frame dirty. -/
theorem flush_page_dirty_mono (bpm : BufferPoolManager) (id : PageId) (g : Int) :
    ((bpm.flush_page id).2.pages g).is_dirty = true → (bpm.pages g).is_dirty = true := by
  unfold BufferPoolManager.flush_page
  cases hf : bpm.page_table.find id with
  | none => exact fun h => h
  | some f =>
    simp only
    rcases hw : bpm.disk_manager.write_page id.fd id.page_no (bpm.pages f).data with ⟨rw, dmw⟩
    cases rw with
    | error e => exact fun h => h
    | ok u =>
      simp only
      exact setAt_clean_mono bpm.pages f g _ (fun h => by cases h)

/-- The loop of `flush_all_pages` makes no frame dirty. -/
theorem flush_entries_dirty_mono (fd : Int) (g : Int) :
    ∀ (es : List (PageId × Int)) (bpm : BufferPoolManager),
      ((BufferPoolManager.flush_entries fd es bpm).2.pages g).is_dirty = true →
        (bpm.pages g).is_dirty = true := by
  intro es
  induction es with
  | nil => exact fun _ h => h
  | cons e rest ih =>
    intro bpm
    obtain ⟨pid, f⟩ := e
    unfold BufferPoolManager.flush_entries
    by_cases hfd : pid.fd = fd
    · simp only [hfd, if_true]
      rcases hw : bpm.disk_manager.write_page fd pid.page_no (bpm.pages f).data with ⟨rw, dmw⟩
      cases rw with
      | error e => exact fun h => h
      | ok u =>
        simp only
        intro hd
        exact setAt_clean_mono bpm.pages f g _ (fun h => by cases h) (ih _ hd)
    · simp only [hfd, if_false]
      exact ih bpm

theorem PoolStep_free_subset (fr : Bool) (c c' : PoolCore) (call : PoolCall)
    (hs : PoolStep fr c call c') (hcall : ∀ id, call ≠ .delete id) :
    ∀ g ∈ c'.free_list, g ∈ c.free_list := by
  cases hs with
  | same => exact fun _ h => h
  | hit id f hf => exact fun _ h => h
  | unpin id d f hf hpin => exact fun _ h => h
  | pop _ v hv => exact (PoolCore.pop_spec c v hv).2.2.2.2.1
  | assign _ v id hv _ _ => exact (PoolCore.pop_spec c v hv).2.2.2.2.1
  | delete id f hf _ => exact absurd rfl (hcall id)

/-- The frames on the free list stay clean under every call. -/
theorem FreeClean_apply (bpm : BufferPoolManager) (call : PoolCall) (hp : bpm.core.PinInv)
    (h : bpm.FreeClean) : (bpm.apply call).FreeClean := by
  have hsub : (∀ id, call ≠ .delete id) →
      ∀ g ∈ (bpm.apply call).free_list, g ∈ bpm.free_list := fun hc =>
    PoolStep_free_subset false bpm.core (bpm.apply call).core call
      (apply_step bpm call false (fun e => by cases e)) hc
  have hmono : (∀ id, call ≠ .delete id) →
      (∀ g, ((bpm.apply call).pages g).is_dirty = true → (bpm.pages g).is_dirty = true) →
      (bpm.apply call).FreeClean := by
    intro hc hm g hg
    cases hd : ((bpm.apply call).pages g).is_dirty with
    | false => rfl
    | true =>
      have := hm g hd
      rw [h g (hsub hc g hg)] at this
      cases this
  cases call with
  | fetch id =>
    exact hmono (fun _ e => by cases e) (fun g => fetch_page_dirty_mono bpm id g)
  | new_page id =>
    exact hmono (fun _ e => by cases e) (fun g => new_page_dirty_mono bpm id g)
  | flush id =>
    exact hmono (fun _ e => by cases e) (fun g => flush_page_dirty_mono bpm id g)
  | flush_all fd =>
    exact hmono (fun _ e => by cases e)
      (fun g => flush_entries_dirty_mono fd g bpm.page_table bpm)
  | unpin id d =>
    intro g hg
    show (((bpm.unpin_page id d).2).pages g).is_dirty = false
    have hg' : g ∈ bpm.free_list := hsub (fun _ e => by cases e) g hg
    unfold BufferPoolManager.unpin_page
    cases hf : bpm.page_table.find id with
    | none => exact h g hg'
    | some f =>
      simp only
      have hne : g ≠ f := fun e => hp.free_unmapped id f hf (e ▸ hg')
      by_cases hpin : (bpm.pages f).pin_count ≤ 0
      · simp only [hpin, if_true]
        exact h g hg'
      · simp only [hpin, if_false]
        simp only [setAt, hne, if_false]
        exact h g hg'
  | delete id =>
    intro g hg
    have hg0 : g ∈ (bpm.delete_page id).2.free_list := hg
    show (((bpm.delete_page id).2).pages g).is_dirty = false
    unfold BufferPoolManager.delete_page at hg0 ⊢
    cases hf : bpm.page_table.find id with
    | none =>
      simp only [hf] at hg0 ⊢
      exact h g hg0
    | some f =>
      simp only [hf] at hg0 ⊢
      by_cases hpin : (bpm.pages f).pin_count > 0
      · simp only [hpin, if_true] at hg0 ⊢
        exact h g hg0
      · simp only [hpin, if_false] at hg0 ⊢
        by_cases hdirty : (bpm.pages f).is_dirty = true
        · simp only [hdirty, if_true] at hg0 ⊢
          rcases hw : bpm.disk_manager.write_page id.fd id.page_no (bpm.pages f).data with
            ⟨rw, dmw⟩
          rw [hw] at hg0
          cases rw with
          | error e =>
            simp only at hg0 ⊢
            exact h g hg0
          | ok u =>
            simp only at hg0 ⊢
            by_cases hgf : g = f
            · simp only [setAt, hgf, if_true]
            · simp only [setAt, hgf, if_false]
              rcases List.mem_append.mp hg0 with hm | hm
              · exact h g hm
              · exact absurd (List.mem_singleton.mp hm) hgf
        · have hdirty' : (bpm.pages f).is_dirty = false := by simpa using hdirty
          simp only [hdirty', Bool.false_eq_true, if_false] at hg0 ⊢
          by_cases hgf : g = f
          · simp only [setAt, hgf, if_true]
          · simp only [setAt, hgf, if_false]
            rcases List.mem_append.mp hg0 with hm | hm
            · exact h g hm
            · exact absurd (List.mem_singleton.mp hm) hgf

theorem FreeClean_of_reachable (ok : BufferPoolManager → PoolCall → Prop)
    (bpm : BufferPoolManager) (h : BufferPoolManager.ReachableBy ok bpm) :
    bpm.core.PinInv ∧ bpm.FreeClean := by
  induction h with
  | init n dm => exact ⟨PinInv_init n dm, fun _ _ => rfl⟩
  | step s call _ _ ih =>
    exact ⟨PinInv_step false _ _ call (apply_step s call false (fun e => by cases e)) ih.1,
      FreeClean_apply s call ih.1 ih.2⟩
  | write s f data _ ih =>
    refine ⟨by rw [core_set_data]; exact ih.1, ?_⟩
    intro g hg
    have := ih.2 g hg
    show ((setAt s.pages f { s.pages f with data := data }) g).is_dirty = false
    unfold setAt
    by_cases hgf : g = f
    · rw [if_pos hgf]
      rw [hgf] at this
      exact this
    · rw [if_neg hgf]
      exact this

/-- C38 (frames between the free list and the page table): in every state the pool reaches from
an initial pool by `fetch_page`, `unpin_page`, `new_page`, `flush_page`, `delete_page` and
`flush_all_pages`, whether the calls return or throw, and by callers writing into frames, the
page table maps no two page ids to the same frame, the id stored in a mapped frame is the key
that maps to it, no frame is both on the free list and in the range of the page table, and every
frame on the free list has `pin_count = 0` and is clean. If moreover none of the calls threw and
`new_page` was never handed `INVALID_PAGE_ID` or the id of a mapped page, every frame
`0 ≤ f < pool_size` is on the free list or in the range of the page table, hence in exactly one
of the two. -/
theorem pool_frame_partition (bpm : BufferPoolManager) (hr : bpm.Reachable) :
    (∀ id1 id2 f, bpm.page_table.find id1 = some f → bpm.page_table.find id2 = some f →
      id1 = id2) ∧
    (∀ id f, bpm.page_table.find id = some f → (bpm.pages f).id = id) ∧
    (∀ id f, bpm.page_table.find id = some f → f ∉ bpm.free_list) ∧
    (∀ f ∈ bpm.free_list, (bpm.pages f).pin_count = 0 ∧ (bpm.pages f).is_dirty = false) ∧
    (bpm.ReachableOkFresh →
      ∀ f : Int, 0 ≤ f → f < (bpm.pool_size : Int) →
        (f ∈ bpm.free_list ∧ ∀ id, bpm.page_table.find id ≠ some f) ∨
        (f ∉ bpm.free_list ∧ ∃ id, bpm.page_table.find id = some f)) := by
  obtain ⟨hp, hc⟩ := FreeClean_of_reachable _ bpm hr
  refine ⟨?_, hp.table_id, hp.free_unmapped, fun f hf => ⟨hp.free_pin f hf, hc f hf⟩, ?_⟩
  · intro id1 id2 f h1 h2
    have e1 : (bpm.pages f).id = id1 := hp.table_id id1 f h1
    have e2 : (bpm.pages f).id = id2 := hp.table_id id2 f h2
    rw [← e1, ← e2]
  · intro hok f h0 h1
    obtain ⟨_, _, hpart⟩ := PartInv_of_reachable bpm hok
    rcases hpart f h0 h1 with hfree | ⟨id, hid⟩
    · exact Or.inl ⟨hfree, fun id hid => hp.free_unmapped id f hid hfree⟩
    · exact Or.inr ⟨hp.free_unmapped id f hid, id, hid⟩

/-- Witness for C38: the pool of two frames after `fetch A`, `unpin A`, reached without a throw;
frame 0 holds `A` and frame 1 is on the free list. -/
theorem pool_frame_partition_witness :
    unpinned_pool.Reachable ∧ unpinned_pool.ReachableOkFresh ∧
    unpinned_pool.free_list = [1] ∧ unpinned_pool.page_table = [(page_a, 0)] ∧
    ((∀ id1 id2 f, unpinned_pool.page_table.find id1 = some f →
      unpinned_pool.page_table.find id2 = some f → id1 = id2) ∧
    (∀ id f, unpinned_pool.page_table.find id = some f → (unpinned_pool.pages f).id = id) ∧
    (∀ id f, unpinned_pool.page_table.find id = some f → f ∉ unpinned_pool.free_list) ∧
    (∀ f ∈ unpinned_pool.free_list,
      (unpinned_pool.pages f).pin_count = 0 ∧ (unpinned_pool.pages f).is_dirty = false) ∧
    (unpinned_pool.ReachableOkFresh →
      ∀ f : Int, 0 ≤ f → f < (unpinned_pool.pool_size : Int) →
        (f ∈ unpinned_pool.free_list ∧ ∀ id, unpinned_pool.page_table.find id ≠ some f) ∨
        (f ∉ unpinned_pool.free_list ∧ ∃ id, unpinned_pool.page_table.find id = some f))) :=
  have hr : unpinned_pool.Reachable :=
    BufferPoolManager.ReachableBy.step _ (.unpin page_a false)
      (BufferPoolManager.ReachableBy.step _ (.fetch page_a)
        (BufferPoolManager.ReachableBy.init 2 small_disk) trivial) trivial
  have hok : unpinned_pool.ReachableOkFresh :=
    BufferPoolManager.ReachableBy.step _ (.unpin page_a false)
      (BufferPoolManager.ReachableBy.step _ (.fetch page_a)
        (BufferPoolManager.ReachableBy.init 2 small_disk)
        ⟨⟨rfl, fun _ e => by cases e⟩, fun _ e => by cases e⟩)
      ⟨⟨rfl, fun _ e => by cases e⟩, fun _ e => by cases e⟩
  ⟨hr, hok, rfl, rfl, pool_frame_partition unpinned_pool hr⟩

/-- C38, counterexample. `leaked_pool`: a pool of one frame after a `fetch_page` that threw on a
short read (the page is past the end of the file); frame 0 was taken off the free list and the
page table is empty, so the frame is in neither. `drained_pool`: the same after a `new_page`
that was handed `INVALID_PAGE_ID`, a page number that is not mapped, and returned null without
throwing. -/
theorem frame_in_neither_after_failed_call :
    (leaked_pool.Reachable ∧ leaked_pool.ReachableFresh ∧
      (BufferPoolManager.init 1 small_disk).raises (.fetch page_past_end) = true ∧
      leaked_pool.pool_size = 1 ∧ leaked_pool.free_list = [] ∧ leaked_pool.page_table = [] ∧
      ¬ (∀ f : Int, 0 ≤ f → f < (leaked_pool.pool_size : Int) →
          f ∈ leaked_pool.free_list ∨ ∃ id, leaked_pool.page_table.find id = some f)) ∧
    (drained_pool.Reachable ∧ drained_pool.ReachableFresh ∧
      (BufferPoolManager.init 1 exhausted_disk).raises (.new_page { fd := 3, page_no := 0 }) =
        false ∧
      drained_pool.pool_size = 1 ∧ drained_pool.free_list = [] ∧ drained_pool.page_table = [] ∧
      ¬ (∀ f : Int, 0 ≤ f → f < (drained_pool.pool_size : Int) →
          f ∈ drained_pool.free_list ∨ ∃ id, drained_pool.page_table.find id = some f)) := by
  refine ⟨⟨BufferPoolManager.ReachableBy.step _ _
      (BufferPoolManager.ReachableBy.init 1 small_disk) trivial,
    BufferPoolManager.ReachableBy.step _ (.fetch page_past_end)
      (BufferPoolManager.ReachableBy.init 1 small_disk) (fun _ e => by cases e),
    rfl, rfl, rfl, rfl, ?_⟩,
   ⟨BufferPoolManager.ReachableBy.step _ _
      (BufferPoolManager.ReachableBy.init 1 exhausted_disk) trivial,
    BufferPoolManager.ReachableBy.step _ (.new_page { fd := 3, page_no := 0 })
      (BufferPoolManager.ReachableBy.init 1 exhausted_disk) (fun _ _ => rfl),
    rfl, rfl, rfl, rfl, ?_⟩⟩
  · intro h
    have e1 : leaked_pool.free_list = [] := rfl
    have e2 : leaked_pool.page_table = [] := rfl
    rcases h 0 (le_refl 0) (by decide) with hf | ⟨id, hid⟩
    · rw [e1] at hf
      cases hf
    · rw [e2] at hid
      cases hid
  · intro h
    have e1 : drained_pool.free_list = [] := rfl
    have e2 : drained_pool.page_table = [] := rfl
    rcases h 0 (le_refl 0) (by decide) with hf | ⟨id, hid⟩
    · rw [e1] at hf
      cases hf
    · rw [e2] at hid
      cases hid

/-! ## File lifecycle of the disk manager -/

theorem Assoc.find_set {κ α : Type} [DecidableEq κ] (m : List (κ × α)) (key : κ) (v : α)
    (k : κ) : Assoc.find (Assoc.set m key v) k = if k = key then some v else Assoc.find m k := by
  induction m with
  | nil =>
    by_cases h : k = key
    · simp [Assoc.set, Assoc.find, h]
    · have h' : ¬ key = k := fun e => h e.symm
      simp [Assoc.set, Assoc.find, h, h']
  | cons e rest ih =>
    obtain ⟨k1, w⟩ := e
    by_cases h1 : k1 = key
    · subst h1
      by_cases h : k = k1
      · subst h
        simp [Assoc.set, Assoc.find]
      · have h' : ¬ k1 = k := fun e => h e.symm
        simp [Assoc.set, Assoc.find, h, h']
    · simp only [Assoc.set, h1, if_false, Assoc.find]
      by_cases h2 : k1 = k
      · have h3 : ¬ k = key := fun e => h1 (h2.trans e)
        simp [h2, h3]
      · simp only [h2, if_false]
        exact ih

theorem Assoc.find_erase {κ α : Type} [DecidableEq κ] (m : List (κ × α)) (key : κ) (k : κ) :
    Assoc.find (Assoc.erase m key) k = if k = key then none else Assoc.find m k := by
  induction m with
  | nil => simp [Assoc.erase, Assoc.find]
  | cons e rest ih =>
    obtain ⟨k1, w⟩ := e
    unfold Assoc.erase at ih ⊢
    by_cases h1 : k1 = key
    · subst h1
      rw [List.filter_cons_of_neg (by simp), ih]
      by_cases h : k = k1
      · simp [h]
      · have h' : ¬ k1 = k := fun e => h e.symm
        simp [Assoc.find, h, h']
    · rw [List.filter_cons_of_pos (by simpa using h1)]
      simp only [Assoc.find]
      by_cases h2 : k1 = k
      · have h3 : ¬ k = key := fun e => h1 (h2.trans e)
        simp [h2, h3]
      · simp only [h2, if_false]
        exact ih

theorem StrMap.find_eq_assoc {α : Type} (m : StrMap α) (k : String) :
    StrMap.find m k = Assoc.find m k := by
  induction m with
  | nil => rfl
  | cons e rest ih =>
    obtain ⟨k1, w⟩ := e
    simp only [StrMap.find, Assoc.find, ih]

theorem StrMap.set_eq_assoc {α : Type} (m : StrMap α) (key : String) (v : α) :
    StrMap.set m key v = Assoc.set m key v := by
  induction m with
  | nil => rfl
  | cons e rest ih =>
    obtain ⟨k1, w⟩ := e
    simp only [StrMap.set, Assoc.set, ih]

theorem StrMap.find_after_set {α : Type} (m : StrMap α) (key : String) (v : α) (k : String) :
    StrMap.find (StrMap.set m key v) k = if k = key then some v else StrMap.find m k := by
  rw [StrMap.find_eq_assoc, StrMap.set_eq_assoc, Assoc.find_set, StrMap.find_eq_assoc]

theorem StrMap.find_after_erase {α : Type} (m : StrMap α) (key : String) (k : String) :
    StrMap.find (StrMap.erase m key) k = if k = key then none else StrMap.find m k := by
  rw [StrMap.find_eq_assoc, StrMap.find_eq_assoc]
  exact Assoc.find_erase m key k

theorem Assoc.find_append_of_none {κ α : Type} [DecidableEq κ] (m : List (κ × α)) (key : κ)
    (v : α) (k : κ) :
    (Assoc.find (m ++ [(key, v)]) k).isSome =
      ((Assoc.find m k).isSome || decide (k = key)) := by
  induction m with
  | nil =>
    by_cases h : k = key
    · simp [Assoc.find, h]
    · have h' : ¬ key = k := fun e => h e.symm
      simp [Assoc.find, h, h']
  | cons e rest ih =>
    obtain ⟨k1, w⟩ := e
    simp only [List.cons_append, Assoc.find]
    by_cases h2 : k1 = k
    · simp [h2]
    · simp only [h2, if_false]
      exact ih

theorem Assoc.find_isSome_mem {κ α : Type} [DecidableEq κ] (m : List (κ × α)) (k : κ) :
    (Assoc.find m k).isSome = true ↔ k ∈ m.map (fun e => e.1) := by
  induction m with
  | nil => simp [Assoc.find]
  | cons e rest ih =>
    obtain ⟨k1, w⟩ := e
    simp only [Assoc.find, List.map_cons, List.mem_cons]
    by_cases h2 : k1 = k
    · simp [h2]
    · have h' : ¬ k = k1 := fun e => h2 e.symm
      simp only [h2, if_false, h', false_or]
      exact ih

/-- The search of `Os.lowest_free`: the result is at most `n + fuel`, every number from `n` up
to it is in use, and below `n + fuel` it is free. -/
theorem lowest_free_spec (fds : List (Int × Path)) :
    ∀ (fuel n : Nat),
      n ≤ Os.lowest_free fds n fuel ∧ Os.lowest_free fds n fuel ≤ n + fuel ∧
      (∀ m : Nat, n ≤ m → m < Os.lowest_free fds n fuel →
        (Assoc.find fds (m : Int)).isSome = true) ∧
      (Os.lowest_free fds n fuel < n + fuel →
        (Assoc.find fds ((Os.lowest_free fds n fuel : Nat) : Int)).isSome = false) := by
  intro fuel
  induction fuel with
  | zero =>
    intro n
    refine ⟨le_refl _, le_refl _, fun m h1 h2 => ?_, fun h => ?_⟩
    · simp only [Os.lowest_free] at h2
      omega
    · simp only [Os.lowest_free] at h
      omega
  | succ fuel ih =>
    intro n
    unfold Os.lowest_free
    by_cases hn : (Assoc.find fds (n : Int)).isSome = true
    · simp only [hn, if_true]
      obtain ⟨a, b, c, d⟩ := ih (n + 1)
      refine ⟨by omega, by omega, fun m h1 h2 => ?_, fun h => d (by omega)⟩
      by_cases hm : m = n
      · rw [hm]
        exact hn
      · exact c m (by omega) h2
    · simp only [hn, Bool.false_eq_true, if_false]
      refine ⟨le_refl _, by omega, fun m h1 h2 => by omega, fun _ => by simp [hn]⟩

/-- The descriptor that `open` returns is not in use. -/
theorem lowest_free_fresh (fds : List (Int × Path)) :
    (Assoc.find fds ((Os.lowest_free fds 0 fds.length : Nat) : Int)).isSome = false := by
  obtain ⟨_, b, c, d⟩ := lowest_free_spec fds fds.length 0
  by_cases hlt : Os.lowest_free fds 0 fds.length < 0 + fds.length
  · exact d hlt
  · have he : Os.lowest_free fds 0 fds.length = fds.length := by omega
    rw [he] at c ⊢
    cases hf : (Assoc.find fds ((fds.length : Nat) : Int)).isSome with
    | false => rfl
    | true =>
      exfalso
      have hsub : (List.range (fds.length + 1)).map (fun (i : Nat) => (i : Int)) ⊆
          fds.map (fun e => e.1) := by
        intro x hx
        rw [List.mem_map] at hx
        obtain ⟨i, hi, rfl⟩ := hx
        rw [List.mem_range] at hi
        rw [← Assoc.find_isSome_mem]
        by_cases hil : i < fds.length
        · exact c i (Nat.zero_le _) hil
        · have : i = fds.length := by omega
          rw [this]
          exact hf
      have hnd : ((List.range (fds.length + 1)).map (fun (i : Nat) => (i : Int))).Nodup :=
        (List.nodup_range _).map (fun a b h => by simpa using h)
      have hle := (List.subperm_of_subset hnd hsub).length_le
      simp only [List.length_map, List.length_range] at hle
      omega

theorem Os.open_spec (os : Os) (path : String) (fd : Int) (os1 : Os)
    (h : os.open path = (some fd, os1)) :
    (Assoc.find os.fds fd).isSome = false ∧
      os1 = { os with fds := os.fds ++ [(fd, os.cwd ++ [path])] } := by
  unfold Os.open at h
  by_cases h1 : os.is_file path = false
  · simp [h1] at h
  · simp only [h1, if_false] at h
    by_cases h2 : os.max_fds ≤ Os.lowest_free os.fds 0 os.fds.length
    · simp [h2] at h
    · simp only [h2, if_false, Prod.mk.injEq, Option.some.injEq] at h
      obtain ⟨e1, e2⟩ := h
      exact ⟨lowest_free_fresh os.fds, rfl⟩

theorem Os.open_none (os : Os) (path : String) (os1 : Os) (h : os.open path = (none, os1)) :
    os1 = os := by
  unfold Os.open at h
  by_cases h1 : os.is_file path = false
  · rw [if_pos h1] at h
    exact ((Prod.mk.injEq _ _ _ _).mp h).2.symm
  · rw [if_neg h1] at h
    by_cases h2 : os.max_fds ≤ Os.lowest_free os.fds 0 os.fds.length
    · simp only [h2, if_true] at h
      exact ((Prod.mk.injEq _ _ _ _).mp h).2.symm
    · simp [h2] at h

theorem Os.close_spec (os : Os) (fd : Int) :
    (os.close fd = (false, os) ∧ (Assoc.find os.fds fd).isSome = false) ∨
    (os.close fd = (true, { os with fds := Assoc.erase os.fds fd }) ∧
      (Assoc.find os.fds fd).isSome = true) := by
  unfold Os.close
  by_cases h : (Assoc.find os.fds fd).isSome = true
  · right
    simp [h]
  · left
    have h' : (Assoc.find os.fds fd).isSome = false := by simpa using h
    simp [h']

theorem Os.unlink_spec (os : Os) (path : String) :
    (os.unlink path = (false, os) ∧ os.is_file path = false) ∨
    (os.unlink path = (true, { os with files := Assoc.erase os.files (os.cwd ++ [path]) }) ∧
      os.is_file path = true) := by
  unfold Os.unlink
  by_cases h : os.is_file path = true
  · right
    simp [h]
  · left
    have h' : os.is_file path = false := by simpa using h
    simp [h']

/-- What `open_file` does. -/
theorem open_file_cases (dm : DiskFiles) (path : String) :
    (dm.is_file path = false ∧ dm.open_file path = (.error .FileNotFoundError, dm)) ∨
    (dm.is_file path = true ∧ (StrMap.find dm.path2fd_ path).isSome = true ∧
      dm.open_file path = (.error .FileNotClosedError, dm)) ∨
    (dm.is_file path = true ∧ StrMap.find dm.path2fd_ path = none ∧
      dm.open_file path = (.error .UnixError, dm)) ∨
    (dm.is_file path = true ∧ StrMap.find dm.path2fd_ path = none ∧
      ∃ fd, (Assoc.find dm.os.fds fd).isSome = false ∧
        dm.open_file path =
          (.ok fd,
            { path2fd_ := StrMap.set dm.path2fd_ path fd
              fd2path_ := Assoc.set dm.fd2path_ fd path
              os := { dm.os with fds := dm.os.fds ++ [(fd, dm.os.cwd ++ [path])] } })) := by
  unfold DiskFiles.open_file
  by_cases h1 : dm.is_file path = false
  · left
    simp [h1]
  · have h1' : dm.is_file path = true := by simpa using h1
    right
    simp only [h1', Bool.true_eq_false, if_false]
    cases h2 : StrMap.find dm.path2fd_ path with
    | some v =>
      left
      simp
    | none =>
      right
      simp only [Option.isSome_none, Bool.false_eq_true, if_false]
      rcases ho : dm.os.open path with ⟨r, os1⟩
      cases r with
      | none =>
        left
        rw [Os.open_none _ _ _ ho]
        exact ⟨trivial, trivial, rfl⟩
      | some fd =>
        right
        obtain ⟨o1, o2⟩ := Os.open_spec _ _ _ _ ho
        refine ⟨trivial, trivial, fd, o1, ?_⟩
        simp only
        rw [o2]

/-- What `close_file` does. -/
theorem close_file_cases (dm : DiskFiles) (fd : Int) :
    (Assoc.find dm.fd2path_ fd = none ∧ dm.close_file fd = (.error .FileNotOpenError, dm)) ∨
    (∃ path, Assoc.find dm.fd2path_ fd = some path ∧
      (Assoc.find dm.os.fds fd).isSome = false ∧
      dm.close_file fd = (.error .UnixError, dm)) ∨
    (∃ path, Assoc.find dm.fd2path_ fd = some path ∧
      (Assoc.find dm.os.fds fd).isSome = true ∧
      dm.close_file fd =
        (.ok (),
          { path2fd_ := StrMap.erase dm.path2fd_ path
            fd2path_ := Assoc.erase dm.fd2path_ fd
            os := { dm.os with fds := Assoc.erase dm.os.fds fd } })) := by
  unfold DiskFiles.close_file
  cases hf : Assoc.find dm.fd2path_ fd with
  | none => exact Or.inl ⟨rfl, rfl⟩
  | some path =>
    right
    rcases Os.close_spec dm.os fd with ⟨h1, h2⟩ | ⟨h1, h2⟩
    · left
      exact ⟨path, rfl, h2, by simp only [h1]⟩
    · right
      exact ⟨path, rfl, h2, by simp only [h1]⟩

/-- What `destroy_file` does. -/
theorem destroy_file_cases (dm : DiskFiles) (path : String) :
    (dm.is_file path = false ∧ dm.destroy_file path = (.error .FileNotFoundError, dm)) ∨
    (dm.is_file path = true ∧ (StrMap.find dm.path2fd_ path).isSome = true ∧
      dm.destroy_file path = (.error .FileNotClosedError, dm)) ∨
    (dm.is_file path = true ∧ StrMap.find dm.path2fd_ path = none ∧
      dm.destroy_file path =
        (.ok (),
          { dm with os :=
            { dm.os with files := Assoc.erase dm.os.files (dm.os.cwd ++ [path]) } })) := by
  unfold DiskFiles.destroy_file
  by_cases h1 : dm.is_file path = false
  · left
    simp [h1]
  · have h1' : dm.is_file path = true := by simpa using h1
    right
    simp only [h1', Bool.true_eq_false, if_false]
    cases h2 : StrMap.find dm.path2fd_ path with
    | some v =>
      left
      simp
    | none =>
      right
      simp only [Option.isSome_none, Bool.false_eq_true, if_false]
      rcases Os.unlink_spec dm.os path with ⟨_, u2⟩ | ⟨u1, _⟩
      · have : dm.os.is_file path = true := h1'
        rw [this] at u2
        cases u2
      · exact ⟨trivial, trivial, by simp only [u1]⟩

theorem inverse_open (dm : DiskFiles) (path : String) (fd : Int) (hinv : dm.inverse)
    (h1 : StrMap.find dm.path2fd_ path = none) (h2 : Assoc.find dm.fd2path_ fd = none)
    (os1 : Os) :
    DiskFiles.inverse
      { path2fd_ := StrMap.set dm.path2fd_ path fd
        fd2path_ := Assoc.set dm.fd2path_ fd path
        os := os1 } := by
  intro p f
  show StrMap.find (StrMap.set dm.path2fd_ path fd) p = some f ↔
    Assoc.find (Assoc.set dm.fd2path_ fd path) f = some p
  rw [StrMap.find_after_set, Assoc.find_set]
  by_cases hp : p = path
  · by_cases hf : f = fd
    · simp [hp, hf]
    · simp only [hp, if_true, hf, if_false, Option.some.injEq]
      constructor
      · intro e
        exact absurd e.symm hf
      · intro e
        have := (hinv path f).mpr e
        rw [h1] at this
        cases this
  · by_cases hf : f = fd
    · simp only [hp, if_false, hf, if_true, Option.some.injEq]
      constructor
      · intro e
        have := (hinv p fd).mp e
        rw [h2] at this
        cases this
      · intro e
        exact absurd e.symm hp
    · simp only [hp, if_false, hf]
      exact hinv p f

theorem inverse_close (dm : DiskFiles) (path : String) (fd : Int) (hinv : dm.inverse)
    (h1 : Assoc.find dm.fd2path_ fd = some path) (os1 : Os) :
    DiskFiles.inverse
      { path2fd_ := StrMap.erase dm.path2fd_ path
        fd2path_ := Assoc.erase dm.fd2path_ fd
        os := os1 } := by
  intro p f
  show StrMap.find (StrMap.erase dm.path2fd_ path) p = some f ↔
    Assoc.find (Assoc.erase dm.fd2path_ fd) f = some p
  rw [StrMap.find_after_erase, Assoc.find_erase]
  have h2 : StrMap.find dm.path2fd_ path = some fd := (hinv path fd).mpr h1
  by_cases hp : p = path
  · by_cases hf : f = fd
    · simp [hp, hf]
    · simp only [hp, if_true, hf, if_false]
      constructor
      · intro e
        cases e
      · intro e
        have := (hinv path f).mpr e
        rw [h2] at this
        exact absurd (Option.some.inj this).symm hf
  · by_cases hf : f = fd
    · simp only [hp, if_false, hf, if_true]
      constructor
      · intro e
        have := (hinv p fd).mp e
        rw [h1] at this
        exact absurd (Option.some.inj this).symm hp
      · intro e
        cases e
    · simp only [hp, if_false, hf]
      exact hinv p f

theorem Assoc.find_append_isSome {κ α : Type} [DecidableEq κ] (m : List (κ × α)) (e : κ × α)
    (k : κ) (h : (Assoc.find m k).isSome = true) : (Assoc.find (m ++ [e]) k).isSome = true := by
  obtain ⟨key, v⟩ := e
  rw [Assoc.find_append_of_none, h]
  rfl

/-- The maps stay inverse to each other, and the registered files stay backed by existing files
and open descriptors, under every call. -/
theorem inverse_backed_apply (dm : DiskFiles) (call : FileCall) (hinv : dm.inverse)
    (hback : dm.backed) : (dm.apply call).inverse ∧ (dm.apply call).backed := by
  cases call with
  | open_file path =>
    show ((dm.open_file path).2).inverse ∧ ((dm.open_file path).2).backed
    rcases open_file_cases dm path with ⟨_, h⟩ | ⟨_, _, h⟩ | ⟨_, _, h⟩ |
      ⟨hfile, hnone, fd, hfresh, h⟩
    · rw [h]; exact ⟨hinv, hback⟩
    · rw [h]; exact ⟨hinv, hback⟩
    · rw [h]; exact ⟨hinv, hback⟩
    · rw [h]
      have hfd : Assoc.find dm.fd2path_ fd = none := by
        cases hq : Assoc.find dm.fd2path_ fd with
        | none => rfl
        | some q =>
          have := (hback q fd ((hinv q fd).mpr hq)).2
          rw [hfresh] at this
          cases this
      refine ⟨inverse_open dm path fd hinv hnone hfd _, ?_⟩
      intro p f hpf
      have hpf' : StrMap.find (StrMap.set dm.path2fd_ path fd) p = some f := hpf
      rw [StrMap.find_after_set] at hpf'
      show dm.os.is_file p = true ∧
        (Assoc.find (dm.os.fds ++ [(fd, dm.os.cwd ++ [path])]) f).isSome = true
      by_cases hp : p = path
      · rw [if_pos hp] at hpf'
        have : f = fd := (Option.some.inj hpf').symm
        rw [hp, this]
        refine ⟨hfile, ?_⟩
        rw [Assoc.find_append_of_none]
        simp
      · rw [if_neg hp] at hpf'
        obtain ⟨b1, b2⟩ := hback p f hpf'
        exact ⟨b1, Assoc.find_append_isSome _ _ _ b2⟩
  | close_file fd =>
    show ((dm.close_file fd).2).inverse ∧ ((dm.close_file fd).2).backed
    rcases close_file_cases dm fd with ⟨_, h⟩ | ⟨path, _, _, h⟩ | ⟨path, hpath, _, h⟩
    · rw [h]; exact ⟨hinv, hback⟩
    · rw [h]; exact ⟨hinv, hback⟩
    · rw [h]
      refine ⟨inverse_close dm path fd hinv hpath _, ?_⟩
      intro p f hpf
      have hpf' : StrMap.find (StrMap.erase dm.path2fd_ path) p = some f := hpf
      rw [StrMap.find_after_erase] at hpf'
      by_cases hp : p = path
      · rw [if_pos hp] at hpf'
        cases hpf'
      · rw [if_neg hp] at hpf'
        obtain ⟨b1, b2⟩ := hback p f hpf'
        have hne : f ≠ fd := by
          intro e
          rw [e] at hpf'
          have := (hinv p fd).mp hpf'
          rw [hpath] at this
          exact hp (Option.some.inj this).symm
        refine ⟨b1, ?_⟩
        show (Assoc.find (Assoc.erase dm.os.fds fd) f).isSome = true
        rw [Assoc.find_erase, if_neg hne]
        exact b2
  | destroy_file path =>
    show ((dm.destroy_file path).2).inverse ∧ ((dm.destroy_file path).2).backed
    rcases destroy_file_cases dm path with ⟨_, h⟩ | ⟨_, _, h⟩ | ⟨_, hnone, h⟩
    · rw [h]; exact ⟨hinv, hback⟩
    · rw [h]; exact ⟨hinv, hback⟩
    · rw [h]
      refine ⟨hinv, ?_⟩
      intro p f hpf
      have hpf' : StrMap.find dm.path2fd_ p = some f := hpf
      obtain ⟨b1, b2⟩ := hback p f hpf'
      have hp : p ≠ path := by
        intro e
        rw [e, hnone] at hpf'
        cases hpf'
      refine ⟨?_, b2⟩
      show (Assoc.find (Assoc.erase dm.os.files (dm.os.cwd ++ [path])) (dm.os.cwd ++ [p])).isSome
        = true
      rw [Assoc.find_erase, if_neg (by
        intro e
        have := List.append_cancel_left e
        exact hp (List.cons.inj this).1)]
      exact b1

theorem inverse_backed_run :
    ∀ (calls : List FileCall) (dm : DiskFiles), dm.inverse → dm.backed →
      (dm.run calls).inverse ∧ (dm.run calls).backed := by
  intro calls
  induction calls with
  | nil => exact fun dm h1 h2 => ⟨h1, h2⟩
  | cons c cs ih =>
    intro dm h1 h2
    obtain ⟨a, b⟩ := inverse_backed_apply dm c h1 h2
    exact ih (dm.apply c) a b

/-- C33 (file lifecycle errors and map consistency): from a state of the disk manager in which
`path2fd_` and `fd2path_` are inverse to each other and the registered files exist with their
descriptors open (as after the constructor), the maps are inverse to each other after every
sequence of `open_file`, `close_file` and `destroy_file` calls; `open_file` on a registered path
raises `FileNotClosed`, `close_file` on a descriptor that is not registered raises
`FileNotOpen`, `destroy_file` on a path that is no existing file raises `FileNotFound`; every
call that raises an error leaves both maps unchanged; a successful `open_file` adds exactly the
pair `(path, fd)`, neither the path nor the descriptor having been registered, and a successful
`close_file` removes exactly the pair of its descriptor. -/
theorem file_maps_stay_inverse (dm : DiskFiles) (hinv : dm.inverse) (hback : dm.backed) :
    (∀ calls, (dm.run calls).inverse) ∧
    (∀ path, (StrMap.find dm.path2fd_ path).isSome = true →
      dm.open_file path = (.error .FileNotClosedError, dm)) ∧
    (∀ fd, Assoc.find dm.fd2path_ fd = none →
      dm.close_file fd = (.error .FileNotOpenError, dm)) ∧
    (∀ path, dm.is_file path = false →
      dm.destroy_file path = (.error .FileNotFoundError, dm)) ∧
    (∀ call e, dm.outcome call = .error e →
      (dm.apply call).path2fd_ = dm.path2fd_ ∧ (dm.apply call).fd2path_ = dm.fd2path_) ∧
    (∀ path fd dm1, dm.open_file path = (.ok fd, dm1) →
      StrMap.find dm.path2fd_ path = none ∧ Assoc.find dm.fd2path_ fd = none ∧
      (∀ p, StrMap.find dm1.path2fd_ p =
        if p = path then some fd else StrMap.find dm.path2fd_ p) ∧
      (∀ f, Assoc.find dm1.fd2path_ f =
        if f = fd then some path else Assoc.find dm.fd2path_ f)) ∧
    (∀ fd dm1, dm.close_file fd = (.ok (), dm1) →
      ∃ path, Assoc.find dm.fd2path_ fd = some path ∧
        StrMap.find dm.path2fd_ path = some fd ∧
        (∀ p, StrMap.find dm1.path2fd_ p =
          if p = path then none else StrMap.find dm.path2fd_ p) ∧
        (∀ f, Assoc.find dm1.fd2path_ f =
          if f = fd then none else Assoc.find dm.fd2path_ f)) := by
  refine ⟨fun calls => (inverse_backed_run calls dm hinv hback).1, ?_, ?_, ?_, ?_, ?_, ?_⟩
  · intro path hreg
    rcases open_file_cases dm path with ⟨hf, _⟩ | ⟨_, _, h⟩ | ⟨_, hn, _⟩ | ⟨_, hn, _⟩
    · cases hq : StrMap.find dm.path2fd_ path with
      | none => rw [hq] at hreg; cases hreg
      | some fd =>
        have := (hback path fd hq).1
        have hf' : dm.os.is_file path = false := hf
        rw [hf'] at this
        cases this
    · exact h
    · rw [hn] at hreg; cases hreg
    · rw [hn] at hreg; cases hreg
  · intro fd hnone
    rcases close_file_cases dm fd with ⟨_, h⟩ | ⟨path, hp, _⟩ | ⟨path, hp, _⟩
    · exact h
    · rw [hnone] at hp; cases hp
    · rw [hnone] at hp; cases hp
  · intro path hfile
    rcases destroy_file_cases dm path with ⟨_, h⟩ | ⟨hf, _⟩ | ⟨hf, _⟩
    · exact h
    · rw [hfile] at hf; cases hf
    · rw [hfile] at hf; cases hf
  · intro call e herr
    cases call with
    | open_file path =>
      have herr' : (match (dm.open_file path).1 with
        | .ok _ => Except.ok ()
        | .error e => Except.error e) = .error e := herr
      show (dm.open_file path).2.path2fd_ = _ ∧ (dm.open_file path).2.fd2path_ = _
      rcases open_file_cases dm path with ⟨_, h⟩ | ⟨_, _, h⟩ | ⟨_, _, h⟩ | ⟨_, _, fd, _, h⟩
      · rw [h]; exact ⟨rfl, rfl⟩
      · rw [h]; exact ⟨rfl, rfl⟩
      · rw [h]; exact ⟨rfl, rfl⟩
      · rw [h] at herr'
        cases herr'
    | close_file fd =>
      have herr' : (dm.close_file fd).1 = .error e := herr
      show (dm.close_file fd).2.path2fd_ = _ ∧ (dm.close_file fd).2.fd2path_ = _
      rcases close_file_cases dm fd with ⟨_, h⟩ | ⟨path, _, _, h⟩ | ⟨path, _, _, h⟩
      · rw [h]; exact ⟨rfl, rfl⟩
      · rw [h]; exact ⟨rfl, rfl⟩
      · rw [h] at herr'
        cases herr'
    | destroy_file path =>
      show (dm.destroy_file path).2.path2fd_ = _ ∧ (dm.destroy_file path).2.fd2path_ = _
      rcases destroy_file_cases dm path with ⟨_, h⟩ | ⟨_, _, h⟩ | ⟨_, _, h⟩
      · rw [h]; exact ⟨rfl, rfl⟩
      · rw [h]; exact ⟨rfl, rfl⟩
      · rw [h]; exact ⟨rfl, rfl⟩
  · intro path fd dm1 hopen
    rcases open_file_cases dm path with ⟨_, h⟩ | ⟨_, _, h⟩ | ⟨_, _, h⟩ |
      ⟨_, hnone, fd', hfresh, h⟩
    · rw [h] at hopen; cases hopen
    · rw [h] at hopen; cases hopen
    · rw [h] at hopen; cases hopen
    · rw [h] at hopen
      simp only [Prod.mk.injEq, Except.ok.injEq] at hopen
      obtain ⟨e1, e2⟩ := hopen
      subst e1
      subst e2
      have hfd : Assoc.find dm.fd2path_ fd' = none := by
        cases hq : Assoc.find dm.fd2path_ fd' with
        | none => rfl
        | some q =>
          have := (hback q fd' ((hinv q fd').mpr hq)).2
          rw [hfresh] at this
          cases this
      exact ⟨hnone, hfd, fun p => StrMap.find_after_set _ _ _ _, fun f => Assoc.find_set _ _ _ _⟩
  · intro fd dm1 hclose
    rcases close_file_cases dm fd with ⟨_, h⟩ | ⟨path, _, _, h⟩ | ⟨path, hpath, _, h⟩
    · rw [h] at hclose; cases hclose
    · rw [h] at hclose; cases hclose
    · rw [h] at hclose
      simp only [Prod.mk.injEq, true_and] at hclose
      subst hclose
      exact ⟨path, hpath, (hinv path fd).mpr hpath, fun p => StrMap.find_after_erase _ _ _,
        fun f => Assoc.find_erase _ _ _⟩

/-- Witness for C33: a disk manager with no file registered, over the files `a` and `b`;
`open_file("a")` returns the descriptor 3, a second `open_file("a")` raises `FileNotClosed`,
`close_file(7)` raises `FileNotOpen`, `destroy_file("c")` raises `FileNotFound`. -/
theorem file_maps_stay_inverse_witness :
    ((DiskFiles.init two_files).open_file "a").1 = .ok 3 ∧
    (((DiskFiles.init two_files).open_file "a").2.open_file "a").1 =
      .error .FileNotClosedError ∧
    ((DiskFiles.init two_files).close_file 7).1 = .error .FileNotOpenError ∧
    ((DiskFiles.init two_files).destroy_file "c").1 = .error .FileNotFoundError ∧
    ((∀ calls, ((DiskFiles.init two_files).run calls).inverse) ∧
    (∀ path, (StrMap.find (DiskFiles.init two_files).path2fd_ path).isSome = true →
      (DiskFiles.init two_files).open_file path =
        (.error .FileNotClosedError, DiskFiles.init two_files)) ∧
    (∀ fd, Assoc.find (DiskFiles.init two_files).fd2path_ fd = none →
      (DiskFiles.init two_files).close_file fd =
        (.error .FileNotOpenError, DiskFiles.init two_files)) ∧
    (∀ path, (DiskFiles.init two_files).is_file path = false →
      (DiskFiles.init two_files).destroy_file path =
        (.error .FileNotFoundError, DiskFiles.init two_files)) ∧
    (∀ call e, (DiskFiles.init two_files).outcome call = .error e →
      ((DiskFiles.init two_files).apply call).path2fd_ =
        (DiskFiles.init two_files).path2fd_ ∧
      ((DiskFiles.init two_files).apply call).fd2path_ =
        (DiskFiles.init two_files).fd2path_) ∧
    (∀ path fd dm1, (DiskFiles.init two_files).open_file path = (.ok fd, dm1) →
      StrMap.find (DiskFiles.init two_files).path2fd_ path = none ∧
      Assoc.find (DiskFiles.init two_files).fd2path_ fd = none ∧
      (∀ p, StrMap.find dm1.path2fd_ p =
        if p = path then some fd else StrMap.find (DiskFiles.init two_files).path2fd_ p) ∧
      (∀ f, Assoc.find dm1.fd2path_ f =
        if f = fd then some path else Assoc.find (DiskFiles.init two_files).fd2path_ f)) ∧
    (∀ fd dm1, (DiskFiles.init two_files).close_file fd = (.ok (), dm1) →
      ∃ path, Assoc.find (DiskFiles.init two_files).fd2path_ fd = some path ∧
        StrMap.find (DiskFiles.init two_files).path2fd_ path = some fd ∧
        (∀ p, StrMap.find dm1.path2fd_ p =
          if p = path then none else StrMap.find (DiskFiles.init two_files).path2fd_ p) ∧
        (∀ f, Assoc.find dm1.fd2path_ f =
          if f = fd then none else Assoc.find (DiskFiles.init two_files).fd2path_ f))) :=
  ⟨rfl, rfl, rfl, rfl,
    file_maps_stay_inverse (DiskFiles.init two_files)
      (fun _ _ => Iff.intro (fun h => by cases h) (fun h => by cases h))
      (fun _ _ h => by cases h)⟩

/-! ## `create_table` -/

theorem StrMap.find_insert_sorted {α : Type} (m : StrMap α) (key : String) (v : α)
    (k : String) :
    StrMap.find (StrMap.insert_sorted m key v) k =
      if k = key then some v else StrMap.find m k := by
  induction m with
  | nil =>
    by_cases h : k = key
    · simp [StrMap.insert_sorted, StrMap.find, h]
    · have h' : ¬ key = k := fun e => h e.symm
      simp [StrMap.insert_sorted, StrMap.find, h, h']
  | cons e rest ih =>
    obtain ⟨k1, w⟩ := e
    unfold StrMap.insert_sorted
    by_cases h1 : k1 = key
    · subst h1
      by_cases h : k = k1
      · subst h
        simp [StrMap.find]
      · have h' : ¬ k1 = k := fun e => h e.symm
        simp [StrMap.find, h, h']
    · simp only [h1, if_false]
      by_cases h2 : key < k1
      · simp only [h2, if_true, StrMap.find]
        by_cases h : k = key
        · simp [h]
        · have h' : ¬ key = k := fun e => h e.symm
          simp [h, h']
      · simp only [h2, if_false, StrMap.find]
        by_cases h3 : k1 = k
        · have h4 : ¬ k = key := fun e => h1 (h3.trans e)
          simp [h3, h4]
        · simp only [h3, if_false]
          exact ih

theorem layout_length (tab_name : String) :
    ∀ (col_defs : List ColDef) (off : Nat),
      (SmManager.layout tab_name col_defs off).length = col_defs.length := by
  intro col_defs
  induction col_defs with
  | nil => intro off; rfl
  | cons d rest ih =>
    intro off
    simp only [SmManager.layout, List.length_cons, ih]

/-- The columns that the loop of `create_table` builds: the `i`-th has the name, type and length
of the `i`-th definition and starts at the sum of the lengths before it. -/
theorem layout_get (tab_name : String) :
    ∀ (col_defs : List ColDef) (off i : Nat) (d : ColDef), col_defs.get? i = some d →
      (SmManager.layout tab_name col_defs off).get? i =
        some { tab_name := tab_name, name := d.name, type := d.type, len := d.len,
               offset := off + ((col_defs.take i).map (fun c => c.len)).sum, index := false } := by
  intro col_defs
  induction col_defs with
  | nil => intro off i d h; cases h
  | cons c rest ih =>
    intro off i d h
    cases i with
    | zero =>
      simp only [List.get?_cons_zero, Option.some.injEq] at h
      subst h
      simp [SmManager.layout]
    | succ i =>
      simp only [List.get?_cons_succ] at h
      simp only [SmManager.layout, List.get?_cons_succ, ih (off + c.len) i d h, List.take_succ_cons,
        List.map_cons, List.sum_cons, Nat.add_assoc]

theorem record_size_sum :
    ∀ (col_defs : List ColDef) (off : Nat),
      SmManager.record_size col_defs off = off + (col_defs.map (fun c => c.len)).sum := by
  intro col_defs
  induction col_defs with
  | nil => intro off; simp [SmManager.record_size]
  | cons c rest ih =>
    intro off
    simp only [SmManager.record_size, ih, List.map_cons, List.sum_cons, Nat.add_assoc]

theorem Os.is_file_write_file (os : Os) (path : String) (data : FileData) :
    (os.write_file path data).is_file path = true := by
  unfold Os.is_file Os.write_file
  simp only
  rw [Assoc.find_set, if_pos rfl]
  rfl

/-- `open_file` on an existing file that is not registered, with a descriptor to spare. -/
theorem open_file_ok (dm : DiskFiles) (path : String) (h1 : dm.is_file path = true)
    (h2 : StrMap.find dm.path2fd_ path = none)
    (h3 : Os.lowest_free dm.os.fds 0 dm.os.fds.length < dm.os.max_fds) :
    dm.open_file path =
      (.ok ((Os.lowest_free dm.os.fds 0 dm.os.fds.length : Nat) : Int),
        { path2fd_ := StrMap.set dm.path2fd_ path
            ((Os.lowest_free dm.os.fds 0 dm.os.fds.length : Nat) : Int)
          fd2path_ := Assoc.set dm.fd2path_
            ((Os.lowest_free dm.os.fds 0 dm.os.fds.length : Nat) : Int) path
          os := { dm.os with fds := dm.os.fds ++
            [(((Os.lowest_free dm.os.fds 0 dm.os.fds.length : Nat) : Int),
              dm.os.cwd ++ [path])] } }) := by
  have h1' : dm.os.is_file path = true := h1
  have h3' : ¬ dm.os.max_fds ≤ Os.lowest_free dm.os.fds 0 dm.os.fds.length := by omega
  unfold DiskFiles.open_file
  simp only [h1, Bool.true_eq_false, if_false, h2, Option.isSome_none, Bool.false_eq_true,
    Os.open, h1', h3']

/-- The errors of `open_file`. -/
theorem open_file_errors (dm : DiskFiles) (path : String) (e : Error) (dm1 : DiskFiles)
    (h : dm.open_file path = (.error e, dm1)) :
    e = .FileNotFoundError ∨ e = .FileNotClosedError ∨ e = .UnixError := by
  rcases open_file_cases dm path with ⟨_, h1⟩ | ⟨_, _, h1⟩ | ⟨_, _, h1⟩ | ⟨_, _, fd, _, h1⟩
  all_goals rw [h1] at h
  · simp only [Prod.mk.injEq, Except.error.injEq] at h
    exact Or.inl h.1.symm
  · simp only [Prod.mk.injEq, Except.error.injEq] at h
    exact Or.inr (Or.inl h.1.symm)
  · simp only [Prod.mk.injEq, Except.error.injEq] at h
    exact Or.inr (Or.inr h.1.symm)
  · cases h

theorem rm_create_file_errors (dm : DiskFiles) (rpp : Nat → Int) (name : String) (rs : Nat)
    (e : Error) (dm1 : DiskFiles) (h : RmManager.create_file dm rpp name rs = (.error e, dm1)) :
    e = .FileExistsError := by
  unfold RmManager.create_file DiskFiles.create_file at h
  by_cases hf : dm.is_file name = true
  · simp only [hf, if_true, Prod.mk.injEq, Except.error.injEq] at h
    exact h.1.symm
  · simp only [hf, if_false] at h
    cases h

theorem rm_open_file_errors (dm : DiskFiles) (name : String) (e : Error) (dm1 : DiskFiles)
    (h : RmManager.open_file dm name = (.error e, dm1)) :
    e = .FileNotFoundError ∨ e = .FileNotClosedError ∨ e = .UnixError ∨ e = .InternalError := by
  unfold RmManager.open_file at h
  rcases ho : dm.open_file name with ⟨r, dm2⟩
  rw [ho] at h
  cases r with
  | error e2 =>
    simp only [Prod.mk.injEq, Except.error.injEq] at h
    rw [← h.1]
    rcases open_file_errors _ _ _ _ ho with e1 | e1 | e1
    · exact Or.inl e1
    · exact Or.inr (Or.inl e1)
    · exact Or.inr (Or.inr (Or.inl e1))
  | ok fd =>
    simp only at h
    split at h
    · cases h
    · simp only [Prod.mk.injEq, Except.error.injEq] at h
      exact Or.inr (Or.inr (Or.inr h.1.symm))

/-- `create_table` raises `TableExistsError` only for a name that is a table. -/
theorem create_table_error (sm : SmManager) (tab_name : String) (col_defs : List ColDef)
    (hnot : sm.db_.is_table tab_name = false) :
    (sm.create_table tab_name col_defs).1 ≠ .error .TableExistsError := by
  unfold SmManager.create_table
  simp only [hnot, Bool.false_eq_true, if_false]
  rcases hc : RmManager.create_file sm.disk_manager_ sm.records_per_page tab_name
    (SmManager.record_size col_defs 0) with ⟨r, dm⟩
  cases r with
  | error e =>
    simp only
    rw [rm_create_file_errors _ _ _ _ _ _ hc]
    intro h
    cases h
  | ok u =>
    simp only
    rcases ho : RmManager.open_file dm tab_name with ⟨r2, dm1⟩
    cases r2 with
    | error e =>
      simp only
      rcases rm_open_file_errors _ _ _ _ ho with e1 | e1 | e1 | e1 <;>
      · rw [e1]
        intro h
        cases h
    | ok handle =>
      simp only
      intro h
      cases h

theorem rm_create_file_ok (dm : DiskFiles) (rpp : Nat → Int) (name : String) (rs : Nat)
    (hfile : dm.is_file name = false) :
    RmManager.create_file dm rpp name rs =
      (.ok (), DiskFiles.mk dm.path2fd_ dm.fd2path_
        ((dm.os.write_file name FileData.plain).write_file name
          (FileData.heap (empty_file rs (rpp rs))))) := by
  unfold RmManager.create_file DiskFiles.create_file
  simp only [hfile, Bool.false_eq_true, if_false]

theorem rm_open_file_ok (dm : DiskFiles) (name : String) (fh : RmFileHandle)
    (h1 : Assoc.find dm.os.files (dm.os.cwd ++ [name]) = some (FileData.heap fh))
    (h2 : StrMap.find dm.path2fd_ name = none)
    (h3 : Os.lowest_free dm.os.fds 0 dm.os.fds.length < dm.os.max_fds) :
    RmManager.open_file dm name =
      (.ok (OpenHeap.mk ((Os.lowest_free dm.os.fds 0 dm.os.fds.length : Nat) : Int) fh),
        DiskFiles.mk
          (StrMap.set dm.path2fd_ name ((Os.lowest_free dm.os.fds 0 dm.os.fds.length : Nat) : Int))
          (Assoc.set dm.fd2path_ ((Os.lowest_free dm.os.fds 0 dm.os.fds.length : Nat) : Int) name)
          (Os.mk dm.os.cwd dm.os.dirs dm.os.files
            (dm.os.fds ++ [(((Os.lowest_free dm.os.fds 0 dm.os.fds.length : Nat) : Int),
              dm.os.cwd ++ [name])]) dm.os.max_fds)) := by
  have hf : dm.is_file name = true := by
    unfold DiskFiles.is_file Os.is_file
    rw [h1]
    rfl
  unfold RmManager.open_file
  rw [open_file_ok dm name hf h2 h3]
  simp only [h1]

/-- `create_table` for a name that is no table, when the table file can be created and opened:
there is no file of this name, the name is not registered with the disk manager, and the process
has a descriptor to spare. -/
theorem create_table_ok (sm : SmManager) (tab_name : String) (col_defs : List ColDef)
    (hnot : sm.db_.is_table tab_name = false)
    (hfile : sm.disk_manager_.is_file tab_name = false)
    (hreg : StrMap.find sm.disk_manager_.path2fd_ tab_name = none)
    (hfd : Os.lowest_free sm.disk_manager_.os.fds 0 sm.disk_manager_.os.fds.length <
      sm.disk_manager_.os.max_fds) :
    ∃ sm1 : SmManager, sm.create_table tab_name col_defs = (.ok (), sm1) ∧
      sm1.db_.name_ = sm.db_.name_ ∧
      sm1.db_.tabs_ = StrMap.insert_sorted sm.db_.tabs_ tab_name
        { name := tab_name, cols := SmManager.layout tab_name col_defs 0, indexes := [] } ∧
      sm1.fhs_ = StrMap.emplace sm.fhs_ tab_name
        { fd := ((Os.lowest_free sm.disk_manager_.os.fds 0 sm.disk_manager_.os.fds.length : Nat)
            : Int)
          fh := empty_file (SmManager.record_size col_defs 0)
            (sm.records_per_page (SmManager.record_size col_defs 0)) } ∧
      sm1.ihs_ = sm.ihs_ ∧
      sm1.disk_manager_.os.cwd = sm.disk_manager_.os.cwd ∧
      sm1.disk_manager_.os.files =
        Assoc.set
          (Assoc.set
            (Assoc.set sm.disk_manager_.os.files (sm.disk_manager_.os.cwd ++ [tab_name])
              FileData.plain)
            (sm.disk_manager_.os.cwd ++ [tab_name])
            (FileData.heap (empty_file (SmManager.record_size col_defs 0)
              (sm.records_per_page (SmManager.record_size col_defs 0)))))
          (sm.disk_manager_.os.cwd ++ [DB_META_NAME]) (FileData.catalog sm1.db_) := by
  have hc := rm_create_file_ok sm.disk_manager_ sm.records_per_page tab_name
    (SmManager.record_size col_defs 0) hfile
  have hr := rm_open_file_ok
    (DiskFiles.mk sm.disk_manager_.path2fd_ sm.disk_manager_.fd2path_
      ((sm.disk_manager_.os.write_file tab_name FileData.plain).write_file tab_name
        (FileData.heap (empty_file (SmManager.record_size col_defs 0)
          (sm.records_per_page (SmManager.record_size col_defs 0))))))
    tab_name
    (empty_file (SmManager.record_size col_defs 0)
      (sm.records_per_page (SmManager.record_size col_defs 0)))
    (by
      show Assoc.find (Assoc.set (Assoc.set _ _ _) _ _) _ = _
      rw [Assoc.find_set]
      exact if_pos rfl) hreg hfd
  have hres : sm.create_table tab_name col_defs =
      (.ok (), (sm.create_table tab_name col_defs).2) ∧
      (sm.create_table tab_name col_defs).2 =
        SmManager.flush_meta
          (SmManager.mk
            (DbMeta.mk sm.db_.name_ (StrMap.insert_sorted sm.db_.tabs_ tab_name
              (TabMeta.mk tab_name (SmManager.layout tab_name col_defs 0) [])))
            (StrMap.emplace sm.fhs_ tab_name
              (OpenHeap.mk
                ((Os.lowest_free sm.disk_manager_.os.fds 0 sm.disk_manager_.os.fds.length : Nat)
                  : Int)
                (empty_file (SmManager.record_size col_defs 0)
                  (sm.records_per_page (SmManager.record_size col_defs 0)))))
            sm.ihs_
            (DiskFiles.mk
              (StrMap.set sm.disk_manager_.path2fd_ tab_name
                ((Os.lowest_free sm.disk_manager_.os.fds 0 sm.disk_manager_.os.fds.length : Nat)
                  : Int))
              (Assoc.set sm.disk_manager_.fd2path_
                ((Os.lowest_free sm.disk_manager_.os.fds 0 sm.disk_manager_.os.fds.length : Nat)
                  : Int) tab_name)
              (Os.mk sm.disk_manager_.os.cwd sm.disk_manager_.os.dirs
                (Assoc.set
                  (Assoc.set sm.disk_manager_.os.files (sm.disk_manager_.os.cwd ++ [tab_name])
                    FileData.plain)
                  (sm.disk_manager_.os.cwd ++ [tab_name])
                  (FileData.heap (empty_file (SmManager.record_size col_defs 0)
                    (sm.records_per_page (SmManager.record_size col_defs 0)))))
                (sm.disk_manager_.os.fds ++
                  [(((Os.lowest_free sm.disk_manager_.os.fds 0
                    sm.disk_manager_.os.fds.length : Nat) : Int),
                    sm.disk_manager_.os.cwd ++ [tab_name])])
                sm.disk_manager_.os.max_fds))
            sm.records_per_page sm.calls) := by
    unfold SmManager.create_table
    simp only [hnot, Bool.false_eq_true, if_false, hc, hr]
    exact ⟨trivial, rfl⟩
  refine ⟨(sm.create_table tab_name col_defs).2, hres.1, ?_⟩
  rw [hres.2]
  exact ⟨rfl, rfl, rfl, rfl, rfl, rfl⟩

/-- C31 (column layout of `create_table`): `create_table(name, defs)` raises `TableExistsError`
if and only if `name` is a table of the catalog, and then leaves the whole state as it is.
Otherwise, when the table file can be created and opened (no file of this name in the directory,
the name not registered with the disk manager, a descriptor to spare), it returns without error
and the catalog has, under `name`, a table without indexes whose `i`-th column has the name, the
type and the length of `defs[i]`, the offset equal to the sum of the lengths of `defs[0..i-1]`
and the flag `index = false`; the other tables are as before; the table file holds an empty heap
file whose record size is the sum of all column lengths; and `DB_META` holds the new catalog. -/
theorem create_table_column_layout (sm : SmManager) (tab_name : String)
    (col_defs : List ColDef) :
    ((sm.create_table tab_name col_defs).1 = .error .TableExistsError ↔
      sm.db_.is_table tab_name = true) ∧
    (sm.db_.is_table tab_name = true → (sm.create_table tab_name col_defs).2 = sm) ∧
    (sm.db_.is_table tab_name = false →
      sm.disk_manager_.is_file tab_name = false →
      StrMap.find sm.disk_manager_.path2fd_ tab_name = none →
      Os.lowest_free sm.disk_manager_.os.fds 0 sm.disk_manager_.os.fds.length <
        sm.disk_manager_.os.max_fds →
      ∃ sm1 tab, sm.create_table tab_name col_defs = (.ok (), sm1) ∧
        StrMap.find sm1.db_.tabs_ tab_name = some tab ∧
        tab.name = tab_name ∧ tab.indexes = [] ∧ tab.cols.length = col_defs.length ∧
        (∀ i d, col_defs.get? i = some d →
          tab.cols.get? i =
            some { tab_name := tab_name, name := d.name, type := d.type, len := d.len,
                   offset := ((col_defs.take i).map (fun c => c.len)).sum, index := false }) ∧
        (∀ k, k ≠ tab_name → StrMap.find sm1.db_.tabs_ k = StrMap.find sm.db_.tabs_ k) ∧
        sm1.db_.name_ = sm.db_.name_ ∧
        (tab_name ≠ DB_META_NAME →
          ∃ fh, Assoc.find sm1.disk_manager_.os.files
              (sm1.disk_manager_.os.cwd ++ [tab_name]) = some (FileData.heap fh) ∧
            fh = empty_file ((col_defs.map (fun c => c.len)).sum)
              (sm.records_per_page ((col_defs.map (fun c => c.len)).sum)) ∧
            fh.file_hdr.record_size = (col_defs.map (fun c => c.len)).sum) ∧
        Assoc.find sm1.disk_manager_.os.files (sm1.disk_manager_.os.cwd ++ [DB_META_NAME]) =
          some (FileData.catalog sm1.db_)) := by
  refine ⟨⟨fun h => ?_, fun h => ?_⟩, fun h => ?_, fun hnot hfile hreg hfd => ?_⟩
  · cases ht : sm.db_.is_table tab_name with
    | true => rfl
    | false => exact absurd h (create_table_error sm tab_name col_defs ht)
  · unfold SmManager.create_table
    simp only [h, if_true]
  · unfold SmManager.create_table
    simp only [h, if_true]
  · obtain ⟨sm1, h1, h2, h3, _, _, h6, h7⟩ :=
      create_table_ok sm tab_name col_defs hnot hfile hreg hfd
    have hrs : SmManager.record_size col_defs 0 = (col_defs.map (fun c => c.len)).sum := by
      rw [record_size_sum, Nat.zero_add]
    refine ⟨sm1, { name := tab_name, cols := SmManager.layout tab_name col_defs 0,
                   indexes := [] }, h1, ?_, rfl, rfl, layout_length _ _ _, ?_, ?_, h2, ?_, ?_⟩
    · rw [h3, StrMap.find_insert_sorted, if_pos rfl]
    · intro i d hd
      have := layout_get tab_name col_defs 0 i d hd
      rw [Nat.zero_add] at this
      exact this
    · intro k hk
      rw [h3, StrMap.find_insert_sorted, if_neg hk]
    · intro hne
      refine ⟨_, ?_, rfl, rfl⟩
      rw [h7, h6, Assoc.find_set, if_neg (by
        intro e
        have := List.append_cancel_left e
        exact hne (List.cons.inj this).1), Assoc.find_set, if_pos rfl, hrs]
    · rw [h7, h6, Assoc.find_set, if_pos rfl]

/-- Witness for C31: in the open database without tables, `create_table("t", [a, b, c])` with
three columns of 4 bytes registers the columns at the offsets 0, 4, 8 and creates a heap file
with records of 12 bytes; a second `create_table("t", ...)` raises `TableExistsError`. -/
theorem create_table_column_layout_witness :
    (open_system.create_table "t" abc_defs).1 = .ok () ∧
    (StrMap.find (open_system.create_table "t" abc_defs).2.db_.tabs_ "t").map
        (fun tab => tab.cols.map (fun col => (col.name, col.offset, col.len, col.index))) =
      some [("a", 0, 4, false), ("b", 4, 4, false), ("c", 8, 4, false)] ∧
    ((open_system.create_table "t" abc_defs).2.create_table "t" abc_defs).1 =
      .error .TableExistsError ∧
    open_system.db_.is_table "t" = false ∧
    open_system.disk_manager_.is_file "t" = false ∧
    StrMap.find open_system.disk_manager_.path2fd_ "t" = none ∧
    Os.lowest_free open_system.disk_manager_.os.fds 0 open_system.disk_manager_.os.fds.length <
      open_system.disk_manager_.os.max_fds ∧
    (((open_system.create_table "t" abc_defs).1 = .error .TableExistsError ↔
      open_system.db_.is_table "t" = true) ∧
    (open_system.db_.is_table "t" = true →
      (open_system.create_table "t" abc_defs).2 = open_system) ∧
    (open_system.db_.is_table "t" = false →
      open_system.disk_manager_.is_file "t" = false →
      StrMap.find open_system.disk_manager_.path2fd_ "t" = none →
      Os.lowest_free open_system.disk_manager_.os.fds 0 open_system.disk_manager_.os.fds.length <
        open_system.disk_manager_.os.max_fds →
      ∃ sm1 tab, open_system.create_table "t" abc_defs = (.ok (), sm1) ∧
        StrMap.find sm1.db_.tabs_ "t" = some tab ∧
        tab.name = "t" ∧ tab.indexes = [] ∧ tab.cols.length = abc_defs.length ∧
        (∀ i d, abc_defs.get? i = some d →
          tab.cols.get? i =
            some { tab_name := "t", name := d.name, type := d.type, len := d.len,
                   offset := ((abc_defs.take i).map (fun c => c.len)).sum, index := false }) ∧
        (∀ k, k ≠ "t" → StrMap.find sm1.db_.tabs_ k = StrMap.find open_system.db_.tabs_ k) ∧
        sm1.db_.name_ = open_system.db_.name_ ∧
        ("t" ≠ DB_META_NAME →
          ∃ fh, Assoc.find sm1.disk_manager_.os.files
              (sm1.disk_manager_.os.cwd ++ ["t"]) = some (FileData.heap fh) ∧
            fh = empty_file ((abc_defs.map (fun c => c.len)).sum)
              (open_system.records_per_page ((abc_defs.map (fun c => c.len)).sum)) ∧
            fh.file_hdr.record_size = (abc_defs.map (fun c => c.len)).sum) ∧
        Assoc.find sm1.disk_manager_.os.files (sm1.disk_manager_.os.cwd ++ [DB_META_NAME]) =
          some (FileData.catalog sm1.db_))) :=
  ⟨rfl, rfl, rfl, rfl, rfl, rfl, by decide, create_table_column_layout open_system "t" abc_defs⟩

/-! ## Closing and reopening a database -/

/-- C30 (`close_db` closes what `open_db` opened), failing input: a database without tables.
`create_db("db")`, `open_db("db")` and `close_db()` return without error; `open_db` has
registered `LOG_FILE` in the maps of the disk manager under the descriptor 3, and `close_db`,
which empties the catalog and the handle maps, leaves it registered. The next `open_db("db")`
raises `FileNotClosed` when it opens `LOG_FILE` again, and leaves the catalog loaded and the
process in the directory of the database. -/
theorem reopen_after_close_db_fails :
    (fresh_system.create_db "db").1 = .ok () ∧
    ((fresh_system.create_db "db").2.open_db "db").1 = .ok () ∧
    StrMap.find open_system.disk_manager_.path2fd_ LOG_FILE_NAME = some 3 ∧
    open_system.close_db.1 = .ok () ∧
    closed_system.db_.name_ = "" ∧ closed_system.db_.tabs_ = [] ∧
    closed_system.fhs_.length = 0 ∧ closed_system.ihs_ = [] ∧
    closed_system.disk_manager_.os.cwd = [] ∧
    StrMap.find closed_system.disk_manager_.path2fd_ LOG_FILE_NAME = some 3 ∧
    Assoc.find closed_system.disk_manager_.fd2path_ 3 = some LOG_FILE_NAME ∧
    Assoc.find closed_system.disk_manager_.os.fds 3 = some ["db", LOG_FILE_NAME] ∧
    (closed_system.open_db "db").1 = .error .FileNotClosedError ∧
    (closed_system.open_db "db").2.db_.name_ = "db" ∧
    (closed_system.open_db "db").2.disk_manager_.os.cwd = ["db"] := by
  refine ⟨rfl, rfl, rfl, rfl, rfl, rfl, rfl, rfl, rfl, rfl, rfl, rfl, rfl, rfl, rfl⟩

/-! ## `create_index` -/

theorem record_at_congr (fh fh1 : RmFileHandle) (hhdr : fh1.file_hdr = fh.file_hdr)
    (hpages : fh1.pool.pages = fh.pool.pages) (rid : Rid) :
    fh1.record_at rid = fh.record_at rid := by
  unfold RmFileHandle.record_at
  rw [hhdr, hpages]

/-- The scan loop of `create_index`: it runs to the end of the scan without error and calls
`insert_entry` for the RIDs the scan has to deliver, in their order, each with the key built
from the record at the RID. -/
theorem index_rows_spec (index_name : String) (idx_cols : List ColMeta) (col_tot_len : Nat) :
    ∀ (fuel : Nat) (scan : RmScan) (ihs : StrMap IxIndexHandle) (calls : List Call),
      (∀ p, 1 ≤ p → p < scan.file_handle.file_hdr.num_pages →
        ∃ pg, scan.file_handle.pool.pages p = some pg) →
      (scan.is_end = true ∨
        (1 ≤ scan.rid.page_no ∧ scan.rid.page_no < scan.file_handle.file_hdr.num_pages)) →
      scan.todo.length ≤ fuel →
      ∃ scan1 ihs1,
        SmManager.index_rows index_name idx_cols col_tot_len fuel scan ihs calls =
          some (.ok (), scan1, ihs1,
            calls ++ scan.todo.map (fun rid =>
              Call.insert_entry index_name
                (fill_key (scan.file_handle.record_at rid) idx_cols 0
                  (RmRecord.alloc col_tot_len)) rid)) ∧
        scan1.is_end = true ∧
        scan1.file_handle.file_hdr = scan.file_handle.file_hdr ∧
        scan1.file_handle.pool.pages = scan.file_handle.pool.pages := by
  intro fuel
  induction fuel with
  | zero =>
    intro scan ihs calls _ _ hlen
    by_cases hend : scan.is_end = true
    · refine ⟨scan, ihs, ?_, hend, rfl, rfl⟩
      simp [SmManager.index_rows, RmScan.todo, hend]
    · simp [RmScan.todo, hend] at hlen
  | succ fuel ih =>
    intro scan ihs calls hfetch hpos hlen
    by_cases hend : scan.is_end = true
    · refine ⟨scan, ihs, ?_, hend, rfl, rfl⟩
      simp [SmManager.index_rows, RmScan.todo, hend]
    · rcases hpos with h | ⟨hp, hlt⟩
      · exact absurd h hend
      · have hval := get_record_value scan.file_handle scan.rid (by omega) hlt
          (hfetch _ hp hlt)
        obtain ⟨g1, g2⟩ := get_record_frame scan.file_handle scan.rid
        rcases hg : scan.file_handle.get_record scan.rid with ⟨r, fh1⟩
        rw [hg] at hval g1 g2
        simp only at hval g1 g2
        subst hval
        obtain ⟨s1, e1, e2, e3, e4, e5⟩ := next_spec { scan with file_handle := fh1 }
          (by simp only [g1, g2]; exact hfetch) hp (by simp only [g1]; exact hlt)
        simp only [g1, g2] at e2 e3 e4
        have hafter : s1.todo = scan.file_handle.rids_after scan.rid := by
          rw [e5]
          exact rids_after_congr _ _ g1 g2 _
        have htodo : scan.todo = scan.rid :: s1.todo := by
          rw [hafter]
          simp [RmScan.todo, hend]
        have hlen1 : s1.todo.length ≤ fuel := by
          rw [htodo] at hlen
          simp only [List.length_cons] at hlen
          omega
        obtain ⟨scan1, ihs1, d1, d2, d3, d4⟩ := ih s1
          (StrMap.modify ihs index_name (fun h => h.insert_entry
            (fill_key (scan.file_handle.record_at scan.rid) idx_cols 0
              (RmRecord.alloc col_tot_len)) scan.rid))
          (calls ++ [Call.insert_entry index_name
            (fill_key (scan.file_handle.record_at scan.rid) idx_cols 0
              (RmRecord.alloc col_tot_len)) scan.rid])
          (by rw [e2, e3]; exact hfetch) (by rw [e2]; exact e4) hlen1
        refine ⟨scan1, ihs1, ?_, d2, d3.trans e2, d4.trans e3⟩
        have hend' : scan.is_end = false := by simpa using hend
        simp only [SmManager.index_rows, hend', Bool.false_eq_true, if_false, hg, e1, d1, htodo,
          List.map_cons, List.append_assoc, List.singleton_append]
        have hmap : s1.todo.map (fun rid => Call.insert_entry index_name
              (fill_key (s1.file_handle.record_at rid) idx_cols 0
                (RmRecord.alloc col_tot_len)) rid) =
            s1.todo.map (fun rid => Call.insert_entry index_name
              (fill_key (scan.file_handle.record_at rid) idx_cols 0
                (RmRecord.alloc col_tot_len)) rid) := by
          apply List.map_congr_left
          intro rid _
          rw [record_at_congr scan.file_handle s1.file_handle e2 e3 rid]
        rw [hmap]

theorem foldl_len_sum (cols : List ColMeta) :
    ∀ n : Nat, cols.foldl (fun col_tot_len col => col_tot_len + col.len) n =
      n + (cols.map (fun col => col.len)).sum := by
  induction cols with
  | nil => intro n; simp
  | cons c rest ih =>
    intro n
    simp only [List.foldl_cons, ih, List.map_cons, List.sum_cons, Nat.add_assoc]

/-- The index metadata that `create_index` builds: the total key length is the sum of the
lengths of the columns. -/
theorem index_meta_len (tab_name : String) (idx_cols : List ColMeta) :
    (SmManager.index_meta tab_name idx_cols).col_tot_len =
      (idx_cols.map (fun col => col.len)).sum := by
  unfold SmManager.index_meta
  simp only [foldl_len_sum, Nat.zero_add]

/-- The loop that collects the columns of an index succeeds exactly when every name is a column
of the table, and then returns, for each name in order, the first column with this name. -/
theorem collect_cols_spec (cols : List ColMeta) :
    ∀ (col_names : List String),
      ((∀ n ∈ col_names, ∃ col ∈ cols, col.name = n) →
        ∃ idx_cols, SmManager.collect_cols cols col_names = .ok idx_cols ∧
          idx_cols.map (fun col => col.name) = col_names ∧
          idx_cols.length = col_names.length ∧
          (∀ col ∈ idx_cols, col ∈ cols)) ∧
      ((∃ n ∈ col_names, ∀ col ∈ cols, col.name ≠ n) →
        SmManager.collect_cols cols col_names = .error .ColumnNotFoundError) := by
  intro col_names
  induction col_names with
  | nil =>
    refine ⟨fun _ => ⟨[], rfl, rfl, rfl, fun _ h => by cases h⟩, ?_⟩
    rintro ⟨n, hn, _⟩
    cases hn
  | cons name rest ih =>
    constructor
    · intro hall
      obtain ⟨c, hc, hcn⟩ := hall name (List.mem_cons_self _ _)
      obtain ⟨r, hr, hrn, hrl, hrm⟩ := ih.1 (fun n hn => hall n (List.mem_cons_of_mem _ hn))
      cases hf : cols.find? (fun col => decide (col.name = name)) with
      | none =>
        have := List.find?_eq_none.mp hf c hc
        simp [hcn] at this
      | some col =>
        have hp := List.find?_some hf
        have hm := List.mem_of_find?_eq_some hf
        simp only [decide_eq_true_eq] at hp
        refine ⟨col :: r, ?_, ?_, ?_, ?_⟩
        · simp only [SmManager.collect_cols, hf, hr]
        · simp only [List.map_cons, hp, hrn]
        · simp only [List.length_cons, hrl]
        · intro x hx
          rcases List.mem_cons.mp hx with e | e
          · rw [e]; exact hm
          · exact hrm x e
    · rintro ⟨n, hn, hnone⟩
      cases hf : cols.find? (fun col => decide (col.name = name)) with
      | none => simp only [SmManager.collect_cols, hf]
      | some col =>
        have hp := List.find?_some hf
        have hm := List.mem_of_find?_eq_some hf
        simp only [decide_eq_true_eq] at hp
        rcases List.mem_cons.mp hn with e | e
        · exact absurd hp (by rw [← e]; exact hnone col hm)
        · simp only [SmManager.collect_cols, hf, ih.2 ⟨n, e, hnone⟩]

theorem ix_create_index_ok (dm : DiskFiles) (tab_name : String) (cols : List ColMeta)
    (hfile : dm.is_file (get_index_name tab_name cols) = false) :
    IxManager.create_index dm tab_name cols =
      (.ok (), DiskFiles.mk dm.path2fd_ dm.fd2path_
        ((dm.os.write_file (get_index_name tab_name cols) FileData.plain).write_file
          (get_index_name tab_name cols) (FileData.index []))) := by
  unfold IxManager.create_index DiskFiles.create_file
  simp only [hfile, Bool.false_eq_true, if_false]

theorem ix_open_index_ok (dm : DiskFiles) (tab_name : String) (cols : List ColMeta)
    (entries : List (List Byte × Rid))
    (h1 : Assoc.find dm.os.files (dm.os.cwd ++ [get_index_name tab_name cols]) =
      some (FileData.index entries))
    (h2 : StrMap.find dm.path2fd_ (get_index_name tab_name cols) = none)
    (h3 : Os.lowest_free dm.os.fds 0 dm.os.fds.length < dm.os.max_fds) :
    IxManager.open_index dm tab_name cols =
      (.ok (IxIndexHandle.mk ((Os.lowest_free dm.os.fds 0 dm.os.fds.length : Nat) : Int) entries),
        DiskFiles.mk
          (StrMap.set dm.path2fd_ (get_index_name tab_name cols)
            ((Os.lowest_free dm.os.fds 0 dm.os.fds.length : Nat) : Int))
          (Assoc.set dm.fd2path_ ((Os.lowest_free dm.os.fds 0 dm.os.fds.length : Nat) : Int)
            (get_index_name tab_name cols))
          (Os.mk dm.os.cwd dm.os.dirs dm.os.files
            (dm.os.fds ++ [(((Os.lowest_free dm.os.fds 0 dm.os.fds.length : Nat) : Int),
              dm.os.cwd ++ [get_index_name tab_name cols])]) dm.os.max_fds)) := by
  have hf : dm.is_file (get_index_name tab_name cols) = true := by
    unfold DiskFiles.is_file Os.is_file
    rw [h1]
    rfl
  unfold IxManager.open_index
  rw [open_file_ok dm _ hf h2 h3]
  simp only [h1]

/-- `create_index` on a table of the catalog without an index on these columns, all of them
columns of the table, when the index file can be created and opened, the table has an open file
handle and the heap file has at least one data page, all data pages fetchable: with fuel for the
rounds of the scan it returns without error; the calls it makes on the index are
`insert_entry(key, rid)` for the RIDs of the scan; the table has the new index declared and the
flags of the named columns set. -/
theorem create_index_ok (sm : SmManager) (tab_name : String) (col_names : List String)
    (tab : TabMeta) (idx_cols : List ColMeta) (file_handle : OpenHeap)
    (htab : StrMap.find sm.db_.tabs_ tab_name = some tab)
    (hnew : tab.is_index col_names = false)
    (hcols : SmManager.collect_cols tab.cols col_names = .ok idx_cols)
    (hfile : sm.disk_manager_.is_file (get_index_name tab_name idx_cols) = false)
    (hreg : StrMap.find sm.disk_manager_.path2fd_ (get_index_name tab_name idx_cols) = none)
    (hfd : Os.lowest_free sm.disk_manager_.os.fds 0 sm.disk_manager_.os.fds.length <
      sm.disk_manager_.os.max_fds)
    (hfh : StrMap.find sm.fhs_ tab_name = some file_handle)
    (hnp : 2 ≤ file_handle.fh.file_hdr.num_pages)
    (hfetch : ∀ p, 1 ≤ p → p < file_handle.fh.file_hdr.num_pages →
      ∃ pg, file_handle.fh.pool.pages p = some pg)
    (fuel : Nat)
    (hfuel : (file_handle.fh.rids_from 1 (file_handle.fh.file_hdr.num_pages - 1).toNat).length
      ≤ fuel) :
    ∃ sm1, sm.create_index tab_name col_names fuel = some (.ok (), sm1) ∧
      sm1.calls = sm.calls ++
        (file_handle.fh.rids_from 1 (file_handle.fh.file_hdr.num_pages - 1).toNat).map
          (fun rid => Call.insert_entry (get_index_name tab_name idx_cols)
            (fill_key (file_handle.fh.record_at rid) idx_cols 0
              (RmRecord.alloc (SmManager.index_meta tab_name idx_cols).col_tot_len)) rid) ∧
      sm1.db_ = (sm.db_.update_table tab_name
        (fun t => { t with indexes := t.indexes ++ [SmManager.index_meta tab_name idx_cols] }
          )).update_table tab_name
        (fun t => { t with cols := set_index_flags true t.cols col_names }) := by
  have htable : sm.db_.is_table tab_name = true := by
    unfold DbMeta.is_table
    rw [htab]
    rfl
  have hget : sm.db_.get_table tab_name = .ok tab := by
    unfold DbMeta.get_table
    rw [htab]
  have hc := ix_create_index_ok sm.disk_manager_ tab_name idx_cols hfile
  have ho := ix_open_index_ok
    (DiskFiles.mk sm.disk_manager_.path2fd_ sm.disk_manager_.fd2path_
      ((sm.disk_manager_.os.write_file (get_index_name tab_name idx_cols)
        FileData.plain).write_file (get_index_name tab_name idx_cols) (FileData.index [])))
    tab_name idx_cols []
    (by
      show Assoc.find (Assoc.set (Assoc.set _ _ _) _ _) _ = _
      rw [Assoc.find_set]
      exact if_pos rfl) hreg hfd
  obtain ⟨s1, e1, e2, e3, e4, e5⟩ := next_spec
    { file_handle := file_handle.fh, rid := { page_no := RM_FIRST_RECORD_PAGE, slot_no := -1 } }
    hfetch (le_refl _) (by simp only [RM_FIRST_RECORD_PAGE]; omega)
  have htodo : s1.todo =
      file_handle.fh.rids_from 1 (file_handle.fh.file_hdr.num_pages - 1).toNat := by
    rw [e5]
    have hk : (file_handle.fh.file_hdr.num_pages - 1).toNat =
        (file_handle.fh.file_hdr.num_pages - (1 + 1)).toNat + 1 := by omega
    rw [hk]
    rfl
  have hnew_scan : RmScan.new file_handle.fh = (.ok (), s1) := e1
  obtain ⟨scan1, ihs1, d1, d2, d3, d4⟩ := index_rows_spec (get_index_name tab_name idx_cols)
    idx_cols (SmManager.index_meta tab_name idx_cols).col_tot_len fuel s1
    (StrMap.set sm.ihs_ (get_index_name tab_name idx_cols)
      (IxIndexHandle.mk
        ((Os.lowest_free sm.disk_manager_.os.fds 0 sm.disk_manager_.os.fds.length : Nat) : Int)
        []))
    sm.calls (by rw [e2, e3]; exact hfetch) (by rw [e2]; exact e4)
    (by rw [htodo]; exact hfuel)
  have hres : sm.create_index tab_name col_names fuel =
      some (.ok (), ((sm.create_index tab_name col_names fuel).map (fun r => r.2)).getD sm) ∧
      (((sm.create_index tab_name col_names fuel).map (fun r => r.2)).getD sm).calls =
        sm.calls ++ s1.todo.map (fun rid =>
          Call.insert_entry (get_index_name tab_name idx_cols)
            (fill_key (s1.file_handle.record_at rid) idx_cols 0
              (RmRecord.alloc (SmManager.index_meta tab_name idx_cols).col_tot_len)) rid) ∧
      (((sm.create_index tab_name col_names fuel).map (fun r => r.2)).getD sm).db_ =
        (sm.db_.update_table tab_name
          (fun t => { t with indexes := t.indexes ++ [SmManager.index_meta tab_name idx_cols] }
            )).update_table tab_name
          (fun t => { t with cols := set_index_flags true t.cols col_names }) := by
    have ho' := ho
    simp only [Os.write_file] at ho'
    unfold SmManager.create_index
    simp only [htable, Bool.true_eq_false, if_false, hget, hnew, Bool.false_eq_true, hcols, hc,
      ho, Os.write_file, ho', hfh, hnew_scan, d1]
    exact ⟨rfl, rfl, rfl⟩
  refine ⟨_, hres.1, ?_, hres.2.2⟩
  rw [hres.2.1, htodo]
  congr 1
  apply List.map_congr_left
  intro rid _
  rw [record_at_congr file_handle.fh s1.file_handle e2 e3 rid]

theorem set_index_flag_find (v : Bool) (n m : String) :
    ∀ cols : List ColMeta,
      (set_index_flag v cols n).find? (fun col => decide (col.name = m)) =
        (cols.find? (fun col => decide (col.name = m))).map
          (fun c => if m = n then { c with index := v } else c) := by
  intro cols
  induction cols with
  | nil => rfl
  | cons c rest ih =>
    unfold set_index_flag
    by_cases h1 : c.name = n
    · simp only [h1, if_true]
      by_cases h2 : n = m
      · subst h2
        simp [List.find?_cons, h1]
      · have h3 : ¬ m = n := fun e => h2 e.symm
        have h4 : ¬ c.name = m := fun e => h2 (h1.symm.trans e)
        simp only [List.find?_cons, h1, h2, decide_False, h3, if_false, h4]
        cases rest.find? (fun col => decide (col.name = m)) <;> rfl
    · simp only [h1, if_false, List.find?_cons]
      by_cases h2 : c.name = m
      · have h3 : ¬ m = n := fun e => h1 (h2.trans e)
        simp [h2, h3]
      · simp only [h2, decide_False]
        exact ih

/-- The flag loops of `create_index` and `drop_index`, seen through the lookup of a column by
its name: a named column has the flag `v` afterwards, every other column is as before. -/
theorem set_index_flags_find (v : Bool) (m : String) :
    ∀ (col_names : List String) (cols : List ColMeta),
      (set_index_flags v cols col_names).find? (fun col => decide (col.name = m)) =
        (cols.find? (fun col => decide (col.name = m))).map
          (fun c => if m ∈ col_names then { c with index := v } else c) := by
  intro col_names
  induction col_names with
  | nil =>
    intro cols
    simp only [set_index_flags, List.foldl_nil, List.not_mem_nil, if_false]
    cases cols.find? (fun col => decide (col.name = m)) <;> rfl
  | cons n rest ih =>
    intro cols
    have hstep : set_index_flags v cols (n :: rest) =
        set_index_flags v (set_index_flag v cols n) rest := rfl
    rw [hstep, ih, set_index_flag_find]
    cases cols.find? (fun col => decide (col.name = m)) with
    | none => rfl
    | some c =>
      simp only [Option.map_some', Option.some.injEq, List.mem_cons]
      by_cases h1 : m = n
      · simp only [h1, true_or, if_true]
        split <;> rfl
      · simp only [h1, false_or, if_false]

theorem get_col_find (tab : TabMeta) (m : String) :
    tab.get_col m =
      match tab.cols.find? (fun col => decide (col.name = m)) with
      | some col => .ok col
      | none => .error .ColumnNotFoundError := rfl

/-- The keys of `create_index` are the keys of the records in the index it declares, when the
records contain the columns. -/
theorem create_index_key (tab_name : String) (idx_cols : List ColMeta) (rec : List Byte)
    (hrec : ∀ col ∈ idx_cols, col.offset + col.len ≤ rec.length) :
    fill_key rec idx_cols 0 (RmRecord.alloc (SmManager.index_meta tab_name idx_cols).col_tot_len)
      = (SmManager.index_meta tab_name idx_cols).key_of rec := by
  rw [fill_key_spec rec idx_cols 0 _ (by
    rw [index_meta_len, Nat.zero_add]
    simp [RmRecord.alloc]) hrec]
  simp [IndexMeta.key_of, SmManager.index_meta]

/-- `create_index` through a pool view that hands out every data page whenever it is asked:
`create_index(table, cols)` raises `TableNotFoundError` when the table is absent,
`IndexExistsError` when an index on exactly these columns is declared, and `ColumnNotFoundError`
when a name is no column of the table, each time leaving the whole state, with the catalog, as
it is. Otherwise, when the index file can be created and opened, the table has an open file
handle, the heap file has at least one data page and the records contain the columns, it returns
without error (given fuel for the rounds of the scan); the table then has the new index declared
after the old ones, with the first column of each name in the given order, `col_num` the number
of names and `col_tot_len` the sum of the column lengths; `insert_entry(key, rid)` has been
called exactly once for every occupied RID of the heap file and for no other, with the
concatenation of the record's bytes of the named columns as the key; and every named column has
the flag `index = true`, the other columns being as before. On the frames of the pool the
fetches of the scan can fail (`SmManager.create_index_on_pool`). -/
theorem create_index_when_fetches_succeed (sm : SmManager) (tab_name : String)
    (col_names : List String)
    (fuel : Nat) :
    (sm.db_.is_table tab_name = false →
      sm.create_index tab_name col_names fuel = some (.error .TableNotFoundError, sm)) ∧
    (∀ tab, StrMap.find sm.db_.tabs_ tab_name = some tab → tab.is_index col_names = true →
      sm.create_index tab_name col_names fuel = some (.error .IndexExistsError, sm)) ∧
    (∀ tab, StrMap.find sm.db_.tabs_ tab_name = some tab → tab.is_index col_names = false →
      (∃ n ∈ col_names, ∀ col ∈ tab.cols, col.name ≠ n) →
      sm.create_index tab_name col_names fuel = some (.error .ColumnNotFoundError, sm)) ∧
    (∀ tab file_handle, StrMap.find sm.db_.tabs_ tab_name = some tab →
      tab.is_index col_names = false →
      (∀ n ∈ col_names, ∃ col ∈ tab.cols, col.name = n) →
      ∃ idx_cols, SmManager.collect_cols tab.cols col_names = .ok idx_cols ∧
        idx_cols.map (fun col => col.name) = col_names ∧
        (∀ col ∈ idx_cols, col ∈ tab.cols) ∧
        (sm.disk_manager_.is_file (get_index_name tab_name idx_cols) = false →
          StrMap.find sm.disk_manager_.path2fd_ (get_index_name tab_name idx_cols) = none →
          Os.lowest_free sm.disk_manager_.os.fds 0 sm.disk_manager_.os.fds.length <
            sm.disk_manager_.os.max_fds →
          StrMap.find sm.fhs_ tab_name = some file_handle →
          2 ≤ file_handle.fh.file_hdr.num_pages →
          (∀ p, 1 ≤ p → p < file_handle.fh.file_hdr.num_pages →
            ∃ pg, file_handle.fh.pool.pages p = some pg) →
          (∀ rid, file_handle.fh.occupied rid → ∀ col ∈ idx_cols,
            col.offset + col.len ≤ (file_handle.fh.record_at rid).length) →
          ∃ rids : List Rid,
            (∀ r, r ∈ rids ↔ file_handle.fh.occupied r) ∧ rids.Nodup ∧
            (rids.length ≤ fuel →
              ∃ sm1 tab1 index,
                sm.create_index tab_name col_names fuel = some (.ok (), sm1) ∧
                sm1.calls = sm.calls ++ rids.map (fun rid =>
                  Call.insert_entry (get_index_name tab_name idx_cols)
                    (index.key_of (file_handle.fh.record_at rid)) rid) ∧
                StrMap.find sm1.db_.tabs_ tab_name = some tab1 ∧
                tab1.name = tab.name ∧
                tab1.indexes = tab.indexes ++ [index] ∧
                index.tab_name = tab_name ∧ index.cols = idx_cols ∧
                index.col_num = col_names.length ∧
                index.col_tot_len = (idx_cols.map (fun col => col.len)).sum ∧
                (∀ (rec : List Byte), index.key_of rec =
                  (idx_cols.map (fun col => col_bytes rec col.offset col.len)).flatten) ∧
                (∀ n ∈ col_names, ∃ col, tab1.get_col n = .ok col ∧ col.index = true) ∧
                (∀ m, m ∉ col_names → tab1.get_col m = tab.get_col m) ∧
                (∀ k, k ≠ tab_name →
                  StrMap.find sm1.db_.tabs_ k = StrMap.find sm.db_.tabs_ k)))) := by
  refine ⟨?_, ?_, ?_, ?_⟩
  · intro h
    unfold SmManager.create_index
    simp only [h, if_true]
  · intro tab htab hidx
    have htable : sm.db_.is_table tab_name = true := by
      unfold DbMeta.is_table
      rw [htab]
      rfl
    have hget : sm.db_.get_table tab_name = .ok tab := by
      unfold DbMeta.get_table
      rw [htab]
    unfold SmManager.create_index
    simp only [htable, Bool.true_eq_false, if_false, hget, hidx, if_true]
  · intro tab htab hidx hmiss
    have htable : sm.db_.is_table tab_name = true := by
      unfold DbMeta.is_table
      rw [htab]
      rfl
    have hget : sm.db_.get_table tab_name = .ok tab := by
      unfold DbMeta.get_table
      rw [htab]
    unfold SmManager.create_index
    simp only [htable, Bool.true_eq_false, if_false, hget, hidx, Bool.false_eq_true,
      (collect_cols_spec tab.cols col_names).2 hmiss]
  · intro tab file_handle htab hidx hall
    obtain ⟨idx_cols, c1, c2, c3, c4⟩ := (collect_cols_spec tab.cols col_names).1 hall
    refine ⟨idx_cols, c1, c2, c4, ?_⟩
    intro hfile hreg hfd hfh hnp hfetch hrec
    have hmem : ∀ r, r ∈ file_handle.fh.rids_from 1
        (file_handle.fh.file_hdr.num_pages - 1).toNat ↔ file_handle.fh.occupied r := by
      intro r
      rw [rids_from_mem]
      unfold RmFileHandle.occupied
      constructor
      · rintro ⟨a, b, c, d, e⟩
        exact ⟨a, by omega, c, d, e⟩
      · rintro ⟨a, b, c, d, e⟩
        exact ⟨a, by omega, c, d, e⟩
    refine ⟨file_handle.fh.rids_from 1 (file_handle.fh.file_hdr.num_pages - 1).toNat, hmem, ?_,
      ?_⟩
    · refine (rids_from_sorted file_handle.fh _ _).imp ?_
      intro a b hab heq
      subst heq
      rcases hab with h | ⟨_, h⟩ <;> omega
    · intro hfuel
      obtain ⟨sm1, r1, r2, r3⟩ := create_index_ok sm tab_name col_names tab idx_cols
        file_handle htab hidx c1 hfile hreg hfd hfh hnp hfetch fuel hfuel
      have hfind : ∀ k, StrMap.find sm1.db_.tabs_ k =
          (StrMap.find sm.db_.tabs_ k).map (fun t =>
            if k = tab_name then
              { t with
                indexes := t.indexes ++ [SmManager.index_meta tab_name idx_cols]
                cols := set_index_flags true t.cols col_names }
            else t) := by
        intro k
        rw [r3]
        unfold DbMeta.update_table
        simp only [StrMap.find_modify, Option.map_map]
        congr 1
        funext t
        by_cases hk : k = tab_name
        · simp [hk]
        · simp [hk]
      refine ⟨sm1,
        { tab with
          indexes := tab.indexes ++ [SmManager.index_meta tab_name idx_cols]
          cols := set_index_flags true tab.cols col_names },
        SmManager.index_meta tab_name idx_cols, r1, ?_, ?_, rfl, rfl, rfl, rfl, ?_,
        index_meta_len _ _, fun _ => rfl, ?_, ?_, ?_⟩
      · rw [r2]
        congr 1
        apply List.map_congr_left
        intro rid hrid
        rw [create_index_key tab_name idx_cols _ (hrec rid ((hmem rid).mp hrid))]
      · rw [hfind, htab]
        simp
      · show idx_cols.length = col_names.length
        exact c3
      · intro n hn
        obtain ⟨c, hc, hcn⟩ := hall n hn
        rw [get_col_find]
        simp only
        rw [set_index_flags_find]
        cases hf : tab.cols.find? (fun col => decide (col.name = n)) with
        | none =>
          have := List.find?_eq_none.mp hf c hc
          simp [hcn] at this
        | some col =>
          simp only [Option.map_some', hn, if_true]
          exact ⟨_, rfl, rfl⟩
      · intro m hm
        rw [get_col_find, get_col_find]
        simp only
        rw [set_index_flags_find]
        cases hf : tab.cols.find? (fun col => decide (col.name = m)) with
        | none => rfl
        | some col => simp only [Option.map_some', hm, if_false]
      · intro k hk
        rw [hfind]
        cases StrMap.find sm.db_.tabs_ k with
        | none => rfl
        | some t => simp [hk]

/-- Example of `create_index` through a pool view: in the open database with the table `t(a, b, c)` and the rows `(1, 2, 3)`
at `(1, 0)` and `(4, 5, 6)` at `(1, 1)`, `create_index("t", ["a"])` declares an index of key
length 4, calls `insert_entry(1, (1, 0))` and `insert_entry(4, (1, 1))` and sets the flag of `a`;
`create_index("u", ["a"])` raises `TableNotFoundError`, `create_index("t", ["z"])` raises
`ColumnNotFoundError`, and a second `create_index("t", ["a"])` raises `IndexExistsError`. -/
theorem create_index_when_fetches_succeed_example :
    (abc_system.create_index "t" ["a"] 2).map (fun r => (r.1, r.2.calls)) =
      some (.ok (),
        [Call.insert_entry "t_a" (int_bytes 1) { page_no := 1, slot_no := 0 },
          Call.insert_entry "t_a" (int_bytes 4) { page_no := 1, slot_no := 1 }]) ∧
    (abc_system.create_index "t" ["a"] 2).map (fun r =>
      (StrMap.find r.2.db_.tabs_ "t").map (fun tab =>
        (tab.cols.map (fun col => (col.name, col.index)),
          tab.indexes.map (fun index =>
            (index.col_tot_len, index.col_num, index.cols.map (fun col => col.name)))))) =
      some (some ([("a", true), ("b", false), ("c", false)], [(4, 1, ["a"])])) ∧
    (abc_system.create_index "u" ["a"] 2).map (fun r => r.1) =
      some (.error .TableNotFoundError) ∧
    (abc_system.create_index "t" ["z"] 2).map (fun r => r.1) =
      some (.error .ColumnNotFoundError) ∧
    ((abc_system.create_index "t" ["a"] 2).bind (fun r => r.2.create_index "t" ["a"] 2)).map
      (fun r => r.1) = some (.error .IndexExistsError) ∧
    ((abc_system.db_.is_table "t" = false →
      abc_system.create_index "t" ["a"] 2 = some (.error .TableNotFoundError, abc_system)) ∧
    (∀ tab, StrMap.find abc_system.db_.tabs_ "t" = some tab → tab.is_index ["a"] = true →
      abc_system.create_index "t" ["a"] 2 = some (.error .IndexExistsError, abc_system)) ∧
    (∀ tab, StrMap.find abc_system.db_.tabs_ "t" = some tab → tab.is_index ["a"] = false →
      (∃ n ∈ ["a"], ∀ col ∈ tab.cols, col.name ≠ n) →
      abc_system.create_index "t" ["a"] 2 = some (.error .ColumnNotFoundError, abc_system)) ∧
    (∀ tab file_handle, StrMap.find abc_system.db_.tabs_ "t" = some tab →
      tab.is_index ["a"] = false →
      (∀ n ∈ ["a"], ∃ col ∈ tab.cols, col.name = n) →
      ∃ idx_cols, SmManager.collect_cols tab.cols ["a"] = .ok idx_cols ∧
        idx_cols.map (fun col => col.name) = ["a"] ∧
        (∀ col ∈ idx_cols, col ∈ tab.cols) ∧
        (abc_system.disk_manager_.is_file (get_index_name "t" idx_cols) = false →
          StrMap.find abc_system.disk_manager_.path2fd_ (get_index_name "t" idx_cols) = none →
          Os.lowest_free abc_system.disk_manager_.os.fds 0
              abc_system.disk_manager_.os.fds.length <
            abc_system.disk_manager_.os.max_fds →
          StrMap.find abc_system.fhs_ "t" = some file_handle →
          2 ≤ file_handle.fh.file_hdr.num_pages →
          (∀ p, 1 ≤ p → p < file_handle.fh.file_hdr.num_pages →
            ∃ pg, file_handle.fh.pool.pages p = some pg) →
          (∀ rid, file_handle.fh.occupied rid → ∀ col ∈ idx_cols,
            col.offset + col.len ≤ (file_handle.fh.record_at rid).length) →
          ∃ rids : List Rid,
            (∀ r, r ∈ rids ↔ file_handle.fh.occupied r) ∧ rids.Nodup ∧
            (rids.length ≤ 2 →
              ∃ sm1 tab1 index,
                abc_system.create_index "t" ["a"] 2 = some (.ok (), sm1) ∧
                sm1.calls = abc_system.calls ++ rids.map (fun rid =>
                  Call.insert_entry (get_index_name "t" idx_cols)
                    (index.key_of (file_handle.fh.record_at rid)) rid) ∧
                StrMap.find sm1.db_.tabs_ "t" = some tab1 ∧
                tab1.name = tab.name ∧
                tab1.indexes = tab.indexes ++ [index] ∧
                index.tab_name = "t" ∧ index.cols = idx_cols ∧
                index.col_num = ["a"].length ∧
                index.col_tot_len = (idx_cols.map (fun col => col.len)).sum ∧
                (∀ (rec : List Byte), index.key_of rec =
                  (idx_cols.map (fun col => col_bytes rec col.offset col.len)).flatten) ∧
                (∀ n ∈ ["a"], ∃ col, tab1.get_col n = .ok col ∧ col.index = true) ∧
                (∀ m, m ∉ ["a"] → tab1.get_col m = tab.get_col m) ∧
                (∀ k, k ≠ "t" →
                  StrMap.find sm1.db_.tabs_ k = StrMap.find abc_system.db_.tabs_ k))))) :=
  ⟨rfl, rfl, rfl, rfl, rfl, create_index_when_fetches_succeed abc_system "t" ["a"] 2⟩

/-! ## The flag `index` of the columns and the declared indexes -/

/-- C39 (indexed flag and declared indexes), failing input: on table `t(a, b, c)`,
`create_index("t", ["a"])`, `create_index("t", ["b"])` and `drop_index("t", ["a"])` all return
without error. Before the drop the columns `a` and `b` carry the flag and the indexes on `a` and
on `b` are declared. The drop erases the index on `a` and then clears the flags of the columns
it reads through its reference into `tab.indexes`, which after the erase are those of the index
on `b`: afterwards the only declared index is the one on `b`, column `a` still carries the flag
and column `b` does not. -/
theorem drop_index_clears_flag_of_next_index :
    (abc_system.create_index "t" ["a"] 2).map (fun r => r.1) = some (.ok ()) ∧
    (index_a_system.create_index "t" ["b"] 2).map (fun r => r.1) = some (.ok ()) ∧
    index_a_b_system.flags_and_indexes "t" =
      some ([("a", true), ("b", true), ("c", false)], [["a"], ["b"]]) ∧
    (index_a_b_system.drop_index "t" ["a"]).map (fun r => r.1) = some (.ok ()) ∧
    (index_a_b_system.drop_index "t" ["a"]).map (fun r => r.2.flags_and_indexes "t") =
      some (some ([("a", true), ("b", false), ("c", false)], [["b"]])) ∧
    (index_a_b_system.drop_index "t" ["b"]).isNone = true ∧
    (index_a_system.drop_index "t" ["a"]).isNone = true :=
  ⟨rfl, rfl, rfl, rfl, rfl, rfl, rfl⟩

/-! ## The scan when the pool runs out of frames -/

/-- C23 (SeqScan filter correctness), failing input: a heap file with two data pages, the rows
1 at `(1, 0)` and 4 at `(2, 0)`, on a buffer pool of one free frame, scanned without
conditions. `beginTuple` returns at `(1, 0)` and leaves page 1 pinned in the only frame: the
scan has fetched it and does not unpin. `Next` returns the row 1. `nextTuple` then throws
`PageNotExistError`, because the fetch of page 2 finds no frame. The driver emits `(1, 0)` and
ends in the exception; `(2, 0)`, occupied and satisfying the empty list of conditions, is not
emitted. -/
theorem seq_scan_throws_when_frames_run_out :
    two_row_heap.occupied_on_disk =
      [{ page_no := 1, slot_no := 0 }, { page_no := 2, slot_no := 0 }] ∧
    (two_row_scan.beginTuple le_compare 1).map (fun r => (r.1, r.2.rid_, r.2.is_end)) =
      some (.ok (), { page_no := 1, slot_no := 0 }, .ok false) ∧
    (two_row_scan.beginTuple le_compare 1).map (fun r =>
      (r.2.fh_.buffer_pool_manager_.pin_count_of { fd := 3, page_no := 1 },
        r.2.fh_.buffer_pool_manager_.free_list,
        r.2.fh_.buffer_pool_manager_.replacer.lru_list)) = some (1, [], []) ∧
    (two_row_scan.beginTuple le_compare 1).map (fun r =>
      (r.2.fh_.get_record r.2.rid_).1) = some (.ok (int_bytes 1)) ∧
    ((two_row_scan.beginTuple le_compare 1).bind (fun r =>
      r.2.nextTuple le_compare 1)).map (fun r => r.1) = some (.error .PageNotExistError) ∧
    (two_row_scan.drive le_compare 1 2).map (fun r => (r.1, r.2.1)) =
      some (.error .PageNotExistError, [{ page_no := 1, slot_no := 0 }]) :=
  ⟨rfl, rfl, rfl, rfl, rfl, rfl⟩

/-- C29 (contract of `create_index`), failing input: the table `t(a)` whose heap file has two
data pages, the rows 1 at `(1, 0)` and 4 at `(2, 0)`, on a buffer pool of one free frame, and
`create_index("t", ["a"])`. The table exists, has no index and has the column, and the index
file is created and opened. The scan then calls `insert_entry` for `(1, 0)` and throws
`PageNotExistError`, because its fetch of page 2 finds no frame while page 1, which it fetched
and did not unpin, holds the only one. `insert_entry` is not called for the occupied RID
`(2, 0)`; the catalog is left with the index declared and the flag of column `a` clear. -/
theorem create_index_throws_when_frames_run_out :
    two_row_heap.occupied_on_disk =
      [{ page_no := 1, slot_no := 0 }, { page_no := 2, slot_no := 0 }] ∧
    one_column_system.flags_and_indexes "t" = some ([("a", false)], []) ∧
    (one_column_system.create_index_on_pool "t" ["a"] 2 two_row_heap).map
      (fun r => (r.1, r.2.1.calls)) =
      some (.error .PageNotExistError,
        [Call.insert_entry "t_a" (int_bytes 1) { page_no := 1, slot_no := 0 }]) ∧
    (one_column_system.create_index_on_pool "t" ["a"] 2 two_row_heap).map
      (fun r => r.2.1.flags_and_indexes "t") = some (some ([("a", false)], [["a"]])) ∧
    (one_column_system.create_index_on_pool "t" ["a"] 2 two_row_heap).map
      (fun r => (r.2.2.buffer_pool_manager_.pin_count_of { fd := 3, page_no := 1 },
        r.2.2.buffer_pool_manager_.page_table.find { fd := 3, page_no := 2 },
        r.2.2.buffer_pool_manager_.free_list,
        r.2.2.buffer_pool_manager_.replacer.lru_list)) =
      some (2, none, [], []) :=
  ⟨rfl, rfl, rfl, rfl, rfl⟩

end Rucbase
